import Mathlib

/-!
# SimpleCPU16: assembler and emulator

A shallow embedding of `src/emulator/cpu.c` and `src/assembler/assembler.c`.

Conventions of the embedding.

* A `uint16_t` is a `Nat`; every assignment that converts a wider C value to
  `uint16_t` is written `u16 x` (`x % 65536`).  A `uint32_t` expression is
  reduced with `u32`.  `CPU.WF` records the ranges the C types guarantee.
* `registers` and `memory` are functions from the index to the stored word.
* The host's standard input and the bytes written to standard output by the
  memory-mapped devices are the fields `input` and `output` of the state.
  Trace output (`trace = true`) and diagnostics are not part of the model:
  every function is embedded with `trace = false`.
* `cpu_write_memory` returns `none` when the `MMIO_STR_OUT` loop never
  reaches a zero byte, which is the one place where the emulator can fail to
  return.
* The assembler reads and writes C strings in fixed buffers.  A token's `value`
  is the whole 128-byte buffer, so that the bytes left behind a terminator are
  visible; the local array `tokens` of `asm_assemble_line` is not initialised in
  the source, and its content on entry is the argument `stack`.  A write
  outside a buffer or outside the output allocation is `none`.
-/

namespace SimpleCPU16

/-! ## cpu.h -/

def MEM_SIZE : Nat := 65536
def NUM_REGISTERS : Nat := 8
def STACK_START : Nat := 0xE000
def MMIO_START : Nat := 0xF800
def REG_SP : Nat := 7

def OP_NOP : Nat := 0x0
def OP_LOAD : Nat := 0x1
def OP_STORE : Nat := 0x2
def OP_MOVE : Nat := 0x3
def OP_ARITH : Nat := 0x4
def OP_LOGIC : Nat := 0x5
def OP_SHIFT : Nat := 0x6
def OP_BRANCH : Nat := 0x7
def OP_JUMP : Nat := 0x8
def OP_STACK : Nat := 0x9
def OP_CALL : Nat := 0xA
def OP_RET : Nat := 0xB
def OP_CMP : Nat := 0xC
def OP_HALT : Nat := 0xF

def ARITH_ADD : Nat := 0x00
def ARITH_SUB : Nat := 0x01
def ARITH_MUL : Nat := 0x02
def ARITH_DIV : Nat := 0x03
def ARITH_INC : Nat := 0x04
def ARITH_DEC : Nat := 0x05
def ARITH_ADDI : Nat := 0x06
def ARITH_SUBI : Nat := 0x07

def LOGIC_AND : Nat := 0x00
def LOGIC_OR : Nat := 0x01
def LOGIC_XOR : Nat := 0x02
def LOGIC_NOT : Nat := 0x03

def SHIFT_LEFT : Nat := 0x00
def SHIFT_RIGHT : Nat := 0x01
def SHIFT_ARITH : Nat := 0x02

def LOAD_IMM : Nat := 0x00
def LOAD_DIR : Nat := 0x01
def LOAD_IND : Nat := 0x02

def STORE_DIR : Nat := 0x00
def STORE_IND : Nat := 0x01

def BRANCH_EQ : Nat := 0x00
def BRANCH_NE : Nat := 0x01
def BRANCH_GT : Nat := 0x02
def BRANCH_LT : Nat := 0x03
def BRANCH_GE : Nat := 0x04
def BRANCH_LE : Nat := 0x05
def BRANCH_CS : Nat := 0x06
def BRANCH_CC : Nat := 0x07

def STACK_PUSH : Nat := 0x00
def STACK_POP : Nat := 0x01

def MMIO_CHAR_OUT : Nat := 0xF800
def MMIO_INT_OUT : Nat := 0xF801
def MMIO_STR_OUT : Nat := 0xF802
def MMIO_TIMER : Nat := 0xF810
def MMIO_CHAR_IN : Nat := 0xF820

/-- Conversion to `uint16_t`. -/
def u16 (x : Nat) : Nat := x % 65536

/-- Conversion to `uint32_t`. -/
def u32 (x : Nat) : Nat := x % 4294967296

/-- The struct `Flags`. -/
structure Flags where
  Z : Bool
  N : Bool
  C : Bool
  V : Bool
  deriving DecidableEq, Repr

/-- The struct `CPU`, with the host's input and output streams. -/
structure CPU where
  registers : Nat → Nat
  pc : Nat
  ir : Nat
  flags : Flags
  memory : Nat → Nat
  halted : Bool
  cycle_count : Nat
  input : List Nat
  output : List Nat

/-- The assignment `a[i] = v` on an array held as a function. -/
def setAt (a : Nat → Nat) (i v : Nat) : Nat → Nat :=
  fun j => if j = i then v else a j

/-- The ranges that the C types of the fields of `CPU` guarantee. -/
structure CPU.WF (cpu : CPU) : Prop where
  regs : ∀ i, cpu.registers i < 65536
  pc : cpu.pc < 65536
  ir : cpu.ir < 65536
  mem : ∀ a, cpu.memory a < 65536
  cycles : cpu.cycle_count < 2 ^ 64

/-! ## cpu.c -/

/-- The function `cpu_init`: `memset` to zero, then the stack pointer. -/
def cpu_init : CPU :=
  { registers := setAt (fun _ => 0) REG_SP STACK_START
    pc := 0
    ir := 0
    flags := ⟨false, false, false, false⟩
    memory := fun _ => 0
    halted := false
    cycle_count := 0
    input := []
    output := [] }

/-- The function `cpu_reset`. -/
def cpu_reset (cpu : CPU) : CPU :=
  { cpu with
    registers := setAt (fun i => if i < NUM_REGISTERS - 1 then 0 else cpu.registers i)
      REG_SP STACK_START
    pc := 0
    ir := 0
    flags := ⟨false, false, false, false⟩
    halted := false
    cycle_count := 0 }

/-- The `memcpy` of `cpu_load_program`: word `i` of the program goes to
`start_addr + i`. -/
def copy_words (mem : Nat → Nat) (program : List Nat) (start_addr : Nat) : Nat → Nat :=
  fun a =>
    if start_addr ≤ a ∧ a < start_addr + program.length then program.getD (a - start_addr) 0
    else mem a

/-- The function `cpu_load_program` called on a program of `program.length`
words: the parameter `size` is that number converted to `uint16_t`, and `memcpy`
copies the first `size` words. -/
def cpu_load_program (cpu : CPU) (program : List Nat) (start_addr : Nat) : CPU :=
  if start_addr + u16 program.length > MEM_SIZE then cpu
  else
    { cpu with
      memory := copy_words cpu.memory (program.take (u16 program.length)) start_addr
      pc := start_addr }

/-- The call `getchar()` converted to `uint16_t`: the next byte of the input,
or `EOF` (`-1`, that is `0xFFFF`) when the input is exhausted. -/
def host_getchar (cpu : CPU) : Nat × CPU :=
  match cpu.input with
  | [] => (0xFFFF, cpu)
  | c :: rest => (c % 256, { cpu with input := rest })

/-- The function `cpu_read_memory`. -/
def cpu_read_memory (cpu : CPU) (address : Nat) : Nat × CPU :=
  if address ≥ MMIO_START then
    if address = MMIO_TIMER then (cpu.cycle_count &&& 0xFFFF, cpu)
    else if address = MMIO_CHAR_IN then host_getchar cpu
    else (0, cpu)
  else (cpu.memory address, cpu)

/-- The decimal numeral printed by `printf("%d", n)` for `n ≥ 0`, as bytes. -/
def decimal (n : Nat) : List Nat :=
  (Nat.toDigits 10 n).map Char.toNat

/-- The loop of the `MMIO_STR_OUT` case: `none` when `fuel` iterations did not
reach a zero byte. -/
def str_out_loop : Nat → (Nat → Nat) → Nat → List Nat → Option (List Nat)
  | 0, _, _, _ => none
  | fuel + 1, mem, str_addr, out =>
    let word := mem str_addr
    if word &&& 0xFF = 0 then some out
    else if word >>> 8 = 0 then some (out ++ [word &&& 0xFF])
    else str_out_loop fuel mem (u16 (str_addr + 1)) (out ++ [word &&& 0xFF, word >>> 8])

/-- The function `cpu_write_memory`.  After 65536 iterations the string loop
has visited every word, so running out of fuel means that it never stops. -/
def cpu_write_memory (cpu : CPU) (address value : Nat) : Option CPU :=
  if address ≥ MMIO_START then
    if address = MMIO_CHAR_OUT then some { cpu with output := cpu.output ++ [value &&& 0xFF] }
    else if address = MMIO_INT_OUT then
      some { cpu with output := cpu.output ++ decimal value ++ [10] }
    else if address = MMIO_STR_OUT then
      (str_out_loop 65536 cpu.memory value cpu.output).map fun out => { cpu with output := out }
    else some cpu
  else some { cpu with memory := setAt cpu.memory address value }

/-- The function `cpu_update_flags`. -/
def cpu_update_flags (cpu : CPU) (result : Nat) (update_carry : Bool) (full_result : Nat) : CPU :=
  { cpu with
    flags :=
      { Z := decide (result = 0)
        N := decide (result &&& 0x8000 ≠ 0)
        C := if update_carry then decide (full_result > 0xFFFF) else cpu.flags.C
        V := cpu.flags.V } }

/-- The function `cpu_fetch`. -/
def cpu_fetch (cpu : CPU) : Nat × CPU :=
  let r := cpu_read_memory cpu cpu.pc
  (r.1, { r.2 with ir := r.1, pc := u16 (r.2.pc + 1) })

/-- The assignment `cpu->registers[rd] = v`. -/
def set_reg (cpu : CPU) (rd v : Nat) : CPU :=
  { cpu with registers := setAt cpu.registers rd v }

/-- The value of an `int16_t` read from a 16-bit word. -/
def to_int16 (x : Nat) : Int :=
  if x % 65536 ≥ 32768 then (x % 65536 : Int) - 65536 else (x % 65536 : Int)

/-- Conversion of an `int` to `uint16_t`. -/
def int_to_u16 (x : Int) : Nat := (x % 65536).toNat

/-- The field extraction at the head of `cpu_decode_execute`. -/
def dec_opcode (instruction : Nat) : Nat := (instruction >>> 12) &&& 0xF

/-- The destination register field, bits 11-9. -/
def dec_rd (instruction : Nat) : Nat := (instruction >>> 9) &&& 0x7

/-- The source register field, bits 8-6. -/
def dec_rs (instruction : Nat) : Nat := (instruction >>> 6) &&& 0x7

/-- The mode field, bits 5-0. -/
def dec_mode (instruction : Nat) : Nat := instruction &&& 0x3F

/-- The `OP_LOAD` case of `cpu_decode_execute`. -/
def exec_load (cpu : CPU) (rd rs mode : Nat) : CPU :=
  if mode = LOAD_IMM then
    let f := cpu_fetch cpu
    set_reg f.2 rd f.1
  else if mode = LOAD_DIR then
    let f := cpu_fetch cpu
    let r := cpu_read_memory f.2 f.1
    set_reg r.2 rd r.1
  else if mode = LOAD_IND then
    let r := cpu_read_memory cpu (cpu.registers rs)
    set_reg r.2 rd r.1
  else cpu

/-- The `OP_STORE` case of `cpu_decode_execute`. -/
def exec_store (cpu : CPU) (rd rs mode : Nat) : Option CPU :=
  if mode = STORE_DIR then
    let f := cpu_fetch cpu
    cpu_write_memory f.2 f.1 (f.2.registers rs)
  else if mode = STORE_IND then cpu_write_memory cpu (cpu.registers rd) (cpu.registers rs)
  else some cpu

/-- The cases `ADD`, `SUB`, `MUL`, `ADDI` and `SUBI` share this tail: store the
low word and update `Z`, `N` and `C` from the 32-bit result. -/
def arith_commit (cpu : CPU) (rd full_result : Nat) : CPU :=
  cpu_update_flags (set_reg cpu rd (u16 full_result)) (u16 full_result) true full_result

/-- The tail of the cases that leave the carry alone: store the result and
update `Z` and `N`. -/
def logic_commit (cpu : CPU) (rd result : Nat) : CPU :=
  cpu_update_flags (set_reg cpu rd result) result false 0

/-- The `OP_ARITH` case of `cpu_decode_execute`. -/
def exec_arith (cpu : CPU) (rd rs mode : Nat) : CPU :=
  if mode = ARITH_ADD then arith_commit cpu rd (u32 (cpu.registers rd + cpu.registers rs))
  else if mode = ARITH_SUB then
    arith_commit cpu rd (u32 (cpu.registers rd + 4294967296 - cpu.registers rs))
  else if mode = ARITH_MUL then arith_commit cpu rd (u32 (cpu.registers rd * cpu.registers rs))
  else if mode = ARITH_DIV then
    if cpu.registers rs ≠ 0 then logic_commit cpu rd (u16 (cpu.registers rd / cpu.registers rs))
    else cpu
  else if mode = ARITH_INC then logic_commit cpu rd (u16 (cpu.registers rd + 1))
  else if mode = ARITH_DEC then logic_commit cpu rd (u16 (cpu.registers rd + 65535))
  else if mode = ARITH_ADDI then
    let f := cpu_fetch cpu
    arith_commit f.2 rd (u32 (f.2.registers rd + f.1))
  else if mode = ARITH_SUBI then
    let f := cpu_fetch cpu
    arith_commit f.2 rd (u32 (f.2.registers rd + 4294967296 - f.1))
  else cpu

/-- The `OP_LOGIC` case of `cpu_decode_execute`; `~x` is taken on the promoted
`int` and converted back to `uint16_t`. -/
def exec_logic (cpu : CPU) (rd rs mode : Nat) : CPU :=
  if mode = LOGIC_AND then logic_commit cpu rd (cpu.registers rd &&& cpu.registers rs)
  else if mode = LOGIC_OR then logic_commit cpu rd (cpu.registers rd ||| cpu.registers rs)
  else if mode = LOGIC_XOR then logic_commit cpu rd (cpu.registers rd ^^^ cpu.registers rs)
  else if mode = LOGIC_NOT then logic_commit cpu rd (u16 (cpu.registers rd ^^^ 0xFFFFFFFF))
  else cpu

/-- The `OP_SHIFT` case of `cpu_decode_execute`. -/
def exec_shift (cpu : CPU) (rd rs mode : Nat) : CPU :=
  if mode = SHIFT_LEFT then
    logic_commit cpu rd (u16 (cpu.registers rd <<< (cpu.registers rs &&& 0xF)))
  else if mode = SHIFT_RIGHT then
    logic_commit cpu rd (u16 (cpu.registers rd >>> (cpu.registers rs &&& 0xF)))
  else if mode = SHIFT_ARITH then
    logic_commit cpu rd
      (int_to_u16 (to_int16 (cpu.registers rd) >>> (cpu.registers rs &&& 0xF)))
  else cpu

/-- The inner `switch` of the `OP_BRANCH` case: the value of `should_branch`. -/
def should_branch (fl : Flags) (mode : Nat) : Bool :=
  if mode = BRANCH_EQ then fl.Z
  else if mode = BRANCH_NE then !fl.Z
  else if mode = BRANCH_GT then !fl.N && !fl.Z
  else if mode = BRANCH_LT then fl.N
  else if mode = BRANCH_GE then !fl.N
  else if mode = BRANCH_LE then fl.N || fl.Z
  else if mode = BRANCH_CS then fl.C
  else if mode = BRANCH_CC then !fl.C
  else false

/-- The `OP_BRANCH` case of `cpu_decode_execute`. -/
def exec_branch (cpu : CPU) (mode : Nat) : CPU :=
  let f := cpu_fetch cpu
  if should_branch f.2.flags mode then { f.2 with pc := f.1 } else f.2

/-- The `OP_JUMP` case of `cpu_decode_execute`. -/
def exec_jump (cpu : CPU) : CPU :=
  let f := cpu_fetch cpu
  { f.2 with pc := f.1 }

/-- The `OP_STACK` case of `cpu_decode_execute`. -/
def exec_stack (cpu : CPU) (rd rs mode : Nat) : Option CPU :=
  if mode = STACK_PUSH then
    let c := set_reg cpu REG_SP (u16 (cpu.registers REG_SP + 65535))
    cpu_write_memory c (c.registers REG_SP) (c.registers rs)
  else if mode = STACK_POP then
    let r := cpu_read_memory cpu (cpu.registers REG_SP)
    let c := set_reg r.2 rd r.1
    some (set_reg c REG_SP (u16 (c.registers REG_SP + 1)))
  else some cpu

/-- The `OP_CALL` case of `cpu_decode_execute`. -/
def exec_call (cpu : CPU) : Option CPU :=
  let f := cpu_fetch cpu
  let c := set_reg f.2 REG_SP (u16 (f.2.registers REG_SP + 65535))
  (cpu_write_memory c (c.registers REG_SP) c.pc).map fun c1 => { c1 with pc := f.1 }

/-- The `OP_RET` case of `cpu_decode_execute`. -/
def exec_ret (cpu : CPU) : CPU :=
  let r := cpu_read_memory cpu (cpu.registers REG_SP)
  let c := { r.2 with pc := r.1 }
  set_reg c REG_SP (u16 (c.registers REG_SP + 1))

/-- The `OP_CMP` case of `cpu_decode_execute`. -/
def exec_cmp (cpu : CPU) (rd rs : Nat) : CPU :=
  let full_result := u32 (cpu.registers rd + 4294967296 - cpu.registers rs)
  cpu_update_flags cpu (u16 full_result) true full_result

/-- The function `cpu_decode_execute`: the outer `switch` on the opcode.  The
last two branches are `case OP_HALT` and `default`. -/
def cpu_decode_execute (cpu : CPU) (instruction : Nat) : Option CPU :=
  let opcode := dec_opcode instruction
  let rd := dec_rd instruction
  let rs := dec_rs instruction
  let mode := dec_mode instruction
  if opcode = OP_NOP then some cpu
  else if opcode = OP_LOAD then some (exec_load cpu rd rs mode)
  else if opcode = OP_STORE then exec_store cpu rd rs mode
  else if opcode = OP_MOVE then some (set_reg cpu rd (cpu.registers rs))
  else if opcode = OP_ARITH then some (exec_arith cpu rd rs mode)
  else if opcode = OP_LOGIC then some (exec_logic cpu rd rs mode)
  else if opcode = OP_SHIFT then some (exec_shift cpu rd rs mode)
  else if opcode = OP_BRANCH then some (exec_branch cpu mode)
  else if opcode = OP_JUMP then some (exec_jump cpu)
  else if opcode = OP_STACK then exec_stack cpu rd rs mode
  else if opcode = OP_CALL then exec_call cpu
  else if opcode = OP_RET then some (exec_ret cpu)
  else if opcode = OP_CMP then some (exec_cmp cpu rd rs)
  else if opcode = OP_HALT then some { cpu with halted := true }
  else some { cpu with halted := true }

/-- The function `cpu_step`; the cycle counter is a `uint64_t`. -/
def cpu_step (cpu : CPU) : Option CPU :=
  if cpu.halted then some cpu
  else
    let f := cpu_fetch cpu
    (cpu_decode_execute f.2 f.1).map fun c =>
      { c with cycle_count := (c.cycle_count + 1) % 2 ^ 64 }

/-- The loop `while (!cpu->halted && cpu->cycle_count < 1000000) cpu_step(cpu)` of
`cpu_run`.  `none` is a call of `cpu_step` that does not return; the fuel is
used up in no other case when it is at least 1000001. -/
def run_loop : Nat → CPU → Option CPU
  | 0, _ => none
  | fuel + 1, cpu =>
    if cpu.halted = false ∧ cpu.cycle_count < 1000000 then (cpu_step cpu).bind (run_loop fuel)
    else some cpu

/-- The function `cpu_run`: the state in which its loop ends. -/
def cpu_run (cpu : CPU) : Option CPU := run_loop 1000001 cpu

/-! ## The C library functions used by the assembler

Characters are bytes, `0 ≤ c < 256`.  A C string held in a buffer is the run of
bytes before the first zero byte; a buffer without a zero byte is read up to its
end, and a read of `buf[i]` beyond the end of the buffer gives 0. -/

/-- The bytes of a string literal. -/
def bytes (s : String) : List Nat := s.toList.map Char.toNat

/-- The C string stored at the start of a buffer. -/
def cstr (buf : List Nat) : List Nat := buf.takeWhile (fun c => c ≠ 0)

/-- The character classifier `isspace` of the C locale. -/
def isspace (c : Nat) : Bool := c = 32 || (9 ≤ c && c ≤ 13)

/-- The character classifier `isdigit`. -/
def isdigit (c : Nat) : Bool := 48 ≤ c && c ≤ 57

/-- The function `tolower` of the C locale. -/
def tolower (c : Nat) : Nat := if 65 ≤ c ∧ c ≤ 90 then c + 32 else c

/-- The test `strcasecmp(a, b) == 0`. -/
def strcasecmp_eq (a b : List Nat) : Bool := (cstr a).map tolower == (cstr b).map tolower

/-- The test `strcmp(a, b) == 0`. -/
def strcmp_eq (a b : List Nat) : Bool := cstr a == cstr b

/-- The value of a digit character in bases up to 36. -/
def digit_value (c : Nat) : Option Nat :=
  if 48 ≤ c ∧ c ≤ 57 then some (c - 48)
  else if 97 ≤ c ∧ c ≤ 122 then some (c - 87)
  else if 65 ≤ c ∧ c ≤ 90 then some (c - 55)
  else none

/-- The digits loop of `strtol`: the value of the longest run of digits of the base. -/
def parse_digits (base : Nat) : List Nat → Nat → Nat
  | [], acc => acc
  | c :: rest, acc =>
    match digit_value c with
    | some d => if d < base then parse_digits base rest (acc * base + d) else acc
    | none => acc

/-- Whether `c` is a digit of the base. -/
def is_digit_of (base c : Nat) : Bool :=
  match digit_value c with
  | some d => decide (d < base)
  | none => false

/-- The function `strtol(s, NULL, base)` for base 10 and 16 with a 64-bit `long`:
leading white space, an optional sign, for base 16 an optional `0x`, the digits,
and the result clamped to the range of `long`. -/
def strtol (s : List Nat) (base : Nat) : Int :=
  let s1 := (cstr s).dropWhile isspace
  let neg := decide (s1.head? = some 45)
  let s2 := if s1.head? = some 45 ∨ s1.head? = some 43 then s1.drop 1 else s1
  let s3 :=
    if base = 16 ∧ s2.head? = some 48 ∧ (s2.getD 1 0 = 120 ∨ s2.getD 1 0 = 88) ∧
        is_digit_of 16 (s2.getD 2 0) then s2.drop 2
    else s2
  let v : Int := parse_digits base s3 0
  if neg then max (-v) (-9223372036854775808) else min v 9223372036854775807

/-- Conversion to `int` (32 bits, two's complement). -/
def to_int (x : Int) : Int := (x + 2147483648) % 4294967296 - 2147483648

/-- The function `atoi`, that is `(int) strtol(s, NULL, 10)`. -/
def atoi (s : List Nat) : Int := to_int (strtol s 10)

/-- Conversion of a `char` (signed, as on the reference platform) to `int`. -/
def char_to_int (c : Nat) : Int := if c ≥ 128 then (c : Int) - 256 else (c : Int)

/-! ## assembler.h -/

def MAX_LABELS : Nat := 256
def MAX_LINE_LENGTH : Nat := 256
def MAX_TOKENS : Nat := 10

/-- The struct `Label`; `name` is the C string held in `char name[64]`. -/
structure Label where
  name : List Nat
  address : Nat
  deriving DecidableEq, Repr

/-- The struct `Assembler`.  `labels` holds the first `label_count` entries of
the table and `output` the words of the output buffer by index. -/
structure Assembler where
  labels : List Label
  current_address : Nat
  output : Nat → Nat
  output_size : Nat
  output_capacity : Nat

/-- The enum `TokenType`. -/
inductive TokenType where
  | TOKEN_LABEL
  | TOKEN_INSTRUCTION
  | TOKEN_REGISTER
  | TOKEN_IMMEDIATE
  | TOKEN_ADDRESS
  | TOKEN_DIRECTIVE
  | TOKEN_STRING
  | TOKEN_COMMA
  | TOKEN_LBRACKET
  | TOKEN_RBRACKET
  | TOKEN_UNKNOWN
  deriving DecidableEq, Repr

open TokenType

/-- The struct `Token`; `value` is the whole buffer `char value[128]`, the
bytes after the terminator included. -/
structure Token where
  type : TokenType
  value : List Nat
  num_value : Int
  deriving DecidableEq, Repr

/-- A token whose buffer is all zero. -/
def zero_token : Token := ⟨TOKEN_LABEL, List.replicate 128 0, 0⟩

/-- An array `Token tokens[MAX_TOKENS]` of zero bytes. -/
def zero_tokens : List Token := List.replicate MAX_TOKENS zero_token

/-- The element `tokens[i]`. -/
def token_at (tokens : List Token) (i : Nat) : Token := tokens.getD i zero_token

/-! ## assembler.c -/

/-- The function `asm_init`; `heap` is the content of the fresh allocation. -/
def asm_init (heap : Nat → Nat) : Assembler :=
  { labels := [], current_address := 0, output := heap, output_size := 0,
    output_capacity := 1024 }

/-- The function `asm_add_label`: `strncpy` keeps at most 63 characters. -/
def asm_add_label (st : Assembler) (name : List Nat) (address : Nat) : Assembler :=
  if st.labels.length ≥ MAX_LABELS then st
  else { st with labels := st.labels ++ [⟨(cstr name).take 63, address⟩] }

/-- The loop of `asm_find_label` over the entries of the table. -/
def find_label : List Label → List Nat → Int
  | [], _ => -1
  | l :: rest, name => if strcmp_eq l.name name then (l.address : Int) else find_label rest name

/-- The function `asm_find_label`. -/
def asm_find_label (st : Assembler) (name : List Nat) : Int := find_label st.labels name

/-- The function `asm_emit_word`.  The buffer is doubled once; `none` is the
write outside the allocation when that is not enough. -/
def asm_emit_word (st : Assembler) (word : Nat) : Option Assembler :=
  let cap := if st.output_size ≥ st.output_capacity then st.output_capacity * 2
    else st.output_capacity
  if st.output_size < cap then
    some { st with
      output_capacity := cap
      output := setAt st.output st.output_size word
      output_size := st.output_size + 1
      current_address := u16 (st.current_address + 1) }
  else none

/-- The function `asm_parse_register` on the buffer `str`. -/
def asm_parse_register (str : List Nat) : Int :=
  if str.getD 0 0 ≠ 82 ∧ str.getD 0 0 ≠ 114 then
    if strcasecmp_eq str (bytes "SP") then (REG_SP : Int) else -1
  else if ¬ isdigit (str.getD 1 0) then -1
  else
    let reg_num := atoi (str.drop 1)
    if reg_num ≥ 0 ∧ reg_num < (NUM_REGISTERS : Int) then reg_num else -1

/-- The function `asm_parse_number` on the buffer `str`. -/
def asm_parse_number (str : List Nat) : Int :=
  if str.getD 0 0 = 48 ∧ (str.getD 1 0 = 120 ∨ str.getD 1 0 = 88) then
    to_int (strtol (str.drop 2) 16)
  else if str.getD 0 0 = 39 ∧ str.getD 2 0 = 39 then char_to_int (str.getD 1 0)
  else atoi str

/-- The pair `strncpy(value, start, n); value[n] = '\0'` on a 128-byte buffer:
the bytes after the terminator keep their old content, and `none` is the write
outside the buffer. -/
def write_string (old s : List Nat) : Option (List Nat) :=
  if s.length < 128 then some (s ++ 0 :: old.drop (s.length + 1)) else none

/-- The classification of a word run in `asm_tokenize`, written into the
token `old`. -/
def classify_word (old : Token) (word : List Nat) : Option Token :=
  (write_string old.value word).map fun v =>
    if v.getD (word.length - 1) 0 = 58 then
      { old with type := TOKEN_LABEL, value := v.set (word.length - 1) 0 }
    else if v.getD 0 0 = 46 then { old with type := TOKEN_DIRECTIVE, value := v }
    else if asm_parse_register v ≥ 0 then
      { type := TOKEN_REGISTER, value := v, num_value := asm_parse_register v }
    else if isdigit (v.getD 0 0) ∨ v.getD 0 0 = 39 ∨ v.getD 0 0 = 45 then
      { type := TOKEN_IMMEDIATE, value := v, num_value := asm_parse_number v }
    else { old with type := TOKEN_INSTRUCTION, value := v }

/-- The one-character tokens `,`, `[` and `]`. -/
def char_token (old : Token) (t : TokenType) (c : Nat) : Token :=
  { old with type := t, value := c :: 0 :: old.value.drop 2 }

/-- The characters that end a word run. -/
def word_char (c : Nat) : Bool := !isspace c && c != 44 && c != 91 && c != 93 && c != 59

/-- The scanning loop of `asm_tokenize` over the rest `ptr` of the buffer. -/
def tokenize_loop : Nat → List Nat → List Token → Nat → Nat → Option (Nat × List Token)
  | 0, _, _, _, _ => none
  | fuel + 1, ptr, tokens, token_count, max_tokens =>
    if ptr = [] ∨ ¬ token_count < max_tokens then some (token_count, tokens)
    else
      match ptr.dropWhile isspace with
      | [] => some (token_count, tokens)
      | c :: rest =>
        if c = 34 then
          match write_string (token_at tokens token_count).value
              (rest.takeWhile (fun x => x ≠ 34)) with
          | none => none
          | some v =>
            tokenize_loop fuel ((rest.dropWhile (fun x => x ≠ 34)).drop 1)
              (tokens.set token_count
                { token_at tokens token_count with type := TOKEN_STRING, value := v })
              (token_count + 1) max_tokens
        else if c = 44 then
          tokenize_loop fuel rest
            (tokens.set token_count (char_token (token_at tokens token_count) TOKEN_COMMA 44))
            (token_count + 1) max_tokens
        else if c = 91 then
          tokenize_loop fuel rest
            (tokens.set token_count (char_token (token_at tokens token_count) TOKEN_LBRACKET 91))
            (token_count + 1) max_tokens
        else if c = 93 then
          tokenize_loop fuel rest
            (tokens.set token_count (char_token (token_at tokens token_count) TOKEN_RBRACKET 93))
            (token_count + 1) max_tokens
        else if ((c :: rest).takeWhile word_char).length = 0 then
          tokenize_loop fuel (c :: rest) tokens token_count max_tokens
        else
          match classify_word (token_at tokens token_count) ((c :: rest).takeWhile word_char) with
          | none => none
          | some t =>
            tokenize_loop fuel ((c :: rest).dropWhile word_char) (tokens.set token_count t)
              (token_count + 1) max_tokens

/-- The buffer of `asm_tokenize` after the copy of at most 255 characters, the
removal of the comment and of trailing white space. -/
def line_buffer (line : List Nat) : List Nat :=
  ((((cstr line).take (MAX_LINE_LENGTH - 1)).takeWhile (fun c => c ≠ 59)).reverse.dropWhile
    isspace).reverse

/-- The function `asm_tokenize`: the token count and the array `tokens`, whose
content on entry is `tokens`.  Each iteration of the loop consumes a character
of the buffer, so the fuel is never used up. -/
def asm_tokenize (line : List Nat) (tokens : List Token) (max_tokens : Nat) :
    Option (Nat × List Token) :=
  if (line_buffer line).length = 0 then some (0, tokens)
  else tokenize_loop ((line_buffer line).length + 1) (line_buffer line) tokens 0 max_tokens

/-- Conversion of an `int` to `uint8_t`. -/
def to_u8 (x : Int) : Nat := (x % 256).toNat

/-- The control word of a two-register form: `(op << 12) | (rd << 9) | (rs << 6) | mode`
returned as `uint16_t`, with `rd` and `rs` the `uint8_t` locals. -/
def control_word (op : Nat) (rd rs : Int) (mode : Nat) : Nat :=
  u16 ((op <<< 12) ||| (to_u8 rd <<< 9) ||| (to_u8 rs <<< 6) ||| mode)

/-- The function `asm_encode_instruction`; `operands` is the array from
`tokens[token_idx + 1]` on.  A field that the source leaves out of the word is
written here with register 0 or mode 0, which does not change the word. -/
def asm_encode_instruction (mnemonic : List Nat) (operands : List Token) : Nat :=
  let n0 := (token_at operands 0).num_value
  let n1 := (token_at operands 1).num_value
  let n2 := (token_at operands 2).num_value
  let n3 := (token_at operands 3).num_value
  let n4 := (token_at operands 4).num_value
  if strcasecmp_eq mnemonic (bytes "NOP") then u16 (OP_NOP <<< 12)
  else if strcasecmp_eq mnemonic (bytes "HALT") then u16 (OP_HALT <<< 12)
  else if strcasecmp_eq mnemonic (bytes "MOV") then control_word OP_MOVE n0 n2 0
  else if strcasecmp_eq mnemonic (bytes "LDI") then control_word OP_LOAD n0 0 LOAD_IMM
  else if strcasecmp_eq mnemonic (bytes "LD") then
    if (token_at operands 3).type = TOKEN_REGISTER then control_word OP_LOAD n0 n3 LOAD_IND
    else control_word OP_LOAD n0 0 LOAD_DIR
  else if strcasecmp_eq mnemonic (bytes "ST") then
    if (token_at operands 1).type = TOKEN_REGISTER then control_word OP_STORE n1 n4 STORE_IND
    else control_word OP_STORE 0 n4 STORE_DIR
  else if strcasecmp_eq mnemonic (bytes "ADD") then control_word OP_ARITH n0 n2 ARITH_ADD
  else if strcasecmp_eq mnemonic (bytes "SUB") then control_word OP_ARITH n0 n2 ARITH_SUB
  else if strcasecmp_eq mnemonic (bytes "MUL") then control_word OP_ARITH n0 n2 ARITH_MUL
  else if strcasecmp_eq mnemonic (bytes "DIV") then control_word OP_ARITH n0 n2 ARITH_DIV
  else if strcasecmp_eq mnemonic (bytes "INC") then control_word OP_ARITH n0 0 ARITH_INC
  else if strcasecmp_eq mnemonic (bytes "DEC") then control_word OP_ARITH n0 0 ARITH_DEC
  else if strcasecmp_eq mnemonic (bytes "ADDI") then control_word OP_ARITH n0 0 ARITH_ADDI
  else if strcasecmp_eq mnemonic (bytes "SUBI") then control_word OP_ARITH n0 0 ARITH_SUBI
  else if strcasecmp_eq mnemonic (bytes "AND") then control_word OP_LOGIC n0 n2 LOGIC_AND
  else if strcasecmp_eq mnemonic (bytes "OR") then control_word OP_LOGIC n0 n2 LOGIC_OR
  else if strcasecmp_eq mnemonic (bytes "XOR") then control_word OP_LOGIC n0 n2 LOGIC_XOR
  else if strcasecmp_eq mnemonic (bytes "NOT") then control_word OP_LOGIC n0 0 LOGIC_NOT
  else if strcasecmp_eq mnemonic (bytes "SHL") then control_word OP_SHIFT n0 n2 SHIFT_LEFT
  else if strcasecmp_eq mnemonic (bytes "SHR") then control_word OP_SHIFT n0 n2 SHIFT_RIGHT
  else if strcasecmp_eq mnemonic (bytes "SAR") then control_word OP_SHIFT n0 n2 SHIFT_ARITH
  else if strcasecmp_eq mnemonic (bytes "CMP") then control_word OP_CMP n0 n2 0
  else if strcasecmp_eq mnemonic (bytes "PUSH") then control_word OP_STACK 0 n0 STACK_PUSH
  else if strcasecmp_eq mnemonic (bytes "POP") then control_word OP_STACK n0 0 STACK_POP
  else if strcasecmp_eq mnemonic (bytes "BEQ") then u16 ((OP_BRANCH <<< 12) ||| BRANCH_EQ)
  else if strcasecmp_eq mnemonic (bytes "BNE") then u16 ((OP_BRANCH <<< 12) ||| BRANCH_NE)
  else if strcasecmp_eq mnemonic (bytes "BGT") then u16 ((OP_BRANCH <<< 12) ||| BRANCH_GT)
  else if strcasecmp_eq mnemonic (bytes "BLT") then u16 ((OP_BRANCH <<< 12) ||| BRANCH_LT)
  else if strcasecmp_eq mnemonic (bytes "BGE") then u16 ((OP_BRANCH <<< 12) ||| BRANCH_GE)
  else if strcasecmp_eq mnemonic (bytes "BLE") then u16 ((OP_BRANCH <<< 12) ||| BRANCH_LE)
  else if strcasecmp_eq mnemonic (bytes "BCS") then u16 ((OP_BRANCH <<< 12) ||| BRANCH_CS)
  else if strcasecmp_eq mnemonic (bytes "BCC") then u16 ((OP_BRANCH <<< 12) ||| BRANCH_CC)
  else if strcasecmp_eq mnemonic (bytes "JMP") then u16 (OP_JUMP <<< 12)
  else if strcasecmp_eq mnemonic (bytes "CALL") then u16 (OP_CALL <<< 12)
  else if strcasecmp_eq mnemonic (bytes "RET") then u16 (OP_RET <<< 12)
  else 0

/-- Successive calls of `asm_emit_word`. -/
def emit_words : Assembler → List Nat → Option Assembler
  | st, [] => some st
  | st, w :: ws => (asm_emit_word st w).bind fun st1 => emit_words st1 ws

/-- The value that the source computes for a symbol: its address, or 0 when
`asm_find_label` returns -1. -/
def label_or_zero (st : Assembler) (name : List Nat) : Int :=
  if asm_find_label st name = -1 then 0 else asm_find_label st name

/-- The pass-2 loop of `.WORD` over the tokens after the directive. -/
def word_directive_emit : Assembler → List Token → Option Assembler
  | st, [] => some st
  | st, t :: rest =>
    if t.type ≠ TOKEN_COMMA then
      (asm_emit_word st
        (int_to_u16 (if t.type = TOKEN_IMMEDIATE then t.num_value
          else label_or_zero st t.value))).bind fun st1 => word_directive_emit st1 rest
    else word_directive_emit st rest

/-- The pass-1 loop of `.WORD`: one word for each token that is not a comma. -/
def word_directive_count : Assembler → List Token → Assembler
  | st, [] => st
  | st, t :: rest =>
    if t.type ≠ TOKEN_COMMA then
      word_directive_count { st with current_address := u16 (st.current_address + 1) } rest
    else word_directive_count st rest

/-- The numeric value of an enumerator of `TokenType`. -/
def type_code : TokenType → Nat
  | TOKEN_LABEL => 0
  | TOKEN_INSTRUCTION => 1
  | TOKEN_REGISTER => 2
  | TOKEN_IMMEDIATE => 3
  | TOKEN_ADDRESS => 4
  | TOKEN_DIRECTIVE => 5
  | TOKEN_STRING => 6
  | TOKEN_COMMA => 7
  | TOKEN_LBRACKET => 8
  | TOKEN_RBRACKET => 9
  | TOKEN_UNKNOWN => 10

/-- The four bytes of an `int` in memory, low byte first. -/
def int_bytes (x : Int) : List Nat :=
  [(x % 4294967296).toNat % 256, (x % 4294967296).toNat / 256 % 256,
    (x % 4294967296).toNat / 65536 % 256, (x % 4294967296).toNat / 16777216 % 256]

/-- The 136 bytes of a `Token` in memory: `type` at offset 0, `value` at offset
4 and `num_value` at offset 132, with `enum` and `int` of four bytes, low byte
first. -/
def token_memory (t : Token) : List Nat :=
  [type_code t.type, 0, 0, 0] ++ t.value ++ int_bytes t.num_value

/-- The bytes that a read through `char* str = tokens[i].value` meets at
`str[0]`, `str[1]`, ...: the buffer `value`, then from `str[128]` on the field
`num_value` of the same token, then the tokens that follow it in the array. -/
def value_memory (tokens : List Token) (i : Nat) : List Nat :=
  (token_at tokens i).value ++ int_bytes (token_at tokens i).num_value ++
    (tokens.drop (i + 1)).flatMap token_memory

/-- The words of the loop `for (i = 0; str[i]; i += 2)` of `.STRING` over the
bytes `str`: the loop looks at the bytes `str[0]`, `str[2]`, ... only, and so
steps over a terminator at an odd index.  It is run on `value_memory`, where the
third byte of the field `type` of the next token is a zero at an even index
(`str[134]`), so that the end of the list is never met. -/
def string_words : List Nat → List Nat
  | [] => []
  | [a] => if a = 0 then [] else [a &&& 0xFF]
  | a :: b :: rest =>
    if a = 0 then []
    else ((a &&& 0xFF) ||| (if b ≠ 0 then (b &&& 0xFF) <<< 8 else 0)) :: string_words rest

/-- The test `strncasecmp(mnemonic, "B", 1) == 0`. -/
def starts_with_b (mnemonic : List Nat) : Bool := tolower (mnemonic.getD 0 0) == 98

/-- The directive branch of `asm_assemble_line`; `k` is `token_idx`. -/
def assemble_directive (st : Assembler) (tokens : List Token) (token_count k pass : Nat) :
    Option Assembler :=
  if strcasecmp_eq (token_at tokens k).value (bytes ".ORG") then
    let org_addr := int_to_u16 (asm_parse_number (token_at tokens (k + 1)).value)
    if pass = 2 then some { st with current_address := org_addr, output_size := org_addr }
    else some { st with current_address := org_addr }
  else if strcasecmp_eq (token_at tokens k).value (bytes ".WORD") then
    if pass = 2 then word_directive_emit st ((tokens.take token_count).drop (k + 1))
    else some (word_directive_count st ((tokens.take token_count).drop (k + 1)))
  else if strcasecmp_eq (token_at tokens k).value (bytes ".STRING") ∨
      strcasecmp_eq (token_at tokens k).value (bytes ".ASCIIZ") then
    if pass = 2 ∧ k + 1 < token_count then
      emit_words st (string_words (value_memory tokens (k + 1)) ++ [0])
    else
      some { st with
        current_address :=
          u16 (st.current_address + (((cstr (token_at tokens (k + 1)).value).length + 1) / 2 + 1)) }
  else some st

/-- The extra word of a two-word instruction in pass 2, if there is one. -/
def extra_word (st : Assembler) (mnemonic : List Nat) (operands : List Token) : Option Nat :=
  if strcasecmp_eq mnemonic (bytes "LDI") ∨ strcasecmp_eq mnemonic (bytes "ADDI") ∨
      strcasecmp_eq mnemonic (bytes "SUBI") then
    if (token_at operands 2).type ≠ TOKEN_IMMEDIATE ∧
        (token_at operands 2).type ≠ TOKEN_REGISTER then
      some (int_to_u16 (label_or_zero st (token_at operands 2).value))
    else some (int_to_u16 (token_at operands 2).num_value)
  else if strcasecmp_eq mnemonic (bytes "LD") ∧ (token_at operands 3).type ≠ TOKEN_REGISTER then
    some (int_to_u16 (asm_parse_number (token_at operands 3).value))
  else if strcasecmp_eq mnemonic (bytes "ST") ∧ (token_at operands 1).type ≠ TOKEN_REGISTER then
    some (int_to_u16 (asm_parse_number (token_at operands 1).value))
  else if strcasecmp_eq mnemonic (bytes "JMP") ∨ strcasecmp_eq mnemonic (bytes "CALL") ∨
      starts_with_b mnemonic then
    if (token_at operands 0).type = TOKEN_IMMEDIATE then
      some (int_to_u16 (token_at operands 0).num_value)
    else some (int_to_u16 (label_or_zero st (token_at operands 0).value))
  else none

/-- The pass-1 test for a second word. -/
def two_words (mnemonic : List Nat) (operands : List Token) : Bool :=
  if strcasecmp_eq mnemonic (bytes "LDI") ∨ strcasecmp_eq mnemonic (bytes "ADDI") ∨
      strcasecmp_eq mnemonic (bytes "SUBI") ∨ strcasecmp_eq mnemonic (bytes "JMP") ∨
      strcasecmp_eq mnemonic (bytes "CALL") ∨ starts_with_b mnemonic then true
  else if strcasecmp_eq mnemonic (bytes "LD") ∧ (token_at operands 3).type ≠ TOKEN_REGISTER then
    true
  else if strcasecmp_eq mnemonic (bytes "ST") ∧ (token_at operands 1).type ≠ TOKEN_REGISTER then
    true
  else false

/-- The instruction branch of `asm_assemble_line`. -/
def assemble_instruction (st : Assembler) (mnemonic : List Nat) (operands : List Token)
    (pass : Nat) : Option Assembler :=
  if pass = 2 then
    (asm_emit_word st (asm_encode_instruction mnemonic operands)).bind fun st1 =>
      match extra_word st1 mnemonic operands with
      | some w => asm_emit_word st1 w
      | none => some st1
  else if two_words mnemonic operands then
    some { st with current_address := u16 (u16 (st.current_address + 1) + 1) }
  else some { st with current_address := u16 (st.current_address + 1) }

/-- The body of `asm_assemble_line` after the call of `asm_tokenize`. -/
def assemble_tokens (st : Assembler) (tokens : List Token) (token_count pass : Nat) :
    Option Assembler :=
  if token_count = 0 then some st
  else if (token_at tokens 0).type = TOKEN_LABEL then
    let st1 :=
      if pass = 1 then asm_add_label st (token_at tokens 0).value st.current_address else st
    if 1 ≥ token_count then some st1
    else if (token_at tokens 1).type = TOKEN_DIRECTIVE then
      assemble_directive st1 tokens token_count 1 pass
    else if (token_at tokens 1).type = TOKEN_INSTRUCTION then
      assemble_instruction st1 (token_at tokens 1).value (tokens.drop 2) pass
    else some st1
  else if (token_at tokens 0).type = TOKEN_DIRECTIVE then
    assemble_directive st tokens token_count 0 pass
  else if (token_at tokens 0).type = TOKEN_INSTRUCTION then
    assemble_instruction st (token_at tokens 0).value (tokens.drop 1) pass
  else some st

/-- The function `asm_assemble_line`; `stack` is the content of the
uninitialised local array `tokens` on entry.  The function returns `true` on
every path; the result here is the state it leaves, or `none` after a write
outside a buffer. -/
def asm_assemble_line (st : Assembler) (line : List Nat) (pass : Nat) (stack : List Token) :
    Option Assembler :=
  (asm_tokenize line stack MAX_TOKENS).bind fun r => assemble_tokens st r.2 r.1 pass

/-- The array `tokens` as a call of `asm_assemble_line` on `line` leaves it. -/
def stack_after (line : List Nat) (stack : List Token) : List Token :=
  ((asm_tokenize line stack MAX_TOKENS).map fun r => r.2).getD stack

/-- The loop `while (fgets(line, sizeof(line), fp)) asm_assemble_line(asm_state, line, pass)`
of `asm_assemble_file` over the lines of the input file; the return value of
`asm_assemble_line` is not looked at.  The call for the line with index `i`
finds the content `stack i` in its local array `tokens`. -/
def assemble_lines (pass : Nat) (stack : Nat → List Token) :
    Assembler → List (List Nat) → Nat → Option Assembler
  | st, [], _ => some st
  | st, line :: rest, i =>
    (asm_assemble_line st line pass (stack i)).bind fun st1 =>
      assemble_lines pass stack st1 rest (i + 1)

/-- The function `asm_assemble_file` on the lines that `fgets` returns for the
input file: pass 1 and pass 2 over all lines, each from `current_address = 0`,
and then the words `output[0 .. output_size)` that `fwrite` puts into the output
file. -/
def asm_assemble_file (st : Assembler) (lines : List (List Nat)) (stack : Nat → List Token) :
    Option (List Nat) :=
  (assemble_lines 1 stack { st with current_address := 0 } lines 0).bind fun s1 =>
    (assemble_lines 2 stack { s1 with current_address := 0 } lines lines.length).map fun s2 =>
      (List.range s2.output_size).map s2.output

/-! ## Example states -/

/-- The word that `cpu_step` fetches as the instruction in state `cpu`. -/
def fetched (cpu : CPU) : Nat := (cpu_fetch cpu).1

/-- The word that the second `cpu_fetch` of a two-word instruction returns. -/
def fetched_extra (cpu : CPU) : Nat := (cpu_fetch (cpu_fetch cpu).2).1

/-- A freshly initialised CPU with `program` loaded at address 0 and the
registers replaced by `regs`. -/
def demo_cpu (program : List Nat) (regs : Nat → Nat) : CPU :=
  { cpu_load_program cpu_init program 0 with registers := regs }

/-- The state after one step, or the state itself when the step does not return. -/
def after_step (cpu : CPU) : CPU := (cpu_step cpu).getD cpu

/-- The relation of the spec between the flags and a 16-bit result: `Z` is set
exactly when the result is zero and `N` exactly when its bit 15 is set. -/
def zn_match (fl : Flags) (result : Nat) : Prop :=
  (fl.Z = true ↔ result = 0) ∧ (fl.N = true ↔ result.testBit 15 = true)

instance (fl : Flags) (result : Nat) : Decidable (zn_match fl result) := by
  unfold zn_match
  infer_instance

/-- The 16-bit difference `a - b mod 2^16`. -/
def sub16 (a b : Nat) : Nat := (((a : Int) - (b : Int)) % 65536).toNat

/-- A CPU about to execute `DIV R0, R1` with `R0 = 5`, `R1 = 0` and `Z` set. -/
def div_zero_cpu : CPU :=
  { demo_cpu [0x4043] (setAt (fun _ => 0) 0 5) with flags := ⟨true, false, false, false⟩ }

/-- A CPU about to execute `DIV R0, R1` with `R0 = 7`, `R1 = 2`. -/
def div_cpu : CPU := demo_cpu [0x4043] (setAt (setAt (fun _ => 0) 0 7) 1 2)

/-- A CPU about to execute `LDI R0, 5`. -/
def ldi_cpu : CPU := demo_cpu [0x1000, 5] (setAt (fun _ => 0) REG_SP STACK_START)

/-- A CPU about to execute `MOV R0, R1` with `Z` and `C` set. -/
def mov_cpu : CPU :=
  { demo_cpu [0x3040] (setAt (fun _ => 0) 1 9) with flags := ⟨true, false, true, false⟩ }

/-- A CPU about to execute `ADD R0, R1` with `R0 = 0xFFFF`, `R1 = 2`. -/
def add_cpu : CPU := demo_cpu [0x4040] (setAt (setAt (fun _ => 0) 0 0xFFFF) 1 2)

/-- A CPU about to execute `PUSH R0` then `POP R0` with `R0 = 5`, stack pointer `sp`. -/
def push_pop_cpu (sp : Nat) : CPU :=
  demo_cpu [0x9000, 0x9001] (setAt (setAt (fun _ => 0) 0 5) REG_SP sp)

/-- A CPU about to execute `CALL 3` at address 0, with `RET` at address 3 and
stack pointer `sp`. -/
def call_ret_cpu (sp : Nat) : CPU :=
  demo_cpu [0xA000, 3, 0x0000, 0xB000] (setAt (fun _ => 0) REG_SP sp)

/-- The encoding table of the spec (section 4.1) for the two-register forms
`M Rd, Rs`: mnemonic, opcode and sub-opcode (`none` where the mode field is
ignored). -/
def two_register_forms : List (String × Nat × Option Nat) :=
  [("MOV", 0x3, none), ("ADD", 0x4, some 0), ("SUB", 0x4, some 1), ("MUL", 0x4, some 2),
    ("DIV", 0x4, some 3), ("AND", 0x5, some 0), ("OR", 0x5, some 1), ("XOR", 0x5, some 2),
    ("SHL", 0x6, some 0), ("SHR", 0x6, some 1), ("SAR", 0x6, some 2), ("CMP", 0xC, none)]

/-- The encoding table of the spec for the forms `M Rd`: mnemonic, opcode and
sub-opcode. -/
def one_register_forms : List (String × Nat × Nat) :=
  [("INC", 0x4, 4), ("DEC", 0x4, 5), ("NOT", 0x5, 3), ("POP", 0x9, 1)]

/-- The operand array of `M Rd, Rs` as the lexer leaves it. -/
def register_operands (rd rs : Nat) : List Token :=
  [⟨TOKEN_REGISTER, [82, 48 + rd, 0], rd⟩, ⟨TOKEN_COMMA, [44, 0], 0⟩,
    ⟨TOKEN_REGISTER, [82, 48 + rs, 0], rs⟩]

/-- The output buffer can take one more word: `asm_emit_word` doubles the
capacity once, so the write is inside the allocation when the size is below
twice the capacity. -/
def Assembler.can_emit (st : Assembler) : Prop := st.output_size < 2 * st.output_capacity

instance (st : Assembler) : Decidable st.can_emit := by
  unfold Assembler.can_emit
  infer_instance

/-- The C type of the local array `tokens`: `MAX_TOKENS` tokens, each with a
buffer of 128 bytes. -/
def tokens_wf (tokens : List Token) : Prop :=
  tokens.length = MAX_TOKENS ∧ ∀ t ∈ tokens, t.value.length = 128

instance (tokens : List Token) : Decidable (tokens_wf tokens) := by
  unfold tokens_wf
  infer_instance

/-- An assembler state as `asm_init` leaves it on a zeroed allocation. -/
def fresh_asm : Assembler := asm_init (fun _ => 0)

/-- The words of the output buffer from index `start` up to `output_size`. -/
def emitted (st : Assembler) (start : Nat) : List Nat :=
  (List.range (st.output_size - start)).map fun i => st.output (start + i)

/-- The source line `.STRING "abc"`. -/
def abc_line : List Nat := bytes ".STRING \"abc\""

/-- The array `tokens` as the line `.STRING "Hello World"` leaves it: the buffer
of `tokens[1]` holds `Hello World` and its terminator. -/
def used_stack : List Token := stack_after (bytes ".STRING \"Hello World\"") zero_tokens

/-- A CPU whose memory holds `words` from address `0x100` on. -/
def string_cpu (words : List Nat) : CPU :=
  cpu_load_program cpu_init words 0x100

/-- The number of words that the spec assigns to a `.WORD` directive: one for
each token after it that is not a comma. -/
def word_count (toks : List Token) : Nat :=
  (toks.filter fun t => decide (t.type ≠ TOKEN_COMMA)).length

/-- The byte after the terminator of the string at the start of the bytes
`buf`. -/
def token_buf_get (buf : List Nat) : Nat := buf.getD ((cstr buf).length + 1) 0

/-- The bytes after the terminator of the string at the start of `buf` do not
disturb the `.STRING` loop: the string has even length, or the byte after the
terminator is zero. -/
def clean_string (buf : List Nat) : Prop :=
  (cstr buf).length % 2 = 0 ∨ token_buf_get buf = 0

instance (buf : List Nat) : Decidable (clean_string buf) := by
  unfold clean_string
  infer_instance

/-- The state after `n` successive calls of `cpu_step`, or `none` when one of them
does not return. -/
def cpu_steps : Nat → CPU → Option CPU
  | 0, cpu => some cpu
  | n + 1, cpu => (cpu_step cpu).bind (cpu_steps n)

/-- The two outcomes of a BRANCH whose condition has the value `cond`: the
fetched target word when it holds, the address after the target word when not. -/
def branch_outcome (cpu cpu' : CPU) (cond : Bool) : Prop :=
  (cond = true → cpu'.pc = fetched_extra cpu) ∧
  (cond = false → cpu'.pc = (cpu.pc + 2) % 65536)

/-- A halted CPU with a program in memory. -/
def halted_cpu : CPU := { ldi_cpu with halted := true }

/-- A CPU about to execute the word `0xD000`, whose opcode has no instruction. -/
def unknown_op_cpu : CPU := demo_cpu [0xD000] (setAt (fun _ => 0) 0 7)

/-- A CPU about to execute `BGT 9` with the flags `fl`. -/
def branch_cpu (fl : Flags) : CPU :=
  { demo_cpu [0x7002, 9] (setAt (fun _ => 0) REG_SP STACK_START) with flags := fl }

/-- A memory image of 65536 words, all `0xFFFF`. -/
def full_image : List Nat := List.replicate 65536 0xFFFF

/-- A running CPU whose cycle counter holds the largest `uint64_t`. -/
def last_cycle_cpu : CPU := { cpu_init with cycle_count := 18446744073709551615 }

/-- A sequence of calls of `asm_add_label`, one for each name and address of
`defs`, in order. -/
def add_labels (st : Assembler) : List (List Nat × Nat) → Assembler
  | [] => st
  | d :: rest => add_labels (asm_add_label st d.1 d.2) rest

/-- A symbol table that holds `MAX_LABELS` labels. -/
def full_asm : Assembler := { fresh_asm with labels := List.replicate 256 ⟨bytes "x", 7⟩ }

/-- The value that `asm_assemble_line` returns: `true` on every path. -/
def asm_assemble_line_ok (st : Assembler) (line : List Nat) (pass : Nat) (stack : List Token) :
    Option Bool :=
  (asm_assemble_line st line pass stack).map fun _ => true

/-- The mnemonics `JMP`, `CALL` and the eight branches. -/
def jump_mnemonics : List String :=
  ["JMP", "CALL", "BEQ", "BNE", "BGT", "BLT", "BGE", "BLE", "BCS", "BCC"]

/-- The source line `JMP nowhere`. -/
def jmp_line : List Nat := bytes "JMP nowhere"

/-- The source line `LDI R1, nowhere`. -/
def ldi_line : List Nat := bytes "LDI R1, nowhere"

/-- A 16-bit word read as a signed integer in two's complement. -/
def signed16 (a : Nat) : Int := if a < 32768 then (a : Int) else (a : Int) - 65536

/-- A CPU about to execute `SAR R0, R1` with `R0 = 0x8004` and `R1 = 0x12`. -/
def sar_cpu : CPU := demo_cpu [0x6042] (setAt (setAt (fun _ => 0) 0 0x8004) 1 0x12)

/-- A CPU about to execute `SHL R0, R1` with `R0 = 0x8004` and `R1 = 0x12`. -/
def shl_cpu : CPU := demo_cpu [0x6040] (setAt (setAt (fun _ => 0) 0 0x8004) 1 0x12)

/-- A CPU about to execute `CMP R0, R1` and then `BLT 9` with `R0 = a`, `R1 = b`. -/
def cmp_blt_cpu (a b : Nat) : CPU :=
  demo_cpu [0xC040, 0x7003, 9] (setAt (setAt (fun _ => 0) 0 a) 1 b)

/-- The lower-case hexadecimal numeral of `n`, as bytes. -/
def hex_digits (n : Nat) : List Nat := (Nat.toDigits 16 n).map Char.toNat

/-- What follows a text in its buffer: nothing, or the terminator and the old
content of the buffer. -/
def ends_text (rest : List Nat) : Prop := rest = [] ∨ rest.head? = some 0

instance (rest : List Nat) : Decidable (ends_text rest) := by
  unfold ends_text
  infer_instance

/-- The source line `MOV R07, R1x`. -/
def odd_register_line : List Nat := bytes "MOV R07, R1x"

/-- The words that the spec assigns to the values of a `.WORD` directive: for each
token after the directive that is not a comma, its numeric value as a word when
it is an immediate, and else the address of the symbol, or 0 when it is not in
the table. -/
def word_values (labels : List Label) (toks : List Token) : List Nat :=
  (toks.filter fun t => decide (t.type ≠ TOKEN_COMMA)).map fun t =>
    if t.type = TOKEN_IMMEDIATE then int_to_u16 t.num_value
    else if find_label labels t.value = -1 then 0
    else int_to_u16 (find_label labels t.value)

/-- The first character of a symbol: a letter or an underscore. -/
def symbol_start (c : Nat) : Prop := (65 ≤ c ∧ c ≤ 90) ∨ (97 ≤ c ∧ c ≤ 122) ∨ c = 95

instance (c : Nat) : Decidable (symbol_start c) := by
  unfold symbol_start
  infer_instance

/-- A symbol table in which `x` has the address 5. -/
def x_asm : Assembler := asm_add_label fresh_asm (bytes "x") 5

/-- The source line `LD R1, [x]`. -/
def ld_line : List Nat := bytes "LD R1, [x]"

/-- The source line `ST [x], R1`. -/
def st_line : List Nat := bytes "ST [x], R1"

/-- The source line `.WORD 1, 2, 3, 4, 5, 6`. -/
def six_words_line : List Nat := bytes ".WORD 1, 2, 3, 4, 5, 6"

/-- A program of 65535 words without a zero byte: `LDI R1, 0x0101`,
`ST [R2], R1`, `ST [0xF802], R1` (with the unused register fields set so that no
byte of a control word is zero) and 65530 words `0x0101`. -/
def loop_image : List Nat :=
  [0x1240, 0x0101, 0x2441, 0x2040, 0xF802] ++ List.replicate 65530 0x0101

/-- The program `LDI R0, 5`, `LDI R1, 7`, `ADD R0, R1`, `ST [0xF801], R0`, `HALT`. -/
def sum_image : List Nat := [0x1000, 5, 0x1200, 7, 0x4040, 0x2000, 0xF801, 0xF000]

/-- The program `LD R0, [0xF820]`, `ST [0xF800], R0`, `HALT`. -/
def echo_image : List Nat := [0x1001, 0xF820, 0x2000, 0xF800, 0xF000]

/-- The words of a memory from address `0xFFFF` on are zero. -/
def top_zero (mem : Nat → Nat) : Prop := ∀ a, a ≥ 0xFFFF → mem a = 0

/-- The state that the first two instructions of `loop_image` leave in a CPU
whose memory was `M`. -/
def loop_state (M : Nat → Nat) : CPU :=
  { registers := setAt cpu_init.registers 1 0x0101
    pc := 4
    ir := 0x2441
    flags := cpu_init.flags
    memory := setAt M 0 0x0101
    halted := false
    cycle_count := 2
    input := []
    output := [] }

/-- What `asm_assemble_line` reads of a token: its type, the string in its buffer,
and the numeric value when the lexer has set it. -/
def token_view (t : Token) : TokenType × List Nat × Int :=
  (t.type, cstr t.value,
    if t.type = TOKEN_REGISTER ∨ t.type = TOKEN_IMMEDIATE then t.num_value else 0)

/-- The view of the token that `asm_tokenize` makes of the word run `w`. -/
def word_view (w : List Nat) : TokenType × List Nat × Int :=
  if w.getD (w.length - 1) 0 = 58 then (TOKEN_LABEL, cstr (w.set (w.length - 1) 0), 0)
  else if w.getD 0 0 = 46 then (TOKEN_DIRECTIVE, cstr w, 0)
  else if asm_parse_register w ≥ 0 then (TOKEN_REGISTER, cstr w, asm_parse_register w)
  else if isdigit (w.getD 0 0) ∨ w.getD 0 0 = 39 ∨ w.getD 0 0 = 45 then
    (TOKEN_IMMEDIATE, cstr w, asm_parse_number w)
  else (TOKEN_INSTRUCTION, cstr w, 0)

/-- The token count of `asm_tokenize` and the views of the tokens it has set. -/
def lexed (line : List Nat) (stack : List Token) :
    Option (Nat × List (TokenType × List Nat × Int)) :=
  (asm_tokenize line stack MAX_TOKENS).map fun r => (r.1, (r.2.take r.1).map token_view)

/-- The lines of the program `LDI R0, a`, `LDI R1, b`, `ADD R0, R1`,
`ST [0xF801], R0`, `HALT`, with `a` and `b` in decimal, as `fgets` returns them. -/
def sum_lines (a b : Nat) : List (List Nat) :=
  [bytes "LDI R0, " ++ decimal a ++ [10], bytes "LDI R1, " ++ decimal b ++ [10],
    bytes "ADD R0, R1\n", bytes "ST [0xF801], R0\n", bytes "HALT\n"]

/-- The words of the program `sum_lines a b`. -/
def sum_words (a b : Nat) : List Nat :=
  [0x1000, a, 0x1200, b, 0x4040, 0x2000, 0xF801, 0xF000]

/-- The lines of the program `LDI R0, a`, `LDI R1, b`, `CMP R0, R1`, `BEQ eq`,
`LDI R2, 0`, `JMP end`, `eq: LDI R2, 1`, `end: HALT`, with `a` and `b` in decimal,
as `fgets` returns them. -/
def eq_lines (a b : Nat) : List (List Nat) :=
  [bytes "LDI R0, " ++ decimal a ++ [10], bytes "LDI R1, " ++ decimal b ++ [10],
    bytes "CMP R0, R1\n", bytes "BEQ eq\n", bytes "LDI R2, 0\n", bytes "JMP end\n",
    bytes "eq: LDI R2, 1\n", bytes "end: HALT\n"]

/-- The words of the program `eq_lines a b`: `eq` is the address 11 and `end` the
address 13. -/
def eq_words (a b : Nat) : List Nat :=
  [0x1000, a, 0x1200, b, 0xC040, 0x7000, 11, 0x1400, 0, 0x8000, 13, 0x1400, 1, 0xF000]

/-- The symbol table after pass 1 of `eq_lines a b`. -/
def eq_labels : List Label := [⟨bytes "eq", 11⟩, ⟨bytes "end", 13⟩]

/-- A CPU state in which every field that `cpu_reset` writes has a non-zero value. -/
def dirty_cpu : CPU :=
  { registers := fun i => 0x1111 + i
    pc := 0x0123
    ir := 0x4040
    flags := ⟨true, true, true, true⟩
    memory := fun a => a % 7
    halted := true
    cycle_count := 99
    input := [65]
    output := [66] }

/-- A CPU about to execute `ST [R1], R0` and then `LD R2, [R1]` with `R0 = 0x1234`
and `R1 = 0x100`. -/
def store_load_cpu : CPU :=
  demo_cpu [0x2201, 0x1442] (setAt (setAt (fun _ => 0) 0 0x1234) 1 0x100)

/-- The lines of the program `LDI R0, 0x1234`, `LDI R1, 0x100`, `ST [R1], R0`,
`LD R2, [R1]`, `HALT`, as `fgets` returns them. -/
def store_load_lines : List (List Nat) :=
  [bytes "LDI R0, 0x1234\n", bytes "LDI R1, 0x100\n", bytes "ST [R1], R0\n",
    bytes "LD R2, [R1]\n", bytes "HALT\n"]

/-- The packed string of the spec: byte `i` of the bytes read from address `a` on
is the low byte of the word at `(a + i / 2) mod 2^16` when `i` is even and the high
byte of that word when `i` is odd. -/
def packed_byte (mem : Nat → Nat) (a i : Nat) : Nat :=
  if i % 2 = 0 then mem ((a + i / 2) % 65536) &&& 0xFF
  else (mem ((a + i / 2) % 65536) >>> 8) &&& 0xFF

/-- A CPU whose memory holds the packed string `Hi!` in the last word and the
first word: the string wraps from address `0xFFFF` to address 0. -/
def wrap_cpu : CPU :=
  { cpu_init with
    memory := setAt (setAt (fun _ => 0x4141) 0xFFFF 0x6948) 0 0x0021
    registers := fun i => 7 * i }

/-- Every token text of the buffer fits a token: from each position on, the run of
word characters has fewer than 128 characters, and so has the run without a double
quote that follows a double quote. -/
def short_runs (buf : List Nat) : Prop :=
  ∀ i, i < buf.length →
    ((buf.drop i).takeWhile word_char).length < 128 ∧
    (buf.getD i 0 = 34 → ((buf.drop (i + 1)).takeWhile (fun x => x ≠ 34)).length < 128)

instance (buf : List Nat) : Decidable (short_runs buf) := by
  unfold short_runs
  infer_instance

/-- The source line `.STRING "a;b" ; text`, whose first semicolon is inside the
quotes. -/
def semicolon_line : List Nat := bytes ".STRING \"a;b\" ; text"

/-- A source line that begins with a word of 128 characters: 128 times `A`, then
` R1`. -/
def long_word_line : List Nat := List.replicate 128 65 ++ bytes " R1"

/-- A source line with a quoted string of 128 characters: `.STRING "`, 128 times
`A`, then `" R1`. -/
def long_string_line : List Nat := bytes ".STRING \"" ++ List.replicate 128 65 ++ bytes "\" R1"

/-- A source line that begins with a word of 127 characters: 127 times `A`, then
` R1`. -/
def fitting_word_line : List Nat := List.replicate 127 65 ++ bytes " R1"

/-- A word of the lexer that is neither a string nor a label and fits a token: a
run of 1 to 127 characters other than NUL, white space, comma, brackets and
semicolon that does not begin with a double quote and does not end in a colon. -/
def is_word (v : List Nat) : Prop :=
  v ≠ [] ∧ v.length < 128 ∧ (∀ c ∈ v, word_char c = true ∧ c ≠ 0) ∧ v.getD 0 0 ≠ 34 ∧
    v.getD (v.length - 1) 0 ≠ 58

instance (v : List Nat) : Decidable (is_word v) := by
  unfold is_word
  infer_instance

/-- An identifier that fits a token: a letter or an underscore, then letters,
digits and underscores, fewer than 128 characters in all. -/
def is_identifier (x : List Nat) : Prop :=
  symbol_start (x.getD 0 0) ∧ (∀ c ∈ x, symbol_start c ∨ isdigit c = true) ∧ x.length < 128

instance (x : List Nat) : Decidable (is_identifier x) := by
  unfold is_identifier
  infer_instance

/-- The source line `LDI R1, R2x`. -/
def ldi_r2x_line : List Nat := bytes "LDI R1, R2x"

/-- The source line `JMP` followed by an identifier of 128 letters `a`. -/
def long_jump_line : List Nat := bytes "JMP " ++ List.replicate 128 97

/-- The text `v1, v2, ..., vk` of the values of a `.WORD` directive. -/
def values_text : List (List Nat) → List Nat
  | [] => []
  | [v] => v
  | v :: w :: rest => v ++ [44, 32] ++ values_text (w :: rest)

/-- The source line `.WORD v1, v2, ..., vk`. -/
def word_line (vs : List (List Nat)) : List Nat := bytes ".WORD " ++ values_text vs

/-- The views of the tokens of `v1, v2, ..., vk`: the words and the commas
between them. -/
def value_views : List (List Nat) → List (TokenType × List Nat × Int)
  | [] => []
  | [v] => [word_view v]
  | v :: w :: rest => word_view v :: (TOKEN_COMMA, [44], 0) :: value_views (w :: rest)

/-- A value that begins with a digit, a quote or a minus sign, the first
characters of the immediates. -/
def is_immediate (v : List Nat) : Prop :=
  isdigit (v.getD 0 0) = true ∨ v.getD 0 0 = 39 ∨ v.getD 0 0 = 45

instance (v : List Nat) : Decidable (is_immediate v) := by
  unfold is_immediate
  infer_instance

/-- The word that the spec assigns to one value of a `.WORD` directive: the
numeric value modulo `2^16` of an immediate, and for any other value its address
in the symbol table, or 0 when it is not there. -/
def value_word (labels : List Label) (v : List Nat) : Nat :=
  if is_immediate v then int_to_u16 (asm_parse_number v)
  else if find_label labels v = -1 then 0
  else int_to_u16 (find_label labels v)

/-- The source line `.WORD ' '`. -/
def quote_space_line : List Nat := bytes ".WORD ' '"

/-- The source line `.WORD 7, x, 'a', -1, 0x1F`. -/
def five_words_line : List Nat := bytes ".WORD 7, x, 'a', -1, 0x1F"

/-- Three values of `.WORD` whose line has 265 characters: 127 letters `a`, 127
letters `b` and `7`. -/
def cut_words : List (List Nat) := [List.replicate 127 97, List.replicate 127 98, [55]]

/-- The source line `.STRING "` followed by 127 letters `a` and the closing quote:
the longest string that fits a token. -/
def full_string_line : List Nat := bytes ".STRING \"" ++ List.replicate 127 97 ++ [34]

/-! ## Theorems -/

attribute [simp] OP_NOP OP_LOAD OP_STORE OP_MOVE OP_ARITH OP_LOGIC OP_SHIFT OP_BRANCH OP_JUMP
  OP_STACK OP_CALL OP_RET OP_CMP OP_HALT ARITH_ADD ARITH_SUB ARITH_MUL ARITH_DIV ARITH_INC
  ARITH_DEC ARITH_ADDI ARITH_SUBI LOGIC_AND LOGIC_OR LOGIC_XOR LOGIC_NOT SHIFT_LEFT SHIFT_RIGHT
  SHIFT_ARITH LOAD_IMM LOAD_DIR LOAD_IND STORE_DIR STORE_IND BRANCH_EQ BRANCH_NE BRANCH_GT
  BRANCH_LT BRANCH_GE BRANCH_LE BRANCH_CS BRANCH_CC STACK_PUSH STACK_POP REG_SP MMIO_START
  MMIO_CHAR_OUT MMIO_INT_OUT MMIO_STR_OUT MMIO_TIMER MMIO_CHAR_IN

/-! ### Memory access and fetch -/

theorem read_memory_frame (cpu : CPU) (a : Nat) :
    (cpu_read_memory cpu a).2.registers = cpu.registers ∧
    (cpu_read_memory cpu a).2.pc = cpu.pc ∧
    (cpu_read_memory cpu a).2.flags = cpu.flags ∧
    (cpu_read_memory cpu a).2.memory = cpu.memory ∧
    (cpu_read_memory cpu a).2.halted = cpu.halted ∧
    (cpu_read_memory cpu a).2.cycle_count = cpu.cycle_count ∧
    (cpu_read_memory cpu a).2.output = cpu.output := by
  unfold cpu_read_memory host_getchar
  split_ifs <;> first | simp | (split <;> simp)

theorem fetch_frame (cpu : CPU) :
    (cpu_fetch cpu).2.registers = cpu.registers ∧
    (cpu_fetch cpu).2.pc = u16 (cpu.pc + 1) ∧
    (cpu_fetch cpu).2.flags = cpu.flags ∧
    (cpu_fetch cpu).2.memory = cpu.memory ∧
    (cpu_fetch cpu).2.halted = cpu.halted ∧
    (cpu_fetch cpu).2.cycle_count = cpu.cycle_count ∧
    (cpu_fetch cpu).2.output = cpu.output := by
  have h := read_memory_frame cpu cpu.pc
  simp only [cpu_fetch]
  obtain ⟨h1, h2, h3, h4, h5, h6, h7⟩ := h
  exact ⟨h1, by rw [h2], h3, h4, h5, h6, h7⟩

theorem write_memory_frame (cpu cpu' : CPU) (a v : Nat)
    (h : cpu_write_memory cpu a v = some cpu') :
    cpu'.registers = cpu.registers ∧ cpu'.pc = cpu.pc ∧ cpu'.flags = cpu.flags ∧
    cpu'.halted = cpu.halted ∧ cpu'.cycle_count = cpu.cycle_count ∧
    cpu'.input = cpu.input ∧ cpu'.ir = cpu.ir := by
  unfold cpu_write_memory at h
  split_ifs at h
  · cases h; simp
  · cases h; simp
  · cases hl : str_out_loop 65536 cpu.memory v cpu.output with
    | none => simp [hl] at h
    | some out => simp [hl] at h; cases h; simp
  · cases h; simp
  · cases h; simp

/-! ### The outer switch, one opcode at a time -/

theorem cpu_step_running (cpu : CPU) (hrun : cpu.halted = false) :
    cpu_step cpu = (cpu_decode_execute (cpu_fetch cpu).2 (fetched cpu)).map fun c =>
      { c with cycle_count := (c.cycle_count + 1) % 2 ^ 64 } := by
  simp [cpu_step, hrun, fetched]

theorem cpu_step_some (cpu cpu' : CPU) (hrun : cpu.halted = false)
    (hstep : cpu_step cpu = some cpu') :
    ∃ c, cpu_decode_execute (cpu_fetch cpu).2 (fetched cpu) = some c ∧
      cpu' = { c with cycle_count := (c.cycle_count + 1) % 2 ^ 64 } := by
  rw [cpu_step_running cpu hrun] at hstep
  cases hd : cpu_decode_execute (cpu_fetch cpu).2 (fetched cpu) with
  | none => simp [hd] at hstep
  | some c =>
    refine ⟨c, rfl, ?_⟩
    simp [hd] at hstep
    exact hstep.symm

theorem decode_execute_nop (cpu : CPU) (i : Nat) (h : dec_opcode i = OP_NOP) :
    cpu_decode_execute cpu i = some cpu := by
  simp [cpu_decode_execute, h]

theorem decode_execute_load (cpu : CPU) (i : Nat) (h : dec_opcode i = OP_LOAD) :
    cpu_decode_execute cpu i = some (exec_load cpu (dec_rd i) (dec_rs i) (dec_mode i)) := by
  simp [cpu_decode_execute, h]

theorem decode_execute_store (cpu : CPU) (i : Nat) (h : dec_opcode i = OP_STORE) :
    cpu_decode_execute cpu i = exec_store cpu (dec_rd i) (dec_rs i) (dec_mode i) := by
  simp [cpu_decode_execute, h]

theorem decode_execute_move (cpu : CPU) (i : Nat) (h : dec_opcode i = OP_MOVE) :
    cpu_decode_execute cpu i = some (set_reg cpu (dec_rd i) (cpu.registers (dec_rs i))) := by
  simp [cpu_decode_execute, h]

theorem decode_execute_arith (cpu : CPU) (i : Nat) (h : dec_opcode i = OP_ARITH) :
    cpu_decode_execute cpu i = some (exec_arith cpu (dec_rd i) (dec_rs i) (dec_mode i)) := by
  simp [cpu_decode_execute, h]

theorem decode_execute_logic (cpu : CPU) (i : Nat) (h : dec_opcode i = OP_LOGIC) :
    cpu_decode_execute cpu i = some (exec_logic cpu (dec_rd i) (dec_rs i) (dec_mode i)) := by
  simp [cpu_decode_execute, h]

theorem decode_execute_shift (cpu : CPU) (i : Nat) (h : dec_opcode i = OP_SHIFT) :
    cpu_decode_execute cpu i = some (exec_shift cpu (dec_rd i) (dec_rs i) (dec_mode i)) := by
  simp [cpu_decode_execute, h]

theorem decode_execute_branch (cpu : CPU) (i : Nat) (h : dec_opcode i = OP_BRANCH) :
    cpu_decode_execute cpu i = some (exec_branch cpu (dec_mode i)) := by
  simp [cpu_decode_execute, h]

theorem decode_execute_jump (cpu : CPU) (i : Nat) (h : dec_opcode i = OP_JUMP) :
    cpu_decode_execute cpu i = some (exec_jump cpu) := by
  simp [cpu_decode_execute, h]

theorem decode_execute_stack (cpu : CPU) (i : Nat) (h : dec_opcode i = OP_STACK) :
    cpu_decode_execute cpu i = exec_stack cpu (dec_rd i) (dec_rs i) (dec_mode i) := by
  simp [cpu_decode_execute, h]

theorem decode_execute_call (cpu : CPU) (i : Nat) (h : dec_opcode i = OP_CALL) :
    cpu_decode_execute cpu i = exec_call cpu := by
  simp [cpu_decode_execute, h]

theorem decode_execute_ret (cpu : CPU) (i : Nat) (h : dec_opcode i = OP_RET) :
    cpu_decode_execute cpu i = some (exec_ret cpu) := by
  simp [cpu_decode_execute, h]

theorem decode_execute_cmp (cpu : CPU) (i : Nat) (h : dec_opcode i = OP_CMP) :
    cpu_decode_execute cpu i = some (exec_cmp cpu (dec_rd i) (dec_rs i)) := by
  simp [cpu_decode_execute, h]

theorem decode_execute_halt (cpu : CPU) (i : Nat) (h : dec_opcode i = OP_HALT) :
    cpu_decode_execute cpu i = some { cpu with halted := true } := by
  simp [cpu_decode_execute, h]

/-! ### The program counter after each case -/

theorem exec_load_pc (cpu : CPU) (rd rs mode : Nat) :
    (exec_load cpu rd rs mode).pc =
      if mode = LOAD_IMM ∨ mode = LOAD_DIR then u16 (cpu.pc + 1) else cpu.pc := by
  unfold exec_load
  simp only [LOAD_IMM, LOAD_DIR, LOAD_IND]
  split_ifs <;>
    first
    | omega
    | rfl
    | simp [set_reg, (read_memory_frame _ _).2.1, (fetch_frame cpu).2.1]

theorem exec_store_pc (cpu cpu' : CPU) (rd rs mode : Nat)
    (h : exec_store cpu rd rs mode = some cpu') :
    cpu'.pc = if mode = STORE_DIR then u16 (cpu.pc + 1) else cpu.pc := by
  unfold exec_store at h
  split_ifs at h with h0 h1
  · rw [if_pos h0, (write_memory_frame _ _ _ _ h).2.1, (fetch_frame cpu).2.1]
  · rw [if_neg h0, (write_memory_frame _ _ _ _ h).2.1]
  · cases h; rw [if_neg h0]

theorem cpu_update_flags_frame (cpu : CPU) (r : Nat) (b : Bool) (f : Nat) :
    (cpu_update_flags cpu r b f).pc = cpu.pc ∧
    (cpu_update_flags cpu r b f).registers = cpu.registers ∧
    (cpu_update_flags cpu r b f).memory = cpu.memory ∧
    (cpu_update_flags cpu r b f).halted = cpu.halted :=
  ⟨rfl, rfl, rfl, rfl⟩

theorem exec_arith_pc (cpu : CPU) (rd rs mode : Nat) :
    (exec_arith cpu rd rs mode).pc =
      if mode = ARITH_ADDI ∨ mode = ARITH_SUBI then u16 (cpu.pc + 1) else cpu.pc := by
  unfold exec_arith
  simp only [ARITH_ADD, ARITH_SUB, ARITH_MUL, ARITH_DIV, ARITH_INC, ARITH_DEC, ARITH_ADDI,
    ARITH_SUBI]
  split_ifs <;>
    first
    | omega
    | rfl
    | simp [arith_commit, cpu_update_flags, set_reg, (fetch_frame cpu).2.1]

theorem exec_logic_pc (cpu : CPU) (rd rs mode : Nat) : (exec_logic cpu rd rs mode).pc = cpu.pc := by
  unfold exec_logic
  split_ifs <;> rfl

theorem exec_shift_pc (cpu : CPU) (rd rs mode : Nat) : (exec_shift cpu rd rs mode).pc = cpu.pc := by
  unfold exec_shift
  split_ifs <;> rfl

theorem exec_branch_pc (cpu : CPU) (mode : Nat) :
    (exec_branch cpu mode).pc =
      if should_branch cpu.flags mode then (cpu_fetch cpu).1 else u16 (cpu.pc + 1) := by
  unfold exec_branch
  dsimp only
  rw [(fetch_frame cpu).2.2.1]
  split_ifs
  · rfl
  · exact (fetch_frame cpu).2.1

theorem exec_stack_pc (cpu cpu' : CPU) (rd rs mode : Nat)
    (h : exec_stack cpu rd rs mode = some cpu') : cpu'.pc = cpu.pc := by
  unfold exec_stack at h
  split_ifs at h
  · rw [(write_memory_frame _ _ _ _ h).2.1]; rfl
  · cases h; simp [set_reg, (read_memory_frame _ _).2.1]
  · cases h; rfl

theorem exec_call_pc (cpu cpu' : CPU) (h : exec_call cpu = some cpu') :
    cpu'.pc = (cpu_fetch cpu).1 := by
  unfold exec_call at h
  dsimp only at h
  rw [Option.map_eq_some'] at h
  obtain ⟨c1, _, rfl⟩ := h
  rfl

theorem exec_ret_pc (cpu : CPU) :
    (exec_ret cpu).pc = (cpu_read_memory cpu (cpu.registers REG_SP)).1 := rfl

/-! ### The flags after the cases that do not compute -/

theorem exec_load_flags (cpu : CPU) (rd rs mode : Nat) :
    (exec_load cpu rd rs mode).flags = cpu.flags := by
  unfold exec_load
  split_ifs <;>
    first
    | rfl
    | simp [set_reg, (read_memory_frame _ _).2.2.1, (fetch_frame cpu).2.2.1]

theorem exec_store_flags (cpu cpu' : CPU) (rd rs mode : Nat)
    (h : exec_store cpu rd rs mode = some cpu') : cpu'.flags = cpu.flags := by
  unfold exec_store at h
  split_ifs at h
  · rw [(write_memory_frame _ _ _ _ h).2.2.1, (fetch_frame cpu).2.2.1]
  · exact (write_memory_frame _ _ _ _ h).2.2.1
  · cases h; rfl

theorem exec_branch_flags (cpu : CPU) (mode : Nat) :
    (exec_branch cpu mode).flags = cpu.flags := by
  unfold exec_branch
  dsimp only
  split_ifs <;> simp [(fetch_frame cpu).2.2.1]

theorem exec_stack_flags (cpu cpu' : CPU) (rd rs mode : Nat)
    (h : exec_stack cpu rd rs mode = some cpu') : cpu'.flags = cpu.flags := by
  unfold exec_stack at h
  split_ifs at h
  · rw [(write_memory_frame _ _ _ _ h).2.2.1]; rfl
  · cases h; simp [set_reg, (read_memory_frame _ _).2.2.1]
  · cases h; rfl

theorem exec_call_flags (cpu cpu' : CPU) (h : exec_call cpu = some cpu') :
    cpu'.flags = cpu.flags := by
  unfold exec_call at h
  dsimp only at h
  rw [Option.map_eq_some'] at h
  obtain ⟨c1, hw, rfl⟩ := h
  dsimp only
  rw [(write_memory_frame _ _ _ _ hw).2.2.1]
  simp [set_reg, (fetch_frame cpu).2.2.1]

theorem exec_ret_flags (cpu : CPU) : (exec_ret cpu).flags = cpu.flags := by
  simp [exec_ret, set_reg, (read_memory_frame _ _).2.2.1]

/-! ### C10: flags are written only by arithmetic, logic, shift and compare -/

/-- C10: a step whose instruction is NOP, LOAD, STORE, MOVE, BRANCH, JUMP, a
STACK operation (PUSH, POP), CALL, RET or HALT leaves the four flags Z, N, C and
V as they were. -/
theorem step_keeps_flags (cpu cpu' : CPU) (hstep : cpu_step cpu = some cpu')
    (hop : dec_opcode (fetched cpu) ∈
      [OP_NOP, OP_LOAD, OP_STORE, OP_MOVE, OP_BRANCH, OP_JUMP, OP_STACK, OP_CALL, OP_RET,
        OP_HALT]) :
    cpu'.flags.Z = cpu.flags.Z ∧ cpu'.flags.N = cpu.flags.N ∧
    cpu'.flags.C = cpu.flags.C ∧ cpu'.flags.V = cpu.flags.V := by
  have hfl : cpu'.flags = cpu.flags := by
    cases hh : cpu.halted with
    | true =>
      simp [cpu_step, hh] at hstep
      rw [hstep]
    | false =>
      obtain ⟨c, hc, rfl⟩ := cpu_step_some cpu cpu' hh hstep
      have hf := (fetch_frame cpu).2.2.1
      dsimp only
      simp only [List.mem_cons, List.mem_singleton, List.not_mem_nil, or_false] at hop
      rcases hop with h | h | h | h | h | h | h | h | h | h
      · rw [decode_execute_nop _ _ h] at hc; cases hc; exact hf
      · rw [decode_execute_load _ _ h] at hc; cases hc; rw [exec_load_flags, hf]
      · rw [decode_execute_store _ _ h] at hc; rw [exec_store_flags _ _ _ _ _ hc, hf]
      · rw [decode_execute_move _ _ h] at hc; cases hc; exact hf
      · rw [decode_execute_branch _ _ h] at hc; cases hc; rw [exec_branch_flags, hf]
      · rw [decode_execute_jump _ _ h] at hc; cases hc
        simp [exec_jump, (fetch_frame _).2.2.1]
      · rw [decode_execute_stack _ _ h] at hc; rw [exec_stack_flags _ _ _ _ _ hc, hf]
      · rw [decode_execute_call _ _ h] at hc; rw [exec_call_flags _ _ hc, hf]
      · rw [decode_execute_ret _ _ h] at hc; cases hc; rw [exec_ret_flags, hf]
      · rw [decode_execute_halt _ _ h] at hc; cases hc; exact hf
  rw [hfl]
  exact ⟨rfl, rfl, rfl, rfl⟩

/-! ### C3: the program counter after one step -/

/-- C3: after one step of a running CPU the PC is `(PC + 1) mod 2^16` for the
one-word instructions, `(PC + 2) mod 2^16` for LOAD immediate, LOAD direct,
STORE direct, ADDI, SUBI and a BRANCH whose condition is false, the fetched
target word for a taken BRANCH, JUMP and CALL, and the word read at the old SP
for RET. -/
theorem step_pc (cpu cpu' : CPU) (hrun : cpu.halted = false)
    (hstep : cpu_step cpu = some cpu') :
    ((dec_opcode (fetched cpu) = OP_NOP ∨
        (dec_opcode (fetched cpu) = OP_LOAD ∧ dec_mode (fetched cpu) = LOAD_IND) ∨
        (dec_opcode (fetched cpu) = OP_STORE ∧ dec_mode (fetched cpu) = STORE_IND) ∨
        dec_opcode (fetched cpu) = OP_MOVE ∨
        (dec_opcode (fetched cpu) = OP_ARITH ∧ dec_mode (fetched cpu) ≠ ARITH_ADDI ∧
          dec_mode (fetched cpu) ≠ ARITH_SUBI) ∨
        dec_opcode (fetched cpu) = OP_LOGIC ∨
        dec_opcode (fetched cpu) = OP_SHIFT ∨
        (dec_opcode (fetched cpu) = OP_STACK ∧
          (dec_mode (fetched cpu) = STACK_PUSH ∨ dec_mode (fetched cpu) = STACK_POP)) ∨
        dec_opcode (fetched cpu) = OP_CMP ∨
        dec_opcode (fetched cpu) = OP_HALT) →
      cpu'.pc = (cpu.pc + 1) % 65536) ∧
    (((dec_opcode (fetched cpu) = OP_LOAD ∧
          (dec_mode (fetched cpu) = LOAD_IMM ∨ dec_mode (fetched cpu) = LOAD_DIR)) ∨
        (dec_opcode (fetched cpu) = OP_STORE ∧ dec_mode (fetched cpu) = STORE_DIR) ∨
        (dec_opcode (fetched cpu) = OP_ARITH ∧
          (dec_mode (fetched cpu) = ARITH_ADDI ∨ dec_mode (fetched cpu) = ARITH_SUBI)) ∨
        (dec_opcode (fetched cpu) = OP_BRANCH ∧
          should_branch cpu.flags (dec_mode (fetched cpu)) = false)) →
      cpu'.pc = (cpu.pc + 2) % 65536) ∧
    (((dec_opcode (fetched cpu) = OP_BRANCH ∧
          should_branch cpu.flags (dec_mode (fetched cpu)) = true) ∨
        dec_opcode (fetched cpu) = OP_JUMP ∨
        dec_opcode (fetched cpu) = OP_CALL) →
      cpu'.pc = fetched_extra cpu) ∧
    (dec_opcode (fetched cpu) = OP_RET →
      cpu'.pc = (cpu_read_memory (cpu_fetch cpu).2 (cpu.registers REG_SP)).1) := by
  obtain ⟨c, hc, rfl⟩ := cpu_step_some cpu cpu' hrun hstep
  have hp : (cpu_fetch cpu).2.pc = (cpu.pc + 1) % 65536 := (fetch_frame cpu).2.1
  have hp2 : u16 ((cpu_fetch cpu).2.pc + 1) = (cpu.pc + 2) % 65536 := by
    rw [hp]; unfold u16; omega
  have hf : (cpu_fetch cpu).2.flags = cpu.flags := (fetch_frame cpu).2.2.1
  have hr : (cpu_fetch cpu).2.registers = cpu.registers := (fetch_frame cpu).1
  dsimp only
  refine ⟨?_, ?_, ?_, ?_⟩
  · rintro (h | ⟨h, hm⟩ | ⟨h, hm⟩ | h | ⟨h, hm1, hm2⟩ | h | h | ⟨h, hm⟩ | h | h)
    · rw [decode_execute_nop _ _ h] at hc; cases hc; exact hp
    · rw [decode_execute_load _ _ h] at hc; cases hc
      rw [exec_load_pc, hm, hp]; simp
    · rw [decode_execute_store _ _ h] at hc
      rw [exec_store_pc _ _ _ _ _ hc, hm, hp]; simp
    · rw [decode_execute_move _ _ h] at hc; cases hc; exact hp
    · rw [decode_execute_arith _ _ h] at hc; cases hc
      rw [exec_arith_pc, if_neg (by tauto), hp]
    · rw [decode_execute_logic _ _ h] at hc; cases hc; rw [exec_logic_pc, hp]
    · rw [decode_execute_shift _ _ h] at hc; cases hc; rw [exec_shift_pc, hp]
    · rw [decode_execute_stack _ _ h] at hc; rw [exec_stack_pc _ _ _ _ _ hc, hp]
    · rw [decode_execute_cmp _ _ h] at hc; cases hc; exact hp
    · rw [decode_execute_halt _ _ h] at hc; cases hc; exact hp
  · rintro (⟨h, hm⟩ | ⟨h, hm⟩ | ⟨h, hm⟩ | ⟨h, hb⟩)
    · rw [decode_execute_load _ _ h] at hc; cases hc
      rw [exec_load_pc, if_pos hm, hp2]
    · rw [decode_execute_store _ _ h] at hc
      rw [exec_store_pc _ _ _ _ _ hc, if_pos hm, hp2]
    · rw [decode_execute_arith _ _ h] at hc; cases hc
      rw [exec_arith_pc, if_pos hm, hp2]
    · rw [decode_execute_branch _ _ h] at hc; cases hc
      rw [exec_branch_pc, hf, hb]; simpa using hp2
  · rintro (⟨h, hb⟩ | h | h)
    · rw [decode_execute_branch _ _ h] at hc; cases hc
      rw [exec_branch_pc, hf, hb]; rfl
    · rw [decode_execute_jump _ _ h] at hc; cases hc; rfl
    · rw [decode_execute_call _ _ h] at hc
      rw [exec_call_pc _ _ hc]; rfl
  · intro h
    rw [decode_execute_ret _ _ h] at hc; cases hc
    rw [exec_ret_pc, hr]

/-! ### Well-formed example states -/

theorem setAt_lt (a : Nat → Nat) (i v : Nat) (ha : ∀ j, a j < 65536) (hv : v < 65536) :
    ∀ j, setAt a i v j < 65536 := by
  intro j
  unfold setAt
  split_ifs
  · exact hv
  · exact ha j

theorem demo_cpu_wf (program : List Nat) (regs : Nat → Nat)
    (hp : ∀ w ∈ program, w < 65536) (hr : ∀ i, regs i < 65536) : (demo_cpu program regs).WF := by
  have hmem : ∀ a, copy_words (fun _ => 0) (program.take (u16 program.length)) 0 a < 65536 := by
    intro a
    unfold copy_words
    split_ifs with h
    · rw [List.getD_eq_getElem _ _ (by omega)]
      exact hp _ (List.mem_of_mem_take (List.getElem_mem _))
    · show (0 : Nat) < 65536
      decide
  unfold demo_cpu cpu_load_program
  split_ifs
  · exact ⟨hr, by simp [cpu_init], by simp [cpu_init], fun _ => by simp [cpu_init],
      by simp [cpu_init]⟩
  · exact ⟨hr, by simp, by simp [cpu_init], hmem, by simp [cpu_init]⟩

/-! ### C4: Z and N follow the 16-bit result -/

theorem and_bit15 (r : Nat) : r &&& 0x8000 ≠ 0 ↔ r.testBit 15 = true := by
  have h2 : (0x8000 : Nat) = 2 ^ 15 := by norm_num
  rw [h2]
  constructor
  · intro h
    by_contra hb
    apply h
    apply Nat.eq_of_testBit_eq
    intro i
    rw [Nat.testBit_and, Nat.testBit_two_pow, Nat.zero_testBit]
    by_cases hi : 15 = i
    · subst hi; simp [hb]
    · simp [hi]
  · intro hb h
    have h15 : (r &&& 2 ^ 15).testBit 15 = true := by
      rw [Nat.testBit_and, Nat.testBit_two_pow, hb]; rfl
    rw [h, Nat.zero_testBit] at h15
    exact Bool.noConfusion h15

theorem update_flags_zn (cpu : CPU) (r : Nat) (b : Bool) (f : Nat) :
    zn_match (cpu_update_flags cpu r b f).flags r := by
  unfold zn_match cpu_update_flags
  refine ⟨by simp, ?_⟩
  simp only [decide_eq_true_eq]
  exact and_bit15 r

theorem arith_commit_zn (cpu : CPU) (rd full : Nat) :
    zn_match (arith_commit cpu rd full).flags ((arith_commit cpu rd full).registers rd) := by
  have h : (arith_commit cpu rd full).registers rd = u16 full := by
    simp [arith_commit, cpu_update_flags, set_reg, setAt]
  rw [h]
  exact update_flags_zn _ _ _ _

theorem logic_commit_zn (cpu : CPU) (rd r : Nat) :
    zn_match (logic_commit cpu rd r).flags ((logic_commit cpu rd r).registers rd) := by
  have h : (logic_commit cpu rd r).registers rd = r := by
    simp [logic_commit, cpu_update_flags, set_reg, setAt]
  rw [h]
  exact update_flags_zn _ _ _ _

theorem exec_arith_zn (cpu : CPU) (rd rs mode : Nat) (hm : mode ≤ ARITH_SUBI)
    (hd : mode = ARITH_DIV → cpu.registers rs ≠ 0) :
    zn_match (exec_arith cpu rd rs mode).flags ((exec_arith cpu rd rs mode).registers rd) := by
  unfold exec_arith
  simp only [ARITH_ADD, ARITH_SUB, ARITH_MUL, ARITH_DIV, ARITH_INC, ARITH_DEC, ARITH_ADDI,
    ARITH_SUBI] at hm hd ⊢
  split_ifs with h0 h1 h2 h3 h4 h5 h6 h7 h8
  · exact arith_commit_zn _ _ _
  · exact arith_commit_zn _ _ _
  · exact arith_commit_zn _ _ _
  · exact logic_commit_zn _ _ _
  · exact absurd (hd h3) h4
  · exact logic_commit_zn _ _ _
  · exact logic_commit_zn _ _ _
  · exact arith_commit_zn _ _ _
  · exact arith_commit_zn _ _ _
  · omega

theorem exec_logic_zn (cpu : CPU) (rd rs mode : Nat) (hm : mode ≤ LOGIC_NOT) :
    zn_match (exec_logic cpu rd rs mode).flags ((exec_logic cpu rd rs mode).registers rd) := by
  unfold exec_logic
  simp only [LOGIC_AND, LOGIC_OR, LOGIC_XOR, LOGIC_NOT] at hm ⊢
  split_ifs
  · exact logic_commit_zn _ _ _
  · exact logic_commit_zn _ _ _
  · exact logic_commit_zn _ _ _
  · exact logic_commit_zn _ _ _
  · omega

theorem exec_shift_zn (cpu : CPU) (rd rs mode : Nat) (hm : mode ≤ SHIFT_ARITH) :
    zn_match (exec_shift cpu rd rs mode).flags ((exec_shift cpu rd rs mode).registers rd) := by
  unfold exec_shift
  simp only [SHIFT_LEFT, SHIFT_RIGHT, SHIFT_ARITH] at hm ⊢
  split_ifs
  · exact logic_commit_zn _ _ _
  · exact logic_commit_zn _ _ _
  · exact logic_commit_zn _ _ _
  · omega

theorem sub32_low (a b : Nat) (ha : a < 65536) (hb : b < 65536) :
    u16 (u32 (a + 4294967296 - b)) = sub16 a b := by
  unfold u16 u32 sub16
  omega

/-- C4 (amended): for ADD, SUB, MUL, INC, DEC, ADDI, SUBI, for DIV with a
non-zero divisor, for AND, OR, XOR, NOT and for SHL, SHR, SAR, after the step Z is
set exactly when the new value of `R[Rd]` is zero and N exactly when its bit 15
is set; for CMP the same holds of `R[Rd] - R[Rs] mod 2^16`. -/
theorem step_zn (cpu cpu' : CPU) (hwf : cpu.WF) (hrun : cpu.halted = false)
    (hstep : cpu_step cpu = some cpu') :
    ((dec_opcode (fetched cpu) = OP_ARITH ∧ dec_mode (fetched cpu) ≤ ARITH_SUBI ∧
          (dec_mode (fetched cpu) = ARITH_DIV → cpu.registers (dec_rs (fetched cpu)) ≠ 0) ∨
        dec_opcode (fetched cpu) = OP_LOGIC ∧ dec_mode (fetched cpu) ≤ LOGIC_NOT ∨
        dec_opcode (fetched cpu) = OP_SHIFT ∧ dec_mode (fetched cpu) ≤ SHIFT_ARITH) →
      zn_match cpu'.flags (cpu'.registers (dec_rd (fetched cpu)))) ∧
    (dec_opcode (fetched cpu) = OP_CMP →
      zn_match cpu'.flags
        (sub16 (cpu.registers (dec_rd (fetched cpu))) (cpu.registers (dec_rs (fetched cpu))))) := by
  obtain ⟨c, hc, rfl⟩ := cpu_step_some cpu cpu' hrun hstep
  have hr : (cpu_fetch cpu).2.registers = cpu.registers := (fetch_frame cpu).1
  dsimp only
  constructor
  · rintro (⟨h, hm, hd⟩ | ⟨h, hm⟩ | ⟨h, hm⟩)
    · rw [decode_execute_arith _ _ h] at hc; cases hc
      exact exec_arith_zn _ _ _ _ hm (by rw [hr]; exact hd)
    · rw [decode_execute_logic _ _ h] at hc; cases hc
      exact exec_logic_zn _ _ _ _ hm
    · rw [decode_execute_shift _ _ h] at hc; cases hc
      exact exec_shift_zn _ _ _ _ hm
  · intro h
    rw [decode_execute_cmp _ _ h] at hc; cases hc
    unfold exec_cmp
    dsimp only
    rw [hr, ← sub32_low _ _ (hwf.regs _) (hwf.regs _)]
    exact update_flags_zn _ _ _ _

/-- C4 as stated fails: `DIV R0, R1` with `R1 = 0` is an ARITH instruction
after which Z is still set although the value of `R[Rd]`, 5, is not zero. -/
theorem step_zn_div_zero_counterexample :
    div_zero_cpu.WF ∧ div_zero_cpu.halted = false ∧
    cpu_step div_zero_cpu = some (after_step div_zero_cpu) ∧
    dec_opcode (fetched div_zero_cpu) = OP_ARITH ∧
    dec_mode (fetched div_zero_cpu) = ARITH_DIV ∧
    (after_step div_zero_cpu).flags.Z = true ∧
    (after_step div_zero_cpu).registers (dec_rd (fetched div_zero_cpu)) = 5 ∧
    ¬ zn_match (after_step div_zero_cpu).flags
      ((after_step div_zero_cpu).registers (dec_rd (fetched div_zero_cpu))) := by
  refine ⟨?_, rfl, rfl, by decide, by decide, by decide, by decide, ?_⟩
  · have hw : (demo_cpu [0x4043] (setAt (fun _ => 0) 0 5)).WF :=
      demo_cpu_wf _ _ (by decide) (setAt_lt _ _ _ (fun _ => by decide) (by decide))
    exact ⟨hw.regs, hw.pc, hw.ir, hw.mem, hw.cycles⟩
  · intro h
    have h5 : (after_step div_zero_cpu).registers (dec_rd (fetched div_zero_cpu)) = 0 :=
      h.1.mp (by decide)
    revert h5
    decide

theorem div_cpu_wf : div_cpu.WF := by
  apply demo_cpu_wf
  · decide
  · exact setAt_lt _ _ _ (setAt_lt _ _ _ (fun _ => by decide) (by decide)) (by decide)

/-- Witness of C4 (amended): `DIV R0, R1` with `R0 = 7`, `R1 = 2` leaves
`R0 = 3` with Z and N clear. -/
theorem step_zn_witness :
    div_cpu.WF ∧ div_cpu.halted = false ∧ cpu_step div_cpu = some (after_step div_cpu) ∧
    (after_step div_cpu).registers 0 = 3 ∧
    zn_match (after_step div_cpu).flags ((after_step div_cpu).registers 0) :=
  ⟨div_cpu_wf, rfl, rfl, by decide,
    (step_zn div_cpu (after_step div_cpu) div_cpu_wf rfl rfl).1
      (Or.inl ⟨by decide, by decide, fun _ => by decide⟩)⟩

/-- Witness of C3: `LDI R0, 5` at address 0 is a two-word instruction, and the
step leaves PC = 2. -/
theorem step_pc_witness :
    ldi_cpu.halted = false ∧ cpu_step ldi_cpu = some (after_step ldi_cpu) ∧
    (after_step ldi_cpu).pc = 2 :=
  ⟨rfl, rfl,
    ((step_pc ldi_cpu (after_step ldi_cpu) rfl rfl).2.1
      (Or.inl ⟨by decide, Or.inl (by decide)⟩)).trans (by decide)⟩

/-- Witness of C10: `MOV R0, R1` with Z and C set copies the register and
leaves Z and C set, N and V clear. -/
theorem step_keeps_flags_witness :
    cpu_step mov_cpu = some (after_step mov_cpu) ∧
    (after_step mov_cpu).registers 0 = 9 ∧
    (after_step mov_cpu).flags.Z = true ∧ (after_step mov_cpu).flags.N = false ∧
    (after_step mov_cpu).flags.C = true ∧ (after_step mov_cpu).flags.V = false :=
  ⟨rfl, by decide, step_keeps_flags mov_cpu (after_step mov_cpu) rfl (by decide)⟩

/-! ### C5 and C6: ADD, SUB, MUL and DIV -/

theorem exec_arith_add (cpu : CPU) (rd rs : Nat) :
    exec_arith cpu rd rs ARITH_ADD =
      arith_commit cpu rd (u32 (cpu.registers rd + cpu.registers rs)) := rfl

theorem exec_arith_sub (cpu : CPU) (rd rs : Nat) :
    exec_arith cpu rd rs ARITH_SUB =
      arith_commit cpu rd (u32 (cpu.registers rd + 4294967296 - cpu.registers rs)) := rfl

theorem exec_arith_mul (cpu : CPU) (rd rs : Nat) :
    exec_arith cpu rd rs ARITH_MUL =
      arith_commit cpu rd (u32 (cpu.registers rd * cpu.registers rs)) := rfl

theorem exec_arith_div (cpu : CPU) (rd rs : Nat) :
    exec_arith cpu rd rs ARITH_DIV =
      if cpu.registers rs ≠ 0 then
        logic_commit cpu rd (u16 (cpu.registers rd / cpu.registers rs))
      else cpu := rfl

theorem arith_commit_reg (cpu : CPU) (rd full : Nat) :
    (arith_commit cpu rd full).registers rd = u16 full := by
  simp [arith_commit, cpu_update_flags, set_reg, setAt]

theorem arith_commit_carry (cpu : CPU) (rd full : Nat) :
    (arith_commit cpu rd full).flags.C = decide (full > 0xFFFF) := rfl

theorem logic_commit_reg (cpu : CPU) (rd r : Nat) :
    (logic_commit cpu rd r).registers rd = r := by
  simp [logic_commit, cpu_update_flags, set_reg, setAt]

theorem logic_commit_carry (cpu : CPU) (rd r : Nat) :
    (logic_commit cpu rd r).flags.C = cpu.flags.C := rfl

/-- C5: with `R[Rd] = a` and `R[Rs] = b`, ADD, SUB and MUL leave in `R[Rd]` the
low 16 bits of `a + b`, `a - b` and `a * b`, and set C exactly when
`a + b ≥ 65536`, when `a < b`, and when `a * b ≥ 65536` respectively. -/
theorem step_add_sub_mul (cpu cpu' : CPU) (hwf : cpu.WF) (hrun : cpu.halted = false)
    (hstep : cpu_step cpu = some cpu') (hop : dec_opcode (fetched cpu) = OP_ARITH) :
    (dec_mode (fetched cpu) = ARITH_ADD →
      cpu'.registers (dec_rd (fetched cpu)) =
          (cpu.registers (dec_rd (fetched cpu)) + cpu.registers (dec_rs (fetched cpu))) % 65536 ∧
        (cpu'.flags.C = true ↔
          cpu.registers (dec_rd (fetched cpu)) + cpu.registers (dec_rs (fetched cpu)) ≥ 65536)) ∧
    (dec_mode (fetched cpu) = ARITH_SUB →
      cpu'.registers (dec_rd (fetched cpu)) =
          sub16 (cpu.registers (dec_rd (fetched cpu))) (cpu.registers (dec_rs (fetched cpu))) ∧
        (cpu'.flags.C = true ↔
          cpu.registers (dec_rd (fetched cpu)) < cpu.registers (dec_rs (fetched cpu)))) ∧
    (dec_mode (fetched cpu) = ARITH_MUL →
      cpu'.registers (dec_rd (fetched cpu)) =
          (cpu.registers (dec_rd (fetched cpu)) * cpu.registers (dec_rs (fetched cpu))) % 65536 ∧
        (cpu'.flags.C = true ↔
          cpu.registers (dec_rd (fetched cpu)) * cpu.registers (dec_rs (fetched cpu)) ≥ 65536)) := by
  obtain ⟨c, hc, rfl⟩ := cpu_step_some cpu cpu' hrun hstep
  have hr : (cpu_fetch cpu).2.registers = cpu.registers := (fetch_frame cpu).1
  rw [decode_execute_arith _ _ hop] at hc
  cases hc
  dsimp only
  have ha := hwf.regs (dec_rd (fetched cpu))
  have hb := hwf.regs (dec_rs (fetched cpu))
  refine ⟨?_, ?_, ?_⟩
  · intro hm
    rw [hm, exec_arith_add, arith_commit_reg, arith_commit_carry, hr, decide_eq_true_eq]
    unfold u16 u32
    constructor <;> omega
  · intro hm
    rw [hm, exec_arith_sub, arith_commit_reg, arith_commit_carry, hr, decide_eq_true_eq,
      sub32_low _ _ ha hb]
    unfold u32
    exact ⟨rfl, by omega⟩
  · intro hm
    have hlt : cpu.registers (dec_rd (fetched cpu)) * cpu.registers (dec_rs (fetched cpu)) <
        4294967296 :=
      calc cpu.registers (dec_rd (fetched cpu)) * cpu.registers (dec_rs (fetched cpu))
          < 65536 * 65536 := Nat.mul_lt_mul'' ha hb
        _ = 4294967296 := by norm_num
    rw [hm, exec_arith_mul, arith_commit_reg, arith_commit_carry, hr, decide_eq_true_eq]
    unfold u16 u32
    rw [Nat.mod_eq_of_lt hlt]
    exact ⟨rfl, by omega⟩

theorem add_cpu_wf : add_cpu.WF := by
  apply demo_cpu_wf
  · decide
  · exact setAt_lt _ _ _ (setAt_lt _ _ _ (fun _ => by decide) (by decide)) (by decide)

/-- Witness of C5: `ADD R0, R1` with `R0 = 0xFFFF`, `R1 = 2` leaves `R0 = 1`
and sets the carry. -/
theorem step_add_sub_mul_witness :
    add_cpu.WF ∧ add_cpu.halted = false ∧ cpu_step add_cpu = some (after_step add_cpu) ∧
    dec_opcode (fetched add_cpu) = OP_ARITH ∧
    (after_step add_cpu).registers 0 = 1 ∧ (after_step add_cpu).flags.C = true :=
  ⟨add_cpu_wf, rfl, rfl, by decide,
    (((step_add_sub_mul add_cpu (after_step add_cpu) add_cpu_wf rfl rfl (by decide)).1
      (by decide)).1.trans (by decide)),
    ((step_add_sub_mul add_cpu (after_step add_cpu) add_cpu_wf rfl rfl (by decide)).1
      (by decide)).2.mpr (by decide)⟩

/-- C6: DIV with `R[Rs] = 0` leaves every register and the four flags
unchanged and does not halt; with `R[Rs] ≠ 0` it leaves the unsigned quotient
in `R[Rd]`, sets Z and N from the quotient and leaves C unchanged. -/
theorem step_div (cpu cpu' : CPU) (hwf : cpu.WF) (hrun : cpu.halted = false)
    (hstep : cpu_step cpu = some cpu') (hop : dec_opcode (fetched cpu) = OP_ARITH)
    (hmode : dec_mode (fetched cpu) = ARITH_DIV) :
    (cpu.registers (dec_rs (fetched cpu)) = 0 →
      cpu'.registers = cpu.registers ∧ cpu'.flags = cpu.flags ∧ cpu'.halted = false) ∧
    (cpu.registers (dec_rs (fetched cpu)) ≠ 0 →
      cpu'.registers (dec_rd (fetched cpu)) =
          cpu.registers (dec_rd (fetched cpu)) / cpu.registers (dec_rs (fetched cpu)) ∧
        zn_match cpu'.flags
          (cpu.registers (dec_rd (fetched cpu)) / cpu.registers (dec_rs (fetched cpu))) ∧
        cpu'.flags.C = cpu.flags.C ∧ cpu'.halted = false) := by
  obtain ⟨c, hc, rfl⟩ := cpu_step_some cpu cpu' hrun hstep
  have hr : (cpu_fetch cpu).2.registers = cpu.registers := (fetch_frame cpu).1
  have hf : (cpu_fetch cpu).2.flags = cpu.flags := (fetch_frame cpu).2.2.1
  have hh : (cpu_fetch cpu).2.halted = false := by rw [(fetch_frame cpu).2.2.2.2.1, hrun]
  rw [decode_execute_arith _ _ hop, hmode, exec_arith_div, hr] at hc
  dsimp only
  constructor
  · intro hz
    rw [if_neg (by simpa using hz)] at hc
    cases hc
    exact ⟨hr, hf, hh⟩
  · intro hnz
    rw [if_pos hnz] at hc
    cases hc
    have hq : u16 (cpu.registers (dec_rd (fetched cpu)) / cpu.registers (dec_rs (fetched cpu))) =
        cpu.registers (dec_rd (fetched cpu)) / cpu.registers (dec_rs (fetched cpu)) := by
      unfold u16
      exact Nat.mod_eq_of_lt
        (lt_of_le_of_lt (Nat.div_le_self _ _) (hwf.regs (dec_rd (fetched cpu))))
    rw [logic_commit_reg, logic_commit_carry, hq, hf]
    refine ⟨rfl, ?_, rfl, hh⟩
    have := logic_commit_zn (cpu_fetch cpu).2 (dec_rd (fetched cpu))
      (cpu.registers (dec_rd (fetched cpu)) / cpu.registers (dec_rs (fetched cpu)))
    rw [logic_commit_reg] at this
    exact this

/-- Witness of C6: `DIV R0, R1` with `R0 = 7`, `R1 = 2` leaves `R0 = 3`. -/
theorem step_div_witness :
    div_cpu.WF ∧ div_cpu.halted = false ∧ cpu_step div_cpu = some (after_step div_cpu) ∧
    dec_opcode (fetched div_cpu) = OP_ARITH ∧ dec_mode (fetched div_cpu) = ARITH_DIV ∧
    (after_step div_cpu).registers 0 = 3 ∧ (after_step div_cpu).halted = false :=
  ⟨div_cpu_wf, rfl, rfl, by decide, by decide,
    ((step_div div_cpu (after_step div_cpu) div_cpu_wf rfl rfl (by decide) (by decide)).2
      (by decide)).1.trans (by decide),
    ((step_div div_cpu (after_step div_cpu) div_cpu_wf rfl rfl (by decide) (by decide)).2
      (by decide)).2.2.2⟩

/-! ### C7 and C8: the stack round trips -/

theorem write_memory_ram (cpu : CPU) (a v : Nat) (h : a < MMIO_START) :
    cpu_write_memory cpu a v = some { cpu with memory := setAt cpu.memory a v } := by
  unfold cpu_write_memory
  rw [if_neg (by omega)]

theorem read_memory_ram (cpu : CPU) (a : Nat) (h : a < MMIO_START) :
    cpu_read_memory cpu a = (cpu.memory a, cpu) := by
  unfold cpu_read_memory
  rw [if_neg (by omega)]

theorem exec_stack_push (cpu : CPU) (rd rs : Nat) :
    exec_stack cpu rd rs STACK_PUSH =
      cpu_write_memory (set_reg cpu REG_SP (u16 (cpu.registers REG_SP + 65535)))
        ((set_reg cpu REG_SP (u16 (cpu.registers REG_SP + 65535))).registers REG_SP)
        ((set_reg cpu REG_SP (u16 (cpu.registers REG_SP + 65535))).registers rs) := by
  unfold exec_stack
  exact if_pos rfl

theorem exec_stack_pop (cpu : CPU) (rd rs : Nat) :
    exec_stack cpu rd rs STACK_POP =
      some (set_reg (set_reg (cpu_read_memory cpu (cpu.registers REG_SP)).2 rd
          (cpu_read_memory cpu (cpu.registers REG_SP)).1) REG_SP
        (u16 ((set_reg (cpu_read_memory cpu (cpu.registers REG_SP)).2 rd
          (cpu_read_memory cpu (cpu.registers REG_SP)).1).registers REG_SP + 1))) := by
  unfold exec_stack
  rw [if_neg (by decide), if_pos rfl]

theorem set_reg_registers (cpu : CPU) (rd v : Nat) :
    (set_reg cpu rd v).registers = setAt cpu.registers rd v := rfl

theorem setAt_same (a : Nat → Nat) (i v : Nat) : setAt a i v i = v := by
  unfold setAt
  rw [if_pos rfl]

theorem setAt_other (a : Nat → Nat) (i v j : Nat) (h : j ≠ i) : setAt a i v j = a j := by
  unfold setAt
  rw [if_neg h]

theorem sp_round_trip (sp : Nat) (h : sp < 65536) : u16 (u16 (sp + 65535) + 1) = sp := by
  unfold u16
  omega

/-- The state that a PUSH leaves when the decremented stack pointer is in RAM. -/
theorem step_push_ram (cpu c1 : CPU) (hrun : cpu.halted = false)
    (h1 : cpu_step cpu = some c1)
    (hop : dec_opcode (fetched cpu) = OP_STACK) (hmode : dec_mode (fetched cpu) = STACK_PUSH)
    (hram : u16 (cpu.registers REG_SP + 65535) < MMIO_START) :
    c1.halted = false ∧
    c1.registers = setAt cpu.registers REG_SP (u16 (cpu.registers REG_SP + 65535)) ∧
    c1.memory = setAt cpu.memory (u16 (cpu.registers REG_SP + 65535))
      (setAt cpu.registers REG_SP (u16 (cpu.registers REG_SP + 65535))
        (dec_rs (fetched cpu))) := by
  obtain ⟨c, hc, rfl⟩ := cpu_step_some cpu c1 hrun h1
  have hr : (cpu_fetch cpu).2.registers = cpu.registers := (fetch_frame cpu).1
  have hm : (cpu_fetch cpu).2.memory = cpu.memory := (fetch_frame cpu).2.2.2.1
  have hh : (cpu_fetch cpu).2.halted = false := by rw [(fetch_frame cpu).2.2.2.2.1, hrun]
  rw [decode_execute_stack _ _ hop, hmode, exec_stack_push] at hc
  have hsp : (set_reg (cpu_fetch cpu).2 REG_SP
      (u16 ((cpu_fetch cpu).2.registers REG_SP + 65535))).registers REG_SP =
      u16 (cpu.registers REG_SP + 65535) := by
    rw [set_reg_registers, setAt_same, hr]
  rw [hsp, write_memory_ram _ _ _ hram] at hc
  cases hc
  refine ⟨hh, ?_, ?_⟩
  · show setAt (cpu_fetch cpu).2.registers REG_SP
      (u16 ((cpu_fetch cpu).2.registers REG_SP + 65535)) = _
    rw [hr]
  · show setAt (cpu_fetch cpu).2.memory _ (setAt (cpu_fetch cpu).2.registers REG_SP
      (u16 ((cpu_fetch cpu).2.registers REG_SP + 65535)) _) = _
    rw [hr, hm]

/-- C7 (amended): when the decremented stack pointer `SP - 1 mod 2^16` lies
below the MMIO window, PUSH r followed as the very next instruction by POP r
leaves `R[r]` and SP at the values they had before the PUSH, for every register
r including SP. -/
theorem push_pop_round_trip (cpu c1 c2 : CPU) (r : Nat) (hwf : cpu.WF)
    (hrun : cpu.halted = false)
    (h1 : cpu_step cpu = some c1) (h2 : cpu_step c1 = some c2)
    (hpush : dec_opcode (fetched cpu) = OP_STACK ∧ dec_mode (fetched cpu) = STACK_PUSH ∧
      dec_rs (fetched cpu) = r)
    (hpop : dec_opcode (fetched c1) = OP_STACK ∧ dec_mode (fetched c1) = STACK_POP ∧
      dec_rd (fetched c1) = r)
    (hram : u16 (cpu.registers REG_SP + 65535) < MMIO_START) :
    c2.registers r = cpu.registers r ∧ c2.registers REG_SP = cpu.registers REG_SP := by
  obtain ⟨hh1, hr1, hm1⟩ := step_push_ram cpu c1 hrun h1 hpush.1 hpush.2.1 hram
  rw [hpush.2.2] at hm1
  obtain ⟨c, hc, rfl⟩ := cpu_step_some c1 c2 hh1 h2
  have hr : (cpu_fetch c1).2.registers = c1.registers := (fetch_frame c1).1
  have hm : (cpu_fetch c1).2.memory = c1.memory := (fetch_frame c1).2.2.2.1
  rw [decode_execute_stack _ _ hpop.1, hpop.2.1, hpop.2.2, exec_stack_pop] at hc
  have hsp1 : c1.registers REG_SP = u16 (cpu.registers REG_SP + 65535) := by
    rw [hr1, setAt_same]
  rw [hr, hsp1, read_memory_ram _ _ hram, hm, hm1, setAt_same] at hc
  cases hc
  have hsp := sp_round_trip _ (hwf.regs REG_SP)
  set sp1 := u16 (cpu.registers REG_SP + 65535) with hsp1def
  show setAt (setAt (cpu_fetch c1).2.registers r (setAt cpu.registers REG_SP sp1 r)) REG_SP
      (u16 (setAt (cpu_fetch c1).2.registers r (setAt cpu.registers REG_SP sp1 r) REG_SP + 1)) r
      = cpu.registers r ∧
    setAt (setAt (cpu_fetch c1).2.registers r (setAt cpu.registers REG_SP sp1 r)) REG_SP
      (u16 (setAt (cpu_fetch c1).2.registers r (setAt cpu.registers REG_SP sp1 r) REG_SP + 1))
      REG_SP = cpu.registers REG_SP
  rw [hr, hr1]
  have hinner : setAt (setAt cpu.registers REG_SP sp1) r (setAt cpu.registers REG_SP sp1 r)
      REG_SP = sp1 := by
    by_cases h7 : REG_SP = r
    · rw [← h7, setAt_same, setAt_same]
    · rw [setAt_other _ _ _ _ h7, setAt_same]
  rw [hinner, hsp, setAt_same]
  refine ⟨?_, rfl⟩
  by_cases h7 : r = REG_SP
  · rw [h7, setAt_same]
  · rw [setAt_other _ _ _ _ h7, setAt_same, setAt_other _ _ _ _ h7]

theorem push_pop_cpu_wf (sp : Nat) (h : sp < 65536) : (push_pop_cpu sp).WF := by
  apply demo_cpu_wf
  · decide
  · exact setAt_lt _ _ _ (setAt_lt _ _ _ (fun _ => by decide) (by decide)) h

/-- Witness of C7 (amended): with `SP = 0xE000` and `R0 = 5`, `PUSH R0` then
`POP R0` leaves `R0 = 5` and `SP = 0xE000`. -/
theorem push_pop_round_trip_witness :
    (push_pop_cpu 0xE000).WF ∧ (push_pop_cpu 0xE000).halted = false ∧
    cpu_step (push_pop_cpu 0xE000) = some (after_step (push_pop_cpu 0xE000)) ∧
    cpu_step (after_step (push_pop_cpu 0xE000)) =
      some (after_step (after_step (push_pop_cpu 0xE000))) ∧
    u16 ((push_pop_cpu 0xE000).registers REG_SP + 65535) < MMIO_START ∧
    (after_step (after_step (push_pop_cpu 0xE000))).registers 0 = 5 ∧
    (after_step (after_step (push_pop_cpu 0xE000))).registers REG_SP = 0xE000 :=
  ⟨push_pop_cpu_wf _ (by decide), rfl, rfl, rfl, by decide,
    push_pop_round_trip (push_pop_cpu 0xE000) (after_step (push_pop_cpu 0xE000))
      (after_step (after_step (push_pop_cpu 0xE000))) 0 (push_pop_cpu_wf _ (by decide)) rfl rfl rfl
      ⟨by decide, by decide, by decide⟩ ⟨by decide, by decide, by decide⟩ (by decide)⟩

/-- C7 as stated fails: with `SP = 0` the PUSH writes to the MMIO address
`0xFFFF`, where the value is discarded, and the POP reads 0 back: `R0 = 5`
becomes 0. -/
theorem push_pop_mmio_counterexample :
    (push_pop_cpu 0).WF ∧ (push_pop_cpu 0).halted = false ∧
    cpu_step (push_pop_cpu 0) = some (after_step (push_pop_cpu 0)) ∧
    cpu_step (after_step (push_pop_cpu 0)) = some (after_step (after_step (push_pop_cpu 0))) ∧
    (dec_opcode (fetched (push_pop_cpu 0)) = OP_STACK ∧
      dec_mode (fetched (push_pop_cpu 0)) = STACK_PUSH ∧
      dec_rs (fetched (push_pop_cpu 0)) = 0) ∧
    (dec_opcode (fetched (after_step (push_pop_cpu 0))) = OP_STACK ∧
      dec_mode (fetched (after_step (push_pop_cpu 0))) = STACK_POP ∧
      dec_rd (fetched (after_step (push_pop_cpu 0))) = 0) ∧
    (push_pop_cpu 0).registers 0 = 5 ∧
    (after_step (after_step (push_pop_cpu 0))).registers 0 = 0 :=
  ⟨push_pop_cpu_wf _ (by decide), rfl, rfl, rfl, ⟨by decide, by decide, by decide⟩,
    ⟨by decide, by decide, by decide⟩, by decide, by decide⟩

theorem exec_call_eq (cpu : CPU) :
    exec_call cpu =
      (cpu_write_memory
        (set_reg (cpu_fetch cpu).2 REG_SP (u16 ((cpu_fetch cpu).2.registers REG_SP + 65535)))
        ((set_reg (cpu_fetch cpu).2 REG_SP
          (u16 ((cpu_fetch cpu).2.registers REG_SP + 65535))).registers REG_SP)
        (cpu_fetch cpu).2.pc).map fun c1 => { c1 with pc := (cpu_fetch cpu).1 } := by
  unfold exec_call
  rfl

/-- The state that a CALL leaves when the decremented stack pointer is in RAM. -/
theorem step_call_ram (cpu c1 : CPU) (hrun : cpu.halted = false)
    (h1 : cpu_step cpu = some c1) (hcall : dec_opcode (fetched cpu) = OP_CALL)
    (hram : u16 (cpu.registers REG_SP + 65535) < MMIO_START) :
    c1.halted = false ∧
    c1.registers = setAt cpu.registers REG_SP (u16 (cpu.registers REG_SP + 65535)) ∧
    c1.memory = setAt cpu.memory (u16 (cpu.registers REG_SP + 65535)) ((cpu.pc + 2) % 65536) := by
  obtain ⟨c, hc, rfl⟩ := cpu_step_some cpu c1 hrun h1
  have hr : (cpu_fetch cpu).2.registers = cpu.registers := (fetch_frame cpu).1
  have hm : (cpu_fetch cpu).2.memory = cpu.memory := (fetch_frame cpu).2.2.2.1
  have hh : (cpu_fetch cpu).2.halted = false := by rw [(fetch_frame cpu).2.2.2.2.1, hrun]
  have hp : (cpu_fetch cpu).2.pc = u16 (cpu.pc + 1) := (fetch_frame cpu).2.1
  have hr2 : (cpu_fetch (cpu_fetch cpu).2).2.registers = cpu.registers := by
    rw [(fetch_frame _).1, hr]
  have hm2 : (cpu_fetch (cpu_fetch cpu).2).2.memory = cpu.memory := by
    rw [(fetch_frame _).2.2.2.1, hm]
  have hh2 : (cpu_fetch (cpu_fetch cpu).2).2.halted = false := by
    rw [(fetch_frame _).2.2.2.2.1, hh]
  have hp2 : (cpu_fetch (cpu_fetch cpu).2).2.pc = (cpu.pc + 2) % 65536 := by
    rw [(fetch_frame _).2.1, hp]; unfold u16; omega
  rw [decode_execute_call _ _ hcall, exec_call_eq, set_reg_registers, setAt_same, hr2,
    write_memory_ram _ _ _ hram, hp2] at hc
  simp only [Option.map_some', Option.some.injEq] at hc
  subst hc
  refine ⟨hh2, ?_, ?_⟩
  · show setAt (cpu_fetch (cpu_fetch cpu).2).2.registers REG_SP _ = _
    rw [hr2]
  · show setAt (cpu_fetch (cpu_fetch cpu).2).2.memory _ _ = _
    rw [hm2]

/-- C8 (amended): when the decremented stack pointer `SP - 1 mod 2^16` lies
below the MMIO window, a CALL at address `p` followed as the next executed
instruction by RET leaves `PC = (p + 2) mod 2^16` and SP at its value before the
CALL. -/
theorem call_ret_round_trip (cpu c1 c2 : CPU) (hwf : cpu.WF) (hrun : cpu.halted = false)
    (h1 : cpu_step cpu = some c1) (h2 : cpu_step c1 = some c2)
    (hcall : dec_opcode (fetched cpu) = OP_CALL) (hret : dec_opcode (fetched c1) = OP_RET)
    (hram : u16 (cpu.registers REG_SP + 65535) < MMIO_START) :
    c2.pc = (cpu.pc + 2) % 65536 ∧ c2.registers REG_SP = cpu.registers REG_SP := by
  obtain ⟨hh1, hr1, hm1⟩ := step_call_ram cpu c1 hrun h1 hcall hram
  obtain ⟨d, hd, rfl⟩ := cpu_step_some c1 c2 hh1 h2
  rw [decode_execute_ret _ _ hret] at hd
  cases hd
  have hsp := sp_round_trip _ (hwf.regs REG_SP)
  have hr : (cpu_fetch c1).2.registers REG_SP = u16 (cpu.registers REG_SP + 65535) := by
    rw [(fetch_frame c1).1, hr1, setAt_same]
  have hread : cpu_read_memory (cpu_fetch c1).2 ((cpu_fetch c1).2.registers REG_SP) =
      ((cpu.pc + 2) % 65536, (cpu_fetch c1).2) := by
    rw [hr, read_memory_ram _ _ hram, (fetch_frame c1).2.2.2.1, hm1, setAt_same]
  constructor
  · show (exec_ret (cpu_fetch c1).2).pc = _
    rw [exec_ret_pc, hread]
  · show (exec_ret (cpu_fetch c1).2).registers REG_SP = _
    unfold exec_ret
    dsimp only
    rw [hread, set_reg_registers, setAt_same]
    dsimp only
    rw [hr, hsp]

theorem call_ret_cpu_wf (sp : Nat) (h : sp < 65536) : (call_ret_cpu sp).WF := by
  apply demo_cpu_wf
  · decide
  · exact setAt_lt _ _ _ (fun _ => by decide) h

/-- Witness of C8 (amended): with `SP = 0xE000`, `CALL 3` at address 0 and
`RET` at address 3, the RET leaves `PC = 2` and `SP = 0xE000`. -/
theorem call_ret_round_trip_witness :
    (call_ret_cpu 0xE000).WF ∧ (call_ret_cpu 0xE000).halted = false ∧
    cpu_step (call_ret_cpu 0xE000) = some (after_step (call_ret_cpu 0xE000)) ∧
    cpu_step (after_step (call_ret_cpu 0xE000)) =
      some (after_step (after_step (call_ret_cpu 0xE000))) ∧
    (after_step (call_ret_cpu 0xE000)).pc = 3 ∧
    (after_step (after_step (call_ret_cpu 0xE000))).pc = 2 ∧
    (after_step (after_step (call_ret_cpu 0xE000))).registers REG_SP = 0xE000 :=
  ⟨call_ret_cpu_wf _ (by decide), rfl, rfl, rfl, by decide,
    call_ret_round_trip (call_ret_cpu 0xE000) (after_step (call_ret_cpu 0xE000))
      (after_step (after_step (call_ret_cpu 0xE000))) (call_ret_cpu_wf _ (by decide)) rfl rfl rfl
      (by decide) (by decide) (by decide)⟩

/-- C8 as stated fails: with `SP = 0` the CALL at address 0 writes its return
address to the MMIO address `0xFFFF`, where it is discarded, and the RET reads 0
back: the PC is 0, not 2. -/
theorem call_ret_mmio_counterexample :
    (call_ret_cpu 0).WF ∧ (call_ret_cpu 0).halted = false ∧ (call_ret_cpu 0).pc = 0 ∧
    cpu_step (call_ret_cpu 0) = some (after_step (call_ret_cpu 0)) ∧
    cpu_step (after_step (call_ret_cpu 0)) = some (after_step (after_step (call_ret_cpu 0))) ∧
    dec_opcode (fetched (call_ret_cpu 0)) = OP_CALL ∧
    dec_opcode (fetched (after_step (call_ret_cpu 0))) = OP_RET ∧
    (after_step (after_step (call_ret_cpu 0))).pc = 0 ∧
    (after_step (after_step (call_ret_cpu 0))).pc ≠ ((call_ret_cpu 0).pc + 2) % 65536 :=
  ⟨call_ret_cpu_wf _ (by decide), rfl, rfl, rfl, rfl, by decide, by decide, by decide, by decide⟩

/-! ### C1: the decoder reads back what the encoder wrote -/

theorem or_fields (op rd rs mode : Nat) (hrd : rd < 8) (hrs : rs < 8) (hm : mode < 64) :
    op <<< 12 ||| rd <<< 9 ||| rs <<< 6 ||| mode = op * 4096 + rd * 512 + rs * 64 + mode := by
  have e1 : op <<< 12 ||| rd <<< 9 = 2 ^ 9 * (op * 8 + rd) := by
    rw [Nat.shiftLeft_eq, Nat.shiftLeft_eq, Nat.mul_comm op (2 ^ 12),
      ← Nat.mul_add_lt_is_or (show rd * 2 ^ 9 < 2 ^ 12 by omega) op]
    omega
  have e2 : 2 ^ 9 * (op * 8 + rd) ||| rs <<< 6 = 2 ^ 6 * ((op * 8 + rd) * 8 + rs) := by
    rw [Nat.shiftLeft_eq, ← Nat.mul_add_lt_is_or (show rs * 2 ^ 6 < 2 ^ 9 by omega) (op * 8 + rd)]
    omega
  rw [e1, e2, ← Nat.mul_add_lt_is_or (show mode < 2 ^ 6 by omega) ((op * 8 + rd) * 8 + rs)]
  omega

theorem dec_fields (x : Nat) :
    dec_opcode x = x / 4096 % 16 ∧ dec_rd x = x / 512 % 8 ∧ dec_rs x = x / 64 % 8 ∧
    dec_mode x = x % 64 := by
  unfold dec_opcode dec_rd dec_rs dec_mode
  refine ⟨?_, ?_, ?_, ?_⟩
  · rw [Nat.shiftRight_eq_div_pow]; exact Nat.and_pow_two_sub_one_eq_mod _ 4
  · rw [Nat.shiftRight_eq_div_pow]; exact Nat.and_pow_two_sub_one_eq_mod _ 3
  · rw [Nat.shiftRight_eq_div_pow]; exact Nat.and_pow_two_sub_one_eq_mod _ 3
  · exact Nat.and_pow_two_sub_one_eq_mod _ 6

theorem control_word_fields (op mode rd rs : Nat) (hop : op < 16) (hm : mode < 64)
    (hrd : rd < 8) (hrs : rs < 8) :
    dec_opcode (control_word op rd rs mode) = op ∧ dec_rd (control_word op rd rs mode) = rd ∧
    dec_rs (control_word op rd rs mode) = rs ∧ dec_mode (control_word op rd rs mode) = mode := by
  have h8 : ∀ r : Nat, r < 8 → to_u8 (r : Int) = r := by
    intro r hr
    unfold to_u8
    omega
  obtain ⟨h1, h2, h3, h4⟩ := dec_fields (control_word op rd rs mode)
  rw [h1, h2, h3, h4]
  unfold control_word
  rw [h8 rd hrd, h8 rs hrs, or_fields op rd rs mode hrd hrs hm]
  unfold u16
  omega

/-- C1: for the two-register mnemonics with operands `Rd , Rs`, for INC, DEC,
NOT and POP with operand `Rd` and for PUSH with operand `Rs`, all register
indices in 0..7, the fields that `cpu_decode_execute` extracts from the word of
`asm_encode_instruction` are the opcode and sub-opcode of the encoding table
and the registers written in the source. -/
theorem encode_decode_register_forms (operands : List Token) (rd rs : Nat)
    (hrd : rd < 8) (hrs : rs < 8) :
    (∀ e ∈ two_register_forms,
      (token_at operands 0).num_value = rd → (token_at operands 2).num_value = rs →
      dec_opcode (asm_encode_instruction (bytes e.1) operands) = e.2.1 ∧
      dec_rd (asm_encode_instruction (bytes e.1) operands) = rd ∧
      dec_rs (asm_encode_instruction (bytes e.1) operands) = rs ∧
      ∀ m, e.2.2 = some m → dec_mode (asm_encode_instruction (bytes e.1) operands) = m) ∧
    (∀ e ∈ one_register_forms,
      (token_at operands 0).num_value = rd →
      dec_opcode (asm_encode_instruction (bytes e.1) operands) = e.2.1 ∧
      dec_rd (asm_encode_instruction (bytes e.1) operands) = rd ∧
      dec_mode (asm_encode_instruction (bytes e.1) operands) = e.2.2) ∧
    ((token_at operands 0).num_value = rs →
      dec_opcode (asm_encode_instruction (bytes "PUSH") operands) = OP_STACK ∧
      dec_rs (asm_encode_instruction (bytes "PUSH") operands) = rs ∧
      dec_mode (asm_encode_instruction (bytes "PUSH") operands) = STACK_PUSH) := by
  have two : ∀ (mn : String) (op mode : Nat), op < 16 → mode < 64 →
      (token_at operands 0).num_value = rd → (token_at operands 2).num_value = rs →
      asm_encode_instruction (bytes mn) operands =
        control_word op (token_at operands 0).num_value (token_at operands 2).num_value mode →
      dec_opcode (asm_encode_instruction (bytes mn) operands) = op ∧
      dec_rd (asm_encode_instruction (bytes mn) operands) = rd ∧
      dec_rs (asm_encode_instruction (bytes mn) operands) = rs ∧
      dec_mode (asm_encode_instruction (bytes mn) operands) = mode := by
    intro mn op mode hop hm h0 h2 he
    rw [he, h0, h2]
    exact control_word_fields op mode rd rs hop hm hrd hrs
  have one : ∀ (mn : String) (op mode : Nat), op < 16 → mode < 64 →
      (token_at operands 0).num_value = rd →
      asm_encode_instruction (bytes mn) operands =
        control_word op (token_at operands 0).num_value 0 mode →
      dec_opcode (asm_encode_instruction (bytes mn) operands) = op ∧
      dec_rd (asm_encode_instruction (bytes mn) operands) = rd ∧
      dec_mode (asm_encode_instruction (bytes mn) operands) = mode := by
    intro mn op mode hop hm h0 he
    rw [he, h0]
    have h := control_word_fields op mode rd 0 hop hm hrd (by decide)
    exact ⟨h.1, h.2.1, h.2.2.2⟩
  refine ⟨?_, ?_, ?_⟩
  · intro e he h0 h2
    simp only [two_register_forms, List.mem_cons, List.mem_singleton, List.not_mem_nil,
      or_false] at he
    rcases he with rfl | rfl | rfl | rfl | rfl | rfl | rfl | rfl | rfl | rfl | rfl | rfl
    · have h := two "MOV" 3 0 (by decide) (by decide) h0 h2 rfl
      exact ⟨h.1, h.2.1, h.2.2.1, fun m hm => by cases hm⟩
    · have h := two "ADD" 4 0 (by decide) (by decide) h0 h2 rfl
      exact ⟨h.1, h.2.1, h.2.2.1, fun m hm => by cases hm; exact h.2.2.2⟩
    · have h := two "SUB" 4 1 (by decide) (by decide) h0 h2 rfl
      exact ⟨h.1, h.2.1, h.2.2.1, fun m hm => by cases hm; exact h.2.2.2⟩
    · have h := two "MUL" 4 2 (by decide) (by decide) h0 h2 rfl
      exact ⟨h.1, h.2.1, h.2.2.1, fun m hm => by cases hm; exact h.2.2.2⟩
    · have h := two "DIV" 4 3 (by decide) (by decide) h0 h2 rfl
      exact ⟨h.1, h.2.1, h.2.2.1, fun m hm => by cases hm; exact h.2.2.2⟩
    · have h := two "AND" 5 0 (by decide) (by decide) h0 h2 rfl
      exact ⟨h.1, h.2.1, h.2.2.1, fun m hm => by cases hm; exact h.2.2.2⟩
    · have h := two "OR" 5 1 (by decide) (by decide) h0 h2 rfl
      exact ⟨h.1, h.2.1, h.2.2.1, fun m hm => by cases hm; exact h.2.2.2⟩
    · have h := two "XOR" 5 2 (by decide) (by decide) h0 h2 rfl
      exact ⟨h.1, h.2.1, h.2.2.1, fun m hm => by cases hm; exact h.2.2.2⟩
    · have h := two "SHL" 6 0 (by decide) (by decide) h0 h2 rfl
      exact ⟨h.1, h.2.1, h.2.2.1, fun m hm => by cases hm; exact h.2.2.2⟩
    · have h := two "SHR" 6 1 (by decide) (by decide) h0 h2 rfl
      exact ⟨h.1, h.2.1, h.2.2.1, fun m hm => by cases hm; exact h.2.2.2⟩
    · have h := two "SAR" 6 2 (by decide) (by decide) h0 h2 rfl
      exact ⟨h.1, h.2.1, h.2.2.1, fun m hm => by cases hm; exact h.2.2.2⟩
    · have h := two "CMP" 12 0 (by decide) (by decide) h0 h2 rfl
      exact ⟨h.1, h.2.1, h.2.2.1, fun m hm => by cases hm⟩
  · intro e he h0
    simp only [one_register_forms, List.mem_cons, List.mem_singleton, List.not_mem_nil,
      or_false] at he
    rcases he with rfl | rfl | rfl | rfl
    · exact one "INC" 4 4 (by decide) (by decide) h0 rfl
    · exact one "DEC" 4 5 (by decide) (by decide) h0 rfl
    · exact one "NOT" 5 3 (by decide) (by decide) h0 rfl
    · exact one "POP" 9 1 (by decide) (by decide) h0 rfl
  · intro h0
    have he : asm_encode_instruction (bytes "PUSH") operands =
        control_word OP_STACK 0 (token_at operands 0).num_value STACK_PUSH := rfl
    rw [he, h0]
    have h := control_word_fields OP_STACK STACK_PUSH 0 rs (by decide) (by decide) (by decide) hrs
    exact ⟨h.1, h.2.2.1, h.2.2.2⟩

/-- Witness of C1: `ADD R3, R5` is encoded as `0x4740`, which decodes to
opcode 4, Rd = 3, Rs = 5, mode 0. -/
theorem encode_decode_register_forms_witness :
    (3 < 8 ∧ 5 < 8) ∧ asm_encode_instruction (bytes "ADD") (register_operands 3 5) = 0x4740 ∧
    dec_opcode 0x4740 = OP_ARITH ∧ dec_rd 0x4740 = 3 ∧ dec_rs 0x4740 = 5 ∧
    dec_mode 0x4740 = ARITH_ADD :=
  ⟨⟨by decide, by decide⟩, by decide,
    ((encode_decode_register_forms (register_operands 3 5) 3 5 (by decide) (by decide)).1
      ("ADD", 0x4, some 0) (by decide) rfl rfl).1,
    ((encode_decode_register_forms (register_operands 3 5) 3 5 (by decide) (by decide)).1
      ("ADD", 0x4, some 0) (by decide) rfl rfl).2.1,
    ((encode_decode_register_forms (register_operands 3 5) 3 5 (by decide) (by decide)).1
      ("ADD", 0x4, some 0) (by decide) rfl rfl).2.2.1,
    ((encode_decode_register_forms (register_operands 3 5) 3 5 (by decide) (by decide)).1
      ("ADD", 0x4, some 0) (by decide) rfl rfl).2.2.2 0 rfl⟩

/-! ### C9: `.STRING` and `MMIO_STR_OUT` -/

theorem emit_word_some (st : Assembler) (w : Nat) (h : st.can_emit) :
    ∃ st', asm_emit_word st w = some st' ∧ st'.can_emit ∧
      st'.output_size = st.output_size + 1 ∧
      st'.output = setAt st.output st.output_size w ∧
      st'.current_address = u16 (st.current_address + 1) ∧ st'.labels = st.labels := by
  unfold Assembler.can_emit at h
  unfold asm_emit_word
  dsimp only
  split_ifs with h1 h2 h3
  · exact ⟨_, rfl, by unfold Assembler.can_emit; dsimp only; omega, rfl, rfl, rfl, rfl⟩
  · omega
  · exact ⟨_, rfl, by unfold Assembler.can_emit; dsimp only; omega, rfl, rfl, rfl, rfl⟩
  · omega

theorem emit_words_some (ws : List Nat) :
    ∀ st : Assembler, st.can_emit →
      ∃ st', emit_words st ws = some st' ∧ st'.can_emit ∧
        st'.output_size = st.output_size + ws.length ∧
        (∀ i, i < ws.length → st'.output (st.output_size + i) = ws.getD i 0) ∧
        (∀ j, j < st.output_size → st'.output j = st.output j) ∧
        st'.labels = st.labels := by
  induction ws with
  | nil =>
    intro st h
    exact ⟨st, rfl, h, rfl, fun i hi => absurd hi (Nat.not_lt_zero _), fun _ _ => rfl, rfl⟩
  | cons w ws ih =>
    intro st h
    obtain ⟨st1, h1, hc1, hs1, ho1, _, hl1⟩ := emit_word_some st w h
    obtain ⟨st2, h2, hc2, hs2, ho2, hk2, hl2⟩ := ih st1 hc1
    refine ⟨st2, ?_, hc2, ?_, ?_, ?_, ?_⟩
    · simp only [emit_words, h1, Option.some_bind]
      exact h2
    · rw [hs2, hs1, List.length_cons]; omega
    · intro i hi
      cases i with
      | zero =>
        rw [Nat.add_zero, hk2 _ (by omega), ho1, setAt_same]
        rfl
      | succ i =>
        have := ho2 i (by simpa using hi)
        rw [hs1] at this
        rw [show st.output_size + (i + 1) = st.output_size + 1 + i by omega, this]
        rfl
    · intro j hj
      rw [hk2 j (by omega), ho1, setAt_other _ _ _ _ (by omega)]
    · rw [hl2, hl1]

theorem byte_low (c d : Nat) (hc : c < 256) :
    (c ||| d <<< 8) &&& 0xFF = c ∧ (c ||| d <<< 8) >>> 8 = d := by
  have e : c ||| d <<< 8 = 2 ^ 8 * d + c := by
    rw [Nat.shiftLeft_eq, Nat.or_comm, Nat.mul_comm d (2 ^ 8),
      ← Nat.mul_add_lt_is_or (show c < 2 ^ 8 by omega) d]
  rw [e, Nat.shiftRight_eq_div_pow]
  constructor
  · rw [show (0xFF : Nat) = 2 ^ 8 - 1 by norm_num, Nat.and_pow_two_sub_one_eq_mod]
    omega
  · omega

theorem byte_mask (c : Nat) (hc : c < 256) : c &&& 0xFF = c := by
  rw [show (0xFF : Nat) = 2 ^ 8 - 1 by norm_num, Nat.and_pow_two_sub_one_eq_mod]
  omega

theorem u16_succ (a i : Nat) : u16 (u16 (a + 1) + i) = u16 (a + (i + 1)) := by
  unfold u16
  omega

/-- The string loop of the emulator on the words that the `.STRING` loop of
the assembler makes of a buffer that holds the string `s`, then either ends
or holds a zero byte: the loop prints `s`. -/
theorem str_out_string_words (n : Nat) :
    ∀ (s tail : List Nat) (fuel a : Nat) (mem : Nat → Nat) (out : List Nat),
      s.length ≤ n → (∀ b ∈ s, b ≠ 0 ∧ b < 256) → (tail = [] ∨ tail.head? = some 0) →
      s.length / 2 < fuel → a < 65536 →
      (∀ i, i < (string_words (s ++ tail) ++ [0]).length →
        mem (u16 (a + i)) = (string_words (s ++ tail) ++ [0]).getD i 0) →
      str_out_loop fuel mem a out = some (out ++ s) := by
  induction n with
  | zero =>
    intro s tail fuel a mem out hn _ htail hfuel ha hmem
    have hs : s = [] := List.length_eq_zero.mp (by omega)
    subst hs
    have hw : string_words ([] ++ tail) = [] := by
      rcases htail with rfl | h
      · rfl
      · match tail, h with
        | [0], _ => rfl
        | 0 :: _ :: _, _ => rfl
    obtain ⟨fuel, rfl⟩ : ∃ f, fuel = f + 1 := ⟨fuel - 1, by omega⟩
    have h0 := hmem 0 (by rw [hw]; decide)
    rw [hw] at h0
    have ha0 : u16 (a + 0) = a := by unfold u16; omega
    rw [ha0] at h0
    simp only [List.nil_append, List.getD_cons_zero] at h0
    unfold str_out_loop
    simp [h0]
  | succ n ih =>
    intro s tail fuel a mem out hn hs htail hfuel ha hmem
    obtain ⟨fuel, rfl⟩ : ∃ f, fuel = f + 1 := ⟨fuel - 1, by omega⟩
    have ha0 : u16 (a + 0) = a := by unfold u16; omega
    match s, hn, hs, hfuel, hmem with
    | [], hn, hs, hfuel, hmem =>
      exact ih [] tail (fuel + 1) a mem out (by simp) hs htail hfuel ha hmem
    | [c], _, hs, _, hmem =>
      have hc := hs c (by simp)
      have hw : ∃ rest, string_words ([c] ++ tail) = c :: rest := by
        rcases htail with rfl | h
        · exact ⟨[], by simp [string_words, hc.1, byte_mask c hc.2]⟩
        · match tail, h with
          | 0 :: t, _ => exact ⟨string_words t, by simp [string_words, hc.1, byte_mask c hc.2]⟩
      obtain ⟨rest, hw⟩ := hw
      have h0 := hmem 0 (by rw [hw]; simp)
      rw [hw, ha0] at h0
      simp only [List.cons_append, List.getD_cons_zero] at h0
      unfold str_out_loop
      have h1 : c &&& 0xFF = c := byte_mask c hc.2
      have h2 : c >>> 8 = 0 := by rw [Nat.shiftRight_eq_div_pow]; omega
      simp only [h0, h1, h2]
      simp [hc.1]
    | c :: d :: s', hn, hs, hfuel, hmem =>
      have hc := hs c (by simp)
      have hd := hs d (by simp)
      have hw : string_words (c :: d :: s' ++ tail) =
          (c ||| d <<< 8) :: string_words (s' ++ tail) := by
        simp [string_words, hc.1, hd.1, byte_mask c hc.2, byte_mask d hd.2]
      have hb := byte_low c d hc.2
      have h0 := hmem 0 (by rw [hw]; simp)
      rw [hw, ha0] at h0
      simp only [List.cons_append, List.getD_cons_zero] at h0
      have hrec := ih s' tail fuel (u16 (a + 1)) mem (out ++ [c, d])
        (by simp at hn; omega) (fun b hb' => hs b (by simp [hb'])) htail
        (by simp at hfuel; omega) (by unfold u16; omega)
        (by
          intro i hi
          rw [u16_succ]
          have := hmem (i + 1) (by rw [hw]; simpa using hi)
          rw [this, hw]
          rfl)
      unfold str_out_loop
      simp only [h0, hb.1, hb.2]
      rw [if_neg hc.1, if_neg hd.1, hrec]
      simp

/-! ### The token array keeps its shape -/

theorem write_string_length (old s v : List Nat) (hold : old.length = 128)
    (h : write_string old s = some v) : v.length = 128 := by
  unfold write_string at h
  split_ifs at h with hs
  cases h
  simp only [List.length_append, List.length_cons, List.length_drop]
  omega

theorem token_at_length (tokens : List Token) (i : Nat) (h : tokens_wf tokens) :
    (token_at tokens i).value.length = 128 := by
  unfold token_at
  by_cases hi : i < tokens.length
  · rw [List.getD_eq_getElem _ _ hi]
    exact h.2 _ (List.getElem_mem _)
  · rw [List.getD_eq_default _ _ (by omega)]
    simp [zero_token]

theorem set_wf (tokens : List Token) (i : Nat) (t : Token) (h : tokens_wf tokens)
    (ht : t.value.length = 128) : tokens_wf (tokens.set i t) := by
  refine ⟨by rw [List.length_set]; exact h.1, ?_⟩
  intro x hx
  rcases List.mem_or_eq_of_mem_set hx with hx | rfl
  · exact h.2 x hx
  · exact ht

theorem char_token_length (old : Token) (t : TokenType) (c : Nat)
    (h : old.value.length = 128) : (char_token old t c).value.length = 128 := by
  simp only [char_token, List.length_cons, List.length_drop]
  omega

theorem classify_word_length (old t : Token) (word : List Nat) (h : old.value.length = 128)
    (hc : classify_word old word = some t) : t.value.length = 128 := by
  unfold classify_word at hc
  rw [Option.map_eq_some'] at hc
  obtain ⟨v, hv, rfl⟩ := hc
  have hl := write_string_length _ _ _ h hv
  split_ifs <;> simp [hl]

theorem tokenize_loop_wf (fuel : Nat) :
    ∀ (ptr : List Nat) (tokens : List Token) (token_count max_tokens : Nat)
      (r : Nat × List Token),
      tokens_wf tokens → tokenize_loop fuel ptr tokens token_count max_tokens = some r →
      tokens_wf r.2 := by
  induction fuel with
  | zero =>
    intro ptr tokens token_count max_tokens r _ h
    simp [tokenize_loop] at h
  | succ fuel ih =>
    intro ptr tokens token_count max_tokens r hwf h
    unfold tokenize_loop at h
    split_ifs at h with h0
    · cases h; exact hwf
    · split at h
      · cases h; exact hwf
      · rename_i c rest _
        split_ifs at h with h1 h2 h3 h4 h5
        · split at h
          · cases h
          · rename_i v hv
            exact ih _ _ _ _ _ (set_wf _ _ _ hwf
              (write_string_length _ _ _ (token_at_length _ _ hwf) hv)) h
        · exact ih _ _ _ _ _ (set_wf _ _ _ hwf
            (char_token_length _ _ _ (token_at_length _ _ hwf))) h
        · exact ih _ _ _ _ _ (set_wf _ _ _ hwf
            (char_token_length _ _ _ (token_at_length _ _ hwf))) h
        · exact ih _ _ _ _ _ (set_wf _ _ _ hwf
            (char_token_length _ _ _ (token_at_length _ _ hwf))) h
        · exact ih _ _ _ _ _ hwf h
        · split at h
          · cases h
          · rename_i t ht
            exact ih _ _ _ _ _ (set_wf _ _ _ hwf
              (classify_word_length _ _ _ (token_at_length _ _ hwf) ht)) h

theorem asm_tokenize_wf (line : List Nat) (stack : List Token) (r : Nat × List Token)
    (hwf : tokens_wf stack) (h : asm_tokenize line stack MAX_TOKENS = some r) :
    tokens_wf r.2 := by
  unfold asm_tokenize at h
  split_ifs at h
  · cases h; exact hwf
  · exact tokenize_loop_wf _ _ _ _ _ _ hwf h

theorem zero_tokens_wf : tokens_wf zero_tokens := by
  refine ⟨by simp [zero_tokens], ?_⟩
  intro t ht
  rw [zero_tokens, List.mem_replicate] at ht
  rw [ht.2]
  simp [zero_token]

theorem cstr_split (buf : List Nat) :
    ∃ tail, buf = cstr buf ++ tail ∧ (tail = [] ∨ tail.head? = some 0) ∧
      (∀ b ∈ cstr buf, b ≠ 0) ∧ (cstr buf).length ≤ buf.length := by
  refine ⟨buf.dropWhile (fun c => decide (c ≠ 0)), ?_, ?_, ?_, ?_⟩
  · exact (List.takeWhile_append_dropWhile _ buf).symm
  · cases h : buf.dropWhile (fun c => decide (c ≠ 0)) with
    | nil => exact Or.inl rfl
    | cons x xs =>
      right
      have hx := List.head?_dropWhile_not (fun c => decide (c ≠ 0)) buf
      rw [h] at hx
      simp only [List.head?_cons, decide_eq_false_iff_not, ne_eq, not_not] at hx
      rw [List.head?_cons, hx]
  · intro b hb
    have := List.mem_takeWhile_imp hb
    simpa using this
  · exact (List.takeWhile_sublist _).length_le

theorem strcasecmp_eq_trans (v a b : List Nat) (h : strcasecmp_eq v a = true) :
    strcasecmp_eq v b = strcasecmp_eq a b := by
  unfold strcasecmp_eq at h ⊢
  rw [beq_iff_eq] at h
  rw [h]

theorem string_directive_name (v : List Nat)
    (h : strcasecmp_eq v (bytes ".STRING") = true ∨ strcasecmp_eq v (bytes ".ASCIIZ") = true) :
    strcasecmp_eq v (bytes ".ORG") = false ∧ strcasecmp_eq v (bytes ".WORD") = false := by
  rcases h with h | h
  · rw [strcasecmp_eq_trans v _ _ h, strcasecmp_eq_trans v _ _ h]
    exact ⟨by decide, by decide⟩
  · rw [strcasecmp_eq_trans v _ _ h, strcasecmp_eq_trans v _ _ h]
    exact ⟨by decide, by decide⟩

theorem cstr_terminated (s tail : List Nat) : cstr (s ++ 0 :: tail) = cstr s := by
  unfold cstr
  induction s with
  | nil => simp
  | cons c tl ih =>
    rw [List.cons_append, List.takeWhile_cons, List.takeWhile_cons, ih]

theorem cstr_append_zero (v more : List Nat) (h : 0 ∈ v) : cstr (v ++ more) = cstr v := by
  obtain ⟨s, t, rfl⟩ := List.append_of_mem h
  rw [List.append_assoc, List.cons_append, cstr_terminated, cstr_terminated]

theorem cstr_value_memory (tokens : List Token) (i : Nat)
    (h : 0 ∈ (token_at tokens i).value) :
    cstr (value_memory tokens i) = cstr (token_at tokens i).value := by
  unfold value_memory
  rw [List.append_assoc, cstr_append_zero _ _ h]

/-! ### Every token of the lexer has its terminator in its buffer -/

theorem write_string_zero (old s v : List Nat) (h : write_string old s = some v) : 0 ∈ v := by
  unfold write_string at h
  split_ifs at h
  cases h
  simp

theorem set_zero_mem (v : List Nat) (i : Nat) (h : 0 ∈ v) : 0 ∈ v.set i 0 := by
  by_cases hi : i < v.length
  · have hb : i < (v.set i 0).length := by rw [List.length_set]; exact hi
    have e : (v.set i 0)[i] = 0 := by simp
    exact List.mem_iff_getElem.mpr ⟨i, hb, e⟩
  · rw [List.set_eq_of_length_le (by omega)]
    exact h

theorem classify_word_zero (old t : Token) (word : List Nat)
    (hc : classify_word old word = some t) : 0 ∈ t.value := by
  unfold classify_word at hc
  rw [Option.map_eq_some'] at hc
  obtain ⟨v, hv, rfl⟩ := hc
  have h0 := write_string_zero _ _ _ hv
  split_ifs
  · exact set_zero_mem _ _ h0
  all_goals exact h0

theorem char_token_zero (old : Token) (t : TokenType) (c : Nat) :
    0 ∈ (char_token old t c).value := by
  simp [char_token]

theorem set_token_zero (tokens : List Token) (c : Nat) (t : Token)
    (h : ∀ i, i < c → 0 ∈ (token_at tokens i).value) (ht : 0 ∈ t.value) :
    ∀ i, i < c + 1 → 0 ∈ (token_at (tokens.set c t) i).value := by
  intro i hi
  unfold token_at
  rw [List.getD_eq_getElem?_getD, List.getElem?_set]
  by_cases hic : c = i
  · subst hic
    rw [if_pos rfl]
    by_cases hl : c < tokens.length
    · rw [if_pos hl]
      exact ht
    · rw [if_neg hl]
      simp [zero_token]
  · rw [if_neg hic, ← List.getD_eq_getElem?_getD]
    exact h i (by omega)

theorem tokenize_loop_zero (fuel : Nat) :
    ∀ (ptr : List Nat) (tokens : List Token) (token_count max_tokens : Nat)
      (r : Nat × List Token),
      (∀ i, i < token_count → 0 ∈ (token_at tokens i).value) →
      tokenize_loop fuel ptr tokens token_count max_tokens = some r →
      ∀ i, i < r.1 → 0 ∈ (token_at r.2 i).value := by
  induction fuel with
  | zero =>
    intro ptr tokens token_count max_tokens r _ h
    simp [tokenize_loop] at h
  | succ fuel ih =>
    intro ptr tokens token_count max_tokens r hz h
    unfold tokenize_loop at h
    split_ifs at h with h0
    · cases h; exact hz
    · split at h
      · cases h; exact hz
      · rename_i c rest _
        split_ifs at h with h1 h2 h3 h4 h5
        · split at h
          · cases h
          · rename_i v hv
            exact ih _ _ _ _ _ (set_token_zero _ _ _ hz (write_string_zero _ _ _ hv)) h
        · exact ih _ _ _ _ _ (set_token_zero _ _ _ hz (char_token_zero _ _ _)) h
        · exact ih _ _ _ _ _ (set_token_zero _ _ _ hz (char_token_zero _ _ _)) h
        · exact ih _ _ _ _ _ (set_token_zero _ _ _ hz (char_token_zero _ _ _)) h
        · exact ih _ _ _ _ _ hz h
        · split at h
          · cases h
          · rename_i t ht
            exact ih _ _ _ _ _ (set_token_zero _ _ _ hz (classify_word_zero _ _ _ ht)) h

theorem asm_tokenize_zero (line : List Nat) (stack : List Token) (n : Nat)
    (tokens : List Token) (h : asm_tokenize line stack MAX_TOKENS = some (n, tokens)) :
    ∀ i, i < n → 0 ∈ (token_at tokens i).value := by
  unfold asm_tokenize at h
  split_ifs at h
  · cases h
    intro i hi
    exact absurd hi (Nat.not_lt_zero _)
  · exact tokenize_loop_zero _ _ _ _ _ _ (fun i hi => absurd hi (Nat.not_lt_zero _)) h

/-! ### The `.STRING` loop stays inside the array `tokens` -/

theorem string_words_stop (n : Nat) :
    ∀ (p r more : List Nat), p.length ≤ n → p.length % 2 = 0 →
      string_words (p ++ 0 :: r ++ more) = string_words (p ++ 0 :: r) := by
  induction n with
  | zero =>
    intro p r more hn _
    have hp : p = [] := List.length_eq_zero.mp (by omega)
    subst hp
    cases r with
    | nil => cases more <;> simp [string_words]
    | cons x xs => simp [string_words]
  | succ n ih =>
    intro p r more hn heven
    match p, hn, heven with
    | [], _, _ =>
      cases r with
      | nil => cases more <;> simp [string_words]
      | cons x xs => simp [string_words]
    | [a], _, h => simp at h
    | a :: b :: p', hn, heven =>
      have hrec := ih p' r more (by simp at hn; omega) (by simp at heven; omega)
      simp only [List.cons_append, string_words, List.append_eq]
      simp only [List.cons_append] at hrec
      rw [hrec]

/-- The loop of `.STRING` over `tokens[i].value` with another token after it in
the array stops at `str[134]` at the latest: the words do not depend on what
follows the array in memory. -/
theorem value_memory_stop (tokens : List Token) (i : Nat) (more : List Nat)
    (hwf : tokens_wf tokens) (hi : i + 1 < MAX_TOKENS) :
    string_words (value_memory tokens i ++ more) = string_words (value_memory tokens i) := by
  have hlen := token_at_length tokens i hwf
  obtain ⟨t, rest, hdrop⟩ : ∃ t rest, tokens.drop (i + 1) = t :: rest := by
    cases h : tokens.drop (i + 1) with
    | nil =>
      have := congrArg List.length h
      rw [List.length_drop, hwf.1] at this
      simp at this
      omega
    | cons t rest => exact ⟨t, rest, rfl⟩
  unfold value_memory
  rw [hdrop, List.flatMap_cons]
  have e : ∀ tl : List Nat,
      (token_at tokens i).value ++ int_bytes (token_at tokens i).num_value ++
          (token_memory t ++ tl) =
        ((token_at tokens i).value ++ int_bytes (token_at tokens i).num_value ++
          [type_code t.type, 0]) ++ 0 :: (0 :: (t.value ++ int_bytes t.num_value) ++ tl) := by
    intro tl
    simp [token_memory]
  have hp : ((token_at tokens i).value ++ int_bytes (token_at tokens i).num_value ++
      [type_code t.type, 0]).length = 134 := by
    simp [hlen, int_bytes]
  rw [e]
  have h1 := string_words_stop 134 _ (0 :: (t.value ++ int_bytes t.num_value) ++
    rest.flatMap token_memory) more (le_of_eq hp) (by rw [hp])
  have h2 := string_words_stop 134 _ (0 :: (t.value ++ int_bytes t.num_value))
    (rest.flatMap token_memory ++ more) (le_of_eq hp) (by rw [hp])
  have h3 := string_words_stop 134 _ (0 :: (t.value ++ int_bytes t.num_value))
    (rest.flatMap token_memory) (le_of_eq hp) (by rw [hp])
  simp only [List.append_assoc, List.cons_append] at h1 h2 h3 ⊢
  rw [h2, h3]

theorem assemble_string_pass2 (st : Assembler) (tokens : List Token) (n k : Nat)
    (hk : k = 0 ∨ (k = 1 ∧ (token_at tokens 0).type = TOKEN_LABEL))
    (hdir : (token_at tokens k).type = TOKEN_DIRECTIVE)
    (hname : strcasecmp_eq (token_at tokens k).value (bytes ".STRING") = true ∨
      strcasecmp_eq (token_at tokens k).value (bytes ".ASCIIZ") = true)
    (hn : k + 1 < n) :
    assemble_tokens st tokens n 2 =
      emit_words st (string_words (value_memory tokens (k + 1)) ++ [0]) := by
  obtain ⟨h1, h2⟩ := string_directive_name _ hname
  have hd : assemble_directive st tokens n k 2 =
      emit_words st (string_words (value_memory tokens (k + 1)) ++ [0]) := by
    unfold assemble_directive
    rw [if_neg (by rw [h1]; decide), if_neg (by rw [h2]; decide), if_pos (by simpa using hname),
      if_pos ⟨rfl, hn⟩]
  unfold assemble_tokens
  rcases hk with rfl | ⟨rfl, hl⟩
  · rw [if_neg (by omega), if_neg (by rw [hdir]; decide), if_pos hdir, hd]
  · have hn0 : ¬ n = 0 := by omega
    have hn1 : ¬ 1 ≥ n := by omega
    have h21 : ¬ (2 : Nat) = 1 := by decide
    simp only [if_neg hn0, if_pos hl, if_neg h21, if_neg hn1, if_pos hdir, hd]

theorem emitted_length (st : Assembler) (start : Nat) :
    (emitted st start).length = st.output_size - start := by
  simp [emitted]

theorem emitted_getD (st : Assembler) (start i : Nat) (h : i < st.output_size - start) :
    (emitted st start).getD i 0 = st.output (start + i) := by
  unfold emitted
  rw [List.getD_eq_getElem _ _ (by simpa using h)]
  simp

/-- C9: when the lexer returns a token `s` of non-zero bytes after `.STRING` or
`.ASCIIZ` (with or without a label in front), pass 2 emits words such that,
stored in memory from address `a` on, a write of `a` to `MMIO_STR_OUT` appends
exactly the bytes of `s` to the output. -/
theorem string_directive_prints (st : Assembler) (stack : List Token) (line : List Nat)
    (n : Nat) (tokens : List Token) (k : Nat)
    (hstack : tokens_wf stack) (hemit : st.can_emit)
    (htok : asm_tokenize line stack MAX_TOKENS = some (n, tokens))
    (hk : k = 0 ∨ (k = 1 ∧ (token_at tokens 0).type = TOKEN_LABEL))
    (hdir : (token_at tokens k).type = TOKEN_DIRECTIVE)
    (hname : strcasecmp_eq (token_at tokens k).value (bytes ".STRING") = true ∨
      strcasecmp_eq (token_at tokens k).value (bytes ".ASCIIZ") = true)
    (hn : k + 1 < n)
    (hbytes : ∀ b ∈ cstr (token_at tokens (k + 1)).value, b < 256) :
    ∃ st', asm_assemble_line st line 2 stack = some st' ∧
      st.output_size < st'.output_size ∧
      ∀ (cpu : CPU) (a : Nat), a < 65536 →
        (∀ i, i < (emitted st' st.output_size).length →
          cpu.memory (u16 (a + i)) = (emitted st' st.output_size).getD i 0) →
        cpu_write_memory cpu MMIO_STR_OUT a =
          some { cpu with output := cpu.output ++ cstr (token_at tokens (k + 1)).value } := by
  have hwf := asm_tokenize_wf line stack (n, tokens) hstack htok
  have hlen := token_at_length tokens (k + 1) hwf
  have hzero := asm_tokenize_zero line stack n tokens htok (k + 1) hn
  obtain ⟨tail, hsplit, htail, hnz, hle⟩ := cstr_split (token_at tokens (k + 1)).value
  have htail0 : tail.head? = some 0 := by
    rcases htail with h | h
    · rw [h, List.append_nil] at hsplit
      rw [hsplit] at hzero
      exact absurd rfl (hnz 0 hzero)
    · exact h
  have hmemory : value_memory tokens (k + 1) =
      cstr (token_at tokens (k + 1)).value ++
        (tail ++ (int_bytes (token_at tokens (k + 1)).num_value ++
          (tokens.drop (k + 1 + 1)).flatMap token_memory)) := by
    unfold value_memory
    rw [List.append_assoc, ← List.append_assoc (cstr _) tail, ← hsplit]
  have htail1 : (tail ++ (int_bytes (token_at tokens (k + 1)).num_value ++
      (tokens.drop (k + 1 + 1)).flatMap token_memory)).head? = some 0 := by
    cases tail with
    | nil => simp at htail0
    | cons x xs => simpa using htail0
  obtain ⟨st', hst', _, hsize, hout, _, _⟩ :=
    emit_words_some (string_words (value_memory tokens (k + 1)) ++ [0]) st hemit
  refine ⟨st', ?_, ?_, ?_⟩
  · unfold asm_assemble_line
    rw [htok, Option.some_bind]
    dsimp only
    rw [assemble_string_pass2 st tokens n k hk hdir hname hn, hst']
  · rw [hsize, List.length_append]
    simp
  · intro cpu a ha hmem
    have hloop : str_out_loop 65536 cpu.memory a cpu.output =
        some (cpu.output ++ cstr (token_at tokens (k + 1)).value) := by
      apply str_out_string_words 128 (cstr (token_at tokens (k + 1)).value) _ 65536 a
        cpu.memory cpu.output (by omega) (fun b hb => ⟨hnz b hb, hbytes b hb⟩) (Or.inr htail1)
        (by omega) ha
      rw [← hmemory]
      intro i hi
      have hi' : i < st'.output_size - st.output_size := by rw [hsize]; omega
      rw [hmem i (by rw [emitted_length]; exact hi'), emitted_getD _ _ _ hi', hout i hi]
    unfold cpu_write_memory
    rw [if_pos (by decide), if_neg (by decide), if_neg (by decide), if_pos rfl, hloop]
    rfl

theorem used_stack_wf : tokens_wf used_stack := by
  unfold used_stack stack_after
  cases h : asm_tokenize (bytes ".STRING \"Hello World\"") zero_tokens MAX_TOKENS with
  | none => exact zero_tokens_wf
  | some r => exact asm_tokenize_wf _ _ r zero_tokens_wf h

/-- Witness of C9: the line `.STRING "abc"`, lexed into an array that still
holds the tokens of `.STRING "Hello World"`, is emitted in pass 2 as the words
`ba`, `c`, four words of old bytes and 0, and these words at address `0x100` print
`abc`. -/
theorem string_directive_prints_witness :
    tokens_wf used_stack ∧ fresh_asm.can_emit ∧
    asm_tokenize abc_line used_stack MAX_TOKENS = some (2, stack_after abc_line used_stack) ∧
    cstr (token_at (stack_after abc_line used_stack) 1).value = [97, 98, 99] ∧
    (asm_assemble_line fresh_asm abc_line 2 used_stack).map (fun st => emitted st 0) =
      some [0x6261, 0x63, 0x206F, 0x6F57, 0x6C72, 0x64, 0] ∧
    (cpu_write_memory (string_cpu [0x6261, 0x63, 0x206F, 0x6F57, 0x6C72, 0x64, 0])
      MMIO_STR_OUT 0x100).map (fun c => c.output) = some [97, 98, 99] ∧
    ∃ st', asm_assemble_line fresh_asm abc_line 2 used_stack = some st' ∧
      fresh_asm.output_size < st'.output_size ∧
      ∀ (cpu : CPU) (a : Nat), a < 65536 →
        (∀ i, i < (emitted st' fresh_asm.output_size).length →
          cpu.memory (u16 (a + i)) = (emitted st' fresh_asm.output_size).getD i 0) →
        cpu_write_memory cpu MMIO_STR_OUT a =
          some { cpu with
            output := cpu.output ++ cstr (token_at (stack_after abc_line used_stack) 1).value } :=
  ⟨used_stack_wf, by unfold Assembler.can_emit; decide, by decide, by decide, by decide,
    by decide,
    string_directive_prints fresh_asm used_stack abc_line 2 (stack_after abc_line used_stack) 0
      used_stack_wf (by unfold Assembler.can_emit; decide) (by decide) (Or.inl rfl) (by decide) (Or.inl (by decide))
      (by decide) (by decide)⟩

/-! ### C2: the sizes of pass 1 and the words of pass 2 -/

/-- C2 fails on the code: for the line `.STRING "abc"`, lexed into an array
that still holds the tokens of `.STRING "Hello World"`, pass 1 advances the
location counter by 3 while pass 2 emits 7 words and advances it by 7. The loop
of pass 2 steps over the terminator of a string of odd length and goes on
with the old bytes of the buffer. -/
theorem string_odd_length_pass_mismatch :
    tokens_wf used_stack ∧
    (asm_assemble_line fresh_asm abc_line 1 used_stack).map
      (fun st => (st.current_address, st.output_size)) = some (3, 0) ∧
    (asm_assemble_line fresh_asm abc_line 2 used_stack).map
      (fun st => (st.current_address, st.output_size)) = some (7, 7) ∧
    (asm_assemble_line fresh_asm abc_line 2 zero_tokens).map
      (fun st => (st.current_address, st.output_size)) = some (3, 3) :=
  ⟨used_stack_wf, by decide, by decide, by decide⟩

/-! ### Where the two passes do agree -/

theorem emit_words_address (ws : List Nat) :
    ∀ st st' : Assembler, emit_words st ws = some st' →
      st'.current_address = u16 (st.current_address + ws.length) ∨
        (ws = [] ∧ st' = st) := by
  induction ws with
  | nil =>
    intro st st' h
    simp only [emit_words, Option.some.injEq] at h
    exact Or.inr ⟨rfl, h.symm⟩
  | cons w ws ih =>
    intro st st' h
    left
    simp only [emit_words] at h
    cases h1 : asm_emit_word st w with
    | none => simp [h1] at h
    | some st1 =>
      rw [h1, Option.some_bind] at h
      have ha : st1.current_address = u16 (st.current_address + 1) := by
        unfold asm_emit_word at h1
        dsimp only at h1
        split_ifs at h1 <;> cases h1 <;> rfl
      rcases ih st1 st' h with h2 | ⟨rfl, rfl⟩
      · rw [h2, ha, List.length_cons]
        unfold u16
        omega
      · rw [ha]; rfl

theorem string_words_length (n : Nat) :
    ∀ (s tail : List Nat), s.length ≤ n → (∀ b ∈ s, b ≠ 0) →
      (tail = [] ∨ tail.head? = some 0) →
      (s.length % 2 = 0 ∨ tail.getD 1 0 = 0) →
      (string_words (s ++ tail)).length = (s.length + 1) / 2 := by
  induction n with
  | zero =>
    intro s tail hn _ htail _
    have hs : s = [] := List.length_eq_zero.mp (by omega)
    subst hs
    rcases htail with rfl | h
    · rfl
    · match tail, h with
      | [0], _ => rfl
      | 0 :: _ :: _, _ => rfl
  | succ n ih =>
    intro s tail hn hs htail hclean
    match s, hn, hs, hclean with
    | [], _, hs, hclean => exact ih [] tail (by simp) hs htail hclean
    | [c], _, hs, hclean =>
      have hc := hs c (by simp)
      rcases htail with rfl | h
      · simp [string_words, hc]
      · match tail, h, hclean with
        | [0], _, _ => simp [string_words, hc]
        | 0 :: x :: t, _, hclean =>
          have hx : x = 0 := by simpa using hclean
          subst hx
          cases t <;> simp [string_words, hc]
    | c :: d :: s', hn, hs, hclean =>
      have hc := hs c (by simp)
      have hd := hs d (by simp)
      have hcl : s'.length % 2 = 0 ∨ tail.getD 1 0 = 0 := by
        rcases hclean with h | h
        · left
          simp only [List.length_cons] at h
          omega
        · exact Or.inr h
      have hrec := ih s' tail (by simp only [List.length_cons] at hn; omega)
        (fun b hb => hs b (by simp [hb])) htail hcl
      simp only [List.cons_append, string_words, if_neg hc, List.length_cons, List.append_eq,
        hrec]
      omega

theorem word_directive_count_address (toks : List Token) :
    ∀ st : Assembler,
      (word_directive_count st toks).current_address =
        u16 (st.current_address + word_count toks) ∨
      (word_count toks = 0 ∧ word_directive_count st toks = st) := by
  induction toks with
  | nil => intro st; exact Or.inr ⟨rfl, rfl⟩
  | cons t toks ih =>
    intro st
    by_cases ht : t.type ≠ TOKEN_COMMA
    · left
      have hw : word_count (t :: toks) = word_count toks + 1 := by
        simp [word_count, List.filter_cons, ht]
      simp only [word_directive_count, if_pos ht, hw]
      rcases ih { st with current_address := u16 (st.current_address + 1) } with h | ⟨h0, h⟩
      · rw [h]; dsimp only; unfold u16; omega
      · rw [h, h0]
    · have hw : word_count (t :: toks) = word_count toks := by
        simp [word_count, List.filter_cons, ht]
      simp only [word_directive_count, if_neg ht, hw]
      exact ih st

theorem word_directive_emit_some (toks : List Token) :
    ∀ st : Assembler, st.can_emit →
      ∃ st', word_directive_emit st toks = some st' ∧
        st'.output_size = st.output_size + word_count toks ∧
        (st'.current_address = u16 (st.current_address + word_count toks) ∨
          (word_count toks = 0 ∧ st' = st)) ∧ st'.can_emit := by
  induction toks with
  | nil => intro st h; exact ⟨st, rfl, rfl, Or.inr ⟨rfl, rfl⟩, h⟩
  | cons t toks ih =>
    intro st hemit
    by_cases ht : t.type ≠ TOKEN_COMMA
    · have hw : word_count (t :: toks) = word_count toks + 1 := by
        simp [word_count, List.filter_cons, ht]
      obtain ⟨st1, h1, hc1, hs1, _, ha1, _⟩ := emit_word_some st
        (int_to_u16 (if t.type = TOKEN_IMMEDIATE then t.num_value
          else label_or_zero st t.value)) hemit
      obtain ⟨st2, h2, hs2, ha2, hc2⟩ := ih st1 hc1
      refine ⟨st2, ?_, ?_, Or.inl ?_, hc2⟩
      · simp only [word_directive_emit, if_pos ht, h1, Option.some_bind]
        exact h2
      · rw [hs2, hs1, hw]; omega
      · rcases ha2 with h | ⟨h0, rfl⟩
        · rw [h, ha1, hw]; unfold u16; omega
        · rw [ha1, hw, h0]
    · have hw : word_count (t :: toks) = word_count toks := by
        simp [word_count, List.filter_cons, ht]
      obtain ⟨st2, h2, hs2, ha2, hc2⟩ := ih st hemit
      refine ⟨st2, ?_, ?_, ?_, hc2⟩
      · simp only [word_directive_emit, if_neg ht]
        exact h2
      · rw [hs2, hw]
      · rw [hw]; exact ha2

theorem extra_word_isSome (st : Assembler) (mnemonic : List Nat) (operands : List Token) :
    (extra_word st mnemonic operands).isSome = two_words mnemonic operands := by
  unfold extra_word two_words
  split_ifs <;> simp_all

theorem assemble_instruction_passes (st sl : Assembler) (mnemonic : List Nat)
    (operands : List Token) (hemit : st.can_emit)
    (hsl : sl.current_address = st.current_address) :
    ∃ m st1 st2, assemble_instruction sl mnemonic operands 1 = some st1 ∧
      assemble_instruction st mnemonic operands 2 = some st2 ∧
      st1.current_address = u16 (st.current_address + m) ∧
      st2.current_address = u16 (st.current_address + m) ∧
      st2.output_size = st.output_size + m := by
  obtain ⟨e1, h1, hc1, hs1, _, ha1, _⟩ :=
    emit_word_some st (asm_encode_instruction mnemonic operands) hemit
  have hx := extra_word_isSome e1 mnemonic operands
  cases hw : extra_word e1 mnemonic operands with
  | none =>
    rw [hw] at hx
    refine ⟨1, { sl with current_address := u16 (sl.current_address + 1) }, e1, ?_, ?_,
      by rw [← hsl], ha1, hs1⟩
    · unfold assemble_instruction
      rw [if_neg (by decide), ← hx]
      rfl
    · unfold assemble_instruction
      rw [if_pos rfl, h1, Option.some_bind, hw]
  | some w =>
    rw [hw] at hx
    obtain ⟨e2, h2, _, hs2, _, ha2, _⟩ := emit_word_some e1 w hc1
    refine ⟨2, { sl with current_address := u16 (u16 (sl.current_address + 1) + 1) }, e2, ?_, ?_,
      ?_, ?_, ?_⟩
    · unfold assemble_instruction
      rw [if_neg (by decide), ← hx]
      rfl
    · unfold assemble_instruction
      rw [if_pos rfl, h1, Option.some_bind, hw]
      exact h2
    · show u16 (u16 (sl.current_address + 1) + 1) = _
      rw [hsl]; unfold u16; omega
    · rw [ha2, ha1]; unfold u16; omega
    · rw [hs2, hs1]

theorem add_label_frame (st : Assembler) (name : List Nat) (a : Nat) :
    (asm_add_label st name a).current_address = st.current_address ∧
    (asm_add_label st name a).output_size = st.output_size ∧
    (asm_add_label st name a).output_capacity = st.output_capacity := by
  unfold asm_add_label
  split_ifs <;> exact ⟨rfl, rfl, rfl⟩

theorem clean_string_words (buf : List Nat) (h : clean_string buf) :
    (string_words buf).length = ((cstr buf).length + 1) / 2 := by
  obtain ⟨tail, hsplit, htail, hnz, _⟩ := cstr_split buf
  have hclean : (cstr buf).length % 2 = 0 ∨ tail.getD 1 0 = 0 := by
    rcases h with h | h
    · exact Or.inl h
    · right
      have e : (token_buf_get buf) = (cstr buf ++ tail).getD ((cstr buf).length + 1) 0 := by
        unfold token_buf_get
        rw [← hsplit]
      rw [List.getD_append_right _ _ _ _ (by omega)] at e
      rw [show (cstr buf).length + 1 - (cstr buf).length = 1 by omega] at e
      rw [← e]
      exact h
  have := string_words_length (cstr buf).length (cstr buf) tail (le_refl _) hnz htail hclean
  rw [← hsplit] at this
  exact this

theorem assemble_directive_passes (st sl : Assembler) (tokens : List Token) (n k : Nat)
    (hemit : st.can_emit) (ha : st.current_address < 65536)
    (hsl : sl.current_address = st.current_address)
    (hform : strcasecmp_eq (token_at tokens k).value (bytes ".WORD") = true ∨
      ((strcasecmp_eq (token_at tokens k).value (bytes ".STRING") = true ∨
          strcasecmp_eq (token_at tokens k).value (bytes ".ASCIIZ") = true) ∧
        k + 1 < n ∧ 0 ∈ (token_at tokens (k + 1)).value ∧
        clean_string (value_memory tokens (k + 1)))) :
    ∃ m st1 st2, assemble_directive sl tokens n k 1 = some st1 ∧
      assemble_directive st tokens n k 2 = some st2 ∧
      st1.current_address = u16 (st.current_address + m) ∧
      st2.current_address = u16 (st.current_address + m) ∧
      st2.output_size = st.output_size + m := by
  have hu : u16 (st.current_address + 0) = st.current_address := by unfold u16; omega
  rcases hform with hw | ⟨hs, hn, hzero, hclean⟩
  · have horg : strcasecmp_eq (token_at tokens k).value (bytes ".ORG") = false := by
      rw [strcasecmp_eq_trans _ _ _ hw]; decide
    obtain ⟨st2, h2, hs2, ha2, _⟩ :=
      word_directive_emit_some ((tokens.take n).drop (k + 1)) st hemit
    refine ⟨word_count ((tokens.take n).drop (k + 1)),
      word_directive_count sl ((tokens.take n).drop (k + 1)), st2, ?_, ?_, ?_, ?_, hs2⟩
    · unfold assemble_directive
      rw [if_neg (by rw [horg]; decide), if_pos hw, if_neg (by decide)]
    · unfold assemble_directive
      rw [if_neg (by rw [horg]; decide), if_pos hw, if_pos rfl]
      exact h2
    · rcases word_directive_count_address ((tokens.take n).drop (k + 1)) sl with h | ⟨h0, h⟩
      · rw [h, hsl]
      · rw [h, h0, hu, hsl]
    · rcases ha2 with h | ⟨h0, rfl⟩
      · exact h
      · rw [h0, hu]
  · obtain ⟨h1, h2⟩ := string_directive_name _ hs
    obtain ⟨st2, he2, _, hs2, _, _, _⟩ :=
      emit_words_some (string_words (value_memory tokens (k + 1)) ++ [0]) st hemit
    have hlen : (string_words (value_memory tokens (k + 1)) ++ [0]).length =
        ((cstr (token_at tokens (k + 1)).value).length + 1) / 2 + 1 := by
      rw [List.length_append, clean_string_words _ hclean, cstr_value_memory _ _ hzero]
      rfl
    refine ⟨((cstr (token_at tokens (k + 1)).value).length + 1) / 2 + 1,
      { sl with
        current_address :=
          u16 (sl.current_address +
            (((cstr (token_at tokens (k + 1)).value).length + 1) / 2 + 1)) },
      st2, ?_, ?_, ?_, ?_, ?_⟩
    · unfold assemble_directive
      rw [if_neg (by rw [h1]; decide), if_neg (by rw [h2]; decide), if_pos (by simpa using hs),
        if_neg (fun h => absurd h.1 (by decide))]
    · unfold assemble_directive
      rw [if_neg (by rw [h1]; decide), if_neg (by rw [h2]; decide), if_pos (by simpa using hs),
        if_pos ⟨rfl, hn⟩]
      exact he2
    · show u16 (sl.current_address + _) = _
      rw [hsl]
    · rcases emit_words_address _ _ _ he2 with h | ⟨h, _⟩
      · rw [h, hlen]
      · simp at h
    · rw [hs2, hlen]

/-- Where pass 1 and pass 2 agree: for a `.WORD` directive, for a `.STRING` or
`.ASCIIZ` directive whose operand has its terminator in its buffer (as every
token of the lexer has) and is clean, and for every instruction, with or
without a label in front, both passes advance the location counter by
the same number `m` of words, and pass 2 emits `m` words. -/
theorem passes_agree (st : Assembler) (tokens : List Token) (n k : Nat)
    (hemit : st.can_emit) (ha : st.current_address < 65536) (hn : k < n)
    (hk : (k = 0 ∧ (token_at tokens 0).type ≠ TOKEN_LABEL) ∨
      (k = 1 ∧ (token_at tokens 0).type = TOKEN_LABEL))
    (hform : ((token_at tokens k).type = TOKEN_DIRECTIVE ∧
        (strcasecmp_eq (token_at tokens k).value (bytes ".WORD") = true ∨
          ((strcasecmp_eq (token_at tokens k).value (bytes ".STRING") = true ∨
              strcasecmp_eq (token_at tokens k).value (bytes ".ASCIIZ") = true) ∧
            k + 1 < n ∧ 0 ∈ (token_at tokens (k + 1)).value ∧
            clean_string (value_memory tokens (k + 1))))) ∨
      (token_at tokens k).type = TOKEN_INSTRUCTION) :
    ∃ m st1 st2, assemble_tokens st tokens n 1 = some st1 ∧
      assemble_tokens st tokens n 2 = some st2 ∧
      st1.current_address = u16 (st.current_address + m) ∧
      st2.current_address = u16 (st.current_address + m) ∧
      st2.output_size = st.output_size + m := by
  have hn0 : ¬ n = 0 := by omega
  have h21 : ¬ (2 : Nat) = 1 := by decide
  rcases hk with ⟨rfl, hl⟩ | ⟨rfl, hl⟩
  · rcases hform with ⟨hd, hf⟩ | hi
    · obtain ⟨m, st1, st2, h1, h2, h⟩ :=
        assemble_directive_passes st st tokens n 0 hemit ha rfl hf
      refine ⟨m, st1, st2, ?_, ?_, h⟩
      · unfold assemble_tokens
        simp only [if_neg hn0, if_neg hl, if_pos hd, h1]
      · unfold assemble_tokens
        simp only [if_neg hn0, if_neg hl, if_pos hd, h2]
    · have hnd : ¬ (token_at tokens 0).type = TOKEN_DIRECTIVE := by rw [hi]; decide
      obtain ⟨m, st1, st2, h1, h2, h⟩ :=
        assemble_instruction_passes st st (token_at tokens 0).value (tokens.drop 1) hemit rfl
      refine ⟨m, st1, st2, ?_, ?_, h⟩
      · unfold assemble_tokens
        simp only [if_neg hn0, if_neg hl, if_neg hnd, if_pos hi, h1]
      · unfold assemble_tokens
        simp only [if_neg hn0, if_neg hl, if_neg hnd, if_pos hi, h2]
  · have hn1 : ¬ 1 ≥ n := by omega
    obtain ⟨hla, hls, hlc⟩ := add_label_frame st (token_at tokens 0).value st.current_address
    rcases hform with ⟨hd, hf⟩ | hi
    · obtain ⟨m, st1, st2, h1, h2, h⟩ :=
        assemble_directive_passes st
          (asm_add_label st (token_at tokens 0).value st.current_address) tokens n 1 hemit ha
          hla hf
      refine ⟨m, st1, st2, ?_, ?_, h⟩
      · unfold assemble_tokens
        simp only [if_neg hn0, if_pos hl, if_neg hn1, if_pos hd, if_true, h1]
      · unfold assemble_tokens
        simp only [if_neg hn0, if_pos hl, if_neg hn1, if_pos hd, if_neg h21, h2]
    · have hnd : ¬ (token_at tokens 1).type = TOKEN_DIRECTIVE := by rw [hi]; decide
      obtain ⟨m, st1, st2, h1, h2, h⟩ :=
        assemble_instruction_passes st
          (asm_add_label st (token_at tokens 0).value st.current_address)
          (token_at tokens 1).value (tokens.drop 2) hemit hla
      refine ⟨m, st1, st2, ?_, ?_, h⟩
      · unfold assemble_tokens
        simp only [if_neg hn0, if_pos hl, if_neg hn1, if_neg hnd, if_pos hi, if_true, h1]
      · unfold assemble_tokens
        simp only [if_neg hn0, if_pos hl, if_neg hn1, if_neg hnd, if_pos hi, if_neg h21, h2]

/-! ### C11: a halted CPU does nothing -/

/-- C11: for a CPU whose halted flag is set `cpu_step` returns the state as it
was, registers, flags, PC, IR, memory, cycle counter, halted flag and output
included, and so does any number of further steps. -/
theorem halted_step_unchanged (cpu : CPU) (h : cpu.halted = true) :
    cpu_step cpu = some cpu ∧ ∀ n, cpu_steps n cpu = some cpu := by
  have h1 : cpu_step cpu = some cpu := by
    unfold cpu_step
    rw [if_pos h]
  refine ⟨h1, ?_⟩
  intro n
  induction n with
  | zero => rfl
  | succ n ih =>
    unfold cpu_steps
    rw [h1, Option.some_bind, ih]

/-- Witness of C11: a halted CPU with `LDI R0, 5` at its PC is left as it is by
one step and by five. -/
theorem halted_step_unchanged_witness :
    halted_cpu.halted = true ∧ cpu_step halted_cpu = some halted_cpu ∧
    cpu_steps 5 halted_cpu = some halted_cpu ∧ (after_step halted_cpu).pc = 0 :=
  ⟨rfl, (halted_step_unchanged halted_cpu rfl).1, (halted_step_unchanged halted_cpu rfl).2 5,
    by decide⟩

/-! ### The halted flag and the cycle counter after each case -/

theorem exec_load_rest (cpu : CPU) (rd rs mode : Nat) :
    (exec_load cpu rd rs mode).halted = cpu.halted ∧
    (exec_load cpu rd rs mode).cycle_count = cpu.cycle_count := by
  unfold exec_load
  split_ifs <;>
    first
    | exact ⟨rfl, rfl⟩
    | simp [set_reg, (read_memory_frame _ _).2.2.2.2.1, (read_memory_frame _ _).2.2.2.2.2.1,
        (fetch_frame cpu).2.2.2.2.1, (fetch_frame cpu).2.2.2.2.2.1]

theorem exec_store_rest (cpu cpu' : CPU) (rd rs mode : Nat)
    (h : exec_store cpu rd rs mode = some cpu') :
    cpu'.halted = cpu.halted ∧ cpu'.cycle_count = cpu.cycle_count := by
  unfold exec_store at h
  split_ifs at h
  · rw [(write_memory_frame _ _ _ _ h).2.2.2.1, (write_memory_frame _ _ _ _ h).2.2.2.2.1,
      (fetch_frame cpu).2.2.2.2.1, (fetch_frame cpu).2.2.2.2.2.1]
    exact ⟨rfl, rfl⟩
  · exact ⟨(write_memory_frame _ _ _ _ h).2.2.2.1, (write_memory_frame _ _ _ _ h).2.2.2.2.1⟩
  · cases h; exact ⟨rfl, rfl⟩

theorem exec_arith_rest (cpu : CPU) (rd rs mode : Nat) :
    (exec_arith cpu rd rs mode).halted = cpu.halted ∧
    (exec_arith cpu rd rs mode).cycle_count = cpu.cycle_count := by
  unfold exec_arith
  split_ifs
  · exact ⟨rfl, rfl⟩
  · exact ⟨rfl, rfl⟩
  · exact ⟨rfl, rfl⟩
  · exact ⟨rfl, rfl⟩
  · exact ⟨rfl, rfl⟩
  · exact ⟨rfl, rfl⟩
  · exact ⟨rfl, rfl⟩
  · exact ⟨(fetch_frame cpu).2.2.2.2.1, (fetch_frame cpu).2.2.2.2.2.1⟩
  · exact ⟨(fetch_frame cpu).2.2.2.2.1, (fetch_frame cpu).2.2.2.2.2.1⟩
  · exact ⟨rfl, rfl⟩

theorem exec_logic_rest (cpu : CPU) (rd rs mode : Nat) :
    (exec_logic cpu rd rs mode).halted = cpu.halted ∧
    (exec_logic cpu rd rs mode).cycle_count = cpu.cycle_count := by
  unfold exec_logic
  split_ifs <;> exact ⟨rfl, rfl⟩

theorem exec_shift_rest (cpu : CPU) (rd rs mode : Nat) :
    (exec_shift cpu rd rs mode).halted = cpu.halted ∧
    (exec_shift cpu rd rs mode).cycle_count = cpu.cycle_count := by
  unfold exec_shift
  split_ifs <;> exact ⟨rfl, rfl⟩

theorem exec_branch_rest (cpu : CPU) (mode : Nat) :
    (exec_branch cpu mode).halted = cpu.halted ∧
    (exec_branch cpu mode).cycle_count = cpu.cycle_count := by
  unfold exec_branch
  dsimp only
  split_ifs <;> exact ⟨(fetch_frame cpu).2.2.2.2.1, (fetch_frame cpu).2.2.2.2.2.1⟩

theorem exec_jump_rest (cpu : CPU) :
    (exec_jump cpu).halted = cpu.halted ∧ (exec_jump cpu).cycle_count = cpu.cycle_count :=
  ⟨(fetch_frame cpu).2.2.2.2.1, (fetch_frame cpu).2.2.2.2.2.1⟩

theorem exec_stack_rest (cpu cpu' : CPU) (rd rs mode : Nat)
    (h : exec_stack cpu rd rs mode = some cpu') :
    cpu'.halted = cpu.halted ∧ cpu'.cycle_count = cpu.cycle_count := by
  unfold exec_stack at h
  split_ifs at h
  · rw [(write_memory_frame _ _ _ _ h).2.2.2.1, (write_memory_frame _ _ _ _ h).2.2.2.2.1]
    exact ⟨rfl, rfl⟩
  · cases h
    exact ⟨(read_memory_frame _ _).2.2.2.2.1, (read_memory_frame _ _).2.2.2.2.2.1⟩
  · cases h; exact ⟨rfl, rfl⟩

theorem exec_call_rest (cpu cpu' : CPU) (h : exec_call cpu = some cpu') :
    cpu'.halted = cpu.halted ∧ cpu'.cycle_count = cpu.cycle_count := by
  rw [exec_call_eq, Option.map_eq_some'] at h
  obtain ⟨c1, hw, rfl⟩ := h
  dsimp only
  rw [(write_memory_frame _ _ _ _ hw).2.2.2.1, (write_memory_frame _ _ _ _ hw).2.2.2.2.1]
  exact ⟨(fetch_frame cpu).2.2.2.2.1, (fetch_frame cpu).2.2.2.2.2.1⟩

theorem exec_ret_rest (cpu : CPU) :
    (exec_ret cpu).halted = cpu.halted ∧ (exec_ret cpu).cycle_count = cpu.cycle_count :=
  ⟨(read_memory_frame _ _).2.2.2.2.1, (read_memory_frame _ _).2.2.2.2.2.1⟩

theorem dec_opcode_lt (i : Nat) : dec_opcode i < 16 := by
  rw [(dec_fields i).1]
  omega

theorem decode_execute_unknown (cpu : CPU) (i : Nat)
    (h : dec_opcode i = 0xD ∨ dec_opcode i = 0xE) :
    cpu_decode_execute cpu i = some { cpu with halted := true } := by
  rcases h with h | h <;> simp [cpu_decode_execute, h]

/-- The halted flag and the cycle counter that `cpu_decode_execute` leaves. -/
theorem decode_execute_rest (cpu cpu' : CPU) (i : Nat)
    (h : cpu_decode_execute cpu i = some cpu') :
    cpu'.cycle_count = cpu.cycle_count ∧
    (dec_opcode i < 0xD → cpu'.halted = cpu.halted) := by
  have hlt := dec_opcode_lt i
  have hcases : dec_opcode i = 0 ∨ dec_opcode i = 1 ∨ dec_opcode i = 2 ∨ dec_opcode i = 3 ∨
      dec_opcode i = 4 ∨ dec_opcode i = 5 ∨ dec_opcode i = 6 ∨ dec_opcode i = 7 ∨
      dec_opcode i = 8 ∨ dec_opcode i = 9 ∨ dec_opcode i = 10 ∨ dec_opcode i = 11 ∨
      dec_opcode i = 12 ∨ dec_opcode i = 13 ∨ dec_opcode i = 14 ∨ dec_opcode i = 15 := by
    omega
  rcases hcases with h0 | h0 | h0 | h0 | h0 | h0 | h0 | h0 | h0 | h0 | h0 | h0 | h0 | h0 | h0 | h0
  · rw [decode_execute_nop _ _ h0] at h; cases h; exact ⟨rfl, fun _ => rfl⟩
  · rw [decode_execute_load _ _ h0] at h; cases h
    exact ⟨(exec_load_rest _ _ _ _).2, fun _ => (exec_load_rest _ _ _ _).1⟩
  · rw [decode_execute_store _ _ h0] at h
    exact ⟨(exec_store_rest _ _ _ _ _ h).2, fun _ => (exec_store_rest _ _ _ _ _ h).1⟩
  · rw [decode_execute_move _ _ h0] at h; cases h; exact ⟨rfl, fun _ => rfl⟩
  · rw [decode_execute_arith _ _ h0] at h; cases h
    exact ⟨(exec_arith_rest _ _ _ _).2, fun _ => (exec_arith_rest _ _ _ _).1⟩
  · rw [decode_execute_logic _ _ h0] at h; cases h
    exact ⟨(exec_logic_rest _ _ _ _).2, fun _ => (exec_logic_rest _ _ _ _).1⟩
  · rw [decode_execute_shift _ _ h0] at h; cases h
    exact ⟨(exec_shift_rest _ _ _ _).2, fun _ => (exec_shift_rest _ _ _ _).1⟩
  · rw [decode_execute_branch _ _ h0] at h; cases h
    exact ⟨(exec_branch_rest _ _).2, fun _ => (exec_branch_rest _ _).1⟩
  · rw [decode_execute_jump _ _ h0] at h; cases h
    exact ⟨(exec_jump_rest _).2, fun _ => (exec_jump_rest _).1⟩
  · rw [decode_execute_stack _ _ h0] at h
    exact ⟨(exec_stack_rest _ _ _ _ _ h).2, fun _ => (exec_stack_rest _ _ _ _ _ h).1⟩
  · rw [decode_execute_call _ _ h0] at h
    exact ⟨(exec_call_rest _ _ h).2, fun _ => (exec_call_rest _ _ h).1⟩
  · rw [decode_execute_ret _ _ h0] at h; cases h
    exact ⟨(exec_ret_rest _).2, fun _ => (exec_ret_rest _).1⟩
  · rw [decode_execute_cmp _ _ h0] at h; cases h; exact ⟨rfl, fun _ => rfl⟩
  · rw [decode_execute_unknown _ _ (Or.inl h0)] at h; cases h
    exact ⟨rfl, fun hh => by omega⟩
  · rw [decode_execute_unknown _ _ (Or.inr h0)] at h; cases h
    exact ⟨rfl, fun hh => by omega⟩
  · rw [decode_execute_halt _ _ h0] at h; cases h
    exact ⟨rfl, fun hh => by omega⟩

/-! ### C12: HALT and the opcodes without an instruction -/

/-- C12: a step of a running CPU whose fetched word has opcode `0xF` (HALT),
`0xD` or `0xE` returns with the halted flag set and the registers, flags and
memory as they were; a step with any other opcode leaves the halted flag
false. -/
theorem step_halted_flag (cpu : CPU) (hrun : cpu.halted = false) :
    ((dec_opcode (fetched cpu) = OP_HALT ∨ dec_opcode (fetched cpu) = 0xD ∨
        dec_opcode (fetched cpu) = 0xE) →
      ∃ cpu', cpu_step cpu = some cpu' ∧ cpu'.halted = true ∧
        cpu'.registers = cpu.registers ∧ cpu'.flags = cpu.flags ∧
        cpu'.memory = cpu.memory) ∧
    (¬ (dec_opcode (fetched cpu) = OP_HALT ∨ dec_opcode (fetched cpu) = 0xD ∨
        dec_opcode (fetched cpu) = 0xE) →
      ∀ cpu', cpu_step cpu = some cpu' → cpu'.halted = false) := by
  constructor
  · intro hop
    have hd : cpu_decode_execute (cpu_fetch cpu).2 (fetched cpu) =
        some { (cpu_fetch cpu).2 with halted := true } := by
      rcases hop with h | h | h
      · exact decode_execute_halt _ _ h
      · exact decode_execute_unknown _ _ (Or.inl h)
      · exact decode_execute_unknown _ _ (Or.inr h)
    refine ⟨{ ({ (cpu_fetch cpu).2 with halted := true } : CPU) with
      cycle_count := (cpu.cycle_count + 1) % 2 ^ 64 }, ?_, ?_, ?_, ?_, ?_⟩
    · rw [cpu_step_running cpu hrun, hd]
      simp [(fetch_frame cpu).2.2.2.2.2.1]
    · rfl
    · exact (fetch_frame cpu).1
    · exact (fetch_frame cpu).2.2.1
    · exact (fetch_frame cpu).2.2.2.1
  · intro hop cpu' hstep
    obtain ⟨c, hc, rfl⟩ := cpu_step_some cpu cpu' hrun hstep
    have hlt := dec_opcode_lt (fetched cpu)
    simp only [OP_HALT] at hop
    have h := (decode_execute_rest _ _ _ hc).2 (by omega)
    show c.halted = false
    rw [h, (fetch_frame cpu).2.2.2.2.1, hrun]

/-- Witness of C12: the word `0xD000` halts the CPU and leaves `R0 = 7`. -/
theorem step_halted_flag_witness :
    unknown_op_cpu.halted = false ∧ dec_opcode (fetched unknown_op_cpu) = 0xD ∧
    (after_step unknown_op_cpu).halted = true ∧ (after_step unknown_op_cpu).registers 0 = 7 ∧
    ∃ cpu', cpu_step unknown_op_cpu = some cpu' ∧ cpu'.halted = true ∧
      cpu'.registers = unknown_op_cpu.registers ∧ cpu'.flags = unknown_op_cpu.flags ∧
      cpu'.memory = unknown_op_cpu.memory :=
  ⟨rfl, by decide, by decide, by decide,
    (step_halted_flag unknown_op_cpu rfl).1 (Or.inr (Or.inl (by decide)))⟩

/-! ### C13: the eight branch conditions -/

/-- C13: a step of a running CPU whose fetched word is a BRANCH returns, and for
each of the eight modes the new PC is the fetched target word when the condition
of the mode holds on the flags before the step (EQ: Z; NE: not Z; GT: not N and
not Z; LT: N; GE: not N; LE: N or Z; CS: C; CC: not C) and the address after the
target word, `(PC + 2) mod 2^16`, when it does not. -/
theorem step_branch (cpu : CPU) (hrun : cpu.halted = false)
    (hop : dec_opcode (fetched cpu) = OP_BRANCH) :
    ∃ cpu', cpu_step cpu = some cpu' ∧
      (dec_mode (fetched cpu) = BRANCH_EQ → branch_outcome cpu cpu' cpu.flags.Z) ∧
      (dec_mode (fetched cpu) = BRANCH_NE → branch_outcome cpu cpu' (!cpu.flags.Z)) ∧
      (dec_mode (fetched cpu) = BRANCH_GT →
        branch_outcome cpu cpu' (!cpu.flags.N && !cpu.flags.Z)) ∧
      (dec_mode (fetched cpu) = BRANCH_LT → branch_outcome cpu cpu' cpu.flags.N) ∧
      (dec_mode (fetched cpu) = BRANCH_GE → branch_outcome cpu cpu' (!cpu.flags.N)) ∧
      (dec_mode (fetched cpu) = BRANCH_LE →
        branch_outcome cpu cpu' (cpu.flags.N || cpu.flags.Z)) ∧
      (dec_mode (fetched cpu) = BRANCH_CS → branch_outcome cpu cpu' cpu.flags.C) ∧
      (dec_mode (fetched cpu) = BRANCH_CC → branch_outcome cpu cpu' (!cpu.flags.C)) := by
  have hp : (cpu_fetch cpu).2.pc = (cpu.pc + 1) % 65536 := (fetch_frame cpu).2.1
  have hp2 : u16 ((cpu_fetch cpu).2.pc + 1) = (cpu.pc + 2) % 65536 := by
    rw [hp]; unfold u16; omega
  have hf : (cpu_fetch cpu).2.flags = cpu.flags := (fetch_frame cpu).2.2.1
  have hpc : ∀ cond : Bool, should_branch cpu.flags (dec_mode (fetched cpu)) = cond →
      branch_outcome cpu
        ({ exec_branch (cpu_fetch cpu).2 (dec_mode (fetched cpu)) with
          cycle_count :=
            ((exec_branch (cpu_fetch cpu).2 (dec_mode (fetched cpu))).cycle_count + 1) %
              2 ^ 64 } : CPU) cond := by
    intro cond hc
    have h := exec_branch_pc (cpu_fetch cpu).2 (dec_mode (fetched cpu))
    rw [hf, hc, hp2] at h
    constructor
    · intro ht
      show (exec_branch (cpu_fetch cpu).2 (dec_mode (fetched cpu))).pc = _
      rw [h, ht, if_pos rfl]
      rfl
    · intro ht
      show (exec_branch (cpu_fetch cpu).2 (dec_mode (fetched cpu))).pc = _
      rw [h, ht]
      rfl
  refine ⟨{ exec_branch (cpu_fetch cpu).2 (dec_mode (fetched cpu)) with
    cycle_count :=
      ((exec_branch (cpu_fetch cpu).2 (dec_mode (fetched cpu))).cycle_count + 1) % 2 ^ 64 },
    ?_, ?_, ?_, ?_, ?_, ?_, ?_, ?_, ?_⟩
  · rw [cpu_step_running cpu hrun, decode_execute_branch _ _ hop]
    rfl
  all_goals
    intro hm
    apply hpc
    rw [hm]
    simp [should_branch]

/-- Witness of C13: `BGT 9` jumps to 9 when N and Z are clear and goes on to
address 2 when Z is set. -/
theorem step_branch_witness :
    (branch_cpu ⟨false, false, false, false⟩).halted = false ∧
    dec_opcode (fetched (branch_cpu ⟨false, false, false, false⟩)) = OP_BRANCH ∧
    dec_mode (fetched (branch_cpu ⟨false, false, false, false⟩)) = BRANCH_GT ∧
    (after_step (branch_cpu ⟨false, false, false, false⟩)).pc = 9 ∧
    (after_step (branch_cpu ⟨true, false, false, false⟩)).pc = 2 ∧
    ∃ cpu', cpu_step (branch_cpu ⟨false, false, false, false⟩) = some cpu' ∧
      branch_outcome (branch_cpu ⟨false, false, false, false⟩) cpu' true := by
  refine ⟨rfl, by decide, by decide, by decide, by decide, ?_⟩
  obtain ⟨cpu', h1, _, _, h3, _⟩ := step_branch (branch_cpu ⟨false, false, false, false⟩) rfl
    (by decide)
  exact ⟨cpu', h1, h3 (by decide)⟩

/-! ### C14: the MMIO region is not backed by memory -/

/-- C14: for an address `a ≥ 0xF800`, `cpu_write_memory` leaves every memory word
as it was (the write returns for every address but `0xF802`, whose string loop may
not end), and for `a` other than `0xF800`, `0xF801` and `0xF802` it returns the
state as it was, output included; `cpu_read_memory` of such an address other than
`0xF810` and `0xF820` returns 0 and the state as it was. -/
theorem mmio_frame (cpu : CPU) (a v : Nat) (ha : a ≥ MMIO_START) :
    (∀ cpu', cpu_write_memory cpu a v = some cpu' → cpu'.memory = cpu.memory) ∧
    (a ≠ MMIO_STR_OUT → ∃ cpu', cpu_write_memory cpu a v = some cpu' ∧
      cpu'.memory = cpu.memory) ∧
    (a ≠ MMIO_CHAR_OUT → a ≠ MMIO_INT_OUT → a ≠ MMIO_STR_OUT →
      cpu_write_memory cpu a v = some cpu) ∧
    (a ≠ MMIO_TIMER → a ≠ MMIO_CHAR_IN → cpu_read_memory cpu a = (0, cpu)) := by
  refine ⟨?_, ?_, ?_, ?_⟩
  · intro cpu' h
    unfold cpu_write_memory at h
    rw [if_pos ha] at h
    split_ifs at h
    · cases h; rfl
    · cases h; rfl
    · rw [Option.map_eq_some'] at h
      obtain ⟨out, _, rfl⟩ := h
      rfl
    · cases h; rfl
  · intro h3
    unfold cpu_write_memory
    rw [if_pos ha, if_neg h3]
    split_ifs
    · exact ⟨_, rfl, rfl⟩
    · exact ⟨_, rfl, rfl⟩
    · exact ⟨_, rfl, rfl⟩
  · intro h1 h2 h3
    unfold cpu_write_memory
    rw [if_pos ha, if_neg h1, if_neg h2, if_neg h3]
  · intro h1 h2
    unfold cpu_read_memory
    rw [if_pos ha, if_neg h1, if_neg h2]

/-- Witness of C14: a write of 65 to `0xF900` and a read of `0xF900` on the
initial CPU. -/
theorem mmio_frame_witness :
    0xF900 ≥ MMIO_START ∧ cpu_write_memory cpu_init 0xF900 65 = some cpu_init ∧
    cpu_read_memory cpu_init 0xF900 = (0, cpu_init) ∧
    ∀ cpu', cpu_write_memory cpu_init MMIO_CHAR_OUT 65 = some cpu' →
      cpu'.memory = cpu_init.memory :=
  ⟨by decide, (mmio_frame cpu_init 0xF900 65 (by decide)).2.2.1 (by decide) (by decide)
      (by decide),
    (mmio_frame cpu_init 0xF900 65 (by decide)).2.2.2 (by decide) (by decide),
    (mmio_frame cpu_init MMIO_CHAR_OUT 65 (by decide)).1⟩

/-! ### C15: loading a program -/

theorem copy_words_in (mem : Nat → Nat) (program : List Nat) (b i : Nat)
    (hi : i < program.length) : copy_words mem program b (b + i) = program.getD i 0 := by
  unfold copy_words
  rw [if_pos ⟨Nat.le_add_right _ _, by omega⟩, Nat.add_sub_cancel_left]

theorem copy_words_out (mem : Nat → Nat) (program : List Nat) (b a : Nat)
    (ha : a < b ∨ b + program.length ≤ a) : copy_words mem program b a = mem a := by
  unfold copy_words
  rw [if_neg (by omega)]

theorem load_program_wraps (cpu : CPU) (program : List Nat) (a : Nat)
    (hl : program.length = 65536) :
    (cpu_load_program cpu program 0).memory a = cpu.memory a := by
  have h0 : u16 program.length = 0 := by rw [hl]; unfold u16; omega
  unfold cpu_load_program
  rw [h0, if_neg (by unfold MEM_SIZE; omega), List.take_zero]
  exact copy_words_out cpu.memory [] 0 a (Or.inr (by simp))

/-- C15 as stated fails: the size parameter is a `uint16_t`, so for a program of
65536 words at address 0 the call receives the size 0 and copies nothing. -/
theorem load_program_full_image_counterexample :
    0 + full_image.length ≤ 65536 ∧ full_image.getD 0 0 = 0xFFFF ∧
    (cpu_load_program cpu_init full_image 0).memory (0 + 0) = 0 := by
  have hl : full_image.length = 65536 := List.length_replicate _ _
  have hg : full_image.getD 0 0 = 0xFFFF := by
    rw [List.getD_eq_getElem?_getD]
    unfold full_image
    rw [List.getElem?_replicate, if_pos (by omega)]
    rfl
  have hm : (cpu_load_program cpu_init full_image 0).memory (0 + 0) = 0 := by
    rw [load_program_wraps _ _ _ hl]
    rfl
  refine ⟨?_, hg, hm⟩
  rw [hl]

/-- C15, amended: for a program of `n ≤ 65535` words and a start address `b` with
`b + n ≤ 65536`, after `cpu_load_program` the word at `b + i` is word `i` of the
program for every `i < n`, every word outside `b .. b + n - 1` is unchanged, and
the PC is `b`. -/
theorem load_program_places_words (cpu : CPU) (program : List Nat) (b : Nat)
    (hn : program.length ≤ 65535) (hb : b + program.length ≤ 65536) :
    (∀ i, i < program.length →
      (cpu_load_program cpu program b).memory (b + i) = program.getD i 0) ∧
    (∀ a, (a < b ∨ b + program.length ≤ a) →
      (cpu_load_program cpu program b).memory a = cpu.memory a) ∧
    (cpu_load_program cpu program b).pc = b := by
  have hu : u16 program.length = program.length := by unfold u16; omega
  have ht : program.take program.length = program := List.take_length _
  have hl : cpu_load_program cpu program b =
      { cpu with memory := copy_words cpu.memory program b, pc := b } := by
    unfold cpu_load_program
    rw [hu, ht, if_neg (by unfold MEM_SIZE; omega)]
  rw [hl]
  exact ⟨fun i hi => copy_words_in _ _ _ _ hi, fun a ha => copy_words_out _ _ _ _ ha, rfl⟩

/-- Witness of C15: three words loaded at `0x0100`. -/
theorem load_program_places_words_witness :
    [0x1000, 5, 0xF000].length ≤ 65535 ∧ 0x0100 + [0x1000, 5, 0xF000].length ≤ 65536 ∧
    (cpu_load_program cpu_init [0x1000, 5, 0xF000] 0x0100).memory (0x0100 + 2) = 0xF000 ∧
    (cpu_load_program cpu_init [0x1000, 5, 0xF000] 0x0100).memory 0x0103 = 0 ∧
    (cpu_load_program cpu_init [0x1000, 5, 0xF000] 0x0100).pc = 0x0100 :=
  ⟨by decide, by decide,
    (load_program_places_words cpu_init [0x1000, 5, 0xF000] 0x0100 (by decide) (by decide)).1 2
      (by decide),
    (load_program_places_words cpu_init [0x1000, 5, 0xF000] 0x0100 (by decide) (by decide)).2.1
      0x0103 (Or.inr (by decide)),
    (load_program_places_words cpu_init [0x1000, 5, 0xF000] 0x0100 (by decide) (by decide)).2.2⟩

/-! ### C16: the cycle counter -/

/-- C16 as stated fails: the cycle counter is a `uint64_t`, and a step of a CPU
whose counter is `2^64 - 1` leaves it at 0. -/
theorem cycle_count_wraps_counterexample :
    last_cycle_cpu.halted = false ∧ last_cycle_cpu.cycle_count = 18446744073709551615 ∧
    ∃ cpu', cpu_step last_cycle_cpu = some cpu' ∧ cpu'.cycle_count = 0 ∧
      cpu'.cycle_count ≠ last_cycle_cpu.cycle_count + 1 := by
  refine ⟨rfl, rfl, ({ (cpu_fetch last_cycle_cpu).2 with cycle_count := 0 } : CPU), ?_, rfl, ?_⟩
  · rw [cpu_step_running last_cycle_cpu rfl, decode_execute_nop _ _ (by decide)]
    rfl
  · decide

/-- C16, amended: one step of a running CPU that returns adds 1 to the cycle
counter modulo `2^64`, that is exactly 1 when the counter is below `2^64 - 1`,
whether the instruction has one word or two; a read of the address `0xF810`
returns the cycle counter modulo `2^16` and the state as it was. -/
theorem step_cycle_count (cpu cpu' : CPU) (hrun : cpu.halted = false)
    (hstep : cpu_step cpu = some cpu') :
    cpu'.cycle_count = (cpu.cycle_count + 1) % 2 ^ 64 ∧
    (cpu.cycle_count < 2 ^ 64 - 1 → cpu'.cycle_count = cpu.cycle_count + 1) ∧
    cpu_read_memory cpu MMIO_TIMER = (cpu.cycle_count % 2 ^ 16, cpu) := by
  obtain ⟨c, hc, rfl⟩ := cpu_step_some cpu cpu' hrun hstep
  have h1 : c.cycle_count = cpu.cycle_count := by
    rw [(decode_execute_rest _ _ _ hc).1]
    exact (fetch_frame cpu).2.2.2.2.2.1
  have h2 : ({ c with cycle_count := (c.cycle_count + 1) % 2 ^ 64 } : CPU).cycle_count =
      (cpu.cycle_count + 1) % 2 ^ 64 := by
    show (c.cycle_count + 1) % 2 ^ 64 = _
    rw [h1]
  refine ⟨h2, ?_, ?_⟩
  · intro hlt
    rw [h2]
    exact Nat.mod_eq_of_lt (by omega)
  · unfold cpu_read_memory
    rw [if_pos (by decide), if_pos rfl]
    have h := Nat.and_pow_two_sub_one_eq_mod cpu.cycle_count 16
    exact congrArg (fun x => (x, cpu)) h

/-- Witness of C16: the two-word `LDI R0, 5` on a fresh CPU takes the cycle counter
from 0 to 1. -/
theorem step_cycle_count_witness :
    ldi_cpu.halted = false ∧ cpu_step ldi_cpu = some (after_step ldi_cpu) ∧
    (after_step ldi_cpu).pc = 2 ∧ (after_step ldi_cpu).cycle_count = 0 + 1 :=
  ⟨rfl, rfl, by decide,
    (step_cycle_count ldi_cpu (after_step ldi_cpu) rfl rfl).2.1 (by decide)⟩

/-! ### C17, C18 and C19: the symbol table -/

theorem cstr_idem (buf : List Nat) : cstr (cstr buf) = cstr buf := by
  unfold cstr
  rw [List.takeWhile_takeWhile]
  simp

theorem cstr_take (buf : List Nat) (n : Nat) : cstr ((cstr buf).take n) = (cstr buf).take n := by
  unfold cstr
  rw [List.takeWhile_eq_self_iff]
  intro x hx
  have h1 := List.mem_of_mem_take hx
  exact @List.mem_takeWhile_imp _ (fun c => decide (c ≠ 0)) _ _ h1

theorem find_label_nonneg_or (ls : List Label) (n : List Nat) :
    find_label ls n = -1 ∨ 0 ≤ find_label ls n := by
  induction ls with
  | nil => exact Or.inl rfl
  | cons l rest ih =>
    unfold find_label
    split_ifs
    · exact Or.inr (Int.ofNat_nonneg _)
    · exact ih

theorem find_label_eq_neg_one (ls : List Label) (n : List Nat) :
    find_label ls n = -1 ↔ ∀ l ∈ ls, cstr l.name ≠ cstr n := by
  induction ls with
  | nil => simp [find_label]
  | cons l rest ih =>
    unfold find_label
    split_ifs with h
    · have h1 : cstr l.name = cstr n := by simpa [strcmp_eq] using h
      constructor
      · intro h2
        exact h2.elim
      · intro h2
        exact absurd h1 (h2 l (List.mem_cons_self _ _))
    · have h1 : cstr l.name ≠ cstr n := by simpa [strcmp_eq] using h
      rw [ih]
      constructor
      · intro h2 x hx
        rcases List.mem_cons.1 hx with rfl | hx
        · exact h1
        · exact h2 x hx
      · intro h2 x hx
        exact h2 x (List.mem_cons_of_mem _ hx)

theorem find_label_cons (l : Label) (rest : List Label) (n : List Nat) :
    find_label (l :: rest) n =
      if strcmp_eq l.name n then (l.address : Int) else find_label rest n := rfl

theorem find_label_append (ls : List Label) (l : Label) (n : List Nat) :
    find_label (ls ++ [l]) n =
      if find_label ls n = -1 then (if strcmp_eq l.name n then (l.address : Int) else -1)
      else find_label ls n := by
  induction ls with
  | nil => simp [find_label]
  | cons x rest ih =>
    rw [List.cons_append, find_label_cons, find_label_cons, ih]
    by_cases h1 : strcmp_eq x.name n = true
    · have h2 : ¬ ((x.address : Int) = -1) := by
        have := Int.ofNat_nonneg x.address
        omega
      simp only [if_pos h1, if_neg h2]
    · simp only [if_neg h1]

theorem add_label_labels (st : Assembler) (name : List Nat) (a : Nat)
    (hroom : st.labels.length < MAX_LABELS) :
    (asm_add_label st name a).labels = st.labels ++ [⟨(cstr name).take 63, a⟩] := by
  unfold asm_add_label
  rw [if_neg (by omega)]

theorem add_label_length_le (st : Assembler) (name : List Nat) (a : Nat)
    (h : st.labels.length ≤ MAX_LABELS) : (asm_add_label st name a).labels.length ≤ MAX_LABELS := by
  unfold asm_add_label
  split_ifs with h1
  · exact h
  · show (st.labels ++ [_]).length ≤ MAX_LABELS
    rw [List.length_append]
    simp only [List.length_singleton]
    omega

theorem add_labels_length_le (defs : List (List Nat × Nat)) (st : Assembler)
    (h : st.labels.length ≤ MAX_LABELS) : (add_labels st defs).labels.length ≤ MAX_LABELS := by
  induction defs generalizing st with
  | nil => exact h
  | cons d rest ih => exact ih _ (add_label_length_le st d.1 d.2 h)

theorem add_labels_labels (defs : List (List Nat × Nat)) (st : Assembler)
    (h : st.labels.length + defs.length ≤ MAX_LABELS) :
    (add_labels st defs).labels =
      st.labels ++ defs.map fun d => ⟨(cstr d.1).take 63, d.2⟩ := by
  induction defs generalizing st with
  | nil => simp [add_labels]
  | cons d rest ih =>
    have hlen : (d :: rest).length = rest.length + 1 := rfl
    have hroom : st.labels.length < MAX_LABELS := by omega
    unfold add_labels
    rw [ih, add_label_labels st d.1 d.2 hroom]
    · simp
    · rw [add_label_labels st d.1 d.2 hroom, List.length_append]
      simp only [List.length_singleton]
      omega

theorem add_label_at_capacity (st : Assembler) (name : List Nat) (a : Nat)
    (hfull : st.labels.length = MAX_LABELS) : asm_add_label st name a = st := by
  unfold asm_add_label
  rw [if_pos (by omega)]

/-- C17: in a table with fewer than 256 labels, after `asm_add_label` of a name
of at most 63 characters that `asm_find_label` does not find, `asm_find_label` of
that name returns the address, the result for every other name is as before, and
-1 is returned for the names that are neither the new one nor found before; in a
table filled from `asm_init` by at most 256 calls with names of at most 63
characters, -1 is returned exactly for the names that were never added. -/
theorem add_then_find (st : Assembler) (name : List Nat) (a : Nat)
    (hroom : st.labels.length < MAX_LABELS) (hlen : (cstr name).length ≤ 63)
    (hnew : asm_find_label st name = -1) :
    asm_find_label (asm_add_label st name a) name = a ∧
    (∀ other, cstr other ≠ cstr name →
      asm_find_label (asm_add_label st name a) other = asm_find_label st other) ∧
    (∀ n, asm_find_label (asm_add_label st name a) n = -1 ↔
      (cstr n ≠ cstr name ∧ asm_find_label st n = -1)) ∧
    (∀ (heap : Nat → Nat) (defs : List (List Nat × Nat)) (n : List Nat),
      defs.length ≤ MAX_LABELS → (∀ d ∈ defs, (cstr d.1).length ≤ 63) →
      (asm_find_label (add_labels (asm_init heap) defs) n = -1 ↔
        ∀ d ∈ defs, cstr d.1 ≠ cstr n)) := by
  have htake : (cstr name).take 63 = cstr name := List.take_of_length_le hlen
  have hfind : ∀ n, asm_find_label (asm_add_label st name a) n =
      if asm_find_label st n = -1 then (if cstr name = cstr n then (a : Int) else -1)
      else asm_find_label st n := by
    intro n
    unfold asm_find_label
    rw [add_label_labels st name a hroom, find_label_append, htake]
    simp [strcmp_eq, cstr_idem]
  refine ⟨?_, ?_, ?_, ?_⟩
  · rw [hfind, if_pos hnew, if_pos rfl]
  · intro other hne
    rw [hfind, if_neg (Ne.symm hne)]
    split_ifs with h
    · exact h.symm
    · rfl
  · intro n
    rw [hfind]
    have hnn : ¬ ((a : Int) = -1) := by
      have := Int.ofNat_nonneg a
      omega
    by_cases h1 : asm_find_label st n = -1
    · by_cases h2 : cstr name = cstr n
      · simp only [if_pos h1, if_pos h2]
        exact ⟨fun h => absurd h hnn, fun h => absurd h2.symm h.1⟩
      · simp only [if_pos h1, if_neg h2]
        exact ⟨fun _ => ⟨Ne.symm h2, h1⟩, fun _ => trivial⟩
    · simp only [if_neg h1]
      exact ⟨fun h => absurd h h1, fun h => h.2⟩
  · intro heap defs n hd hl
    unfold asm_find_label
    rw [add_labels_labels defs (asm_init heap) (by
      show ([] : List Label).length + defs.length ≤ MAX_LABELS
      simpa using hd), find_label_eq_neg_one]
    show (∀ l ∈ ([] : List Label) ++ defs.map _, _) ↔ _
    rw [List.nil_append]
    constructor
    · intro h d hdm
      have h1 := h _ (List.mem_map_of_mem _ hdm)
      rw [List.take_of_length_le (hl d hdm), cstr_idem] at h1
      exact h1
    · intro h l hlm
      obtain ⟨d, hdm, rfl⟩ := List.mem_map.1 hlm
      rw [List.take_of_length_le (hl d hdm), cstr_idem]
      exact h d hdm

/-- Witness of C17: `loop` added at address 4 to the empty table is found at 4,
and `end` is still not found. -/
theorem add_then_find_witness :
    fresh_asm.labels.length < MAX_LABELS ∧ (cstr (bytes "loop")).length ≤ 63 ∧
    asm_find_label fresh_asm (bytes "loop") = -1 ∧
    asm_find_label (asm_add_label fresh_asm (bytes "loop") 4) (bytes "loop") = 4 ∧
    asm_find_label (asm_add_label fresh_asm (bytes "loop") 4) (bytes "end") = -1 :=
  ⟨by decide, by decide, by decide,
    (add_then_find fresh_asm (bytes "loop") 4 (by decide) (by decide) (by decide)).1,
    by decide⟩

/-- C18 as stated fails: after `x` is added to the empty table at 1 and again at
2, `asm_find_label` returns 1, not 2, and the second call has stored a second
entry, so that the table is not as the first call left it. -/
theorem duplicate_label_counterexample :
    fresh_asm.labels.length + 2 ≤ MAX_LABELS ∧
    asm_find_label (asm_add_label (asm_add_label fresh_asm (bytes "x") 1) (bytes "x") 2)
      (bytes "x") = 1 ∧
    asm_find_label (asm_add_label (asm_add_label fresh_asm (bytes "x") 1) (bytes "x") 2)
      (bytes "x") ≠ 2 ∧
    (asm_add_label fresh_asm (bytes "x") 1).labels.length = 1 ∧
    (asm_add_label (asm_add_label fresh_asm (bytes "x") 1) (bytes "x") 2).labels.length = 2 ∧
    asm_add_label (asm_add_label fresh_asm (bytes "x") 1) (bytes "x") 2 ≠
      asm_add_label fresh_asm (bytes "x") 1 := by
  refine ⟨by decide, by decide, by decide, by decide, by decide, ?_⟩
  intro h
  have h1 := congrArg (fun s => s.labels.length) h
  revert h1
  decide

/-- C18, amended: in a table with room for two more labels, after
`asm_add_label(name, a)` and then `asm_add_label(name, b)` the table holds both
entries after the old ones, every lookup returns what it returned after the first
call, and `asm_find_label(name)` returns `a` when the name has at most 63
characters and was not found before: the first definition stays in force and the
second is stored behind it. -/
theorem duplicate_label_first_wins (st : Assembler) (name : List Nat) (a b : Nat)
    (hroom : st.labels.length + 2 ≤ MAX_LABELS) :
    (asm_add_label (asm_add_label st name a) name b).labels =
      st.labels ++ [⟨(cstr name).take 63, a⟩, ⟨(cstr name).take 63, b⟩] ∧
    (asm_add_label (asm_add_label st name a) name b).labels.length = st.labels.length + 2 ∧
    (∀ n, asm_find_label (asm_add_label (asm_add_label st name a) name b) n =
      asm_find_label (asm_add_label st name a) n) ∧
    ((cstr name).length ≤ 63 → asm_find_label st name = -1 →
      asm_find_label (asm_add_label (asm_add_label st name a) name b) name = a) := by
  have h1 : (asm_add_label st name a).labels = st.labels ++ [⟨(cstr name).take 63, a⟩] :=
    add_label_labels st name a (by omega)
  have hl1 : (asm_add_label st name a).labels.length = st.labels.length + 1 := by
    rw [h1, List.length_append]
    rfl
  have h2 : (asm_add_label (asm_add_label st name a) name b).labels =
      (st.labels ++ [⟨(cstr name).take 63, a⟩]) ++ [⟨(cstr name).take 63, b⟩] := by
    rw [add_label_labels _ name b (by omega), h1]
  have hsame : ∀ n, asm_find_label (asm_add_label (asm_add_label st name a) name b) n =
      asm_find_label (asm_add_label st name a) n := by
    intro n
    unfold asm_find_label
    rw [h2, h1, find_label_append (st.labels ++ [_]), find_label_append st.labels]
    by_cases h3 : find_label st.labels n = -1
    · by_cases h4 : strcmp_eq ((cstr name).take 63) n = true
      · have hnn : ¬ ((a : Int) = -1) := by
          have := Int.ofNat_nonneg a
          omega
        simp only [if_pos h3, if_pos h4, if_neg hnn]
      · simp only [if_pos h3, if_neg h4, if_true]
    · simp only [if_neg h3]
  refine ⟨?_, ?_, hsame, ?_⟩
  · rw [h2, List.append_assoc]
    rfl
  · rw [h2, List.length_append, List.length_append]
    rfl
  · intro hlen hnew
    rw [hsame]
    unfold asm_find_label
    have hnew1 : find_label st.labels name = -1 := hnew
    rw [h1, find_label_append, if_pos hnew1, List.take_of_length_le hlen]
    simp [strcmp_eq, cstr_idem]

/-- Witness of C18: `x` added at 1 and again at 2 to the empty table. -/
theorem duplicate_label_first_wins_witness :
    fresh_asm.labels.length + 2 ≤ MAX_LABELS ∧
    (asm_add_label (asm_add_label fresh_asm (bytes "x") 1) (bytes "x") 2).labels =
      fresh_asm.labels ++ [⟨(cstr (bytes "x")).take 63, 1⟩, ⟨(cstr (bytes "x")).take 63, 2⟩] ∧
    asm_find_label (asm_add_label (asm_add_label fresh_asm (bytes "x") 1) (bytes "x") 2)
      (bytes "x") = 1 :=
  ⟨by decide, (duplicate_label_first_wins fresh_asm (bytes "x") 1 2 (by decide)).1,
    (duplicate_label_first_wins fresh_asm (bytes "x") 1 2 (by decide)).2.2.2 (by decide)
      (by decide)⟩

/-- C19: `asm_add_label` on a table that holds 256 labels returns the state as it
was, so the label count stays 256 and every lookup returns what it returned
before, after any number of calls; and the label count of a table with at most
256 labels is at most 256 after any number of calls. -/
theorem add_label_full (st : Assembler) (name : List Nat) (a : Nat)
    (hfull : st.labels.length = MAX_LABELS) :
    asm_add_label st name a = st ∧
    (asm_add_label st name a).labels.length = 256 ∧
    (∀ n, asm_find_label (asm_add_label st name a) n = asm_find_label st n) ∧
    (∀ defs, add_labels st defs = st) ∧
    (∀ (st0 : Assembler) (defs : List (List Nat × Nat)), st0.labels.length ≤ MAX_LABELS →
      (add_labels st0 defs).labels.length ≤ 256) := by
  have h := add_label_at_capacity st name a hfull
  refine ⟨h, ?_, ?_, ?_, ?_⟩
  · rw [h]
    exact hfull
  · intro n
    rw [h]
  · intro defs
    induction defs with
    | nil => rfl
    | cons d rest ih =>
      unfold add_labels
      rw [add_label_at_capacity st d.1 d.2 hfull]
      exact ih
  · intro st0 defs h0
    exact add_labels_length_le defs st0 h0

/-- Witness of C19: a table of 256 entries `x` is left as it is by a call for
`y`, which is then not found. -/
theorem add_label_full_witness :
    full_asm.labels.length = MAX_LABELS ∧ asm_add_label full_asm (bytes "y") 9 = full_asm ∧
    asm_find_label (asm_add_label full_asm (bytes "y") 9) (bytes "y") = -1 ∧
    asm_find_label (asm_add_label full_asm (bytes "y") 9) (bytes "x") = 7 := by
  have hfull : full_asm.labels.length = MAX_LABELS := List.length_replicate _ _
  have h := add_label_full full_asm (bytes "y") 9 hfull
  refine ⟨hfull, h.1, ?_, ?_⟩
  · rw [h.2.2.1]
    unfold asm_find_label
    rw [find_label_eq_neg_one]
    intro l hl
    rw [List.eq_of_mem_replicate hl]
    decide
  · rw [h.2.2.1]
    have hl : full_asm.labels = ⟨bytes "x", 7⟩ :: List.replicate 255 ⟨bytes "x", 7⟩ :=
      List.replicate_succ _ 255
    unfold asm_find_label
    rw [hl, find_label_cons, if_pos (by decide)]
    rfl

/-! ### The mnemonics of the jumps -/

theorem token_at_drop (tokens : List Token) (j i : Nat) :
    token_at (tokens.drop j) i = token_at tokens (j + i) := by
  unfold token_at
  rw [List.getD_eq_getElem?_getD, List.getD_eq_getElem?_getD, List.getElem?_drop]

theorem starts_with_b_of_eq (m s : List Nat) (h : strcasecmp_eq m s = true)
    (hs : ((cstr s).map tolower).head? = some 98) : starts_with_b m = true := by
  unfold strcasecmp_eq at h
  rw [beq_iff_eq] at h
  rw [← h] at hs
  unfold starts_with_b
  cases m with
  | nil => simp [cstr] at hs
  | cons c rest =>
    unfold cstr at hs
    rw [List.takeWhile_cons] at hs
    split_ifs at hs with hc
    · simp only [List.map_cons, List.head?_cons, Option.some.injEq] at hs
      simp [hs]
    · simp at hs

theorem jump_mnemonic_facts (m : List Nat)
    (h : ∃ s ∈ jump_mnemonics, strcasecmp_eq m (bytes s) = true) :
    strcasecmp_eq m (bytes "LDI") = false ∧ strcasecmp_eq m (bytes "ADDI") = false ∧
    strcasecmp_eq m (bytes "SUBI") = false ∧ strcasecmp_eq m (bytes "LD") = false ∧
    strcasecmp_eq m (bytes "ST") = false ∧
    (strcasecmp_eq m (bytes "JMP") = true ∨ strcasecmp_eq m (bytes "CALL") = true ∨
      starts_with_b m = true) := by
  obtain ⟨s, hs, h⟩ := h
  have hrest : strcasecmp_eq (bytes s) (bytes "LDI") = false ∧
      strcasecmp_eq (bytes s) (bytes "ADDI") = false ∧
      strcasecmp_eq (bytes s) (bytes "SUBI") = false ∧
      strcasecmp_eq (bytes s) (bytes "LD") = false ∧
      strcasecmp_eq (bytes s) (bytes "ST") = false ∧
      (s = "JMP" ∨ s = "CALL" ∨ ((cstr (bytes s)).map tolower).head? = some 98) := by
    simp only [jump_mnemonics, List.mem_cons, List.mem_singleton, List.not_mem_nil,
      or_false] at hs
    rcases hs with rfl | rfl | rfl | rfl | rfl | rfl | rfl | rfl | rfl | rfl <;> decide
  rw [strcasecmp_eq_trans m _ (bytes "LDI") h, strcasecmp_eq_trans m _ (bytes "ADDI") h,
    strcasecmp_eq_trans m _ (bytes "SUBI") h, strcasecmp_eq_trans m _ (bytes "LD") h,
    strcasecmp_eq_trans m _ (bytes "ST") h]
  refine ⟨hrest.1, hrest.2.1, hrest.2.2.1, hrest.2.2.2.1, hrest.2.2.2.2.1, ?_⟩
  rcases hrest.2.2.2.2.2 with rfl | rfl | hb
  · exact Or.inl h
  · exact Or.inr (Or.inl h)
  · exact Or.inr (Or.inr (starts_with_b_of_eq m _ h hb))

/-! ### C29: the shifts -/

theorem testBit15 (r : Nat) (h : r < 65536) : r.testBit 15 = decide (32768 ≤ r) := by
  rw [Nat.testBit_to_div_mod]
  congr 1
  apply propext
  constructor <;> intro h1 <;> omega

theorem sar_value (a n : Nat) (ha : a < 65536) (hn : n < 16) :
    int_to_u16 (to_int16 a >>> n) < 65536 ∧
    signed16 (int_to_u16 (to_int16 a >>> n)) = Int.fdiv (signed16 a) (2 ^ n) ∧
    (int_to_u16 (to_int16 a >>> n)).testBit 15 = a.testBit 15 := by
  have hlt : int_to_u16 (to_int16 a >>> n) < 65536 := by
    unfold int_to_u16
    omega
  rw [testBit15 _ hlt, testBit15 _ ha]
  refine ⟨hlt, ?_, ?_⟩
  · rw [Int.shiftRight_eq_div_pow, Int.fdiv_eq_ediv _ (by positivity)]
    unfold signed16 int_to_u16 to_int16
    interval_cases n <;> simp only [Nat.reducePow, Nat.cast_ofNat] <;> split_ifs <;> omega
  · rw [Int.shiftRight_eq_div_pow]
    unfold int_to_u16 to_int16
    congr 1
    apply propext
    interval_cases n <;> simp only [Nat.reducePow, Nat.cast_ofNat] <;> split_ifs <;> omega

theorem exec_shift_left (cpu : CPU) (rd rs : Nat) :
    exec_shift cpu rd rs SHIFT_LEFT =
      logic_commit cpu rd (u16 (cpu.registers rd <<< (cpu.registers rs &&& 0xF))) := rfl

theorem exec_shift_right (cpu : CPU) (rd rs : Nat) :
    exec_shift cpu rd rs SHIFT_RIGHT =
      logic_commit cpu rd (u16 (cpu.registers rd >>> (cpu.registers rs &&& 0xF))) := rfl

theorem exec_shift_arith (cpu : CPU) (rd rs : Nat) :
    exec_shift cpu rd rs SHIFT_ARITH =
      logic_commit cpu rd
        (int_to_u16 (to_int16 (cpu.registers rd) >>> (cpu.registers rs &&& 0xF))) := rfl

/-- C29: a SHIFT step of a running CPU returns; with `a = R[Rd]` and
`n = R[Rs] & 0xF`, SHL leaves `(a * 2^n) mod 2^16` in `R[Rd]`, SHR leaves
`⌊a / 2^n⌋`, and SAR leaves the 16-bit word whose signed reading is `⌊s / 2^n⌋`
for the signed reading `s` of `a`, with bit 15 as in `a`; C is unchanged. -/
theorem step_shift (cpu : CPU) (hwf : cpu.WF) (hrun : cpu.halted = false)
    (hop : dec_opcode (fetched cpu) = OP_SHIFT) :
    ∃ cpu', cpu_step cpu = some cpu' ∧
      cpu.registers (dec_rs (fetched cpu)) &&& 0xF < 16 ∧
      (dec_mode (fetched cpu) = SHIFT_LEFT →
        cpu'.registers (dec_rd (fetched cpu)) =
          (cpu.registers (dec_rd (fetched cpu)) *
            2 ^ (cpu.registers (dec_rs (fetched cpu)) &&& 0xF)) % 65536 ∧
        cpu'.flags.C = cpu.flags.C) ∧
      (dec_mode (fetched cpu) = SHIFT_RIGHT →
        cpu'.registers (dec_rd (fetched cpu)) =
          cpu.registers (dec_rd (fetched cpu)) /
            2 ^ (cpu.registers (dec_rs (fetched cpu)) &&& 0xF) ∧
        cpu'.flags.C = cpu.flags.C) ∧
      (dec_mode (fetched cpu) = SHIFT_ARITH →
        cpu'.registers (dec_rd (fetched cpu)) < 65536 ∧
        signed16 (cpu'.registers (dec_rd (fetched cpu))) =
          Int.fdiv (signed16 (cpu.registers (dec_rd (fetched cpu))))
            (2 ^ (cpu.registers (dec_rs (fetched cpu)) &&& 0xF)) ∧
        (cpu'.registers (dec_rd (fetched cpu))).testBit 15 =
          (cpu.registers (dec_rd (fetched cpu))).testBit 15 ∧
        cpu'.flags.C = cpu.flags.C) := by
  have hr : (cpu_fetch cpu).2.registers = cpu.registers := (fetch_frame cpu).1
  have hf : (cpu_fetch cpu).2.flags = cpu.flags := (fetch_frame cpu).2.2.1
  have ha := hwf.regs (dec_rd (fetched cpu))
  have hn : cpu.registers (dec_rs (fetched cpu)) &&& 0xF < 16 := by
    have h := Nat.and_pow_two_sub_one_eq_mod (cpu.registers (dec_rs (fetched cpu))) 4
    have h2 : cpu.registers (dec_rs (fetched cpu)) &&& 0xF =
        cpu.registers (dec_rs (fetched cpu)) % 16 := h
    rw [h2]
    omega
  refine ⟨{ exec_shift (cpu_fetch cpu).2 (dec_rd (fetched cpu)) (dec_rs (fetched cpu))
      (dec_mode (fetched cpu)) with
    cycle_count :=
      ((exec_shift (cpu_fetch cpu).2 (dec_rd (fetched cpu)) (dec_rs (fetched cpu))
        (dec_mode (fetched cpu))).cycle_count + 1) % 2 ^ 64 }, ?_, hn, ?_, ?_, ?_⟩
  · rw [cpu_step_running cpu hrun, decode_execute_shift _ _ hop]
    rfl
  · intro hm
    dsimp only
    rw [hm, exec_shift_left, logic_commit_reg, logic_commit_carry, hr, hf, Nat.shiftLeft_eq]
    exact ⟨rfl, rfl⟩
  · intro hm
    dsimp only
    rw [hm, exec_shift_right, logic_commit_reg, logic_commit_carry, hr, hf,
      Nat.shiftRight_eq_div_pow]
    refine ⟨?_, rfl⟩
    unfold u16
    exact Nat.mod_eq_of_lt (lt_of_le_of_lt (Nat.div_le_self _ _) ha)
  · intro hm
    dsimp only
    rw [hm, exec_shift_arith, logic_commit_reg, logic_commit_carry, hr, hf]
    obtain ⟨h1, h2, h3⟩ := sar_value _ _ ha hn
    exact ⟨h1, h2, h3, rfl⟩

theorem sar_cpu_wf : sar_cpu.WF := by
  apply demo_cpu_wf
  · decide
  · exact setAt_lt _ _ _ (setAt_lt _ _ _ (fun _ => by decide) (by decide)) (by decide)

/-- Witness of C29: `SAR R0, R1` with `R0 = 0x8004` and `R1 = 0x12` shifts by 2
and leaves `R0 = 0xE001`. -/
theorem step_shift_witness :
    sar_cpu.WF ∧ sar_cpu.halted = false ∧ dec_opcode (fetched sar_cpu) = OP_SHIFT ∧
    dec_mode (fetched sar_cpu) = SHIFT_ARITH ∧
    (after_step sar_cpu).registers 0 = 0xE001 ∧
    (after_step shl_cpu).registers 0 = 0x0010 ∧
    ∃ cpu', cpu_step sar_cpu = some cpu' ∧
      signed16 (cpu'.registers (dec_rd (fetched sar_cpu))) =
        Int.fdiv (signed16 (sar_cpu.registers (dec_rd (fetched sar_cpu))))
          (2 ^ (sar_cpu.registers (dec_rs (fetched sar_cpu)) &&& 0xF)) := by
  refine ⟨sar_cpu_wf, rfl, by decide, by decide, by decide, by decide, ?_⟩
  obtain ⟨cpu', h1, _, _, _, h4⟩ := step_shift sar_cpu sar_cpu_wf rfl (by decide)
  exact ⟨cpu', h1, (h4 (by decide)).2.1⟩

/-! ### C30: CMP followed by BLT -/

theorem branch_step (cpu : CPU) (hrun : cpu.halted = false)
    (hop : dec_opcode (fetched cpu) = OP_BRANCH) :
    ∃ cpu', cpu_step cpu = some cpu' ∧
      cpu'.pc = if should_branch cpu.flags (dec_mode (fetched cpu)) then fetched_extra cpu
        else (cpu.pc + 2) % 65536 := by
  have hp : (cpu_fetch cpu).2.pc = (cpu.pc + 1) % 65536 := (fetch_frame cpu).2.1
  have hp2 : u16 ((cpu_fetch cpu).2.pc + 1) = (cpu.pc + 2) % 65536 := by
    rw [hp]; unfold u16; omega
  have hf : (cpu_fetch cpu).2.flags = cpu.flags := (fetch_frame cpu).2.2.1
  refine ⟨{ exec_branch (cpu_fetch cpu).2 (dec_mode (fetched cpu)) with
    cycle_count :=
      ((exec_branch (cpu_fetch cpu).2 (dec_mode (fetched cpu))).cycle_count + 1) % 2 ^ 64 },
    ?_, ?_⟩
  · rw [cpu_step_running cpu hrun, decode_execute_branch _ _ hop]
    rfl
  · show (exec_branch (cpu_fetch cpu).2 (dec_mode (fetched cpu))).pc = _
    rw [exec_branch_pc, hf, hp2]
    rfl

theorem sub16_sign (a b : Nat) (ha : a < 65536) (hb : b < 65536)
    (h1 : -32768 ≤ signed16 a - signed16 b) (h2 : signed16 a - signed16 b ≤ 32767) :
    sub16 a b ≥ 32768 ↔ signed16 a < signed16 b := by
  unfold signed16 at h1 h2 ⊢
  unfold sub16
  split_ifs at h1 h2 ⊢ <;> omega

/-- C30 as stated fails: with `R0 = 0x8000` (-32768) and `R1 = 1`, `CMP R0, R1`
leaves N clear, and the following `BLT 9` is not taken although -32768 < 1. -/
theorem cmp_blt_overflow_counterexample :
    (cmp_blt_cpu 0x8000 1).halted = false ∧
    dec_opcode (fetched (cmp_blt_cpu 0x8000 1)) = OP_CMP ∧
    signed16 ((cmp_blt_cpu 0x8000 1).registers 0) < signed16 ((cmp_blt_cpu 0x8000 1).registers 1) ∧
    (cpu_steps 1 (cmp_blt_cpu 0x8000 1)).map (fun c => (dec_opcode (fetched c), dec_mode (fetched c),
      fetched_extra c, c.pc, c.flags.N)) = some (OP_BRANCH, BRANCH_LT, 9, 1, false) ∧
    (cpu_steps 2 (cmp_blt_cpu 0x8000 1)).map (fun c => c.pc) = some 3 := by
  decide

/-- C30, amended: after `CMP Rd, Rs` a following `BLT t` is taken exactly when
bit 15 of `(R[Rd] - R[Rs]) mod 2^16` is set, which is the signed comparison
`R[Rd] < R[Rs]` whenever the signed difference lies in -32768 .. 32767. -/
theorem cmp_then_blt (cpu : CPU) (hwf : cpu.WF) (hrun : cpu.halted = false)
    (hcmp : dec_opcode (fetched cpu) = OP_CMP) :
    ∃ cpu1, cpu_step cpu = some cpu1 ∧
      (dec_opcode (fetched cpu1) = OP_BRANCH → dec_mode (fetched cpu1) = BRANCH_LT →
        ∃ cpu2, cpu_step cpu1 = some cpu2 ∧
          branch_outcome cpu1 cpu2
            (decide (sub16 (cpu.registers (dec_rd (fetched cpu)))
              (cpu.registers (dec_rs (fetched cpu))) ≥ 32768)) ∧
          (-32768 ≤ signed16 (cpu.registers (dec_rd (fetched cpu))) -
              signed16 (cpu.registers (dec_rs (fetched cpu))) →
            signed16 (cpu.registers (dec_rd (fetched cpu))) -
              signed16 (cpu.registers (dec_rs (fetched cpu))) ≤ 32767 →
            branch_outcome cpu1 cpu2
              (decide (signed16 (cpu.registers (dec_rd (fetched cpu))) <
                signed16 (cpu.registers (dec_rs (fetched cpu))))))) := by
  have hr : (cpu_fetch cpu).2.registers = cpu.registers := (fetch_frame cpu).1
  have hh : (cpu_fetch cpu).2.halted = cpu.halted := (fetch_frame cpu).2.2.2.2.1
  have ha := hwf.regs (dec_rd (fetched cpu))
  have hb := hwf.regs (dec_rs (fetched cpu))
  refine ⟨{ exec_cmp (cpu_fetch cpu).2 (dec_rd (fetched cpu)) (dec_rs (fetched cpu)) with
    cycle_count :=
      ((exec_cmp (cpu_fetch cpu).2 (dec_rd (fetched cpu)) (dec_rs (fetched cpu))).cycle_count
        + 1) % 2 ^ 64 }, ?_, ?_⟩
  · rw [cpu_step_running cpu hrun, decode_execute_cmp _ _ hcmp]
    rfl
  · intro hop hmode
    generalize hc1 : ({ exec_cmp (cpu_fetch cpu).2 (dec_rd (fetched cpu)) (dec_rs (fetched cpu))
      with cycle_count :=
        ((exec_cmp (cpu_fetch cpu).2 (dec_rd (fetched cpu))
          (dec_rs (fetched cpu))).cycle_count + 1) % 2 ^ 64 } : CPU) = cpu1 at hop hmode ⊢
    have hrun1 : cpu1.halted = false := by
      rw [← hc1]
      show (cpu_fetch cpu).2.halted = false
      rw [hh, hrun]
    have hN : cpu1.flags.N = decide (sub16 (cpu.registers (dec_rd (fetched cpu)))
        (cpu.registers (dec_rs (fetched cpu))) ≥ 32768) := by
      rw [← hc1]
      show decide (u16 (u32 ((cpu_fetch cpu).2.registers (dec_rd (fetched cpu)) + 4294967296 -
        (cpu_fetch cpu).2.registers (dec_rs (fetched cpu)))) &&& 0x8000 ≠ 0) = _
      rw [hr, sub32_low _ _ ha hb]
      have hs : sub16 (cpu.registers (dec_rd (fetched cpu)))
          (cpu.registers (dec_rs (fetched cpu))) < 65536 := by
        unfold sub16
        omega
      have h15 := testBit15 _ hs
      have hand := and_bit15 (sub16 (cpu.registers (dec_rd (fetched cpu)))
        (cpu.registers (dec_rs (fetched cpu))))
      by_cases hge : sub16 (cpu.registers (dec_rd (fetched cpu)))
          (cpu.registers (dec_rs (fetched cpu))) ≥ 32768
      · rw [decide_eq_true hge, decide_eq_true_eq]
        rw [decide_eq_true hge] at h15
        exact hand.2 h15
      · rw [decide_eq_false hge, decide_eq_false_iff_not]
        rw [decide_eq_false hge] at h15
        intro h
        rw [hand.1 h] at h15
        exact Bool.noConfusion h15
    obtain ⟨cpu2, h2, hpc⟩ := branch_step cpu1 hrun1 hop
    have hsb : should_branch cpu1.flags (dec_mode (fetched cpu1)) = cpu1.flags.N := by
      rw [hmode]
      simp [should_branch]
    rw [hsb, hN] at hpc
    have hout : branch_outcome cpu1 cpu2
        (decide (sub16 (cpu.registers (dec_rd (fetched cpu)))
          (cpu.registers (dec_rs (fetched cpu))) ≥ 32768)) := by
      constructor
      · intro ht
        rw [hpc, ht, if_pos rfl]
      · intro ht
        rw [hpc, ht]
        rfl
    refine ⟨cpu2, h2, hout, ?_⟩
    intro h1 h3
    have hiff := sub16_sign _ _ ha hb h1 h3
    have hd : decide (signed16 (cpu.registers (dec_rd (fetched cpu))) <
        signed16 (cpu.registers (dec_rs (fetched cpu)))) =
        decide (sub16 (cpu.registers (dec_rd (fetched cpu)))
          (cpu.registers (dec_rs (fetched cpu))) ≥ 32768) :=
      decide_eq_decide.2 hiff.symm
    rw [hd]
    exact hout

theorem cmp_blt_cpu_wf (a b : Nat) (ha : a < 65536) (hb : b < 65536) : (cmp_blt_cpu a b).WF := by
  apply demo_cpu_wf
  · decide
  · exact setAt_lt _ _ _ (setAt_lt _ _ _ (fun _ => by decide) ha) hb

/-- Witness of C30: with `R0 = 0xFFFF` (-1) and `R1 = 1`, `CMP R0, R1` and then
`BLT 9` leave PC = 9. -/
theorem cmp_then_blt_witness :
    (cmp_blt_cpu 0xFFFF 1).WF ∧ (cmp_blt_cpu 0xFFFF 1).halted = false ∧
    dec_opcode (fetched (cmp_blt_cpu 0xFFFF 1)) = OP_CMP ∧
    (cpu_steps 2 (cmp_blt_cpu 0xFFFF 1)).map (fun c => c.pc) = some 9 ∧
    ∃ cpu1, cpu_step (cmp_blt_cpu 0xFFFF 1) = some cpu1 := by
  refine ⟨cmp_blt_cpu_wf _ _ (by decide) (by decide), rfl, by decide, by decide, ?_⟩
  obtain ⟨cpu1, h1, _⟩ := cmp_then_blt (cmp_blt_cpu 0xFFFF 1)
    (cmp_blt_cpu_wf _ _ (by decide) (by decide)) rfl (by decide)
  exact ⟨cpu1, h1⟩

/-! ### Numerals -/

theorem digit_value_digitChar (d : Nat) (h : d < 16) :
    digit_value (Nat.digitChar d).toNat = some d := by
  interval_cases d <;> decide

theorem digitChar_decimal (d : Nat) (h : d < 10) : (Nat.digitChar d).toNat = 48 + d := by
  interval_cases d <;> decide

theorem digitChar_hex (d : Nat) (h : d < 16) :
    (48 ≤ (Nat.digitChar d).toNat ∧ (Nat.digitChar d).toNat ≤ 57) ∨
    (97 ≤ (Nat.digitChar d).toNat ∧ (Nat.digitChar d).toNat ≤ 102) := by
  interval_cases d <;> decide

theorem parse_digits_cons (b c d : Nat) (rest : List Nat) (acc : Nat)
    (h : digit_value c = some d) (hd : d < b) :
    parse_digits b (c :: rest) acc = parse_digits b rest (acc * b + d) := by
  rw [parse_digits, h]
  exact if_pos hd

theorem parse_digits_stop (b : Nat) (rest : List Nat) (acc : Nat)
    (h : ∀ c, rest.head? = some c → is_digit_of b c = false) :
    parse_digits b rest acc = acc := by
  cases rest with
  | nil => rfl
  | cons c tl =>
    have h1 := h c rfl
    unfold is_digit_of at h1
    rw [parse_digits]
    cases hv : digit_value c with
    | none => rfl
    | some d =>
      rw [hv] at h1
      exact if_neg (by simpa using h1)

theorem toDigitsCore_parse (b : Nat) (hb : 2 ≤ b) (hb16 : b ≤ 16) (rest : List Nat) :
    ∀ (fuel n : Nat) (ds : List Char), n < fuel →
      parse_digits b ((Nat.toDigitsCore b fuel n ds).map Char.toNat ++ rest) 0 =
        parse_digits b (ds.map Char.toNat ++ rest) n := by
  intro fuel
  induction fuel with
  | zero => intro n ds h; omega
  | succ fuel ih =>
    intro n ds h
    have hmod : n % b < b := Nat.mod_lt _ (by omega)
    have hdv := digit_value_digitChar (n % b) (by omega)
    rw [Nat.toDigitsCore]
    split_ifs with h0
    · rw [List.map_cons, List.cons_append, parse_digits_cons b _ _ _ _ hdv hmod]
      have hn : n % b = n := Nat.mod_eq_of_lt ((Nat.div_eq_zero_iff (by omega)).1 h0)
      rw [hn, Nat.zero_mul, Nat.zero_add]
    · have hlt : n / b < fuel := by
        have h1 : n / b < n := Nat.div_lt_self (by
          rcases Nat.eq_zero_or_pos n with h2 | h2
          · rw [h2, Nat.zero_div] at h0
            exact absurd rfl h0
          · exact h2) (by omega)
        omega
      rw [ih (n / b) _ hlt, List.map_cons, List.cons_append,
        parse_digits_cons b _ _ _ _ hdv hmod, Nat.div_add_mod']

theorem toDigitsCore_chars (b : Nat) (P : Nat → Prop)
    (hP : ∀ d, d < b → P (Nat.digitChar d).toNat) (hb : 0 < b) :
    ∀ (fuel n : Nat) (ds : List Char), (∀ c ∈ ds, P c.toNat) →
      ∀ c ∈ Nat.toDigitsCore b fuel n ds, P c.toNat := by
  intro fuel
  induction fuel with
  | zero => intro n ds h; exact h
  | succ fuel ih =>
    intro n ds h
    have hd : ∀ c ∈ Nat.digitChar (n % b) :: ds, P c.toNat := by
      intro c hc
      rcases List.mem_cons.1 hc with rfl | hc
      · exact hP _ (Nat.mod_lt _ hb)
      · exact h c hc
    rw [Nat.toDigitsCore]
    split_ifs
    · exact hd
    · exact ih _ _ hd

theorem toDigitsCore_ne_nil (b : Nat) :
    ∀ (fuel n : Nat) (ds : List Char), (0 < fuel ∨ ds ≠ []) → Nat.toDigitsCore b fuel n ds ≠ [] := by
  intro fuel
  induction fuel with
  | zero =>
    intro n ds h
    rcases h with h | h
    · omega
    · exact h
  | succ fuel ih =>
    intro n ds _
    rw [Nat.toDigitsCore]
    split_ifs
    · exact List.cons_ne_nil _ _
    · exact ih _ _ (Or.inr (List.cons_ne_nil _ _))

theorem decimal_parse (n : Nat) (rest : List Nat)
    (h : ∀ c, rest.head? = some c → is_digit_of 10 c = false) :
    parse_digits 10 (decimal n ++ rest) 0 = n := by
  unfold decimal Nat.toDigits
  rw [toDigitsCore_parse 10 (by omega) (by omega) rest (n + 1) n [] (by omega)]
  exact parse_digits_stop 10 rest n h

theorem decimal_chars (n : Nat) : ∀ c ∈ decimal n, 48 ≤ c ∧ c ≤ 57 := by
  intro c hc
  unfold decimal Nat.toDigits at hc
  obtain ⟨ch, hch, rfl⟩ := List.mem_map.1 hc
  exact toDigitsCore_chars 10 (fun c => 48 ≤ c ∧ c ≤ 57)
    (fun d hd => by rw [digitChar_decimal d hd]; omega) (by omega) _ _ []
    (fun c hc => absurd hc (List.not_mem_nil c)) ch hch

theorem decimal_ne_nil (n : Nat) : decimal n ≠ [] := by
  unfold decimal Nat.toDigits
  intro h
  exact toDigitsCore_ne_nil 10 (n + 1) n [] (Or.inl (by omega)) (List.map_eq_nil_iff.1 h)

theorem decimal_length (n : Nat) (h : n < 100000) : (decimal n).length ≤ 5 := by
  unfold decimal Nat.toDigits
  rw [List.length_map]
  exact Nat.toDigitsCore_length 10 (by omega) (n + 1) n 5 (by omega) (by omega)

theorem ends_text_stop (b : Nat) (rest : List Nat) (h : ends_text rest) :
    ∀ c, rest.head? = some c → is_digit_of b c = false := by
  intro c hc
  rcases h with h | h
  · rw [h] at hc
    exact absurd hc (by simp)
  · rw [h] at hc
    cases hc
    rfl

theorem cstr_text (text rest : List Nat) (h0 : ∀ c ∈ text, c ≠ 0) (hrest : ends_text rest) :
    cstr (text ++ rest) = text := by
  unfold cstr
  induction text with
  | nil =>
    rcases hrest with h | h
    · rw [h]
      rfl
    · cases rest with
      | nil => rfl
      | cons c tl =>
        cases h
        rfl
  | cons c tl ih =>
    rw [List.cons_append, List.takeWhile_cons, if_pos (by simpa using h0 c (List.mem_cons_self _ _)),
      ih (fun x hx => h0 x (List.mem_cons_of_mem _ hx))]

theorem strtol_plain (s : List Nat) (base c : Nat) (tl : List Nat)
    (hs : cstr s = c :: tl) (hsp : isspace c = false) (h45 : c ≠ 45) (h43 : c ≠ 43)
    (hx : base = 16 → tl.getD 0 0 ≠ 120 ∧ tl.getD 0 0 ≠ 88) :
    strtol s base = min (parse_digits base (c :: tl) 0 : Int) 9223372036854775807 := by
  unfold strtol
  rw [hs]
  have h1 : (c :: tl).dropWhile isspace = c :: tl := by
    rw [List.dropWhile_cons, hsp]
    rfl
  simp only [h1, List.head?_cons, Option.some.injEq, h45, h43, or_self, if_false,
    decide_False, Bool.false_eq_true]
  have h3 : ¬ (base = 16 ∧ c = 48 ∧ ((c :: tl).getD 1 0 = 120 ∨ (c :: tl).getD 1 0 = 88) ∧
      is_digit_of 16 ((c :: tl).getD 2 0) = true) := by
    rintro ⟨hb, _, h, _⟩
    have h4 := hx hb
    have h5 : (c :: tl).getD 1 0 = tl.getD 0 0 := rfl
    rw [h5] at h
    rcases h with h | h
    · exact h4.1 h
    · exact h4.2 h
  rw [if_neg h3]

theorem strtol_minus (s : List Nat) (base : Nat) (tl : List Nat)
    (hs : cstr s = 45 :: tl) (hx : base ≠ 16) :
    strtol s base = max (-(parse_digits base tl 0 : Int)) (-9223372036854775808) := by
  unfold strtol
  rw [hs]
  have h1 : (45 :: tl).dropWhile isspace = 45 :: tl := rfl
  simp only [h1, List.head?_cons, true_or, if_true, decide_True, List.drop_succ_cons,
    List.drop_zero]
  rw [if_neg (fun h => hx h.1)]

theorem to_int_small (x : Int) (h1 : -2147483648 ≤ x) (h2 : x ≤ 2147483647) : to_int x = x := by
  unfold to_int
  omega

theorem digit_value_tolower (c : Nat) : digit_value (tolower c) = digit_value c := by
  unfold tolower digit_value
  split_ifs <;> first | rfl | omega

theorem parse_digits_tolower (b : Nat) (l : List Nat) :
    ∀ acc, parse_digits b (l.map tolower) acc = parse_digits b l acc := by
  induction l with
  | nil => intro acc; rfl
  | cons c tl ih =>
    intro acc
    rw [List.map_cons, parse_digits, parse_digits, digit_value_tolower]
    cases digit_value c with
    | none => rfl
    | some d =>
      dsimp only
      rw [ih]

theorem hex_digits_chars (n : Nat) :
    ∀ c ∈ hex_digits n, (48 ≤ c ∧ c ≤ 57) ∨ (97 ≤ c ∧ c ≤ 102) := by
  intro c hc
  unfold hex_digits Nat.toDigits at hc
  obtain ⟨ch, hch, rfl⟩ := List.mem_map.1 hc
  exact toDigitsCore_chars 16 (fun c => (48 ≤ c ∧ c ≤ 57) ∨ (97 ≤ c ∧ c ≤ 102))
    (fun d hd => digitChar_hex d hd) (by omega) _ _ []
    (fun c hc => absurd hc (List.not_mem_nil c)) ch hch

theorem hex_digits_parse (n : Nat) : parse_digits 16 (hex_digits n) 0 = n := by
  have h := toDigitsCore_parse 16 (by omega) (by omega) [] (n + 1) n [] (by omega)
  rw [List.append_nil] at h
  exact h

theorem hex_digits_ne_nil (n : Nat) : hex_digits n ≠ [] := by
  unfold hex_digits Nat.toDigits
  intro h
  exact toDigitsCore_ne_nil 16 (n + 1) n [] (Or.inl (by omega)) (List.map_eq_nil_iff.1 h)

theorem getD_zero_append (P : Nat → Prop) (tl rest : List Nat) (h : ∀ c ∈ tl, P c) (h0 : P 0)
    (hrest : ends_text rest) : P ((tl ++ rest).getD 0 0) := by
  cases tl with
  | nil =>
    rcases hrest with hr | hr
    · rw [hr]
      exact h0
    · cases rest with
      | nil => exact h0
      | cons c r =>
        cases hr
        exact h0
  | cons c r => exact h c (List.mem_cons_self _ _)

theorem parse_number_decimal (n : Nat) (rest : List Nat) (hrest : ends_text rest)
    (hn : n ≤ 2147483647) : asm_parse_number (decimal n ++ rest) = n := by
  have hch := decimal_chars n
  cases hd : decimal n with
  | nil => exact absurd hd (decimal_ne_nil n)
  | cons c tl =>
    rw [hd] at hch
    have hc := hch c (List.mem_cons_self _ _)
    have h1 : (tl ++ rest).getD 0 0 ≠ 120 ∧ (tl ++ rest).getD 0 0 ≠ 88 :=
      getD_zero_append (fun c => c ≠ 120 ∧ c ≠ 88) tl rest
        (fun x hx => by have := hch x (List.mem_cons_of_mem _ hx); omega) (by omega) hrest
    have hcs : cstr (c :: tl ++ rest) = c :: tl :=
      cstr_text _ _ (fun x hx => by have := hch x hx; omega) hrest
    have hsp : isspace c = false := by
      unfold isspace
      simp
      omega
    have hp : parse_digits 10 (c :: tl) 0 = n := by
      have h := decimal_parse n [] (fun c hc => absurd hc (by simp))
      rw [List.append_nil, hd] at h
      exact h
    unfold asm_parse_number
    have g0 : (c :: tl ++ rest).getD 0 0 = c := rfl
    have g1 : (c :: tl ++ rest).getD 1 0 = (tl ++ rest).getD 0 0 := rfl
    rw [g0, g1, if_neg (fun h => by rcases h.2 with h2 | h2
                                    · exact h1.1 h2
                                    · exact h1.2 h2),
      if_neg (fun h => by omega)]
    unfold atoi
    rw [strtol_plain _ 10 c tl hcs hsp (by omega) (by omega) (fun h => by omega), hp]
    rw [to_int_small] <;> omega

theorem parse_number_minus (n : Nat) (rest : List Nat) (hrest : ends_text rest)
    (hn : n ≤ 2147483648) : asm_parse_number (45 :: decimal n ++ rest) = -(n : Int) := by
  have hch := decimal_chars n
  have hcs : cstr (45 :: decimal n ++ rest) = 45 :: decimal n :=
    cstr_text (45 :: decimal n) rest (fun x hx => by
      rcases List.mem_cons.1 hx with rfl | hx
      · omega
      · have := hch x hx; omega) hrest
  have hp : parse_digits 10 (decimal n) 0 = n := by
    have h := decimal_parse n [] (fun c hc => absurd hc (by simp))
    rw [List.append_nil] at h
    exact h
  unfold asm_parse_number
  have g0 : (45 :: decimal n ++ rest).getD 0 0 = 45 := rfl
  rw [g0, if_neg (fun h => by omega), if_neg (fun h => by omega)]
  unfold atoi
  rw [strtol_minus _ 10 _ hcs (by omega), hp]
  rw [to_int_small] <;> omega

theorem parse_number_hex (n : Nat) (rest ds : List Nat) (x : Nat) (hrest : ends_text rest)
    (hn : n ≤ 2147483647) (hx : x = 120 ∨ x = 88) (hds : ds.map tolower = hex_digits n) :
    asm_parse_number (48 :: x :: ds ++ rest) = n := by
  have hch : ∀ c ∈ ds, c ≠ 0 ∧ c ≠ 120 ∧ c ≠ 88 ∧ isspace c = false ∧ c ≠ 45 ∧ c ≠ 43 := by
    intro c hc
    have h1 := hex_digits_chars n (tolower c) (by rw [← hds]; exact List.mem_map_of_mem _ hc)
    unfold tolower at h1
    unfold isspace
    split_ifs at h1 <;> simp <;> omega
  cases hd : ds with
  | nil =>
    rw [hd] at hds
    exact absurd hds.symm (hex_digits_ne_nil n)
  | cons c tl =>
    rw [hd] at hch hds
    have hc := hch c (List.mem_cons_self _ _)
    have h1 : tl.getD 0 0 ≠ 120 ∧ tl.getD 0 0 ≠ 88 := by
      have h := getD_zero_append (fun c => c ≠ 120 ∧ c ≠ 88) tl []
        (fun x hx => by have := hch x (List.mem_cons_of_mem _ hx); omega) (by omega) (Or.inl rfl)
      rw [List.append_nil] at h
      exact h
    have hcs : cstr (c :: tl ++ rest) = c :: tl :=
      cstr_text _ _ (fun x hx => (hch x hx).1) hrest
    have hp : parse_digits 16 (c :: tl) 0 = n := by
      rw [← parse_digits_tolower, hds]
      exact hex_digits_parse n
    unfold asm_parse_number
    have g0 : (48 :: x :: (c :: tl) ++ rest).getD 0 0 = 48 := rfl
    have g1 : (48 :: x :: (c :: tl) ++ rest).getD 1 0 = x := rfl
    have g2 : (48 :: x :: (c :: tl) ++ rest).drop 2 = c :: tl ++ rest := rfl
    rw [g0, g1, if_pos ⟨rfl, hx⟩, g2,
      strtol_plain _ 16 c tl hcs hc.2.2.2.1 hc.2.2.2.2.1 hc.2.2.2.2.2 (fun _ => h1), hp]
    rw [to_int_small] <;> omega

theorem parse_number_char (c : Nat) (rest : List Nat) (hc : c ≤ 127) :
    asm_parse_number (39 :: c :: 39 :: rest) = c := by
  unfold asm_parse_number
  have g0 : (39 :: c :: 39 :: rest).getD 0 0 = 39 := rfl
  have g1 : (39 :: c :: 39 :: rest).getD 1 0 = c := rfl
  have g2 : (39 :: c :: 39 :: rest).getD 2 0 = 39 := rfl
  rw [g0, g1, g2, if_neg (fun h => by omega), if_pos ⟨rfl, rfl⟩]
  unfold char_to_int
  rw [if_neg (by omega)]

/-! ### C24: the numerals read by `asm_parse_number` -/

/-- C24: for `0 ≤ n ≤ 65535`, `asm_parse_number` returns `n` on the decimal
numeral of `n` and on `0x` or `0X` followed by the hexadecimal numeral of `n` in
any letter case; for `1 ≤ n ≤ 32768` it returns `-n` on `-` followed by the
decimal numeral, which as a word is `65536 - n`; and it returns the code `c` on
the text of a quote, a character of code 1..127 and a quote. -/
theorem parse_number_numerals (n : Nat) (rest : List Nat) (hrest : ends_text rest)
    (hn : n ≤ 65535) :
    asm_parse_number (decimal n ++ rest) = n ∧
    (∀ ds, ds.map tolower = hex_digits n →
      asm_parse_number (48 :: 120 :: ds ++ rest) = n ∧
      asm_parse_number (48 :: 88 :: ds ++ rest) = n) ∧
    (∀ m, 1 ≤ m → m ≤ 32768 →
      asm_parse_number (45 :: decimal m ++ rest) = -(m : Int) ∧
      int_to_u16 (asm_parse_number (45 :: decimal m ++ rest)) = 65536 - m) ∧
    (∀ c, 1 ≤ c → c ≤ 127 → asm_parse_number (39 :: c :: 39 :: rest) = c) := by
  refine ⟨parse_number_decimal n rest hrest (by omega), ?_, ?_, ?_⟩
  · intro ds hds
    exact ⟨parse_number_hex n rest ds 120 hrest (by omega) (Or.inl rfl) hds,
      parse_number_hex n rest ds 88 hrest (by omega) (Or.inr rfl) hds⟩
  · intro m h1 h2
    have h := parse_number_minus m rest hrest (by omega)
    refine ⟨h, ?_⟩
    rw [h]
    unfold int_to_u16
    omega
  · intro c _ hc
    exact parse_number_char c rest hc

/-- Witness of C24: the texts `4660`, `0x1234`, `0X12aB`, `-1` and `'A'`, each
followed by its terminator. -/
theorem parse_number_numerals_witness :
    ends_text [0, 7] ∧ 4660 ≤ 65535 ∧
    decimal 4660 = bytes "4660" ∧ hex_digits 4660 = bytes "1234" ∧
    asm_parse_number (bytes "4660" ++ [0, 7]) = 4660 ∧
    asm_parse_number (bytes "0x1234" ++ [0, 7]) = 4660 ∧
    asm_parse_number (bytes "0X12aB" ++ [0, 7]) = 4779 ∧
    asm_parse_number (bytes "-1" ++ [0, 7]) = -1 ∧
    asm_parse_number (bytes "'A'" ++ [0, 7]) = 65 ∧
    asm_parse_number (decimal 4660 ++ [0, 7]) = (4660 : Nat) :=
  ⟨by decide, by decide, by decide, by decide, by decide, by decide, by decide, by decide,
    by decide, (parse_number_numerals 4660 [0, 7] (by decide) (by decide)).1⟩

/-! ### C25: the integer sink -/

/-- C25 as stated fails: a write of `0xFFFF` to `0xF801` prints `65535` and a
newline, not `-1` and a newline. -/
theorem int_out_unsigned_counterexample :
    (0xFFFF : Nat) ≥ 0x8000 ∧
    (cpu_write_memory cpu_init MMIO_INT_OUT 0xFFFF).map (fun c => c.output) =
      some (bytes "65535\n") ∧
    (cpu_write_memory cpu_init MMIO_INT_OUT 0xFFFF).map (fun c => c.output) ≠
      some (45 :: decimal (65536 - 0xFFFF) ++ [10]) := by
  decide

/-- C25, amended: a write of a 16-bit word `v` to `0xF801` appends to the output
the unsigned decimal numeral of `v`, that is at most five digits without a sign
that read back as `v`, and one newline; the rest of the state is unchanged. -/
theorem int_out_prints (cpu : CPU) (v : Nat) (hv : v < 65536) :
    cpu_write_memory cpu MMIO_INT_OUT v =
      some { cpu with output := cpu.output ++ decimal v ++ [10] } ∧
    (∀ c ∈ decimal v, 48 ≤ c ∧ c ≤ 57) ∧ decimal v ≠ [] ∧ (decimal v).length ≤ 5 ∧
    parse_digits 10 (decimal v) 0 = v := by
  refine ⟨?_, decimal_chars v, decimal_ne_nil v, decimal_length v (by omega), ?_⟩
  · unfold cpu_write_memory
    rw [if_pos (by decide), if_neg (by decide), if_pos rfl]
  · have h := decimal_parse v [] (fun c hc => absurd hc (by simp))
    rw [List.append_nil] at h
    exact h

/-- Witness of C25: a write of 12 prints `12` and a newline. -/
theorem int_out_prints_witness :
    (12 : Nat) < 65536 ∧
    (cpu_write_memory cpu_init MMIO_INT_OUT 12).map (fun c => c.output) = some (bytes "12\n") ∧
    cpu_write_memory cpu_init MMIO_INT_OUT 12 =
      some { cpu_init with output := cpu_init.output ++ decimal 12 ++ [10] } :=
  ⟨by decide, by decide, (int_out_prints cpu_init 12 (by decide)).1⟩

/-! ### C23: the names read by `asm_parse_register` -/

theorem cstr_append (text tail : List Nat) (h0 : ∀ c ∈ text, c ≠ 0) :
    cstr (text ++ tail) = text ++ cstr tail := by
  unfold cstr
  induction text with
  | nil => rfl
  | cons c tl ih =>
    rw [List.cons_append, List.takeWhile_cons,
      if_pos (by simpa using h0 c (List.mem_cons_self _ _)),
      ih (fun x hx => h0 x (List.mem_cons_of_mem _ hx)), List.cons_append]

theorem is_digit_of_ten (c : Nat) : is_digit_of 10 c = isdigit c := by
  unfold is_digit_of digit_value isdigit
  by_cases h1 : 48 ≤ c ∧ c ≤ 57
  · rw [if_pos h1]
    have h2 : c - 48 < 10 := by omega
    simp [h1.1, h1.2, h2]
  · have h3 : (decide (48 ≤ c) && decide (c ≤ 57)) = false := by
      rw [Bool.and_eq_false_iff, decide_eq_false_iff_not, decide_eq_false_iff_not]
      omega
    rw [if_neg h1, h3]
    split_ifs with h4 h5
    · exact decide_eq_false (by omega)
    · exact decide_eq_false (by omega)
    · rfl

theorem parse_digits_zeros (z : Nat) (l : List Nat) :
    parse_digits 10 (List.replicate z 48 ++ l) 0 = parse_digits 10 l 0 := by
  induction z with
  | zero => rfl
  | succ z ih =>
    rw [List.replicate_succ, List.cons_append,
      parse_digits_cons 10 48 0 _ 0 (by decide) (by decide)]
    exact ih

theorem cstr_head_not_digit (tail : List Nat)
    (h : ∀ c, tail.head? = some c → isdigit c = false) :
    ∀ c, (cstr tail).head? = some c → is_digit_of 10 c = false := by
  intro c hc
  rw [is_digit_of_ten]
  cases tail with
  | nil => exact absurd hc (by simp [cstr])
  | cons x r =>
    unfold cstr at hc
    rw [List.takeWhile_cons] at hc
    split_ifs at hc
    · cases hc
      exact h _ rfl
    · exact absurd hc (by simp)

/-- The value of `asm_parse_register` on `R` or `r`, a run of zeros, the decimal
numeral of `m` and a tail that does not begin with a digit. -/
theorem parse_register_run (r z m : Nat) (tail : List Nat) (hr : r = 82 ∨ r = 114)
    (hm : m ≤ 2147483647) (htail : ∀ c, tail.head? = some c → isdigit c = false) :
    asm_parse_register (r :: (List.replicate z 48 ++ decimal m ++ tail)) =
      if m < 8 then (m : Int) else -1 := by
  have hch : ∀ c ∈ List.replicate z 48 ++ decimal m, 48 ≤ c ∧ c ≤ 57 := by
    intro c hc
    rcases List.mem_append.1 hc with h | h
    · rw [List.eq_of_mem_replicate h]
      omega
    · exact decimal_chars m c h
  have hne : List.replicate z 48 ++ decimal m ≠ [] := by
    intro h
    exact decimal_ne_nil m (List.append_eq_nil.1 h).2
  cases hd : List.replicate z 48 ++ decimal m with
  | nil => exact absurd hd hne
  | cons c tl =>
    rw [hd] at hch
    have hc := hch c (List.mem_cons_self _ _)
    have hcs : cstr (c :: tl ++ tail) = c :: (tl ++ cstr tail) :=
      cstr_append (c :: tl) tail (fun x hx => by have := hch x hx; omega)
    have hsp : isspace c = false := by
      unfold isspace
      simp
      omega
    have hp : parse_digits 10 (c :: (tl ++ cstr tail)) 0 = m := by
      rw [← List.cons_append, ← hd, List.append_assoc, parse_digits_zeros]
      exact decimal_parse m _ (cstr_head_not_digit tail htail)
    unfold asm_parse_register
    have g0 : (r :: (c :: tl ++ tail)).getD 0 0 = r := rfl
    have g1 : (r :: (c :: tl ++ tail)).getD 1 0 = c := rfl
    have g2 : (r :: (c :: tl ++ tail)).drop 1 = c :: tl ++ tail := rfl
    have hdig : isdigit c = true := by
      unfold isdigit
      simp
      omega
    rw [g0, g1, g2, if_neg (fun h => by omega), if_neg (by rw [hdig]; simp)]
    dsimp only
    unfold atoi
    rw [strtol_plain _ 10 c (tl ++ cstr tail) hcs hsp (by omega) (by omega) (fun h => by omega),
      hp, to_int_small _ (by omega) (by omega)]
    unfold NUM_REGISTERS
    split_ifs with h1 h2 h2
    · omega
    · omega
    · omega
    · rfl

theorem decimal_digit (i : Nat) (h : i < 10) : decimal i = [48 + i] := by
  interval_cases i <;> decide

theorem ends_text_not_digit (rest : List Nat) (h : ends_text rest) :
    ∀ c, rest.head? = some c → isdigit c = false := by
  intro c hc
  rw [← is_digit_of_ten]
  exact ends_text_stop 10 rest h c hc

/-- C23 as stated fails: `R07` and `R1x` are not `R` and one digit, but
`asm_parse_register` returns 7 and 1 for them, and the lexer makes them Register
tokens; `R4294967296` gives register 0. -/
theorem parse_register_counterexample :
    asm_parse_register (bytes "R07") = 7 ∧ asm_parse_register (bytes "R1x") = 1 ∧
    asm_parse_register (bytes "R4294967296") = 0 ∧
    (asm_tokenize odd_register_line zero_tokens MAX_TOKENS).map
      (fun r => (r.1, (r.2.take r.1).map fun t => (t.type, cstr t.value, t.num_value))) =
      some (4, [(TOKEN_INSTRUCTION, bytes "MOV", 0), (TOKEN_REGISTER, bytes "R07", 7),
        (TOKEN_COMMA, bytes ",", 0), (TOKEN_REGISTER, bytes "R1x", 1)]) := by
  decide

/-- C23, amended: `asm_parse_register` returns -1 or an index in 0..7; on a
string that does not begin with `R` or `r` it returns 7 for `SP` in any letter
case and -1 otherwise; on `R` or `r` not followed by a digit it returns -1; on `R`
or `r` followed by a run of digits of value `m ≤ 2^31 - 1` (zeros and the
numeral of `m`) and then anything that is not a digit it returns `m` when
`m ≤ 7` and -1 otherwise; so `R0`..`R7` and `r0`..`r7` give 0..7. -/
theorem parse_register_names (str : List Nat) :
    (asm_parse_register str = -1 ∨
      (0 ≤ asm_parse_register str ∧ asm_parse_register str ≤ 7)) ∧
    (str.getD 0 0 ≠ 82 → str.getD 0 0 ≠ 114 →
      asm_parse_register str = if strcasecmp_eq str (bytes "SP") then 7 else -1) ∧
    ((str.getD 0 0 = 82 ∨ str.getD 0 0 = 114) → isdigit (str.getD 1 0) = false →
      asm_parse_register str = -1) ∧
    (∀ (r z m : Nat) (tail : List Nat), (r = 82 ∨ r = 114) → m ≤ 2147483647 →
      (∀ c, tail.head? = some c → isdigit c = false) →
      asm_parse_register (r :: (List.replicate z 48 ++ decimal m ++ tail)) =
        if m < 8 then (m : Int) else -1) ∧
    (∀ (i : Nat) (rest : List Nat), i < 8 → ends_text rest →
      asm_parse_register (82 :: (48 + i) :: rest) = i ∧
      asm_parse_register (114 :: (48 + i) :: rest) = i) := by
  refine ⟨?_, ?_, ?_, ?_, ?_⟩
  · unfold asm_parse_register
    dsimp only
    unfold NUM_REGISTERS REG_SP
    split_ifs <;> first | exact Or.inl rfl | (right; omega)
  · intro h1 h2
    unfold asm_parse_register
    rw [if_pos ⟨h1, h2⟩]
    rfl
  · intro h1 h2
    unfold asm_parse_register
    rw [if_neg (fun h => by rcases h1 with h1 | h1
                            · exact h.1 h1
                            · exact h.2 h1), if_pos (by rw [h2]; simp)]
  · intro r z m tail hr hm htail
    exact parse_register_run r z m tail hr hm htail
  · intro i rest hi hrest
    have h82 := parse_register_run 82 0 i rest (Or.inl rfl) (by omega)
      (ends_text_not_digit rest hrest)
    have h114 := parse_register_run 114 0 i rest (Or.inr rfl) (by omega)
      (ends_text_not_digit rest hrest)
    rw [decimal_digit i (by omega), if_pos hi] at h82 h114
    exact ⟨h82, h114⟩

/-- Witness of C23: `R5`, `sp`, `RET` and `R8` in a buffer, and `R007`. -/
theorem parse_register_names_witness :
    asm_parse_register (bytes "R5" ++ [0, 9]) = 5 ∧ asm_parse_register (bytes "sp") = 7 ∧
    asm_parse_register (bytes "RET") = -1 ∧ asm_parse_register (bytes "R8") = -1 ∧
    asm_parse_register (82 :: (List.replicate 2 48 ++ decimal 7 ++ [120])) =
      if 7 < 8 then ((7 : Nat) : Int) else -1 :=
  ⟨by decide, by decide, by decide, by decide,
    (parse_register_names []).2.2.2.1 82 2 7 [120] (Or.inl rfl) (by decide) (by decide)⟩

/-! ### C21: a symbol between brackets -/

theorem parse_number_symbol (v : List Nat) (h : symbol_start (v.getD 0 0)) :
    asm_parse_number v = 0 := by
  unfold symbol_start at h
  unfold asm_parse_number
  rw [if_neg (fun h1 => by omega), if_neg (fun h1 => by omega)]
  unfold atoi
  cases v with
  | nil => decide
  | cons c tl =>
    have hc : (c :: tl).getD 0 0 = c := rfl
    rw [hc] at h
    have hcs : cstr (c :: tl) = c :: cstr tl := by
      unfold cstr
      rw [List.takeWhile_cons, if_pos (by simp; omega)]
    have hsp : isspace c = false := by
      unfold isspace
      simp
      omega
    have hp : parse_digits 10 (c :: cstr tl) 0 = 0 :=
      parse_digits_stop 10 _ 0 (fun x hx => by
        cases hx
        rw [is_digit_of_ten]
        unfold isdigit
        simp
        omega)
    rw [strtol_plain _ 10 c (cstr tl) hcs hsp (by omega) (by omega) (fun h => by omega), hp]
    decide

theorem emit_two_words (s : Assembler) (w1 w2 : Nat) (hs : s.can_emit) :
    ∃ s', (asm_emit_word s w1).bind (fun s1 => asm_emit_word s1 w2) = some s' ∧
      s'.output_size = s.output_size + 2 ∧ s'.output s.output_size = w1 ∧
      s'.output (s.output_size + 1) = w2 ∧
      (∀ a, a ≠ s.output_size → a ≠ s.output_size + 1 → s'.output a = s.output a) ∧
      s'.labels = s.labels ∧ s'.current_address = u16 (u16 (s.current_address + 1) + 1) ∧
      s'.can_emit := by
  obtain ⟨s1, h1, hc1, hs1, ho1, ha1, hl1⟩ := emit_word_some s w1 hs
  obtain ⟨s2, h2, hc2, hs2, ho2, ha2, hl2⟩ := emit_word_some s1 w2 hc1
  refine ⟨s2, by rw [h1, Option.some_bind, h2], by rw [hs2, hs1], ?_, ?_, ?_, by rw [hl2, hl1],
    by rw [ha2, ha1], hc2⟩
  · rw [ho2, ho1, hs1, setAt_other _ _ _ _ (by omega), setAt_same]
  · rw [ho2, hs1, setAt_same]
  · intro a ha1 ha2
    rw [ho2, ho1, hs1, setAt_other _ _ _ _ ha2, setAt_other _ _ _ _ ha1]

theorem assemble_instruction_at (st : Assembler) (tokens : List Token) (n k pass : Nat)
    (hk : k = 0 ∨ (k = 1 ∧ (token_at tokens 0).type = TOKEN_LABEL))
    (hins : (token_at tokens k).type = TOKEN_INSTRUCTION) (hn : k + 1 < n) (hpass : pass ≠ 1) :
    assemble_tokens st tokens n pass =
      assemble_instruction st (token_at tokens k).value (tokens.drop (k + 1)) pass := by
  unfold assemble_tokens
  rcases hk with rfl | ⟨rfl, hlab⟩
  · rw [if_neg (by omega), if_neg (by rw [hins]; decide), if_neg (by rw [hins]; decide),
      if_pos hins]
  · dsimp only
    rw [if_neg (by omega), if_pos hlab, if_neg (by omega), if_neg (by rw [hins]; decide),
      if_pos hins, if_neg hpass]

theorem ld_direct_words (s : Assembler) (m : List Nat) (operands : List Token)
    (hm : strcasecmp_eq m (bytes "LD") = true)
    (h3 : (token_at operands 3).type ≠ TOKEN_REGISTER) :
    asm_encode_instruction m operands =
      control_word OP_LOAD (token_at operands 0).num_value 0 LOAD_DIR ∧
    extra_word s m operands =
      some (int_to_u16 (asm_parse_number (token_at operands 3).value)) := by
  have e : ∀ b, strcasecmp_eq m b = strcasecmp_eq (bytes "LD") b :=
    fun b => strcasecmp_eq_trans m _ b hm
  constructor
  · unfold asm_encode_instruction
    dsimp only
    rw [if_neg (by rw [e]; decide), if_neg (by rw [e]; decide), if_neg (by rw [e]; decide),
      if_neg (by rw [e]; decide), if_pos hm, if_neg h3]
  · unfold extra_word
    rw [if_neg (by rw [e, e, e]; decide), if_pos ⟨hm, h3⟩]

theorem st_direct_words (s : Assembler) (m : List Nat) (operands : List Token)
    (hm : strcasecmp_eq m (bytes "ST") = true)
    (h1 : (token_at operands 1).type ≠ TOKEN_REGISTER) :
    asm_encode_instruction m operands =
      control_word OP_STORE 0 (token_at operands 4).num_value STORE_DIR ∧
    extra_word s m operands =
      some (int_to_u16 (asm_parse_number (token_at operands 1).value)) := by
  have e : ∀ b, strcasecmp_eq m b = strcasecmp_eq (bytes "ST") b :=
    fun b => strcasecmp_eq_trans m _ b hm
  constructor
  · unfold asm_encode_instruction
    dsimp only
    rw [if_neg (by rw [e]; decide), if_neg (by rw [e]; decide), if_neg (by rw [e]; decide),
      if_neg (by rw [e]; decide), if_neg (by rw [e]; decide), if_pos hm, if_neg h1]
  · unfold extra_word
    rw [if_neg (by rw [e, e, e]; decide), if_neg (fun h => absurd h.1 (by rw [e]; decide)),
      if_pos ⟨hm, h1⟩]

/-- C21 fails on the code: with `x` at address 5 in the table, pass 2 of
`LD R1, [x]` emits the LOAD-direct control word `0x1201` and the word 0, and
pass 2 of `ST [x], R1` emits the STORE-direct control word `0x2040` and the
word 0, where the paths of `LDI`, of the jumps and of `.WORD` look the symbol
up. -/
theorem bracket_symbol_counterexample :
    asm_find_label x_asm (bytes "x") = 5 ∧
    (asm_assemble_line x_asm ld_line 2 zero_tokens).map (fun st => emitted st 0) =
      some [0x1201, 0] ∧
    (asm_assemble_line x_asm st_line 2 zero_tokens).map (fun st => emitted st 0) =
      some [0x2040, 0] ∧
    dec_opcode 0x1201 = OP_LOAD ∧ dec_mode 0x1201 = LOAD_DIR ∧
    dec_opcode 0x2040 = OP_STORE ∧ dec_mode 0x2040 = STORE_DIR := by
  decide

/-- The direct forms of `LD` and `ST` do not consult the symbol table: when
the lexer returns, with or without a label in front, the tokens of `LD Rd, [x]`
or of `ST [x], Rs` with `x` a token of type `TOKEN_INSTRUCTION` that begins with
a letter or an underscore, pass 2 emits for every symbol table the LOAD-direct
(STORE-direct) control word and the word 0, which is the value that
`asm_parse_number` gives for `x`. -/
theorem bracket_symbol_is_number (st : Assembler) (stack : List Token) (line : List Nat)
    (n : Nat) (tokens : List Token) (k j : Nat)
    (hemit : st.can_emit)
    (htok : asm_tokenize line stack MAX_TOKENS = some (n, tokens))
    (hk : k = 0 ∨ (k = 1 ∧ (token_at tokens 0).type = TOKEN_LABEL))
    (hins : (token_at tokens k).type = TOKEN_INSTRUCTION)
    (hform : (strcasecmp_eq (token_at tokens k).value (bytes "LD") = true ∧ j = k + 4) ∨
      (strcasecmp_eq (token_at tokens k).value (bytes "ST") = true ∧ j = k + 2))
    (hj : j < n) (hid : (token_at tokens j).type = TOKEN_INSTRUCTION)
    (hsym : symbol_start ((token_at tokens j).value.getD 0 0)) :
    ∃ st', asm_assemble_line st line 2 stack = some st' ∧
      st'.output_size = st.output_size + 2 ∧
      (strcasecmp_eq (token_at tokens k).value (bytes "LD") = true →
        st'.output st.output_size =
          control_word OP_LOAD (token_at tokens (k + 1)).num_value 0 LOAD_DIR) ∧
      (strcasecmp_eq (token_at tokens k).value (bytes "ST") = true →
        st'.output st.output_size =
          control_word OP_STORE 0 (token_at tokens (k + 5)).num_value STORE_DIR) ∧
      st'.output (st.output_size + 1) = 0 ∧
      asm_parse_number (token_at tokens j).value = 0 ∧
      (∀ a, a ≠ st.output_size → a ≠ st.output_size + 1 → st'.output a = st.output a) ∧
      st'.labels = st.labels := by
  have hz := parse_number_symbol _ hsym
  have hnr : (token_at tokens j).type ≠ TOKEN_REGISTER := by
    rw [hid]
    decide
  have hwords : ∃ w, asm_encode_instruction (token_at tokens k).value (tokens.drop (k + 1)) = w ∧
      (∀ s, extra_word s (token_at tokens k).value (tokens.drop (k + 1)) = some 0) ∧
      (strcasecmp_eq (token_at tokens k).value (bytes "LD") = true →
        w = control_word OP_LOAD (token_at tokens (k + 1)).num_value 0 LOAD_DIR) ∧
      (strcasecmp_eq (token_at tokens k).value (bytes "ST") = true →
        w = control_word OP_STORE 0 (token_at tokens (k + 5)).num_value STORE_DIR) := by
    refine ⟨_, rfl, ?_, ?_, ?_⟩
    · intro s
      rcases hform with ⟨hm, rfl⟩ | ⟨hm, rfl⟩
      · have h3 : (token_at (tokens.drop (k + 1)) 3).type ≠ TOKEN_REGISTER := by
          rw [token_at_drop]
          exact hnr
        rw [(ld_direct_words s _ _ hm h3).2, token_at_drop, hz]
        rfl
      · have h1 : (token_at (tokens.drop (k + 1)) 1).type ≠ TOKEN_REGISTER := by
          rw [token_at_drop]
          exact hnr
        rw [(st_direct_words s _ _ hm h1).2, token_at_drop, hz]
        rfl
    · intro hm
      have hst : strcasecmp_eq (token_at tokens k).value (bytes "ST") = false := by
        rw [strcasecmp_eq_trans _ _ _ hm]
        decide
      rcases hform with ⟨_, rfl⟩ | ⟨h, _⟩
      · have h3 : (token_at (tokens.drop (k + 1)) 3).type ≠ TOKEN_REGISTER := by
          rw [token_at_drop]
          exact hnr
        rw [(ld_direct_words st _ _ hm h3).1, token_at_drop]
      · rw [hst] at h
        exact absurd h (by decide)
    · intro hm
      have hld : strcasecmp_eq (token_at tokens k).value (bytes "LD") = false := by
        rw [strcasecmp_eq_trans _ _ _ hm]
        decide
      rcases hform with ⟨h, _⟩ | ⟨_, rfl⟩
      · rw [hld] at h
        exact absurd h (by decide)
      · have h1 : (token_at (tokens.drop (k + 1)) 1).type ≠ TOKEN_REGISTER := by
          rw [token_at_drop]
          exact hnr
        rw [(st_direct_words st _ _ hm h1).1, token_at_drop]
  obtain ⟨w, hw, hx, hwl, hws⟩ := hwords
  have hkn : k + 1 < n := by
    rcases hform with ⟨_, rfl⟩ | ⟨_, rfl⟩ <;> omega
  obtain ⟨st', h1, h2, h3, h4, h5, h6, _, _⟩ := emit_two_words st w 0 hemit
  refine ⟨st', ?_, h2, fun hm => by rw [h3, hwl hm], fun hm => by rw [h3, hws hm], h4, hz, h5,
    h6⟩
  unfold asm_assemble_line
  rw [htok, Option.some_bind]
  dsimp only
  rw [assemble_instruction_at st tokens n k 2 hk hins hkn (by decide)]
  unfold assemble_instruction
  rw [if_pos rfl, hw]
  simp only [hx]
  exact h1

/-! ### C22: the directive `.WORD` -/

theorem emit_word_labels (st st1 : Assembler) (w : Nat) (h : asm_emit_word st w = some st1) :
    st1.labels = st.labels := by
  unfold asm_emit_word at h
  dsimp only at h
  split_ifs at h <;> cases h <;> rfl

theorem word_directive_emit_eq (toks : List Token) :
    ∀ st : Assembler, word_directive_emit st toks = emit_words st (word_values st.labels toks) := by
  induction toks with
  | nil => intro st; rfl
  | cons t rest ih =>
    intro st
    by_cases ht : t.type ≠ TOKEN_COMMA
    · have hv : word_values st.labels (t :: rest) =
          int_to_u16 (if t.type = TOKEN_IMMEDIATE then t.num_value
            else label_or_zero st t.value) :: word_values st.labels rest := by
        unfold word_values label_or_zero asm_find_label
        rw [List.filter_cons, if_pos (by simpa using ht), List.map_cons]
        congr 1
        split_ifs <;> rfl
      rw [hv]
      simp only [word_directive_emit, if_pos ht, emit_words]
      cases h1 : asm_emit_word st
          (int_to_u16 (if t.type = TOKEN_IMMEDIATE then t.num_value
            else label_or_zero st t.value)) with
      | none => rfl
      | some st1 =>
        rw [Option.some_bind, Option.some_bind, ih st1, emit_word_labels st st1 _ h1]
    · have hv : word_values st.labels (t :: rest) = word_values st.labels rest := by
        unfold word_values
        rw [List.filter_cons, if_neg (by simpa using ht)]
      rw [hv]
      simp only [word_directive_emit, if_neg ht]
      exact ih st

theorem word_values_length (labels : List Label) (toks : List Token) :
    (word_values labels toks).length = word_count toks := by
  unfold word_values word_count
  rw [List.length_map]

theorem assemble_word_directive (st : Assembler) (tokens : List Token) (n k pass : Nat)
    (hk : k = 0 ∨ (k = 1 ∧ (token_at tokens 0).type = TOKEN_LABEL))
    (hdir : (token_at tokens k).type = TOKEN_DIRECTIVE)
    (hname : strcasecmp_eq (token_at tokens k).value (bytes ".WORD") = true)
    (hn : k + 1 < n) (hpass : pass ≠ 1) :
    assemble_tokens st tokens n pass = assemble_directive st tokens n k pass := by
  unfold assemble_tokens
  rcases hk with rfl | ⟨rfl, hlab⟩
  · rw [if_neg (by omega), if_neg (by rw [hdir]; decide), if_pos hdir]
  · dsimp only
    rw [if_neg (by omega), if_pos hlab, if_neg (by omega), if_pos hdir, if_neg hpass]

theorem word_directive_count_size (toks : List Token) :
    ∀ s : Assembler, (word_directive_count s toks).output_size = s.output_size := by
  induction toks with
  | nil => intro s; rfl
  | cons t rest ih =>
    intro s
    unfold word_directive_count
    split_ifs
    · exact ih _
    · exact ih s

/-- The directive `.WORD` on the tokens of the lexer: when it returns the
directive (with or without a label in front) followed by other tokens, pass 1
advances the location counter by the number of tokens after the directive that
are not commas, and pass 2 emits one word for each of them. -/
theorem word_directive_tokens (st : Assembler) (stack : List Token) (line : List Nat)
    (n : Nat) (tokens : List Token) (k : Nat)
    (hemit : st.can_emit) (ha : st.current_address < 65536)
    (htok : asm_tokenize line stack MAX_TOKENS = some (n, tokens))
    (hk : k = 0 ∨ (k = 1 ∧ (token_at tokens 0).type = TOKEN_LABEL))
    (hdir : (token_at tokens k).type = TOKEN_DIRECTIVE)
    (hname : strcasecmp_eq (token_at tokens k).value (bytes ".WORD") = true)
    (hn : k + 1 < n) :
    (∃ st1, asm_assemble_line st line 1 stack = some st1 ∧
      st1.current_address =
        u16 (st.current_address + word_count ((tokens.take n).drop (k + 1))) ∧
      st1.output_size = st.output_size) ∧
    (∃ st2, asm_assemble_line st line 2 stack = some st2 ∧
      st2.output_size = st.output_size + word_count ((tokens.take n).drop (k + 1)) ∧
      (∀ i, i < word_count ((tokens.take n).drop (k + 1)) →
        st2.output (st.output_size + i) =
          (word_values st.labels ((tokens.take n).drop (k + 1))).getD i 0) ∧
      (∀ a, a < st.output_size → st2.output a = st.output a) ∧
      st2.labels = st.labels) := by
  have horg : strcasecmp_eq (token_at tokens k).value (bytes ".ORG") = false := by
    rw [strcasecmp_eq_trans _ _ _ hname]
    decide
  have hd1 : ∀ s : Assembler, assemble_directive s tokens n k 1 =
      some (word_directive_count s ((tokens.take n).drop (k + 1))) := by
    intro s
    unfold assemble_directive
    rw [if_neg (by rw [horg]; decide), if_pos hname, if_neg (by decide)]
  have hd2 : assemble_directive st tokens n k 2 =
      word_directive_emit st ((tokens.take n).drop (k + 1)) := by
    unfold assemble_directive
    rw [if_neg (by rw [horg]; decide), if_pos hname, if_pos rfl]
  have hcount : ∀ s : Assembler, s.current_address = st.current_address →
      s.output_size = st.output_size →
      (word_directive_count s ((tokens.take n).drop (k + 1))).current_address =
        u16 (st.current_address + word_count ((tokens.take n).drop (k + 1))) ∧
      (word_directive_count s ((tokens.take n).drop (k + 1))).output_size = st.output_size := by
    intro s hs ho
    constructor
    · rcases word_directive_count_address ((tokens.take n).drop (k + 1)) s with h | ⟨h0, h⟩
      · rw [h, hs]
      · rw [h, h0, hs]
        unfold u16
        omega
    · rw [word_directive_count_size, ho]
  constructor
  · unfold asm_assemble_line
    rw [htok, Option.some_bind]
    dsimp only
    unfold assemble_tokens
    rcases hk with rfl | ⟨rfl, hlab⟩
    · rw [if_neg (by omega), if_neg (by rw [hdir]; decide), if_pos hdir, hd1]
      exact ⟨_, rfl, hcount st rfl rfl⟩
    · dsimp only
      rw [if_neg (by omega), if_pos hlab, if_neg (by omega), if_pos hdir, if_pos rfl, hd1]
      have hf := add_label_frame st (token_at tokens 0).value st.current_address
      exact ⟨_, rfl, hcount _ hf.1 hf.2.1⟩
  · obtain ⟨st2, h2, _, hs2, ho2, hk2, hl2⟩ :=
      emit_words_some (word_values st.labels ((tokens.take n).drop (k + 1))) st hemit
    rw [word_values_length] at hs2 ho2
    refine ⟨st2, ?_, hs2, ho2, hk2, hl2⟩
    unfold asm_assemble_line
    rw [htok, Option.some_bind]
    dsimp only
    rw [assemble_word_directive st tokens n k 2 hk hdir hname hn (by decide), hd2,
      word_directive_emit_eq]
    exact h2

/-! ### C26: `cpu_run` stops -/

theorem step_cycle (cpu cpu' : CPU) (hrun : cpu.halted = false)
    (hstep : cpu_step cpu = some cpu') :
    cpu'.cycle_count = (cpu.cycle_count + 1) % 2 ^ 64 := by
  obtain ⟨c, hc, rfl⟩ := cpu_step_some cpu cpu' hrun hstep
  show (c.cycle_count + 1) % 2 ^ 64 = _
  rw [(decode_execute_rest _ _ _ hc).1, (fetch_frame cpu).2.2.2.2.2.1]

theorem run_loop_stops :
    ∀ (fuel : Nat) (cpu : CPU), cpu.cycle_count ≤ 1000000 →
      1000000 - cpu.cycle_count < fuel →
      (∀ n c, cpu_steps n cpu = some c → c.halted = false → ∃ c', cpu_step c = some c') →
      ∃ k cpu', cpu_steps k cpu = some cpu' ∧ run_loop fuel cpu = some cpu' ∧
        cpu.cycle_count + k ≤ 1000000 ∧
        cpu'.cycle_count = cpu.cycle_count + k ∧
        (cpu'.halted = true ∨ cpu'.cycle_count = 1000000) := by
  intro fuel
  induction fuel with
  | zero => intro cpu _ h; omega
  | succ fuel ih =>
    intro cpu hc hfuel hret
    by_cases hgo : cpu.halted = false ∧ cpu.cycle_count < 1000000
    · obtain ⟨c1, h1⟩ := hret 0 cpu rfl hgo.1
      have hcc : c1.cycle_count = cpu.cycle_count + 1 := by
        rw [step_cycle cpu c1 hgo.1 h1]
        exact Nat.mod_eq_of_lt (by omega)
      have hret1 : ∀ n c, cpu_steps n c1 = some c → c.halted = false →
          ∃ c', cpu_step c = some c' := by
        intro n c hn hh
        apply hret (n + 1) c _ hh
        show (cpu_step cpu).bind (cpu_steps n) = some c
        rw [h1, Option.some_bind]
        exact hn
      obtain ⟨k, cpu', hk, hr, hle, hcc', hend⟩ := ih c1 (by omega) (by omega) hret1
      refine ⟨k + 1, cpu', ?_, ?_, by omega, ?_, hend⟩
      · show (cpu_step cpu).bind (cpu_steps k) = some cpu'
        rw [h1, Option.some_bind]
        exact hk
      · rw [run_loop, if_pos hgo, h1, Option.some_bind]
        exact hr
      · rw [hcc', hcc]
        omega
    · refine ⟨0, cpu, rfl, ?_, by omega, rfl, ?_⟩
      · rw [run_loop, if_neg hgo]
      · by_cases hh : cpu.halted = true
        · exact Or.inl hh
        · right
          have hh2 : cpu.halted = false := by
            cases h : cpu.halted
            · rfl
            · exact absurd h hh
          have : ¬ cpu.cycle_count < 1000000 := fun h => hgo ⟨hh2, h⟩
          omega

theorem str_out_loop_top (mem : Nat → Nat) (ht : top_zero mem) :
    ∀ (fuel addr : Nat) (out : List Nat), 0 < fuel → (addr ≥ 65536 ∨ 65535 - addr < fuel) →
      ∃ o, str_out_loop fuel mem addr out = some o := by
  intro fuel
  induction fuel with
  | zero => intro addr out h; omega
  | succ fuel ih =>
    intro addr out _ h
    rw [str_out_loop]
    by_cases h1 : mem addr &&& 0xFF = 0
    · rw [if_pos h1]
      exact ⟨_, rfl⟩
    · rw [if_neg h1]
      by_cases h2 : mem addr >>> 8 = 0
      · rw [if_pos h2]
        exact ⟨_, rfl⟩
      · rw [if_neg h2]
        have hlt : addr < 65535 := by
          by_contra hge
          apply h1
          rw [ht addr (by omega)]
          rfl
        have hu : u16 (addr + 1) = addr + 1 := by
          unfold u16
          omega
        rw [hu]
        exact ih (addr + 1) _ (by omega) (Or.inr (by omega))

theorem write_memory_top (cpu : CPU) (a v : Nat) (ht : top_zero cpu.memory) :
    ∃ cpu', cpu_write_memory cpu a v = some cpu' ∧ top_zero cpu'.memory := by
  unfold cpu_write_memory
  split_ifs with h1 h2 h3 h4
  · exact ⟨_, rfl, ht⟩
  · exact ⟨_, rfl, ht⟩
  · obtain ⟨o, ho⟩ := str_out_loop_top cpu.memory ht 65536 v cpu.output (by omega)
      (by omega)
    rw [ho]
    exact ⟨_, rfl, ht⟩
  · exact ⟨_, rfl, ht⟩
  · refine ⟨_, rfl, ?_⟩
    intro x hx
    show setAt cpu.memory a v x = 0
    unfold MMIO_START at h1
    rw [setAt_other _ _ _ _ (by omega)]
    exact ht x hx

theorem exec_load_memory (cpu : CPU) (rd rs mode : Nat) :
    (exec_load cpu rd rs mode).memory = cpu.memory := by
  unfold exec_load
  split_ifs <;>
    first
    | rfl
    | simp [set_reg, (read_memory_frame _ _).2.2.2.1, (fetch_frame cpu).2.2.2.1]

theorem exec_arith_memory (cpu : CPU) (rd rs mode : Nat) :
    (exec_arith cpu rd rs mode).memory = cpu.memory := by
  unfold exec_arith
  split_ifs
  · rfl
  · rfl
  · rfl
  · rfl
  · rfl
  · rfl
  · rfl
  · exact (fetch_frame cpu).2.2.2.1
  · exact (fetch_frame cpu).2.2.2.1
  · rfl

theorem exec_logic_memory (cpu : CPU) (rd rs mode : Nat) :
    (exec_logic cpu rd rs mode).memory = cpu.memory := by
  unfold exec_logic
  split_ifs <;> rfl

theorem exec_shift_memory (cpu : CPU) (rd rs mode : Nat) :
    (exec_shift cpu rd rs mode).memory = cpu.memory := by
  unfold exec_shift
  split_ifs <;> rfl

theorem exec_branch_memory (cpu : CPU) (mode : Nat) :
    (exec_branch cpu mode).memory = cpu.memory := by
  unfold exec_branch
  dsimp only
  split_ifs <;> exact (fetch_frame cpu).2.2.2.1

theorem decode_execute_top (cpu : CPU) (i : Nat) (ht : top_zero cpu.memory) :
    ∃ c, cpu_decode_execute cpu i = some c ∧ top_zero c.memory := by
  have hf : top_zero (cpu_fetch cpu).2.memory := by
    rw [(fetch_frame cpu).2.2.2.1]
    exact ht
  have hlt := dec_opcode_lt i
  have hcases : dec_opcode i = 0 ∨ dec_opcode i = 1 ∨ dec_opcode i = 2 ∨ dec_opcode i = 3 ∨
      dec_opcode i = 4 ∨ dec_opcode i = 5 ∨ dec_opcode i = 6 ∨ dec_opcode i = 7 ∨
      dec_opcode i = 8 ∨ dec_opcode i = 9 ∨ dec_opcode i = 10 ∨ dec_opcode i = 11 ∨
      dec_opcode i = 12 ∨ dec_opcode i = 13 ∨ dec_opcode i = 14 ∨ dec_opcode i = 15 := by
    omega
  rcases hcases with h0 | h0 | h0 | h0 | h0 | h0 | h0 | h0 | h0 | h0 | h0 | h0 | h0 | h0 | h0 | h0
  · exact ⟨_, decode_execute_nop _ _ h0, ht⟩
  · exact ⟨_, decode_execute_load _ _ h0, by rw [exec_load_memory]; exact ht⟩
  · rw [decode_execute_store _ _ h0]
    unfold exec_store
    split_ifs
    · exact write_memory_top _ _ _ hf
    · exact write_memory_top _ _ _ ht
    · exact ⟨_, rfl, ht⟩
  · exact ⟨_, decode_execute_move _ _ h0, ht⟩
  · exact ⟨_, decode_execute_arith _ _ h0, by rw [exec_arith_memory]; exact ht⟩
  · exact ⟨_, decode_execute_logic _ _ h0, by rw [exec_logic_memory]; exact ht⟩
  · exact ⟨_, decode_execute_shift _ _ h0, by rw [exec_shift_memory]; exact ht⟩
  · exact ⟨_, decode_execute_branch _ _ h0, by rw [exec_branch_memory]; exact ht⟩
  · exact ⟨_, decode_execute_jump _ _ h0, hf⟩
  · rw [decode_execute_stack _ _ h0]
    unfold exec_stack
    split_ifs
    · exact write_memory_top _ _ _ ht
    · refine ⟨_, rfl, ?_⟩
      show top_zero (cpu_read_memory cpu (cpu.registers REG_SP)).2.memory
      rw [(read_memory_frame _ _).2.2.2.1]
      exact ht
    · exact ⟨_, rfl, ht⟩
  · rw [decode_execute_call _ _ h0, exec_call_eq]
    obtain ⟨c1, h1, ht1⟩ := write_memory_top
      (set_reg (cpu_fetch cpu).2 REG_SP (u16 ((cpu_fetch cpu).2.registers REG_SP + 65535)))
      ((set_reg (cpu_fetch cpu).2 REG_SP
        (u16 ((cpu_fetch cpu).2.registers REG_SP + 65535))).registers REG_SP)
      (cpu_fetch cpu).2.pc hf
    rw [h1]
    exact ⟨_, rfl, ht1⟩
  · refine ⟨_, decode_execute_ret _ _ h0, ?_⟩
    show top_zero (cpu_read_memory cpu (cpu.registers REG_SP)).2.memory
    rw [(read_memory_frame _ _).2.2.2.1]
    exact ht
  · exact ⟨_, decode_execute_cmp _ _ h0, ht⟩
  · exact ⟨_, decode_execute_unknown _ _ (Or.inl h0), ht⟩
  · exact ⟨_, decode_execute_unknown _ _ (Or.inr h0), ht⟩
  · exact ⟨_, decode_execute_halt _ _ h0, ht⟩

theorem step_top (cpu : CPU) (ht : top_zero cpu.memory) :
    ∃ cpu', cpu_step cpu = some cpu' ∧ top_zero cpu'.memory := by
  cases hh : cpu.halted with
  | true =>
    refine ⟨cpu, ?_, ht⟩
    unfold cpu_step
    rw [if_pos hh]
  | false =>
    obtain ⟨c, hc, htc⟩ := decode_execute_top (cpu_fetch cpu).2 (fetched cpu)
      (by rw [(fetch_frame cpu).2.2.2.1]; exact ht)
    rw [cpu_step_running cpu hh, hc]
    exact ⟨_, rfl, htc⟩

theorem steps_top : ∀ (n : Nat) (cpu c : CPU), top_zero cpu.memory →
    cpu_steps n cpu = some c → top_zero c.memory := by
  intro n
  induction n with
  | zero =>
    intro cpu c ht h
    cases h
    exact ht
  | succ n ih =>
    intro cpu c ht h
    obtain ⟨c1, h1, ht1⟩ := step_top cpu ht
    have h2 : (cpu_step cpu).bind (cpu_steps n) = some c := h
    rw [h1, Option.some_bind] at h2
    exact ih c1 c ht1 h2

theorem str_out_loop_never (mem : Nat → Nat)
    (h : ∀ a, a < 65536 → mem a &&& 0xFF ≠ 0 ∧ mem a >>> 8 ≠ 0) :
    ∀ (fuel addr : Nat) (out : List Nat), addr < 65536 →
      str_out_loop fuel mem addr out = none := by
  intro fuel
  induction fuel with
  | zero => intro addr out _; rfl
  | succ fuel ih =>
    intro addr out ha
    rw [str_out_loop, if_neg (h addr ha).1, if_neg (h addr ha).2]
    exact ih _ _ (by unfold u16; omega)

/-- The run of a CPU whose memory holds the words of `loop_image` from address 1
on and no zero byte after the second step. -/
theorem loop_image_steps (M : Nat → Nat) (h1 : M 1 = 0x1240) (h2 : M 2 = 0x0101)
    (h3 : M 3 = 0x2441) (h4 : M 4 = 0x2040) (h5 : M 5 = 0xF802)
    (hall : ∀ a, a < 65536 → a ≠ 0 → M a &&& 0xFF ≠ 0 ∧ M a >>> 8 ≠ 0) :
    ∃ c2, cpu_steps 2 { cpu_init with memory := M, pc := 1 } = some c2 ∧
      c2.halted = false ∧ c2.cycle_count = 2 ∧ cpu_step c2 = none := by
  have hmem : ∀ a, a < 65536 →
      setAt M 0 0x0101 a &&& 0xFF ≠ 0 ∧ setAt M 0 0x0101 a >>> 8 ≠ 0 := by
    intro a ha
    by_cases h0 : a = 0
    · rw [h0, setAt_same]
      decide
    · rw [setAt_other _ _ _ _ h0]
      exact hall a ha h0
  have hnever := str_out_loop_never _ hmem 65536 0x0101 [] (by omega)
  refine ⟨loop_state M, ?_, rfl, rfl, ?_⟩
  · have d1 : dec_opcode 4672 = 1 ∧ dec_rd 4672 = 1 ∧ dec_rs 4672 = 1 ∧ dec_mode 4672 = 0 := by
      decide
    have d2 : dec_opcode 9281 = 2 ∧ dec_rd 9281 = 2 ∧ dec_rs 9281 = 1 ∧ dec_mode 9281 = 1 := by
      decide
    simp [cpu_steps, cpu_step, cpu_fetch, cpu_read_memory, cpu_decode_execute, d1, d2,
      exec_load, exec_store, cpu_write_memory, set_reg, u16, h1, h2, h3, cpu_init, setAt,
      loop_state]
  · have d3 : dec_opcode 8256 = 2 ∧ dec_rd 8256 = 0 ∧ dec_rs 8256 = 1 ∧ dec_mode 8256 = 0 := by
      decide
    simp [cpu_step, cpu_fetch, cpu_read_memory, cpu_decode_execute, d3, exec_store,
      cpu_write_memory, u16, h4, h5, setAt, hnever, loop_state]

theorem load_program_eq (cpu : CPU) (program : List Nat) (b : Nat)
    (hn : program.length ≤ 65535) (hb : b + program.length ≤ 65536) :
    cpu_load_program cpu program b =
      { cpu with memory := copy_words cpu.memory program b, pc := b } := by
  have hu : u16 program.length = program.length := by unfold u16; omega
  unfold cpu_load_program
  rw [hu, List.take_length, if_neg (by unfold MEM_SIZE; omega)]

theorem loop_image_length : loop_image.length = 65535 := by
  unfold loop_image
  rw [List.length_append, List.length_replicate]
  rfl

theorem loop_image_getD (i : Nat) (hi : i < 65535) :
    loop_image.getD i 0 =
      if i = 0 then 0x1240 else if i = 1 then 0x0101 else if i = 2 then 0x2441
      else if i = 3 then 0x2040 else if i = 4 then 0xF802 else 0x0101 := by
  unfold loop_image
  by_cases h5 : i < 5
  · rw [List.getD_append _ _ _ _ (by simpa using h5)]
    interval_cases i <;> rfl
  · rw [List.getD_append_right _ _ _ _ (by simpa using h5), List.getD_eq_getElem?_getD,
      List.getElem?_replicate, if_pos (by
        simp only [List.length_cons, List.length_nil]
        omega)]
    simp only [if_neg (show ¬ i = 0 by omega), if_neg (show ¬ i = 1 by omega),
      if_neg (show ¬ i = 2 by omega), if_neg (show ¬ i = 3 by omega),
      if_neg (show ¬ i = 4 by omega)]
    rfl

theorem loop_image_memory (mem : Nat → Nat) (a : Nat) (h1 : 1 ≤ a) (h2 : a < 65536) :
    copy_words mem loop_image 1 a = loop_image.getD (a - 1) 0 := by
  have h := copy_words_in mem loop_image 1 (a - 1) (by rw [loop_image_length]; omega)
  have ha : 1 + (a - 1) = a := by omega
  rw [ha] at h
  exact h

/-- C26 as stated fails: `loop_image` loaded at address 1 of a fresh CPU stores a
word at address 0 and then writes a string address to `0xF802`; no word of the
memory has a zero byte, so the third call of `cpu_step` does not return, and
neither does `cpu_run`. -/
theorem cpu_run_string_counterexample :
    1 + loop_image.length ≤ 65536 ∧
    ∃ c2, cpu_steps 2 (cpu_load_program cpu_init loop_image 1) = some c2 ∧
      c2.halted = false ∧ c2.cycle_count = 2 ∧ cpu_step c2 = none ∧
      cpu_run (cpu_load_program cpu_init loop_image 1) = none := by
  have hl := loop_image_length
  have hload := load_program_eq cpu_init loop_image 1 (by rw [hl]) (by rw [hl])
  have hm : ∀ a, 1 ≤ a → a < 65536 → copy_words cpu_init.memory loop_image 1 a =
      if a - 1 = 0 then 0x1240 else if a - 1 = 1 then 0x0101 else if a - 1 = 2 then 0x2441
      else if a - 1 = 3 then 0x2040 else if a - 1 = 4 then 0xF802 else 0x0101 := by
    intro a h1 h2
    rw [loop_image_memory _ a h1 h2, loop_image_getD _ (by omega)]
  obtain ⟨c2, hs, hh, hc, hnone⟩ := loop_image_steps (copy_words cpu_init.memory loop_image 1)
    (hm 1 (by omega) (by omega)) (hm 2 (by omega) (by omega)) (hm 3 (by omega) (by omega))
    (hm 4 (by omega) (by omega)) (hm 5 (by omega) (by omega))
    (fun a ha h0 => by
      rw [hm a (by omega) ha]
      split_ifs <;> decide)
  rw [← hload] at hs
  refine ⟨by rw [hl], c2, hs, hh, hc, hnone, ?_⟩
  obtain ⟨c1, h1, h2⟩ : ∃ c1, cpu_step (cpu_load_program cpu_init loop_image 1) = some c1 ∧
      cpu_step c1 = some c2 := by
    have hs2 : (cpu_step (cpu_load_program cpu_init loop_image 1)).bind
        (fun c => (cpu_step c).bind (cpu_steps 0)) = some c2 := hs
    cases hc1 : cpu_step (cpu_load_program cpu_init loop_image 1) with
    | none => rw [hc1] at hs2; exact absurd hs2 (by simp)
    | some c1 =>
      rw [hc1, Option.some_bind] at hs2
      cases hc2 : cpu_step c1 with
      | none => rw [hc2] at hs2; exact absurd hs2 (by simp)
      | some c2' =>
        rw [hc2, Option.some_bind] at hs2
        have : c2' = c2 := by
          have h3 : cpu_steps 0 c2' = some c2 := hs2
          cases h3
          rfl
        exact ⟨c1, rfl, this ▸ hc2⟩
  have hrun0 : (cpu_load_program cpu_init loop_image 1).halted = false ∧
      (cpu_load_program cpu_init loop_image 1).cycle_count = 0 := by
    rw [hload]
    exact ⟨rfl, rfl⟩
  have hcc1 : c1.cycle_count = 1 := by
    rw [step_cycle _ c1 hrun0.1 h1, hrun0.2]
    rfl
  have hh1 : c1.halted = false := by
    cases hx : c1.halted with
    | false => rfl
    | true =>
      have : cpu_step c1 = some c1 := by
        unfold cpu_step
        rw [if_pos hx]
      rw [this] at h2
      cases h2
      rw [hx] at hh
      exact absurd hh (by decide)
  unfold cpu_run
  rw [show (1000001 : Nat) = 999998 + 1 + 1 + 1 from rfl, run_loop,
    if_pos ⟨hrun0.1, by rw [hrun0.2]; omega⟩, h1, Option.some_bind, run_loop,
    if_pos ⟨hh1, by rw [hcc1]; omega⟩, h2, Option.some_bind, run_loop,
    if_pos ⟨hh, by rw [hc]; omega⟩, hnone]
  rfl

theorem load_program_cycles (cpu : CPU) (program : List Nat) (b : Nat) :
    (cpu_load_program cpu program b).cycle_count = cpu.cycle_count := by
  unfold cpu_load_program
  split_ifs <;> rfl

theorem load_program_top_input (program : List Nat) (b : Nat) (inp : List Nat)
    (h : b + u16 program.length ≠ 65536) :
    top_zero (cpu_load_program { cpu_init with input := inp } program b).memory := by
  intro a ha
  unfold cpu_load_program
  split_ifs with hg
  · rfl
  · show copy_words cpu_init.memory (program.take (u16 program.length)) b a = 0
    have hlen : (program.take (u16 program.length)).length ≤ u16 program.length := by
      rw [List.length_take]
      exact Nat.min_le_left _ _
    unfold MEM_SIZE at hg
    rw [copy_words_out _ _ _ _ (Or.inr (by omega))]
    rfl

/-- C26, amended: for a CPU state obtained from `cpu_init` by one
`cpu_load_program`, with any bytes `inp` waiting on the standard input (a byte
for every read of `0xF820`, or fewer), in which every call of `cpu_step` that is
reached returns (every string written to `0xF802` has an end), as it does
whenever the load leaves the word at `0xFFFF` zero (`b + size ≠ 65536`, so for
every load at address 0), `cpu_run` returns after `k ≤ 1000000` instructions,
and in the final state the halted flag is set or the cycle counter is
1000000. -/
theorem cpu_run_stops (program : List Nat) (b : Nat) (inp : List Nat)
    (h : (∀ n c,
        cpu_steps n (cpu_load_program { cpu_init with input := inp } program b) = some c →
        c.halted = false → ∃ c', cpu_step c = some c') ∨
      b + u16 program.length ≠ 65536) :
    ∃ k cpu', k ≤ 1000000 ∧
      cpu_steps k (cpu_load_program { cpu_init with input := inp } program b) = some cpu' ∧
      cpu_run (cpu_load_program { cpu_init with input := inp } program b) = some cpu' ∧
      cpu'.cycle_count = k ∧ (cpu'.halted = true ∨ cpu'.cycle_count = 1000000) := by
  have hc0 : (cpu_load_program { cpu_init with input := inp } program b).cycle_count = 0 :=
    load_program_cycles _ program b
  have hret : ∀ n c,
      cpu_steps n (cpu_load_program { cpu_init with input := inp } program b) = some c →
      c.halted = false → ∃ c', cpu_step c = some c' := by
    rcases h with h | h
    · exact h
    · intro n c hn _
      obtain ⟨c', hc', _⟩ :=
        step_top c (steps_top n _ c (load_program_top_input program b inp h) hn)
      exact ⟨c', hc'⟩
  obtain ⟨k, cpu', hk, hr, hle, hcc, hend⟩ :=
    run_loop_stops 1000001 (cpu_load_program { cpu_init with input := inp } program b)
      (by omega) (by omega) hret
  rw [hc0] at hle hcc
  exact ⟨k, cpu', by omega, hk, hr, by omega, hend⟩

/-- Witness of C26: the program `LD R0, [0xF820]`, `ST [0xF800], R0`, `HALT` at
address 0, run with the byte `A` on the input, reads it, prints it and halts
after three instructions. -/
theorem cpu_run_stops_witness :
    0 + u16 echo_image.length ≠ 65536 ∧
    (cpu_run (cpu_load_program { cpu_init with input := [65] } echo_image 0)).map
      (fun c => (c.halted, c.cycle_count, c.input, c.output)) = some (true, 3, [], [65]) ∧
    ∃ k cpu', k ≤ 1000000 ∧
      cpu_run (cpu_load_program { cpu_init with input := [65] } echo_image 0) = some cpu' ∧
      cpu'.cycle_count = k ∧ (cpu'.halted = true ∨ cpu'.cycle_count = 1000000) := by
  refine ⟨by decide, by decide, ?_⟩
  obtain ⟨k, cpu', h1, _, h3, h4, h5⟩ := cpu_run_stops echo_image 0 [65] (Or.inr (by decide))
  exact ⟨k, cpu', h1, h3, h4, h5⟩

/-! ### C27, C28: assembling and running a whole program -/

/-! ### The lexer does not depend on the old content of the token array -/

theorem getD_terminated (w tail : List Nat) (i : Nat) (h : i ≤ w.length) :
    (w ++ 0 :: tail).getD i 0 = w.getD i 0 := by
  rcases Nat.lt_or_ge i w.length with h1 | h1
  · rw [List.getD_append _ _ _ _ h1]
  · have h2 : i = w.length := by omega
    rw [h2, List.getD_append_right _ _ _ _ (Nat.le_refl _), Nat.sub_self,
      List.getD_eq_default w 0 (Nat.le_refl _)]
    rfl

theorem parse_register_terminated (w tail : List Nat) (hw : w ≠ []) :
    asm_parse_register (w ++ 0 :: tail) = asm_parse_register w := by
  have hl : 1 ≤ w.length := by
    cases w with
    | nil => exact absurd rfl hw
    | cons c tl => simp
  have hd : (w ++ 0 :: tail).drop 1 = w.drop 1 ++ 0 :: tail :=
    List.drop_append_of_le_length hl
  unfold asm_parse_register strcasecmp_eq atoi strtol
  rw [getD_terminated w tail 0 (by omega), getD_terminated w tail 1 hl, cstr_terminated, hd,
    cstr_terminated]

theorem parse_number_terminated (w tail : List Nat) (hw : w ≠ []) (hq : w.getD 0 0 ≠ 39) :
    asm_parse_number (w ++ 0 :: tail) = asm_parse_number w := by
  have hl : 1 ≤ w.length := by
    cases w with
    | nil => exact absurd rfl hw
    | cons c tl => simp
  unfold asm_parse_number
  rw [getD_terminated w tail 0 (by omega), getD_terminated w tail 1 hl]
  by_cases h1 : w.getD 0 0 = 48 ∧ (w.getD 1 0 = 120 ∨ w.getD 1 0 = 88)
  · have h2 : 2 ≤ w.length := by
      by_contra hlt
      have h3 : w.getD 1 0 = 0 := List.getD_eq_default w 0 (by omega)
      rw [h3] at h1
      omega
    have hd : (w ++ 0 :: tail).drop 2 = w.drop 2 ++ 0 :: tail :=
      List.drop_append_of_le_length h2
    rw [if_pos h1, if_pos h1, hd]
    unfold strtol
    rw [cstr_terminated]
  · rw [if_neg h1, if_neg h1, if_neg (fun h => hq h.1), if_neg (fun h => hq h.1)]
    unfold atoi strtol
    rw [cstr_terminated]

theorem classify_word_view (old : Token) (w : List Nat) (x : Token) (hw : w ≠ [])
    (hq : w.getD 0 0 ≠ 39) (h : classify_word old w = some x) : token_view x = word_view w := by
  have hl : 1 ≤ w.length := by
    cases w with
    | nil => exact absurd rfl hw
    | cons c tl => simp
  unfold classify_word write_string at h
  split_ifs at h with hlen
  · rw [Option.map_some', Option.some.injEq] at h
    rw [← h]
    have hset : (w ++ 0 :: List.drop (w.length + 1) old.value).set (w.length - 1) 0 =
        w.set (w.length - 1) 0 ++ 0 :: List.drop (w.length + 1) old.value :=
      List.set_append_left _ _ (by omega)
    rw [getD_terminated w _ (w.length - 1) (by omega), getD_terminated w _ 0 (by omega),
      parse_register_terminated w _ hw, parse_number_terminated w _ hw hq, hset]
    unfold word_view token_view
    split_ifs <;> simp_all [cstr_terminated]
  · exact absurd h (by simp)

theorem take_set_succ (l : List Token) (c : Nat) (x : Token) (h : c < l.length) :
    (l.set c x).take (c + 1) = l.take c ++ [x] := by
  rw [List.set_eq_take_append_cons_drop, if_pos h]
  have hlen : (List.take c l).length = c := by
    rw [List.length_take]
    omega
  rw [List.take_append_eq_append_take, hlen, List.take_of_length_le (by omega)]
  have h1 : c + 1 - c = 1 := by omega
  rw [h1]
  rfl

theorem views_set (t1 t2 : List Token) (c : Nat) (x1 x2 : Token) (h1 : c < t1.length)
    (hl : t1.length = t2.length)
    (hv : (t1.take c).map token_view = (t2.take c).map token_view)
    (hx : token_view x1 = token_view x2) :
    ((t1.set c x1).take (c + 1)).map token_view = ((t2.set c x2).take (c + 1)).map token_view := by
  rw [take_set_succ t1 c x1 h1, take_set_succ t2 c x2 (by omega), List.map_append,
    List.map_append, hv, List.map_singleton, List.map_singleton, hx]

theorem tokenize_loop_views :
    ∀ (fuel : Nat) (ptr : List Nat) (t1 t2 : List Token) (c m : Nat),
      (∀ x ∈ ptr, x ≠ 39) → m ≤ t1.length → t1.length = t2.length →
      (t1.take c).map token_view = (t2.take c).map token_view →
      (tokenize_loop fuel ptr t1 c m).map (fun r => (r.1, (r.2.take r.1).map token_view)) =
        (tokenize_loop fuel ptr t2 c m).map
          (fun r => (r.1, (r.2.take r.1).map token_view)) := by
  intro fuel
  induction fuel with
  | zero => intro ptr t1 t2 c m _ _ _ _; rfl
  | succ fuel ih =>
    intro ptr t1 t2 c m hq hm hl hv
    rw [tokenize_loop, tokenize_loop]
    by_cases h0 : ptr = [] ∨ ¬ c < m
    · rw [if_pos h0, if_pos h0, Option.map_some', Option.map_some', hv]
    · rw [if_neg h0, if_neg h0]
      have hcm : c < m := by
        by_contra h
        exact h0 (Or.inr h)
      have hsub : ∀ x ∈ ptr.dropWhile isspace, x ≠ 39 :=
        fun x hx => hq x ((List.dropWhile_suffix _).subset hx)
      cases hd : ptr.dropWhile isspace with
      | nil => simp only [Option.map_some', hv]
      | cons ch rest =>
        rw [hd] at hsub
        have hrest : ∀ x ∈ rest, x ≠ 39 := fun x hx => hsub x (List.mem_cons_of_mem _ hx)
        have hc1 : c < t1.length := by omega
        have hl1 : ∀ x : Token, (t1.set c x).length = t1.length := fun x => List.length_set _ _ _
        have hl2 : ∀ x : Token, (t2.set c x).length = t2.length := fun x => List.length_set _ _ _
        have hstep : ∀ (p : List Nat) (x1 x2 : Token), (∀ x ∈ p, x ≠ 39) →
            token_view x1 = token_view x2 →
            (tokenize_loop fuel p (t1.set c x1) (c + 1) m).map
                (fun r => (r.1, (r.2.take r.1).map token_view)) =
              (tokenize_loop fuel p (t2.set c x2) (c + 1) m).map
                (fun r => (r.1, (r.2.take r.1).map token_view)) :=
          fun p x1 x2 hp hx => ih p _ _ (c + 1) m hp (by rw [hl1]; exact hm)
            (by rw [hl1, hl2]; exact hl) (views_set t1 t2 c x1 x2 hc1 hl hv hx)
        dsimp only
        by_cases h34 : ch = 34
        · rw [if_pos h34, if_pos h34]
          unfold write_string
          by_cases hlen : (List.takeWhile (fun x => decide (x ≠ 34)) rest).length < 128
          · rw [if_pos hlen, if_pos hlen]
            dsimp only
            apply hstep
            · intro x hx
              exact hrest x ((List.dropWhile_suffix _).subset (List.mem_of_mem_drop hx))
            · unfold token_view
              simp [cstr_terminated]
          · rw [if_neg hlen, if_neg hlen]
        · rw [if_neg h34, if_neg h34]
          by_cases h44 : ch = 44
          · rw [if_pos h44, if_pos h44]
            exact hstep rest _ _ hrest (by simp [token_view, char_token, cstr])
          · rw [if_neg h44, if_neg h44]
            by_cases h91 : ch = 91
            · rw [if_pos h91, if_pos h91]
              exact hstep rest _ _ hrest (by simp [token_view, char_token, cstr])
            · rw [if_neg h91, if_neg h91]
              by_cases h93 : ch = 93
              · rw [if_pos h93, if_pos h93]
                exact hstep rest _ _ hrest (by simp [token_view, char_token, cstr])
              · rw [if_neg h93, if_neg h93]
                by_cases hw0 : (List.takeWhile word_char (ch :: rest)).length = 0
                · rw [if_pos hw0, if_pos hw0]
                  exact ih _ t1 t2 c m hsub hm hl hv
                · rw [if_neg hw0, if_neg hw0]
                  have hwne : List.takeWhile word_char (ch :: rest) ≠ [] := by
                    intro h
                    rw [h] at hw0
                    exact hw0 rfl
                  have hhead : (List.takeWhile word_char (ch :: rest)).getD 0 0 ≠ 39 := by
                    cases hw : List.takeWhile word_char (ch :: rest) with
                    | nil => exact absurd hw hwne
                    | cons a tl =>
                      have ha : a ∈ List.takeWhile word_char (ch :: rest) := by
                        rw [hw]
                        exact List.mem_cons_self _ _
                      exact hsub a ((List.takeWhile_prefix _).subset ha)
                  cases hc1w : classify_word (token_at t1 c)
                      (List.takeWhile word_char (ch :: rest)) with
                  | none =>
                    have hc2w : classify_word (token_at t2 c)
                        (List.takeWhile word_char (ch :: rest)) = none := by
                      unfold classify_word write_string at hc1w ⊢
                      split_ifs at hc1w ⊢ with hlen
                      · exact absurd hc1w (by simp)
                      · rfl
                    rw [hc2w]
                  | some x1 =>
                    have hc2w : ∃ x2, classify_word (token_at t2 c)
                        (List.takeWhile word_char (ch :: rest)) = some x2 := by
                      unfold classify_word write_string at hc1w ⊢
                      split_ifs at hc1w ⊢ with hlen
                      · exact ⟨_, rfl⟩
                      · exact absurd hc1w (by simp)
                    obtain ⟨x2, hx2⟩ := hc2w
                    rw [hx2]
                    dsimp only
                    apply hstep
                    · intro x hx
                      exact hsub x ((List.dropWhile_suffix _).subset hx)
                    · rw [classify_word_view _ _ _ hwne hhead hc1w,
                        classify_word_view _ _ _ hwne hhead hx2]

theorem line_buffer_mem (line : List Nat) : ∀ x ∈ line_buffer line, x ∈ cstr line := by
  intro x hx
  unfold line_buffer at hx
  rw [List.mem_reverse] at hx
  have h1 := (List.dropWhile_suffix _).subset hx
  rw [List.mem_reverse] at h1
  have h2 := (List.takeWhile_prefix _).subset h1
  exact List.mem_of_mem_take h2

/-- The token count and the views of the tokens that `asm_tokenize` has set are
the same for every old content of the array `tokens`, when the line has no
single quote. -/
theorem lexed_stack (line : List Nat) (stack1 stack2 : List Token)
    (h1 : stack1.length = MAX_TOKENS) (h2 : stack2.length = MAX_TOKENS)
    (hq : ∀ c ∈ cstr line, c ≠ 39) : lexed line stack1 = lexed line stack2 := by
  unfold lexed asm_tokenize
  split_ifs
  · rfl
  · exact tokenize_loop_views _ _ stack1 stack2 0 MAX_TOKENS
      (fun x hx => hq x (line_buffer_mem line x hx)) (by omega) (by omega) rfl

theorem lexed_tokens (line : List Nat) (stack : List Token) (n : Nat)
    (views : List (TokenType × List Nat × Int))
    (h : lexed line stack = some (n, views)) (hn : views.length = n) :
    ∃ toks, asm_tokenize line stack MAX_TOKENS = some (n, toks) ∧
      ∀ i, i < n → token_view (token_at toks i) = views.getD i (TOKEN_LABEL, [], 0) := by
  unfold lexed at h
  cases ht : asm_tokenize line stack MAX_TOKENS with
  | none => rw [ht] at h; exact absurd h (by simp)
  | some r =>
    rw [ht, Option.map_some', Option.some.injEq, Prod.mk.injEq] at h
    obtain ⟨hr1, hr2⟩ := h
    refine ⟨r.2, by rw [← hr1], ?_⟩
    intro i hi
    have hlen : n ≤ r.2.length := by
      rw [← hr2, List.length_map, List.length_take, hr1] at hn
      omega
    unfold token_at
    rw [← hr2, hr1, List.getD_eq_getElem _ _ (by omega : i < r.2.length),
      List.getD_eq_getElem _ _ (by rw [List.length_map, List.length_take]; omega)]
    simp

/-! ### The lexer, one token at a time -/

theorem take_views_set (tokens : List Token) (c : Nat) (x : Token)
    (vs : List (TokenType × List Nat × Int)) (hc : c < tokens.length)
    (hv : (tokens.take c).map token_view = vs) :
    ((tokens.set c x).take (c + 1)).map token_view = vs ++ [token_view x] := by
  rw [take_set_succ tokens c x hc, List.map_append, hv, List.map_singleton]

/-- One iteration of the loop of `asm_tokenize` on a word run `w` that is followed
by `rest`. -/
theorem word_step (fuel : Nat) (ptr w rest : List Nat) (tokens : List Token) (c m : Nat)
    (vs : List (TokenType × List Nat × Int))
    (hptr : ptr.dropWhile isspace = w ++ rest) (hw : w ≠ [])
    (hwc : ∀ x ∈ w, word_char x = true) (h34 : w.getD 0 0 ≠ 34) (h39 : w.getD 0 0 ≠ 39)
    (hlen : w.length < 128) (hrest : rest.takeWhile word_char = []) (hc : c < m)
    (hm : m ≤ tokens.length) (hv : (tokens.take c).map token_view = vs) :
    ∃ tokens', tokens'.length = tokens.length ∧
      (tokens'.take (c + 1)).map token_view = vs ++ [word_view w] ∧
      tokenize_loop (fuel + 1) ptr tokens c m = tokenize_loop fuel rest tokens' (c + 1) m := by
  have hne : ptr ≠ [] := by
    intro h
    rw [h, List.dropWhile_nil] at hptr
    exact hw (List.append_eq_nil.mp hptr.symm).1
  obtain ⟨x, hx⟩ : ∃ x, classify_word (token_at tokens c) w = some x := by
    unfold classify_word write_string
    rw [if_pos hlen]
    exact ⟨_, rfl⟩
  refine ⟨tokens.set c x, List.length_set _ _ _, ?_, ?_⟩
  · rw [take_views_set tokens c x vs (by omega) hv, classify_word_view _ _ _ hw h39 hx]
  · rw [tokenize_loop, if_neg (not_or.mpr ⟨hne, not_not.mpr hc⟩)]
    cases w with
    | nil => exact absurd rfl hw
    | cons a tl =>
      have ha : word_char a = true := hwc a (List.mem_cons_self _ _)
      have htw : List.takeWhile word_char (a :: (tl ++ rest)) = a :: tl := by
        have h := @List.takeWhile_append_of_pos _ word_char (a :: tl) rest hwc
        rw [hrest, List.append_nil] at h
        exact h
      have hdw : List.dropWhile word_char (a :: (tl ++ rest)) = rest := by
        have h := @List.dropWhile_append_of_pos _ word_char (a :: tl) rest hwc
        rw [List.dropWhile_eq_self_iff.mpr (List.takeWhile_eq_nil_iff.mp hrest)] at h
        exact h
      rw [List.cons_append] at hptr
      rw [hptr]
      dsimp only
      have h34a : ¬ a = 34 := h34
      rw [if_neg h34a, if_neg (fun h => by rw [h] at ha; exact absurd ha (by decide)),
        if_neg (fun h => by rw [h] at ha; exact absurd ha (by decide)),
        if_neg (fun h => by rw [h] at ha; exact absurd ha (by decide)), htw,
        if_neg (by simp), hx, hdw]

/-- One iteration of the loop of `asm_tokenize` on a comma or a bracket. -/
theorem char_step (fuel : Nat) (ptr rest : List Nat) (tokens : List Token) (c m ch : Nat)
    (ty : TokenType) (vs : List (TokenType × List Nat × Int))
    (hptr : ptr.dropWhile isspace = ch :: rest)
    (hch : (ch = 44 ∧ ty = TOKEN_COMMA) ∨ (ch = 91 ∧ ty = TOKEN_LBRACKET) ∨
      (ch = 93 ∧ ty = TOKEN_RBRACKET))
    (hc : c < m) (hm : m ≤ tokens.length) (hv : (tokens.take c).map token_view = vs) :
    ∃ tokens', tokens'.length = tokens.length ∧
      (tokens'.take (c + 1)).map token_view = vs ++ [(ty, [ch], 0)] ∧
      tokenize_loop (fuel + 1) ptr tokens c m = tokenize_loop fuel rest tokens' (c + 1) m := by
  have hne : ptr ≠ [] := by
    intro h
    rw [h, List.dropWhile_nil] at hptr
    exact absurd hptr (by simp)
  refine ⟨tokens.set c (char_token (token_at tokens c) ty ch), List.length_set _ _ _, ?_, ?_⟩
  · rw [take_views_set tokens c _ vs (by omega) hv]
    rcases hch with ⟨rfl, rfl⟩ | ⟨rfl, rfl⟩ | ⟨rfl, rfl⟩ <;>
      simp [token_view, char_token, cstr]
  · rw [tokenize_loop, if_neg (not_or.mpr ⟨hne, not_not.mpr hc⟩), hptr]
    dsimp only
    rcases hch with ⟨rfl, rfl⟩ | ⟨rfl, rfl⟩ | ⟨rfl, rfl⟩
    · rw [if_neg (by decide), if_pos rfl]
    · rw [if_neg (by decide), if_neg (by decide), if_pos rfl]
    · rw [if_neg (by decide), if_neg (by decide), if_neg (by decide), if_pos rfl]

theorem end_step (fuel : Nat) (tokens : List Token) (c m : Nat) :
    tokenize_loop (fuel + 1) [] tokens c m = some (c, tokens) := by
  rw [tokenize_loop, if_pos (Or.inl rfl)]

/-- The buffer of `asm_tokenize` for a line that `fgets` returns with its newline:
the text of the line, when it has no comment and does not end in white space. -/
theorem line_buffer_newline (init : List Nat) (x : Nat)
    (h0 : ∀ c ∈ init ++ [x], c ≠ 0 ∧ c ≠ 59) (hlen : init.length ≤ 253)
    (hx : isspace x = false) : line_buffer (init ++ [x] ++ [10]) = init ++ [x] := by
  unfold line_buffer
  have hc : cstr (init ++ [x] ++ [10]) = init ++ [x] ++ [10] := by
    rw [cstr_append _ _ (fun c hc => (h0 c hc).1)]
    rfl
  have ht : (init ++ [x] ++ [10]).take (MAX_LINE_LENGTH - 1) = init ++ [x] ++ [10] :=
    List.take_of_length_le (by
      simp only [List.length_append, List.length_cons, List.length_nil]
      unfold MAX_LINE_LENGTH
      omega)
  have hw : (init ++ [x] ++ [10]).takeWhile (fun c => decide (c ≠ 59)) = init ++ [x] ++ [10] := by
    rw [List.takeWhile_eq_self_iff]
    intro c hc
    rw [List.mem_append] at hc
    rcases hc with hc | hc
    · exact decide_eq_true (h0 c hc).2
    · rw [List.mem_singleton] at hc
      rw [hc]
      rfl
  rw [hc, ht, hw]
  have hr : (init ++ [x] ++ [10]).reverse = 10 :: x :: init.reverse := by simp
  rw [hr]
  have hd : List.dropWhile isspace (10 :: x :: init.reverse) = x :: init.reverse := by
    rw [List.dropWhile_cons, if_pos (by rfl), List.dropWhile_cons, if_neg (by rw [hx]; decide)]
  rw [hd]
  simp

theorem decimal_getD (a i : Nat) (hi : i < (decimal a).length) :
    48 ≤ (decimal a).getD i 0 ∧ (decimal a).getD i 0 ≤ 57 := by
  rw [List.getD_eq_getElem _ _ hi]
  exact decimal_chars a _ (List.getElem_mem _)

/-- The token that the lexer makes of a decimal numeral: an immediate with the
value of the numeral. -/
theorem decimal_word_view (a : Nat) (ha : a ≤ 2147483647) :
    word_view (decimal a) = (TOKEN_IMMEDIATE, decimal a, (a : Int)) := by
  have hpos : 0 < (decimal a).length := List.length_pos.mpr (decimal_ne_nil a)
  have h0 := decimal_getD a 0 hpos
  have hl := decimal_getD a ((decimal a).length - 1) (by omega)
  have hc : cstr (decimal a) = decimal a := by
    have h := cstr_text (decimal a) [] (fun c hc => by have := decimal_chars a c hc; omega)
      (Or.inl rfl)
    rw [List.append_nil] at h
    exact h
  have hn : asm_parse_number (decimal a) = (a : Int) := by
    have h := parse_number_decimal a [] (Or.inl rfl) ha
    rw [List.append_nil] at h
    exact h
  have hsp : strcasecmp_eq (decimal a) (bytes "SP") = false := by
    unfold strcasecmp_eq
    rw [hc]
    cases hd : decimal a with
    | nil => exact absurd hd (decimal_ne_nil a)
    | cons d ds =>
      rw [hd] at h0
      have hd0 : tolower d ≠ 115 := by
        unfold tolower
        have h1 : (d :: ds).getD 0 0 = d := rfl
        rw [h1] at h0
        split_ifs <;> omega
      have : (cstr (bytes "SP")).map tolower = [115, 112] := by decide
      rw [this, List.map_cons]
      simp [hd0]
  have hr : asm_parse_register (decimal a) = -1 := by
    unfold asm_parse_register
    rw [if_pos ⟨by omega, by omega⟩, hsp]
    rfl
  have hdig : isdigit ((decimal a).getD 0 0) = true := by
    unfold isdigit
    rw [Bool.and_eq_true]
    exact ⟨decide_eq_true h0.1, decide_eq_true h0.2⟩
  unfold word_view
  rw [if_neg (by omega), if_neg (by omega), hr, if_neg (by decide), if_pos (Or.inl hdig), hc, hn]

/-- The tokens of the line `LDI R0, a` or `LDI R1, a` with `a` in decimal, as
`fgets` returns it, for every old content of the token array. -/
theorem ldi_decimal_lexed (d a : Nat) (rv : Int) (hd : (d = 48 ∧ rv = 0) ∨ (d = 49 ∧ rv = 1))
    (ha : a < 65536) (stack : List Token) (hs : stack.length = MAX_TOKENS) :
    lexed ([76, 68, 73, 32, 82, d, 44, 32] ++ decimal a ++ [10]) stack =
      some (4, [(TOKEN_INSTRUCTION, [76, 68, 73], 0), (TOKEN_REGISTER, [82, d], rv),
        (TOKEN_COMMA, [44], 0), (TOKEN_IMMEDIATE, decimal a, (a : Int))]) := by
  have hchars := decimal_chars a
  have hlen := decimal_length a (by omega)
  have hne := decimal_ne_nil a
  have hv2w : word_view [82, d] = (TOKEN_REGISTER, [82, d], rv) := by
    rcases hd with ⟨rfl, rfl⟩ | ⟨rfl, rfl⟩ <;> decide
  have hwc2 : ∀ x ∈ [82, d], word_char x = true := by
    rcases hd with ⟨rfl, _⟩ | ⟨rfl, _⟩ <;> decide
  have hd0 : d ≠ 0 ∧ d ≠ 59 := by
    rcases hd with ⟨rfl, _⟩ | ⟨rfl, _⟩ <;> decide
  have hwcd : ∀ x ∈ decimal a, word_char x = true := by
    intro x hx
    have h := hchars x hx
    have h2 : x = 48 ∨ x = 49 ∨ x = 50 ∨ x = 51 ∨ x = 52 ∨ x = 53 ∨ x = 54 ∨ x = 55 ∨ x = 56 ∨
        x = 57 := by omega
    rcases h2 with rfl | rfl | rfl | rfl | rfl | rfl | rfl | rfl | rfl | rfl <;> rfl
  have hbuf : line_buffer ([76, 68, 73, 32, 82, d, 44, 32] ++ decimal a ++ [10]) =
      [76, 68, 73, 32, 82, d, 44, 32] ++ decimal a := by
    have hsplit : decimal a = (decimal a).dropLast ++ [(decimal a).getLast hne] :=
      (List.dropLast_append_getLast hne).symm
    have hlast := hchars _ (List.getLast_mem hne)
    have hx : isspace ((decimal a).getLast hne) = false := by
      have h2 := hwcd _ (List.getLast_mem hne)
      unfold word_char at h2
      cases hsp : isspace ((decimal a).getLast hne) with
      | false => rfl
      | true =>
        rw [hsp] at h2
        simp at h2
    have h := line_buffer_newline ([76, 68, 73, 32, 82, d, 44, 32] ++ (decimal a).dropLast)
      ((decimal a).getLast hne)
      (by
        rw [List.append_assoc, ← hsplit]
        intro c hc
        rw [List.mem_append] at hc
        rcases hc with hc | hc
        · simp only [List.mem_cons, List.mem_singleton, List.not_mem_nil, or_false] at hc
          rcases hc with rfl | rfl | rfl | rfl | rfl | rfl | rfl | rfl <;>
            first | exact hd0 | decide
        · have := hchars c hc
          omega)
      (by
        rw [List.length_append, List.length_dropLast]
        simp only [List.length_cons, List.length_nil]
        omega)
      hx
    rw [List.append_assoc _ _ [(decimal a).getLast hne], ← hsplit] at h
    exact h
  obtain ⟨f, hf⟩ : ∃ f, ([76, 68, 73, 32, 82, d, 44, 32] ++ decimal a).length + 1 = f + 5 :=
    ⟨(decimal a).length + 4, by
      rw [List.length_append]
      simp only [List.length_cons, List.length_nil]
      omega⟩
  have hm : MAX_TOKENS ≤ stack.length := by omega
  obtain ⟨t1, hl1, hv1, e1⟩ := word_step (f + 4)
    ([76, 68, 73, 32, 82, d, 44, 32] ++ decimal a) [76, 68, 73]
    (32 :: 82 :: d :: 44 :: 32 :: decimal a) stack 0 MAX_TOKENS [] rfl (by decide) (by decide)
    (by decide) (by decide) (by decide) rfl (by decide) hm rfl
  obtain ⟨t2, hl2, hv2, e2⟩ := word_step (f + 3) (32 :: 82 :: d :: 44 :: 32 :: decimal a)
    [82, d] (44 :: 32 :: decimal a) t1 1 MAX_TOKENS _ rfl (by simp) hwc2
    (by show (82 : Nat) ≠ 34; decide) (by show (82 : Nat) ≠ 39; decide)
    (by show 2 < 128; decide) rfl (by decide) (by omega) hv1
  obtain ⟨t3, hl3, hv3, e3⟩ := char_step (f + 2) (44 :: 32 :: decimal a) (32 :: decimal a) t2 2
    MAX_TOKENS 44 TOKEN_COMMA _ rfl (Or.inl ⟨rfl, rfl⟩) (by decide) (by omega) hv2
  have hsp4 : List.dropWhile isspace (32 :: decimal a) = decimal a ++ [] := by
    rw [List.dropWhile_cons, if_pos (by rfl), List.append_nil, List.dropWhile_eq_self_iff]
    intro hl
    have h2 := hwcd _ (List.get_mem (decimal a) 0 hl)
    unfold word_char at h2
    intro hsp
    rw [hsp] at h2
    simp at h2
  have hg := decimal_getD a 0 (List.length_pos.mpr hne)
  obtain ⟨t4, hl4, hv4, e4⟩ := word_step (f + 1) (32 :: decimal a) (decimal a) [] t3 3
    MAX_TOKENS _ hsp4 hne hwcd (by omega) (by omega) (by omega) rfl (by decide) (by omega) hv3
  unfold lexed asm_tokenize
  rw [hbuf, if_neg (by omega), hf]
  have e : tokenize_loop (f + 5) ([76, 68, 73, 32, 82, d, 44, 32] ++ decimal a) stack 0
      MAX_TOKENS = some (4, t4) :=
    e1.trans (e2.trans (e3.trans (e4.trans (end_step f t4 4 MAX_TOKENS))))
  rw [e, Option.map_some']
  have hv0 : word_view [76, 68, 73] = (TOKEN_INSTRUCTION, [76, 68, 73], 0) := by decide
  simp only [hv4, hv0, decimal_word_view a (by omega), hv2w, List.nil_append,
    List.cons_append]

/-! ### Assembling a line from the views of its tokens -/

theorem view_facts (t : Token) (ty : TokenType) (s : List Nat) (n : Int)
    (h : token_view t = (ty, s, n)) :
    t.type = ty ∧ cstr t.value = s ∧
      ((ty = TOKEN_REGISTER ∨ ty = TOKEN_IMMEDIATE) → t.num_value = n) := by
  unfold token_view at h
  rw [Prod.mk.injEq, Prod.mk.injEq] at h
  obtain ⟨h1, h2, h3⟩ := h
  refine ⟨h1, h2, fun hty => ?_⟩
  rw [h1, if_pos hty] at h3
  exact h3

theorem strcasecmp_cstr (v b : List Nat) : strcasecmp_eq (cstr v) b = strcasecmp_eq v b := by
  unfold strcasecmp_eq
  rw [cstr_idem]

theorem getD_zero_cstr (v : List Nat) : (cstr v).getD 0 0 = v.getD 0 0 := by
  cases v with
  | nil => rfl
  | cons c tl =>
    unfold cstr
    rw [List.takeWhile_cons]
    by_cases hc : c = 0
    · rw [hc]
      rfl
    · rw [if_pos (by simpa using hc)]
      rfl

theorem starts_with_b_cstr (v : List Nat) : starts_with_b (cstr v) = starts_with_b v := by
  unfold starts_with_b
  rw [getD_zero_cstr]

theorem encode_cstr (m : List Nat) (ops : List Token) :
    asm_encode_instruction m ops = asm_encode_instruction (cstr m) ops := by
  unfold asm_encode_instruction
  simp only [strcasecmp_cstr]

theorem two_words_cstr (m : List Nat) (ops : List Token) :
    two_words m ops = two_words (cstr m) ops := by
  unfold two_words
  simp only [strcasecmp_cstr, starts_with_b_cstr]

theorem extra_word_cstr (s : Assembler) (m : List Nat) (ops : List Token) :
    extra_word s m ops = extra_word s (cstr m) ops := by
  unfold extra_word
  simp only [strcasecmp_cstr, starts_with_b_cstr]

theorem find_label_cstr (ls : List Label) (v : List Nat) :
    find_label ls v = find_label ls (cstr v) := by
  induction ls with
  | nil => rfl
  | cons l rest ih =>
    unfold find_label strcmp_eq
    rw [cstr_idem, ih]

theorem label_or_zero_eq (s : Assembler) (v : List Nat) :
    label_or_zero s v =
      if find_label s.labels (cstr v) = -1 then 0 else find_label s.labels (cstr v) := by
  unfold label_or_zero asm_find_label
  rw [← find_label_cstr]

theorem add_label_cstr (st : Assembler) (v : List Nat) (a : Nat) :
    asm_add_label st v a = asm_add_label st (cstr v) a := by
  unfold asm_add_label
  rw [cstr_idem]

theorem parse_number_cstr (v : List Nat) (hne : cstr v ≠ []) (hq : (cstr v).getD 0 0 ≠ 39) :
    asm_parse_number v = asm_parse_number (cstr v) := by
  obtain ⟨tail, hv, ht, _, _⟩ := cstr_split v
  rcases ht with ht | ht
  · rw [ht, List.append_nil] at hv
    rw [← hv]
  · cases tail with
    | nil => exact absurd ht (by simp)
    | cons z tl =>
      have hz : z = 0 := by simpa using ht
      rw [hz] at hv
      have h := parse_number_terminated (cstr v) tl hne hq
      rw [← hv] at h
      exact h

theorem assemble_tokens_instruction (st : Assembler) (tokens : List Token) (n k pass : Nat)
    (hk : k = 0 ∨ (k = 1 ∧ (token_at tokens 0).type = TOKEN_LABEL))
    (hins : (token_at tokens k).type = TOKEN_INSTRUCTION) (hn : k < n) :
    assemble_tokens st tokens n pass =
      assemble_instruction
        (if k = 1 ∧ pass = 1 then asm_add_label st (token_at tokens 0).value st.current_address
          else st)
        (token_at tokens k).value (tokens.drop (k + 1)) pass := by
  unfold assemble_tokens
  rcases hk with rfl | ⟨rfl, hlab⟩
  · rw [if_neg (by omega), if_neg (by rw [hins]; decide), if_neg (by rw [hins]; decide),
      if_pos hins, if_neg (by omega)]
  · dsimp only
    rw [if_neg (by omega), if_pos hlab, if_neg (by omega), if_neg (by rw [hins]; decide),
      if_pos hins]
    by_cases hp : pass = 1
    · rw [if_pos hp, if_pos ⟨rfl, hp⟩]
    · rw [if_neg hp, if_neg (fun h => hp h.2)]

theorem instruction_pass2_two (st : Assembler) (m : List Nat) (ops : List Token) (w1 w2 : Nat)
    (h1 : asm_encode_instruction m ops = w1)
    (h2 : ∀ s : Assembler, s.labels = st.labels → extra_word s m ops = some w2) :
    assemble_instruction st m ops 2 = emit_words st [w1, w2] := by
  unfold assemble_instruction
  rw [if_pos rfl, h1]
  unfold emit_words emit_words emit_words
  cases h : asm_emit_word st w1 with
  | none => rfl
  | some s1 =>
    rw [Option.some_bind, Option.some_bind, h2 s1 (emit_word_labels st s1 w1 h)]
    dsimp only
    rw [Option.bind_some]

theorem instruction_pass2_one (st : Assembler) (m : List Nat) (ops : List Token) (w1 : Nat)
    (h1 : asm_encode_instruction m ops = w1)
    (h2 : ∀ s : Assembler, extra_word s m ops = none) :
    assemble_instruction st m ops 2 = emit_words st [w1] := by
  unfold assemble_instruction
  rw [if_pos rfl, h1]
  unfold emit_words emit_words
  cases h : asm_emit_word st w1 with
  | none => rfl
  | some s1 =>
    rw [Option.some_bind, Option.some_bind, h2 s1]

theorem instruction_pass1 (st : Assembler) (m : List Nat) (ops : List Token) (b : Bool)
    (h : two_words m ops = b) :
    assemble_instruction st m ops 1 =
      some { st with
        current_address :=
          if b = true then u16 (u16 (st.current_address + 1) + 1)
          else u16 (st.current_address + 1) } := by
  unfold assemble_instruction
  rw [if_neg (by decide), h]
  cases b <;> rfl

theorem assemble_instruction_cstr (st : Assembler) (m : List Nat) (ops : List Token)
    (pass : Nat) :
    assemble_instruction st m ops pass = assemble_instruction st (cstr m) ops pass := by
  unfold assemble_instruction
  rw [← encode_cstr, ← two_words_cstr]
  simp only [← extra_word_cstr]

/-- A line whose tokens are an optional label and an instruction: what
`asm_assemble_line` does in terms of the views of the tokens. -/
theorem line_instruction (st : Assembler) (line : List Nat) (stack : List Token) (n k : Nat)
    (views : List (TokenType × List Nat × Int)) (name m : List Nat)
    (hlex : lexed line stack = some (n, views)) (hlen : views.length = n)
    (hk : k = 0 ∨ (k = 1 ∧ views.getD 0 (TOKEN_LABEL, [], 0) = (TOKEN_LABEL, name, 0)))
    (h0 : views.getD k (TOKEN_LABEL, [], 0) = (TOKEN_INSTRUCTION, m, 0)) (hkn : k < n) :
    ∃ ops : List Token,
      (∀ j, k + 1 + j < n →
        token_view (token_at ops j) = views.getD (k + 1 + j) (TOKEN_LABEL, [], 0)) ∧
      ∀ pass, asm_assemble_line st line pass stack =
        assemble_instruction
          (if k = 1 ∧ pass = 1 then asm_add_label st name st.current_address else st)
          m ops pass := by
  obtain ⟨toks, htok, hv⟩ := lexed_tokens line stack n views hlex hlen
  refine ⟨toks.drop (k + 1), fun j hj => by rw [token_at_drop]; exact hv _ hj, fun pass => ?_⟩
  have f0 := view_facts _ _ _ _ ((hv k hkn).trans h0)
  have hk2 : k = 0 ∨ (k = 1 ∧ (token_at toks 0).type = TOKEN_LABEL) := by
    rcases hk with hk | ⟨hk, hl⟩
    · exact Or.inl hk
    · exact Or.inr ⟨hk, (view_facts _ _ _ _ ((hv 0 (by omega)).trans hl)).1⟩
  unfold asm_assemble_line
  rw [htok, Option.some_bind]
  dsimp only
  rw [assemble_tokens_instruction st toks n k pass hk2 f0.1 hkn, assemble_instruction_cstr,
    f0.2.1]
  by_cases hc : k = 1 ∧ pass = 1
  · rw [if_pos hc, if_pos hc, add_label_cstr]
    rcases hk with hk | ⟨_, hl⟩
    · omega
    · rw [(view_facts _ _ _ _ ((hv 0 (by omega)).trans hl)).2.1]
  · rw [if_neg hc, if_neg hc]

theorem add_label_address (st : Assembler) (name : List Nat) (a : Nat) :
    (asm_add_label st name a).current_address = st.current_address ∧
      (asm_add_label st name a).output = st.output ∧
      (asm_add_label st name a).output_size = st.output_size ∧
      (asm_add_label st name a).output_capacity = st.output_capacity := by
  unfold asm_add_label
  split_ifs <;> exact ⟨rfl, rfl, rfl, rfl⟩

theorem pass1_result (st : Assembler) (k : Nat) (name m : List Nat) (ops : List Token)
    (b : Bool) (h : two_words m ops = b) :
    assemble_instruction
        (if k = 1 ∧ 1 = 1 then asm_add_label st name st.current_address else st) m ops 1 =
      some { (if k = 1 then asm_add_label st name st.current_address else st) with
        current_address :=
          if b = true then u16 (u16 (st.current_address + 1) + 1)
          else u16 (st.current_address + 1) } := by
  rw [instruction_pass1 _ m ops b h]
  by_cases hk : k = 1
  · rw [if_pos ⟨hk, rfl⟩, if_pos hk, (add_label_address st name st.current_address).1]
  · rw [if_neg (fun hc => hk hc.1), if_neg hk]

theorem pass2_state (st : Assembler) (k : Nat) (name : List Nat) :
    (if k = 1 ∧ 2 = 1 then asm_add_label st name st.current_address else st) = st :=
  if_neg (fun h => absurd h.2 (by decide))

/-- The line `LDI Rd, v` with an immediate `v`, with or without a label. -/
theorem line_ldi (st : Assembler) (line : List Nat) (stack : List Token) (n k : Nat)
    (views : List (TokenType × List Nat × Int)) (name sr sv : List Nat) (r v : Int)
    (hlex : lexed line stack = some (n, views)) (hlen : views.length = n)
    (hk : k = 0 ∨ (k = 1 ∧ views.getD 0 (TOKEN_LABEL, [], 0) = (TOKEN_LABEL, name, 0)))
    (h0 : views.getD k (TOKEN_LABEL, [], 0) = (TOKEN_INSTRUCTION, bytes "LDI", 0))
    (h1 : views.getD (k + 1 + 0) (TOKEN_LABEL, [], 0) = (TOKEN_REGISTER, sr, r))
    (h3 : views.getD (k + 1 + 2) (TOKEN_LABEL, [], 0) = (TOKEN_IMMEDIATE, sv, v))
    (hn : k + 3 < n) :
    asm_assemble_line st line 1 stack =
      some { (if k = 1 then asm_add_label st name st.current_address else st) with
        current_address := u16 (u16 (st.current_address + 1) + 1) } ∧
    asm_assemble_line st line 2 stack =
      emit_words st [control_word OP_LOAD r 0 LOAD_IMM, int_to_u16 v] := by
  obtain ⟨ops, hops, hasm⟩ :=
    line_instruction st line stack n k views name _ hlex hlen hk h0 (by omega)
  have f1 := view_facts _ _ _ _ ((hops 0 (by omega)).trans h1)
  have f3 := view_facts _ _ _ _ ((hops 2 (by omega)).trans h3)
  have henc : asm_encode_instruction (bytes "LDI") ops = control_word OP_LOAD r 0 LOAD_IMM := by
    have h : asm_encode_instruction (bytes "LDI") ops =
        control_word OP_LOAD (token_at ops 0).num_value 0 LOAD_IMM := rfl
    rw [h, f1.2.2 (Or.inl rfl)]
  have hextra : ∀ s : Assembler, extra_word s (bytes "LDI") ops = some (int_to_u16 v) := by
    intro s
    have h : extra_word s (bytes "LDI") ops =
        if (token_at ops 2).type ≠ TOKEN_IMMEDIATE ∧ (token_at ops 2).type ≠ TOKEN_REGISTER then
          some (int_to_u16 (label_or_zero s (token_at ops 2).value))
        else some (int_to_u16 (token_at ops 2).num_value) := rfl
    rw [h, if_neg (fun hc => hc.1 f3.1), f3.2.2 (Or.inr rfl)]
  constructor
  · rw [hasm 1, pass1_result st k name (bytes "LDI") ops true rfl]
    rfl
  · rw [hasm 2, pass2_state, instruction_pass2_two st _ ops _ _ henc (fun s _ => hextra s)]

/-- The line `M Rd, Rs` for `M` one of `ADD` and `CMP`, with or without a label. -/
theorem line_rr (st : Assembler) (line : List Nat) (stack : List Token) (n k : Nat)
    (views : List (TokenType × List Nat × Int)) (name m s1 s2 : List Nat) (r1 r2 : Int)
    (w : Nat)
    (hlex : lexed line stack = some (n, views)) (hlen : views.length = n)
    (hk : k = 0 ∨ (k = 1 ∧ views.getD 0 (TOKEN_LABEL, [], 0) = (TOKEN_LABEL, name, 0)))
    (h0 : views.getD k (TOKEN_LABEL, [], 0) = (TOKEN_INSTRUCTION, m, 0))
    (hm : (m = bytes "ADD" ∧ w = control_word OP_ARITH r1 r2 ARITH_ADD) ∨
      (m = bytes "CMP" ∧ w = control_word OP_CMP r1 r2 0))
    (h1 : views.getD (k + 1 + 0) (TOKEN_LABEL, [], 0) = (TOKEN_REGISTER, s1, r1))
    (h3 : views.getD (k + 1 + 2) (TOKEN_LABEL, [], 0) = (TOKEN_REGISTER, s2, r2))
    (hn : k + 3 < n) :
    asm_assemble_line st line 1 stack =
      some { (if k = 1 then asm_add_label st name st.current_address else st) with
        current_address := u16 (st.current_address + 1) } ∧
    asm_assemble_line st line 2 stack = emit_words st [w] := by
  obtain ⟨ops, hops, hasm⟩ :=
    line_instruction st line stack n k views name _ hlex hlen hk h0 (by omega)
  have f1 := view_facts _ _ _ _ ((hops 0 (by omega)).trans h1)
  have f3 := view_facts _ _ _ _ ((hops 2 (by omega)).trans h3)
  have henc : asm_encode_instruction m ops = w := by
    rcases hm with ⟨rfl, rfl⟩ | ⟨rfl, rfl⟩
    · have h : asm_encode_instruction (bytes "ADD") ops =
          control_word OP_ARITH (token_at ops 0).num_value (token_at ops 2).num_value
            ARITH_ADD := rfl
      rw [h, f1.2.2 (Or.inl rfl), f3.2.2 (Or.inl rfl)]
    · have h : asm_encode_instruction (bytes "CMP") ops =
          control_word OP_CMP (token_at ops 0).num_value (token_at ops 2).num_value 0 := rfl
      rw [h, f1.2.2 (Or.inl rfl), f3.2.2 (Or.inl rfl)]
  have hextra : ∀ s : Assembler, extra_word s m ops = none := by
    intro s
    rcases hm with ⟨rfl, _⟩ | ⟨rfl, _⟩ <;> rfl
  have htw : two_words m ops = false := by
    rcases hm with ⟨rfl, _⟩ | ⟨rfl, _⟩ <;> rfl
  constructor
  · rw [hasm 1, pass1_result st k name _ ops false htw]
    rfl
  · rw [hasm 2, pass2_state, instruction_pass2_one st _ ops _ henc hextra]

/-- The line `HALT`, with or without a label. -/
theorem line_halt (st : Assembler) (line : List Nat) (stack : List Token) (n k : Nat)
    (views : List (TokenType × List Nat × Int)) (name : List Nat)
    (hlex : lexed line stack = some (n, views)) (hlen : views.length = n)
    (hk : k = 0 ∨ (k = 1 ∧ views.getD 0 (TOKEN_LABEL, [], 0) = (TOKEN_LABEL, name, 0)))
    (h0 : views.getD k (TOKEN_LABEL, [], 0) = (TOKEN_INSTRUCTION, bytes "HALT", 0))
    (hn : k < n) :
    asm_assemble_line st line 1 stack =
      some { (if k = 1 then asm_add_label st name st.current_address else st) with
        current_address := u16 (st.current_address + 1) } ∧
    asm_assemble_line st line 2 stack = emit_words st [0xF000] := by
  obtain ⟨ops, _, hasm⟩ :=
    line_instruction st line stack n k views name _ hlex hlen hk h0 hn
  constructor
  · rw [hasm 1, pass1_result st k name (bytes "HALT") ops false rfl]
    rfl
  · rw [hasm 2, pass2_state,
      instruction_pass2_one st (bytes "HALT") ops 0xF000 rfl (fun _ => rfl)]

/-- The line `ST [addr], Rs` with a numeric address, with or without a label. -/
theorem line_st (st : Assembler) (line : List Nat) (stack : List Token) (n k : Nat)
    (views : List (TokenType × List Nat × Int)) (name sa sr : List Nat) (va r : Int)
    (hlex : lexed line stack = some (n, views)) (hlen : views.length = n)
    (hk : k = 0 ∨ (k = 1 ∧ views.getD 0 (TOKEN_LABEL, [], 0) = (TOKEN_LABEL, name, 0)))
    (h0 : views.getD k (TOKEN_LABEL, [], 0) = (TOKEN_INSTRUCTION, bytes "ST", 0))
    (h2 : views.getD (k + 1 + 1) (TOKEN_LABEL, [], 0) = (TOKEN_IMMEDIATE, sa, va))
    (h5 : views.getD (k + 1 + 4) (TOKEN_LABEL, [], 0) = (TOKEN_REGISTER, sr, r))
    (hsa : sa ≠ [] ∧ sa.getD 0 0 ≠ 39)
    (hn : k + 5 < n) :
    asm_assemble_line st line 1 stack =
      some { (if k = 1 then asm_add_label st name st.current_address else st) with
        current_address := u16 (u16 (st.current_address + 1) + 1) } ∧
    asm_assemble_line st line 2 stack =
      emit_words st [control_word OP_STORE 0 r STORE_DIR, int_to_u16 (asm_parse_number sa)] := by
  obtain ⟨ops, hops, hasm⟩ :=
    line_instruction st line stack n k views name _ hlex hlen hk h0 (by omega)
  have f2 := view_facts _ _ _ _ ((hops 1 (by omega)).trans h2)
  have f5 := view_facts _ _ _ _ ((hops 4 (by omega)).trans h5)
  have hnr : (token_at ops 1).type ≠ TOKEN_REGISTER := by
    rw [f2.1]
    decide
  have hw := fun s => st_direct_words s (bytes "ST") ops (by decide) hnr
  have hpn : asm_parse_number (token_at ops 1).value = asm_parse_number sa := by
    rw [parse_number_cstr _ (by rw [f2.2.1]; exact hsa.1) (by rw [f2.2.1]; exact hsa.2), f2.2.1]
  have htw : two_words (bytes "ST") ops = true := by
    unfold two_words
    rw [if_neg (by decide), if_neg (fun h => absurd h.1 (by decide)), if_pos ⟨by decide, hnr⟩]
  constructor
  · rw [hasm 1, pass1_result st k name _ ops true htw]
    rfl
  · rw [hasm 2, pass2_state, instruction_pass2_two st _ ops _ _ (hw st).1 (fun s _ => (hw s).2),
      f5.2.2 (Or.inl rfl), hpn]

/-- The line `M target` for `M` one of `BEQ` and `JMP` and `target` a symbol, with
or without a label. -/
theorem line_jump (st : Assembler) (line : List Nat) (stack : List Token) (n k : Nat)
    (views : List (TokenType × List Nat × Int)) (name m target : List Nat) (w : Nat)
    (hlex : lexed line stack = some (n, views)) (hlen : views.length = n)
    (hk : k = 0 ∨ (k = 1 ∧ views.getD 0 (TOKEN_LABEL, [], 0) = (TOKEN_LABEL, name, 0)))
    (h0 : views.getD k (TOKEN_LABEL, [], 0) = (TOKEN_INSTRUCTION, m, 0))
    (hm : (m = bytes "BEQ" ∧ w = 0x7000) ∨ (m = bytes "JMP" ∧ w = 0x8000))
    (h1 : views.getD (k + 1 + 0) (TOKEN_LABEL, [], 0) = (TOKEN_INSTRUCTION, target, 0))
    (hn : k + 1 < n) :
    asm_assemble_line st line 1 stack =
      some { (if k = 1 then asm_add_label st name st.current_address else st) with
        current_address := u16 (u16 (st.current_address + 1) + 1) } ∧
    asm_assemble_line st line 2 stack =
      emit_words st [w, int_to_u16
        (if find_label st.labels target = -1 then 0 else find_label st.labels target)] := by
  obtain ⟨ops, hops, hasm⟩ :=
    line_instruction st line stack n k views name _ hlex hlen hk h0 (by omega)
  have f1 := view_facts _ _ _ _ ((hops 0 (by omega)).trans h1)
  have henc : asm_encode_instruction m ops = w := by
    rcases hm with ⟨rfl, rfl⟩ | ⟨rfl, rfl⟩ <;> rfl
  have htw : two_words m ops = true := by
    rcases hm with ⟨rfl, _⟩ | ⟨rfl, _⟩ <;> rfl
  have hextra : ∀ s : Assembler, s.labels = st.labels → extra_word s m ops =
      some (int_to_u16
        (if find_label st.labels target = -1 then 0 else find_label st.labels target)) := by
    intro s hs
    have h : extra_word s m ops =
        if (token_at ops 0).type = TOKEN_IMMEDIATE then
          some (int_to_u16 (token_at ops 0).num_value)
        else some (int_to_u16 (label_or_zero s (token_at ops 0).value)) := by
      rcases hm with ⟨rfl, _⟩ | ⟨rfl, _⟩ <;> rfl
    rw [h, if_neg (by rw [f1.1]; decide), label_or_zero_eq, f1.2.1, hs]
  constructor
  · rw [hasm 1, pass1_result st k name _ ops true htw]
    rfl
  · rw [hasm 2, pass2_state, instruction_pass2_two st _ ops _ _ henc hextra]

/-! ### The two passes over a file -/

theorem emit_words_labels (ws : List Nat) :
    ∀ st st' : Assembler, emit_words st ws = some st' → st'.labels = st.labels := by
  induction ws with
  | nil =>
    intro st st' h
    cases h
    rfl
  | cons w rest ih =>
    intro st st' h
    unfold emit_words at h
    cases h1 : asm_emit_word st w with
    | none => rw [h1] at h; exact absurd h (by simp)
    | some s1 =>
      rw [h1, Option.some_bind] at h
      rw [ih s1 st' h, emit_word_labels st s1 w h1]

theorem emit_words_append (a b : List Nat) :
    ∀ st : Assembler,
      emit_words st (a ++ b) = (emit_words st a).bind fun s => emit_words s b := by
  induction a with
  | nil => intro st; rfl
  | cons w rest ih =>
    intro st
    rw [List.cons_append, emit_words, emit_words]
    cases h1 : asm_emit_word st w with
    | none => rfl
    | some s1 => rw [Option.some_bind, Option.some_bind, ih]

/-- Pass 2 over lines each of which emits words that depend on the symbol table
only: the pass emits these words in order. -/
theorem assemble_lines_emit (stack : Nat → List Token) (labels : List Label) :
    ∀ (lines wss : List (List Nat)),
      List.Forall₂ (fun l ws => ∀ (s : Assembler) (j : Nat), s.labels = labels →
        asm_assemble_line s l 2 (stack j) = emit_words s ws) lines wss →
      ∀ (i : Nat) (st : Assembler), st.labels = labels →
        assemble_lines 2 stack st lines i = emit_words st wss.flatten := by
  intro lines wss h
  induction h with
  | nil => intro i st _; rfl
  | cons hl _ ih =>
    intro i st hst
    rename_i l ws ls wss' _
    rw [assemble_lines, hl st i hst, List.flatten_cons, emit_words_append]
    cases h1 : emit_words st ws with
    | none => rfl
    | some s1 =>
      rw [Option.some_bind, Option.some_bind]
      exact ih (i + 1) s1 ((emit_words_labels ws st s1 h1).trans hst)

theorem emit_words_emitted (st : Assembler) (ws : List Nat) (hc : st.can_emit)
    (h0 : st.output_size = 0) :
    ∃ st', emit_words st ws = some st' ∧ (List.range st'.output_size).map st'.output = ws := by
  obtain ⟨st', h1, _, h3, h4, _, _⟩ := emit_words_some ws st hc
  refine ⟨st', h1, ?_⟩
  rw [h0, Nat.zero_add] at h3
  apply List.ext_getElem
  · rw [List.length_map, List.length_range, h3]
  · intro i hi1 hi2
    rw [List.getElem_map, List.getElem_range]
    have h := h4 i hi2
    rw [h0, Nat.zero_add, List.getD_eq_getElem _ _ hi2] at h
    exact h

theorem int_to_u16_nat (a : Nat) (ha : a < 65536) : int_to_u16 (a : Int) = a := by
  unfold int_to_u16
  omega

theorem lexed_of_zero (line : List Nat) (r : Nat × List (TokenType × List Nat × Int))
    (hz : lexed line zero_tokens = some r) (hq : ∀ c ∈ cstr line, c ≠ 39)
    (stack : List Token) (hs : stack.length = MAX_TOKENS) : lexed line stack = some r :=
  (lexed_stack line stack zero_tokens hs rfl hq).trans hz

/-- The two lines `LDI R0, a` and `LDI R1, a` with `a` in decimal. -/
theorem line_ldi_decimal (pre : List Nat) (a w : Nat)
    (hd : (pre = bytes "LDI R0, " ∧ w = 0x1000) ∨ (pre = bytes "LDI R1, " ∧ w = 0x1200))
    (ha : a < 65536) (st : Assembler) (stack : List Token) (hs : stack.length = MAX_TOKENS) :
    asm_assemble_line st (pre ++ decimal a ++ [10]) 1 stack =
      some { st with current_address := u16 (u16 (st.current_address + 1) + 1) } ∧
    asm_assemble_line st (pre ++ decimal a ++ [10]) 2 stack = emit_words st [w, a] := by
  obtain ⟨d, rv, hpre, hdv, hw⟩ : ∃ (d : Nat) (rv : Int),
      pre = [76, 68, 73, 32, 82, d, 44, 32] ∧ ((d = 48 ∧ rv = 0) ∨ (d = 49 ∧ rv = 1)) ∧
      control_word OP_LOAD rv 0 LOAD_IMM = w := by
    rcases hd with ⟨rfl, rfl⟩ | ⟨rfl, rfl⟩
    · exact ⟨48, 0, by decide, Or.inl ⟨rfl, rfl⟩, by decide⟩
    · exact ⟨49, 1, by decide, Or.inr ⟨rfl, rfl⟩, by decide⟩
  have hlex := ldi_decimal_lexed d a rv hdv ha stack hs
  rw [← hpre] at hlex
  have h := line_ldi st _ stack 4 0 _ [] [82, d] (decimal a) rv (a : Int) hlex rfl (Or.inl rfl)
    rfl rfl rfl (by decide)
  rw [hw, int_to_u16_nat a ha] at h
  exact h

theorem add_line_lexed :
    lexed (bytes "ADD R0, R1\n") zero_tokens =
      some (4, [(TOKEN_INSTRUCTION, bytes "ADD", 0), (TOKEN_REGISTER, bytes "R0", 0),
        (TOKEN_COMMA, bytes ",", 0), (TOKEN_REGISTER, bytes "R1", 1)]) := by
  decide

theorem st_line_lexed :
    lexed (bytes "ST [0xF801], R0\n") zero_tokens =
      some (6, [(TOKEN_INSTRUCTION, bytes "ST", 0), (TOKEN_LBRACKET, bytes "[", 0),
        (TOKEN_IMMEDIATE, bytes "0xF801", 0xF801), (TOKEN_RBRACKET, bytes "]", 0),
        (TOKEN_COMMA, bytes ",", 0), (TOKEN_REGISTER, bytes "R0", 0)]) := by
  decide

theorem halt_line_lexed :
    lexed (bytes "HALT\n") zero_tokens = some (1, [(TOKEN_INSTRUCTION, bytes "HALT", 0)]) := by
  decide

/-- The assembler turns the five lines of `sum_lines a b` into the eight words of
`sum_words a b`, for every content of the fresh output buffer and of the token
arrays. -/
theorem sum_lines_assemble (a b : Nat) (ha : a < 65536) (hb : b < 65536) (heap : Nat → Nat)
    (stack : Nat → List Token) (hstack : ∀ i, (stack i).length = MAX_TOKENS) :
    asm_assemble_file (asm_init heap) (sum_lines a b) stack = some (sum_words a b) := by
  have l1 := fun (s : Assembler) (j : Nat) =>
    line_ldi_decimal _ a 0x1000 (Or.inl ⟨rfl, rfl⟩) ha s (stack j) (hstack j)
  have l2 := fun (s : Assembler) (j : Nat) =>
    line_ldi_decimal _ b 0x1200 (Or.inr ⟨rfl, rfl⟩) hb s (stack j) (hstack j)
  have l3 := fun (s : Assembler) (j : Nat) =>
    line_rr s (bytes "ADD R0, R1\n") (stack j) 4 0 _ [] (bytes "ADD") (bytes "R0") (bytes "R1")
      0 1 0x4040
      (lexed_of_zero _ _ add_line_lexed (by decide) (stack j) (hstack j)) rfl (Or.inl rfl) rfl
      (Or.inl ⟨rfl, by decide⟩) rfl rfl (by decide)
  have l4 := fun (s : Assembler) (j : Nat) =>
    line_st s (bytes "ST [0xF801], R0\n") (stack j) 6 0 _ [] (bytes "0xF801") (bytes "R0")
      0xF801 0
      (lexed_of_zero _ _ st_line_lexed (by decide) (stack j) (hstack j)) rfl (Or.inl rfl) rfl
      rfl rfl (by decide) (by decide)
  have l5 := fun (s : Assembler) (j : Nat) =>
    line_halt s (bytes "HALT\n") (stack j) 1 0 _ []
      (lexed_of_zero _ _ halt_line_lexed (by decide) (stack j) (hstack j)) rfl (Or.inl rfl) rfl
      (by decide)
  have hw4 : [control_word OP_STORE 0 0 STORE_DIR, int_to_u16 (asm_parse_number (bytes "0xF801"))]
      = [0x2000, 0xF801] := by decide
  have hp1 : assemble_lines 1 stack { asm_init heap with current_address := 0 }
      (sum_lines a b) 0 = some { asm_init heap with current_address := 8 } := by
    unfold sum_lines
    rw [assemble_lines, (l1 _ _).1, Option.some_bind, assemble_lines, (l2 _ _).1,
      Option.some_bind, assemble_lines, (l3 _ _).1, Option.some_bind, assemble_lines,
      (l4 _ _).1, Option.some_bind, assemble_lines, (l5 _ _).1, Option.some_bind,
      assemble_lines]
    rfl
  have hp2 : ∀ i, assemble_lines 2 stack (asm_init heap) (sum_lines a b) i =
      emit_words (asm_init heap) (sum_words a b) := by
    intro i
    have h := assemble_lines_emit stack [] (sum_lines a b)
      [[0x1000, a], [0x1200, b], [0x4040], [0x2000, 0xF801], [0xF000]]
      (List.Forall₂.cons (fun s j _ => (l1 s j).2)
        (List.Forall₂.cons (fun s j _ => (l2 s j).2)
          (List.Forall₂.cons (fun s j _ => (l3 s j).2)
            (List.Forall₂.cons (fun s j _ => by rw [(l4 s j).2, hw4])
              (List.Forall₂.cons (fun s j _ => (l5 s j).2) List.Forall₂.nil)))))
      i (asm_init heap) rfl
    exact h
  obtain ⟨st', he, hout⟩ := emit_words_emitted (asm_init heap) (sum_words a b)
    (by show (0 : Nat) < 2 * 1024; decide) rfl
  unfold asm_assemble_file
  rw [hp1, Option.some_bind]
  have hs : ({ ({ asm_init heap with current_address := 8 } : Assembler) with
      current_address := 0 } : Assembler) = asm_init heap := rfl
  rw [hs, hp2, he, Option.map_some', hout]

theorem cmp_line_lexed :
    lexed (bytes "CMP R0, R1\n") zero_tokens =
      some (4, [(TOKEN_INSTRUCTION, bytes "CMP", 0), (TOKEN_REGISTER, bytes "R0", 0),
        (TOKEN_COMMA, bytes ",", 0), (TOKEN_REGISTER, bytes "R1", 1)]) := by
  decide

theorem beq_line_lexed :
    lexed (bytes "BEQ eq\n") zero_tokens =
      some (2, [(TOKEN_INSTRUCTION, bytes "BEQ", 0), (TOKEN_INSTRUCTION, bytes "eq", 0)]) := by
  decide

theorem ldi_zero_line_lexed :
    lexed (bytes "LDI R2, 0\n") zero_tokens =
      some (4, [(TOKEN_INSTRUCTION, bytes "LDI", 0), (TOKEN_REGISTER, bytes "R2", 2),
        (TOKEN_COMMA, bytes ",", 0), (TOKEN_IMMEDIATE, bytes "0", 0)]) := by
  decide

theorem jmp_line_lexed :
    lexed (bytes "JMP end\n") zero_tokens =
      some (2, [(TOKEN_INSTRUCTION, bytes "JMP", 0), (TOKEN_INSTRUCTION, bytes "end", 0)]) := by
  decide

theorem eq_line_lexed :
    lexed (bytes "eq: LDI R2, 1\n") zero_tokens =
      some (5, [(TOKEN_LABEL, bytes "eq", 0), (TOKEN_INSTRUCTION, bytes "LDI", 0),
        (TOKEN_REGISTER, bytes "R2", 2), (TOKEN_COMMA, bytes ",", 0),
        (TOKEN_IMMEDIATE, bytes "1", 1)]) := by
  decide

theorem end_line_lexed :
    lexed (bytes "end: HALT\n") zero_tokens =
      some (2, [(TOKEN_LABEL, bytes "end", 0), (TOKEN_INSTRUCTION, bytes "HALT", 0)]) := by
  decide

/-- The assembler turns the eight lines of `eq_lines a b` into the fourteen words
of `eq_words a b`: pass 1 puts `eq` at 11 and `end` at 13 into the symbol table,
and pass 2 uses these addresses for the two forward references. -/
theorem eq_lines_assemble (a b : Nat) (ha : a < 65536) (hb : b < 65536) (heap : Nat → Nat)
    (stack : Nat → List Token) (hstack : ∀ i, (stack i).length = MAX_TOKENS) :
    asm_assemble_file (asm_init heap) (eq_lines a b) stack = some (eq_words a b) := by
  have l1 := fun (s : Assembler) (j : Nat) =>
    line_ldi_decimal _ a 0x1000 (Or.inl ⟨rfl, rfl⟩) ha s (stack j) (hstack j)
  have l2 := fun (s : Assembler) (j : Nat) =>
    line_ldi_decimal _ b 0x1200 (Or.inr ⟨rfl, rfl⟩) hb s (stack j) (hstack j)
  have l3 := fun (s : Assembler) (j : Nat) =>
    line_rr s (bytes "CMP R0, R1\n") (stack j) 4 0 _ [] (bytes "CMP") (bytes "R0") (bytes "R1")
      0 1 0xC040
      (lexed_of_zero _ _ cmp_line_lexed (by decide) (stack j) (hstack j)) rfl (Or.inl rfl) rfl
      (Or.inr ⟨rfl, by decide⟩) rfl rfl (by decide)
  have l4 := fun (s : Assembler) (j : Nat) =>
    line_jump s (bytes "BEQ eq\n") (stack j) 2 0 _ [] (bytes "BEQ") (bytes "eq") 0x7000
      (lexed_of_zero _ _ beq_line_lexed (by decide) (stack j) (hstack j)) rfl (Or.inl rfl) rfl
      (Or.inl ⟨rfl, rfl⟩) rfl (by decide)
  have l5 := fun (s : Assembler) (j : Nat) =>
    line_ldi s (bytes "LDI R2, 0\n") (stack j) 4 0 _ [] (bytes "R2") (bytes "0") 2 0
      (lexed_of_zero _ _ ldi_zero_line_lexed (by decide) (stack j) (hstack j)) rfl (Or.inl rfl)
      rfl rfl rfl (by decide)
  have l6 := fun (s : Assembler) (j : Nat) =>
    line_jump s (bytes "JMP end\n") (stack j) 2 0 _ [] (bytes "JMP") (bytes "end") 0x8000
      (lexed_of_zero _ _ jmp_line_lexed (by decide) (stack j) (hstack j)) rfl (Or.inl rfl) rfl
      (Or.inr ⟨rfl, rfl⟩) rfl (by decide)
  have l7 := fun (s : Assembler) (j : Nat) =>
    line_ldi s (bytes "eq: LDI R2, 1\n") (stack j) 5 1 _ (bytes "eq") (bytes "R2") (bytes "1") 2 1
      (lexed_of_zero _ _ eq_line_lexed (by decide) (stack j) (hstack j)) rfl
      (Or.inr ⟨rfl, rfl⟩) rfl rfl rfl (by decide)
  have l8 := fun (s : Assembler) (j : Nat) =>
    line_halt s (bytes "end: HALT\n") (stack j) 2 1 _ (bytes "end")
      (lexed_of_zero _ _ end_line_lexed (by decide) (stack j) (hstack j)) rfl
      (Or.inr ⟨rfl, rfl⟩) rfl (by decide)
  have hp1 : assemble_lines 1 stack { asm_init heap with current_address := 0 }
      (eq_lines a b) 0 =
        some { asm_init heap with current_address := 14, labels := eq_labels } := by
    unfold eq_lines
    rw [assemble_lines, (l1 _ _).1, Option.some_bind, assemble_lines, (l2 _ _).1,
      Option.some_bind, assemble_lines, (l3 _ _).1, Option.some_bind, assemble_lines,
      (l4 _ _).1, Option.some_bind, assemble_lines, (l5 _ _).1, Option.some_bind,
      assemble_lines, (l6 _ _).1, Option.some_bind, assemble_lines, (l7 _ _).1,
      Option.some_bind, assemble_lines, (l8 _ _).1, Option.some_bind, assemble_lines]
    rfl
  have hw5 : [control_word OP_LOAD 2 0 LOAD_IMM, int_to_u16 0] = [0x1400, 0] := by decide
  have hw7 : [control_word OP_LOAD 2 0 LOAD_IMM, int_to_u16 1] = [0x1400, 1] := by decide
  have hw4 : int_to_u16 (if find_label eq_labels (bytes "eq") = -1 then 0
      else find_label eq_labels (bytes "eq")) = 11 := by decide
  have hw6 : int_to_u16 (if find_label eq_labels (bytes "end") = -1 then 0
      else find_label eq_labels (bytes "end")) = 13 := by decide
  have hp2 : ∀ i, assemble_lines 2 stack
      { asm_init heap with current_address := 0, labels := eq_labels } (eq_lines a b) i =
      emit_words { asm_init heap with current_address := 0, labels := eq_labels }
        (eq_words a b) := by
    intro i
    exact assemble_lines_emit stack eq_labels (eq_lines a b)
      [[0x1000, a], [0x1200, b], [0xC040], [0x7000, 11], [0x1400, 0], [0x8000, 13],
        [0x1400, 1], [0xF000]]
      (List.Forall₂.cons (fun s j _ => (l1 s j).2)
        (List.Forall₂.cons (fun s j _ => (l2 s j).2)
          (List.Forall₂.cons (fun s j _ => (l3 s j).2)
            (List.Forall₂.cons (fun s j hs => by rw [(l4 s j).2, hs, hw4])
              (List.Forall₂.cons (fun s j _ => by rw [(l5 s j).2, hw5])
                (List.Forall₂.cons (fun s j hs => by rw [(l6 s j).2, hs, hw6])
                  (List.Forall₂.cons (fun s j _ => by rw [(l7 s j).2, hw7])
                    (List.Forall₂.cons (fun s j _ => (l8 s j).2) List.Forall₂.nil))))))))
      i _ rfl
  obtain ⟨st', he, hout⟩ := emit_words_emitted
    { asm_init heap with current_address := 0, labels := eq_labels } (eq_words a b)
    (by show (0 : Nat) < 2 * 1024; decide) rfl
  unfold asm_assemble_file
  rw [hp1, Option.some_bind]
  have hs : ({ ({ asm_init heap with current_address := 14, labels := eq_labels } : Assembler)
      with current_address := 0 } : Assembler) =
        { asm_init heap with current_address := 0, labels := eq_labels } := rfl
  rw [hs, hp2, he, Option.map_some', hout]

/-! ### Running a program to its `HALT` -/

theorem steps_halted (cpu : CPU) (h : cpu.halted = true) : ∀ k, cpu_steps k cpu = some cpu := by
  have h1 : cpu_step cpu = some cpu := by
    unfold cpu_step
    rw [if_pos h]
  intro k
  induction k with
  | zero => rfl
  | succ k ih =>
    unfold cpu_steps
    rw [h1, Option.some_bind, ih]

/-- A run that halts within `k` instructions: `cpu_run`'s loop ends in the state
that `k` calls of `cpu_step` reach. -/
theorem run_loop_steps :
    ∀ (k fuel : Nat) (cpu cpu' : CPU), cpu_steps k cpu = some cpu' → cpu'.halted = true →
      cpu.cycle_count + k ≤ 1000000 → k < fuel → run_loop fuel cpu = some cpu' := by
  intro k
  induction k with
  | zero =>
    intro fuel cpu cpu' hs hh _ hf
    cases hs
    obtain ⟨f, rfl⟩ : ∃ f, fuel = f + 1 := ⟨fuel - 1, by omega⟩
    rw [run_loop, if_neg (fun h => by rw [hh] at h; exact absurd h.1 (by decide))]
  | succ k ih =>
    intro fuel cpu cpu' hs hh hc hf
    obtain ⟨f, rfl⟩ : ∃ f, fuel = f + 1 := ⟨fuel - 1, by omega⟩
    by_cases hrun : cpu.halted = true
    · rw [steps_halted cpu hrun (k + 1)] at hs
      cases hs
      rw [run_loop, if_neg (fun h => by rw [hrun] at h; exact absurd h.1 (by decide))]
    · have hrun2 : cpu.halted = false := by
        cases h : cpu.halted
        · rfl
        · exact absurd h hrun
      have hs2 : (cpu_step cpu).bind (cpu_steps k) = some cpu' := hs
      cases h1 : cpu_step cpu with
      | none => rw [h1] at hs2; exact absurd hs2 (by simp)
      | some c1 =>
        rw [h1, Option.some_bind] at hs2
        have hcc : c1.cycle_count = cpu.cycle_count + 1 := by
          rw [step_cycle cpu c1 hrun2 h1]
          exact Nat.mod_eq_of_lt (by omega)
        rw [run_loop, if_pos ⟨hrun2, by omega⟩, h1, Option.some_bind]
        exact ih f c1 cpu' hs2 hh (by omega) (by omega)

theorem sum_words_memory (a b : Nat) (mem : Nat → Nat) :
    copy_words mem (sum_words a b) 0 0 = 0x1000 ∧ copy_words mem (sum_words a b) 0 1 = a ∧
    copy_words mem (sum_words a b) 0 2 = 0x1200 ∧ copy_words mem (sum_words a b) 0 3 = b ∧
    copy_words mem (sum_words a b) 0 4 = 0x4040 ∧ copy_words mem (sum_words a b) 0 5 = 0x2000 ∧
    copy_words mem (sum_words a b) 0 6 = 0xF801 ∧ copy_words mem (sum_words a b) 0 7 = 0xF000 :=
  ⟨rfl, rfl, rfl, rfl, rfl, rfl, rfl, rfl⟩

/-- The five instructions of `sum_words a b` in a memory `M`. -/
theorem sum_program_steps (M : Nat → Nat) (a b : Nat) (hab : a + b < 32768)
    (h0 : M 0 = 0x1000) (h1 : M 1 = a) (h2 : M 2 = 0x1200) (h3 : M 3 = b) (h4 : M 4 = 0x4040)
    (h5 : M 5 = 0x2000) (h6 : M 6 = 0xF801) (h7 : M 7 = 0xF000) :
    (cpu_steps 5 { cpu_init with memory := M, pc := 0 }).map
        (fun c => (c.halted, c.output, c.registers 0, c.flags.Z, c.flags.N, c.flags.C)) =
      some (true, decimal (a + b) ++ [10], a + b, decide (a + b = 0), false, false) := by
  have d1 : dec_opcode 4096 = 1 ∧ dec_rd 4096 = 0 ∧ dec_rs 4096 = 0 ∧ dec_mode 4096 = 0 := by
    decide
  have d2 : dec_opcode 4608 = 1 ∧ dec_rd 4608 = 1 ∧ dec_rs 4608 = 0 ∧ dec_mode 4608 = 0 := by
    decide
  have d3 : dec_opcode 16448 = 4 ∧ dec_rd 16448 = 0 ∧ dec_rs 16448 = 1 ∧ dec_mode 16448 = 0 := by
    decide
  have d4 : dec_opcode 8192 = 2 ∧ dec_rd 8192 = 0 ∧ dec_rs 8192 = 0 ∧ dec_mode 8192 = 0 := by
    decide
  have d5 : dec_opcode 61440 = 15 ∧ dec_rd 61440 = 0 ∧ dec_rs 61440 = 0 ∧
      dec_mode 61440 = 0 := by
    decide
  have e32 : (a + b) % 4294967296 = a + b := Nat.mod_eq_of_lt (by omega)
  have e16 : (a + b) % 65536 = a + b := Nat.mod_eq_of_lt (by omega)
  have en : (a + b) &&& 32768 = 0 := by
    by_contra h
    have h2 := (and_bit15 (a + b)).mp h
    rw [Nat.testBit_eq_false_of_lt (by omega : a + b < 2 ^ 15)] at h2
    exact absurd h2 (by decide)
  have ec : ¬ 65535 < a + b := by omega
  simp [cpu_steps, cpu_step, cpu_fetch, cpu_read_memory, cpu_decode_execute, d1, d2, d3, d4, d5,
    exec_load, exec_arith, exec_store, arith_commit, cpu_update_flags, cpu_write_memory,
    set_reg, u16, u32, h0, h1, h2, h3, h4, h5, h6, h7, cpu_init, setAt, e32, e16, en, ec]

/-- C27: for every `a` and `b` with `a + b < 32768`, every content of the fresh
output buffer and of the token arrays, the two passes of the assembler turn the
five lines `LDI R0, a`, `LDI R1, b`, `ADD R0, R1`, `ST [0xF801], R0`, `HALT` (with
`a` and `b` in decimal) into the words `sum_words a b`, and `cpu_run` on a fresh
CPU with these words loaded at address 0 returns in a halted state whose output
is the decimal numeral of `a + b` and a newline, with `R0 = a + b`,
`Z = (a + b = 0)`, `N = 0` and `C = 0`. -/
theorem sum_program_runs (a b : Nat) (heap : Nat → Nat) (stack : Nat → List Token)
    (hstack : ∀ i, (stack i).length = MAX_TOKENS) (hab : a + b < 32768) :
    ∃ cpu', asm_assemble_file (asm_init heap) (sum_lines a b) stack = some (sum_words a b) ∧
      cpu_run (cpu_load_program cpu_init (sum_words a b) 0) = some cpu' ∧
      cpu'.output = decimal (a + b) ++ [10] ∧ cpu'.halted = true ∧
      cpu'.registers 0 = a + b ∧ cpu'.flags.Z = decide (a + b = 0) ∧
      cpu'.flags.N = false ∧ cpu'.flags.C = false := by
  have hasm := sum_lines_assemble a b (by omega) (by omega) heap stack hstack
  have hload := load_program_eq cpu_init (sum_words a b) 0
    (by show 8 ≤ 65535; decide) (by show 0 + 8 ≤ 65536; decide)
  obtain ⟨m0, m1, m2, m3, m4, m5, m6, m7⟩ := sum_words_memory a b cpu_init.memory
  have hsteps := sum_program_steps _ a b hab m0 m1 m2 m3 m4 m5 m6 m7
  rw [← hload] at hsteps
  cases hc : cpu_steps 5 (cpu_load_program cpu_init (sum_words a b) 0) with
  | none => rw [hc] at hsteps; exact absurd hsteps (by simp)
  | some c5 =>
    rw [hc, Option.map_some', Option.some.injEq] at hsteps
    simp only [Prod.mk.injEq] at hsteps
    obtain ⟨hh, ho, hr, hz, hn, hcf⟩ := hsteps
    refine ⟨c5, hasm, ?_, ho, hh, hr, hz, hn, hcf⟩
    exact run_loop_steps 5 1000001 _ c5 hc hh
      (by rw [load_program_cycles]; show 0 + 5 ≤ 1000000; decide) (by decide)

/-- Witness of C27: `a = 5` and `b = 7` give the output `12` and `R0 = 12`. -/
theorem sum_program_runs_witness :
    (∀ i : Nat, ((fun _ => zero_tokens) i : List Token).length = MAX_TOKENS) ∧ 5 + 7 < 32768 ∧
    ∃ cpu', asm_assemble_file (asm_init (fun _ => 0)) (sum_lines 5 7) (fun _ => zero_tokens) =
        some [0x1000, 5, 0x1200, 7, 0x4040, 0x2000, 0xF801, 0xF000] ∧
      cpu_run (cpu_load_program cpu_init [0x1000, 5, 0x1200, 7, 0x4040, 0x2000, 0xF801, 0xF000]
        0) = some cpu' ∧
      cpu'.output = bytes "12\n" ∧ cpu'.halted = true ∧ cpu'.registers 0 = 12 ∧
      cpu'.flags.Z = false ∧ cpu'.flags.N = false ∧ cpu'.flags.C = false := by
  refine ⟨fun _ => rfl, by decide, ?_⟩
  obtain ⟨c, h1, h2, h3, h4, h5, h6, h7, h8⟩ :=
    sum_program_runs 5 7 (fun _ => 0) (fun _ => zero_tokens) (fun _ => rfl) (by decide)
  exact ⟨c, h1, h2, h3, h4, h5, h6, h7, h8⟩

theorem eq_words_memory (a b : Nat) (mem : Nat → Nat) :
    copy_words mem (eq_words a b) 0 0 = 0x1000 ∧ copy_words mem (eq_words a b) 0 1 = a ∧
    copy_words mem (eq_words a b) 0 2 = 0x1200 ∧ copy_words mem (eq_words a b) 0 3 = b ∧
    copy_words mem (eq_words a b) 0 4 = 0xC040 ∧ copy_words mem (eq_words a b) 0 5 = 0x7000 ∧
    copy_words mem (eq_words a b) 0 6 = 11 ∧ copy_words mem (eq_words a b) 0 7 = 0x1400 ∧
    copy_words mem (eq_words a b) 0 8 = 0 ∧ copy_words mem (eq_words a b) 0 9 = 0x8000 ∧
    copy_words mem (eq_words a b) 0 10 = 13 ∧ copy_words mem (eq_words a b) 0 11 = 0x1400 ∧
    copy_words mem (eq_words a b) 0 12 = 1 ∧ copy_words mem (eq_words a b) 0 13 = 0xF000 :=
  ⟨rfl, rfl, rfl, rfl, rfl, rfl, rfl, rfl, rfl, rfl, rfl, rfl, rfl, rfl⟩

theorem cpu_steps_add (m n : Nat) :
    ∀ cpu : CPU, cpu_steps (m + n) cpu = (cpu_steps m cpu).bind (cpu_steps n) := by
  induction m with
  | zero =>
    intro cpu
    rw [Nat.zero_add]
    rfl
  | succ m ih =>
    intro cpu
    rw [show m + 1 + n = (m + n) + 1 by omega, cpu_steps, cpu_steps]
    cases h : cpu_step cpu with
    | none => rfl
    | some c1 => rw [Option.some_bind, Option.some_bind, ih]

/-- The first three instructions of `eq_words a b` in a memory `M`: `R0 = a`,
`R1 = b`, and `CMP` sets `Z` exactly when `a = b`. -/
theorem eq_program_head (M : Nat → Nat) (a b : Nat) (ha : a < 65536) (hb : b < 65536)
    (h0 : M 0 = 0x1000) (h1 : M 1 = a) (h2 : M 2 = 0x1200) (h3 : M 3 = b)
    (h4 : M 4 = 0xC040) :
    (cpu_steps 3 { cpu_init with memory := M, pc := 0 }).map
        (fun c => (c.halted, c.pc, c.flags.Z, c.memory)) =
      some (false, 5, decide (a = b), M) := by
  have d1 : dec_opcode 4096 = 1 ∧ dec_rd 4096 = 0 ∧ dec_rs 4096 = 0 ∧ dec_mode 4096 = 0 := by
    decide
  have d2 : dec_opcode 4608 = 1 ∧ dec_rd 4608 = 1 ∧ dec_rs 4608 = 0 ∧ dec_mode 4608 = 0 := by
    decide
  have d3 : dec_opcode 49216 = 12 ∧ dec_rd 49216 = 0 ∧ dec_rs 49216 = 1 ∧
      dec_mode 49216 = 0 := by
    decide
  have ez : ((a + 4294967296 - b) % 4294967296 % 65536 = 0) = (a = b) :=
    propext ⟨fun h => by omega, fun h => by omega⟩
  simp [cpu_steps, cpu_step, cpu_fetch, cpu_read_memory, cpu_decode_execute, d1, d2, d3,
    exec_load, exec_cmp, cpu_update_flags, set_reg, u16, u32, h0, h1, h2, h3, h4, cpu_init,
    setAt, ez]

/-- The rest of `eq_words a b` from the `BEQ` at address 5, in a memory `M`: three
instructions and `R2 = 1` when `Z` is set, four and `R2 = 0` when not. -/
theorem eq_program_tail (M : Nat → Nat) (c : CPU) (hh : c.halted = false) (hpc : c.pc = 5)
    (hm : c.memory = M)
    (h5 : M 5 = 0x7000) (h6 : M 6 = 11) (h7 : M 7 = 0x1400) (h8 : M 8 = 0) (h9 : M 9 = 0x8000)
    (h10 : M 10 = 13) (h11 : M 11 = 0x1400) (h12 : M 12 = 1) (h13 : M 13 = 0xF000) :
    (cpu_steps (if c.flags.Z = true then 3 else 4) c).map (fun c => (c.halted, c.registers 2)) =
      some (true, if c.flags.Z = true then 1 else 0) := by
  have d4 : dec_opcode 28672 = 7 ∧ dec_rd 28672 = 0 ∧ dec_rs 28672 = 0 ∧
      dec_mode 28672 = 0 := by
    decide
  have d5 : dec_opcode 5120 = 1 ∧ dec_rd 5120 = 2 ∧ dec_rs 5120 = 0 ∧ dec_mode 5120 = 0 := by
    decide
  have d6 : dec_opcode 32768 = 8 ∧ dec_rd 32768 = 0 ∧ dec_rs 32768 = 0 ∧
      dec_mode 32768 = 0 := by
    decide
  have d7 : dec_opcode 61440 = 15 ∧ dec_rd 61440 = 0 ∧ dec_rs 61440 = 0 ∧
      dec_mode 61440 = 0 := by
    decide
  cases hz : c.flags.Z with
  | true =>
    rw [if_pos rfl, if_pos rfl]
    simp [cpu_steps, cpu_step, cpu_fetch, cpu_read_memory, cpu_decode_execute, d4, d5, d7,
      exec_load, exec_branch, should_branch, set_reg, u16, hh, hpc, hm, hz, h5, h6, h11, h12,
      h13, setAt]
  | false =>
    rw [if_neg (by decide), if_neg (by decide)]
    simp [cpu_steps, cpu_step, cpu_fetch, cpu_read_memory, cpu_decode_execute, d4, d5, d6, d7,
      exec_load, exec_branch, exec_jump, should_branch, set_reg, u16, hh, hpc, hm, hz, h5, h6,
      h7, h8, h9, h10, h13, setAt]

/-- The run of `eq_words a b` in a memory `M`: six instructions when `a = b`, seven
when not. -/
theorem eq_program_steps (M : Nat → Nat) (a b : Nat) (ha : a < 65536) (hb : b < 65536)
    (h0 : M 0 = 0x1000) (h1 : M 1 = a) (h2 : M 2 = 0x1200) (h3 : M 3 = b) (h4 : M 4 = 0xC040)
    (h5 : M 5 = 0x7000) (h6 : M 6 = 11) (h7 : M 7 = 0x1400) (h8 : M 8 = 0) (h9 : M 9 = 0x8000)
    (h10 : M 10 = 13) (h11 : M 11 = 0x1400) (h12 : M 12 = 1) (h13 : M 13 = 0xF000) :
    (cpu_steps (if a = b then 6 else 7) { cpu_init with memory := M, pc := 0 }).map
        (fun c => (c.halted, c.registers 2)) =
      some (true, if a = b then 1 else 0) := by
  have hhead := eq_program_head M a b ha hb h0 h1 h2 h3 h4
  cases hc : cpu_steps 3 { cpu_init with memory := M, pc := 0 } with
  | none => rw [hc] at hhead; exact absurd hhead (by simp)
  | some c3 =>
    rw [hc, Option.map_some', Option.some.injEq] at hhead
    simp only [Prod.mk.injEq] at hhead
    obtain ⟨hh, hpc, hz, hm⟩ := hhead
    have htail := eq_program_tail M c3 hh hpc hm h5 h6 h7 h8 h9 h10 h11 h12 h13
    have hk : (if a = b then 6 else 7) = 3 + (if c3.flags.Z = true then 3 else 4) := by
      rw [hz]
      by_cases hab : a = b
      · rw [if_pos hab, if_pos (decide_eq_true hab)]
      · rw [if_neg hab, if_neg (by simpa using hab)]
    have hv : (if a = b then 1 else 0) = (if c3.flags.Z = true then 1 else 0) := by
      rw [hz]
      by_cases hab : a = b
      · rw [if_pos hab, if_pos (decide_eq_true hab)]
      · rw [if_neg hab, if_neg (by simpa using hab)]
    rw [hk, cpu_steps_add, hc, Option.some_bind, hv]
    exact htail

/-- C28: for every `a` and `b` in `0..65535`, every content of the fresh output
buffer and of the token arrays, the two passes of the assembler turn the eight
lines `LDI R0, a`, `LDI R1, b`, `CMP R0, R1`, `BEQ eq`, `LDI R2, 0`, `JMP end`,
`eq: LDI R2, 1`, `end: HALT` (with `a` and `b` in decimal) into the words
`eq_words a b`, in which the forward references `eq` and `end` are the addresses
11 and 13, and `cpu_run` on a fresh CPU with these words loaded at address 0
returns in a halted state with `R2 = 1` when `a = b` and `R2 = 0` when not. -/
theorem eq_program_runs (a b : Nat) (heap : Nat → Nat) (stack : Nat → List Token)
    (hstack : ∀ i, (stack i).length = MAX_TOKENS) (ha : a < 65536) (hb : b < 65536) :
    ∃ cpu', asm_assemble_file (asm_init heap) (eq_lines a b) stack = some (eq_words a b) ∧
      cpu_run (cpu_load_program cpu_init (eq_words a b) 0) = some cpu' ∧
      cpu'.halted = true ∧ cpu'.registers 2 = if a = b then 1 else 0 := by
  have hasm := eq_lines_assemble a b ha hb heap stack hstack
  have hload := load_program_eq cpu_init (eq_words a b) 0
    (by show 14 ≤ 65535; decide) (by show 0 + 14 ≤ 65536; decide)
  obtain ⟨m0, m1, m2, m3, m4, m5, m6, m7, m8, m9, m10, m11, m12, m13⟩ :=
    eq_words_memory a b cpu_init.memory
  have hsteps := eq_program_steps _ a b ha hb m0 m1 m2 m3 m4 m5 m6 m7 m8 m9 m10 m11 m12 m13
  rw [← hload] at hsteps
  cases hc : cpu_steps (if a = b then 6 else 7)
      (cpu_load_program cpu_init (eq_words a b) 0) with
  | none => rw [hc] at hsteps; exact absurd hsteps (by simp)
  | some c =>
    rw [hc, Option.map_some', Option.some.injEq] at hsteps
    simp only [Prod.mk.injEq] at hsteps
    obtain ⟨hh, hr⟩ := hsteps
    refine ⟨c, hasm, ?_, hh, hr⟩
    exact run_loop_steps _ 1000001 _ c hc hh
      (by rw [load_program_cycles]; show 0 + _ ≤ 1000000; split_ifs <;> decide)
      (by split_ifs <;> decide)

/-- Witness of C28: `a = b = 3` gives `R2 = 1`. -/
theorem eq_program_runs_witness :
    (∀ i : Nat, ((fun _ => zero_tokens) i : List Token).length = MAX_TOKENS) ∧
    (3 : Nat) < 65536 ∧
    ∃ cpu', asm_assemble_file (asm_init (fun _ => 0)) (eq_lines 3 3) (fun _ => zero_tokens) =
        some [0x1000, 3, 0x1200, 3, 0xC040, 0x7000, 11, 0x1400, 0, 0x8000, 13, 0x1400, 1,
          0xF000] ∧
      cpu_run (cpu_load_program cpu_init (eq_words 3 3) 0) = some cpu' ∧
      cpu'.halted = true ∧ cpu'.registers 2 = 1 := by
  refine ⟨fun _ => rfl, by decide, ?_⟩
  obtain ⟨c, h1, h2, h3, h4⟩ :=
    eq_program_runs 3 3 (fun _ => 0) (fun _ => zero_tokens) (fun _ => rfl) (by decide)
      (by decide)
  exact ⟨c, h1, h2, h3, h4⟩

/-! ### C31: `cpu_init` and `cpu_reset` -/

/-- C31: `cpu_init` gives `R0..R6 = 0`, `SP = 0xE000`, `PC = 0`, the four flags
false, the halted flag false, the cycle counter 0 and every memory word 0; and
`cpu_reset` of any state gives the same registers, PC, flags, halted flag and
cycle counter and leaves the memory as it was. -/
theorem init_and_reset (cpu : CPU) :
    (∀ i, i < 7 → cpu_init.registers i = 0) ∧ cpu_init.registers 7 = 0xE000 ∧
    cpu_init.pc = 0 ∧ cpu_init.flags = ⟨false, false, false, false⟩ ∧
    cpu_init.halted = false ∧ cpu_init.cycle_count = 0 ∧ (∀ a, cpu_init.memory a = 0) ∧
    (∀ i, i < 7 → (cpu_reset cpu).registers i = 0) ∧ (cpu_reset cpu).registers 7 = 0xE000 ∧
    (cpu_reset cpu).pc = 0 ∧ (cpu_reset cpu).flags = ⟨false, false, false, false⟩ ∧
    (cpu_reset cpu).halted = false ∧ (cpu_reset cpu).cycle_count = 0 ∧
    (cpu_reset cpu).memory = cpu.memory := by
  have hi : ∀ i, i < 7 → cpu_init.registers i = 0 := by
    intro i hi
    show setAt (fun _ => 0) REG_SP STACK_START i = 0
    rw [setAt_other _ _ _ _ (by unfold REG_SP; omega)]
  have hr : ∀ i, i < 7 → (cpu_reset cpu).registers i = 0 := by
    intro i hi
    show setAt (fun i => if i < NUM_REGISTERS - 1 then 0 else cpu.registers i) REG_SP
      STACK_START i = 0
    rw [setAt_other _ _ _ _ (by unfold REG_SP; omega)]
    exact if_pos (by unfold NUM_REGISTERS; omega)
  exact ⟨hi, rfl, rfl, rfl, rfl, rfl, fun _ => rfl, hr, rfl, rfl, rfl, rfl, rfl, rfl⟩

/-- Witness of C31: `cpu_reset` of a state all of whose fields are non-zero. -/
theorem init_and_reset_witness :
    dirty_cpu.registers 3 ≠ 0 ∧ dirty_cpu.halted = true ∧ dirty_cpu.memory 5 = 5 ∧
    (cpu_reset dirty_cpu).registers 3 = 0 ∧ (cpu_reset dirty_cpu).registers 7 = 0xE000 ∧
    (cpu_reset dirty_cpu).halted = false ∧ (cpu_reset dirty_cpu).cycle_count = 0 ∧
    (cpu_reset dirty_cpu).memory 5 = 5 := by
  obtain ⟨_, _, _, _, _, _, _, h1, h2, _, _, h3, h4, h5⟩ := init_and_reset dirty_cpu
  exact ⟨by decide, rfl, by decide, h1 3 (by decide), h2, h3, h4, by rw [h5]; decide⟩

/-! ### C32: indirect store and load -/

theorem step_store_indirect (cpu : CPU) (hrun : cpu.halted = false)
    (hst : dec_opcode (fetched cpu) = OP_STORE) (hmode : dec_mode (fetched cpu) = STORE_IND)
    (haddr : cpu.registers (dec_rd (fetched cpu)) < 0xF800) :
    ∃ cpu1, cpu_step cpu = some cpu1 ∧ cpu1.registers = cpu.registers ∧
      cpu1.halted = false ∧
      cpu1.memory = setAt cpu.memory (cpu.registers (dec_rd (fetched cpu)))
        (cpu.registers (dec_rs (fetched cpu))) := by
  have hf := fetch_frame cpu
  have hw := write_memory_ram (cpu_fetch cpu).2 (cpu.registers (dec_rd (fetched cpu)))
    (cpu.registers (dec_rs (fetched cpu))) haddr
  have hx : exec_store (cpu_fetch cpu).2 (dec_rd (fetched cpu)) (dec_rs (fetched cpu))
      (dec_mode (fetched cpu)) =
      some { (cpu_fetch cpu).2 with
        memory := setAt (cpu_fetch cpu).2.memory (cpu.registers (dec_rd (fetched cpu)))
          (cpu.registers (dec_rs (fetched cpu))) } := by
    unfold exec_store
    rw [if_neg (by rw [hmode]; decide), if_pos hmode, hf.1, hw]
  refine ⟨{ (cpu_fetch cpu).2 with
      memory := setAt (cpu_fetch cpu).2.memory (cpu.registers (dec_rd (fetched cpu)))
        (cpu.registers (dec_rs (fetched cpu)))
      cycle_count := ((cpu_fetch cpu).2.cycle_count + 1) % 2 ^ 64 },
    by rw [cpu_step_running cpu hrun, decode_execute_store _ _ hst, hx]; rfl, hf.1,
    hf.2.2.2.2.1.trans hrun, ?_⟩
  show setAt (cpu_fetch cpu).2.memory _ _ = _
  rw [hf.2.2.2.1]

theorem step_load_indirect (cpu : CPU) (hrun : cpu.halted = false)
    (hld : dec_opcode (fetched cpu) = OP_LOAD) (hmode : dec_mode (fetched cpu) = LOAD_IND)
    (haddr : cpu.registers (dec_rs (fetched cpu)) < 0xF800) :
    ∃ cpu1, cpu_step cpu = some cpu1 ∧
      cpu1.registers (dec_rd (fetched cpu)) =
        cpu.memory (cpu.registers (dec_rs (fetched cpu))) ∧
      cpu1.memory = cpu.memory := by
  have hf := fetch_frame cpu
  have hr := read_memory_ram (cpu_fetch cpu).2 (cpu.registers (dec_rs (fetched cpu))) haddr
  have hx : exec_load (cpu_fetch cpu).2 (dec_rd (fetched cpu)) (dec_rs (fetched cpu))
      (dec_mode (fetched cpu)) =
      set_reg (cpu_fetch cpu).2 (dec_rd (fetched cpu))
        ((cpu_fetch cpu).2.memory (cpu.registers (dec_rs (fetched cpu)))) := by
    unfold exec_load
    rw [if_neg (by rw [hmode]; decide), if_neg (by rw [hmode]; decide), if_pos hmode]
    dsimp only
    rw [hf.1, hr]
  refine ⟨{ set_reg (cpu_fetch cpu).2 (dec_rd (fetched cpu))
        ((cpu_fetch cpu).2.memory (cpu.registers (dec_rs (fetched cpu)))) with
      cycle_count := ((cpu_fetch cpu).2.cycle_count + 1) % 2 ^ 64 },
    by rw [cpu_step_running cpu hrun, decode_execute_load _ _ hld, hx]; rfl, ?_, ?_⟩
  · show setAt (cpu_fetch cpu).2.registers _ _ _ = _
    rw [setAt_same, hf.2.2.2.1]
  · exact hf.2.2.2.1

/-- C32: for every running CPU state with `R[Ra] < 0xF800`, the step `ST [Ra], Rs`
returns, and when the next instruction is `LD Rd, [Ra]` its step returns too and
leaves in `R[Rd]` and in `memory[R[Ra]]` the value that `R[Rs]` had before the
store, with every other memory word as before the store. -/
theorem store_then_load (cpu : CPU) (hrun : cpu.halted = false)
    (hst : dec_opcode (fetched cpu) = OP_STORE) (hmode : dec_mode (fetched cpu) = STORE_IND)
    (haddr : cpu.registers (dec_rd (fetched cpu)) < 0xF800) :
    ∃ cpu1, cpu_step cpu = some cpu1 ∧
      (dec_opcode (fetched cpu1) = OP_LOAD → dec_mode (fetched cpu1) = LOAD_IND →
        dec_rs (fetched cpu1) = dec_rd (fetched cpu) →
        ∃ cpu2, cpu_step cpu1 = some cpu2 ∧
          cpu2.registers (dec_rd (fetched cpu1)) = cpu.registers (dec_rs (fetched cpu)) ∧
          cpu2.memory (cpu.registers (dec_rd (fetched cpu))) =
            cpu.registers (dec_rs (fetched cpu)) ∧
          ∀ a, a ≠ cpu.registers (dec_rd (fetched cpu)) → cpu2.memory a = cpu.memory a) := by
  obtain ⟨cpu1, h1, hr1, hh1, hm1⟩ := step_store_indirect cpu hrun hst hmode haddr
  refine ⟨cpu1, h1, fun hld hlm hra => ?_⟩
  obtain ⟨cpu2, h2, hr2, hm2⟩ := step_load_indirect cpu1 hh1 hld hlm
    (by rw [hra, hr1]; exact haddr)
  refine ⟨cpu2, h2, ?_, ?_, ?_⟩
  · rw [hr2, hra, hr1, hm1, setAt_same]
  · rw [hm2, hm1, setAt_same]
  · intro a ha
    rw [hm2, hm1, setAt_other _ _ _ _ ha]

/-- Witness of C32: `ST [R1], R0` and `LD R2, [R1]` with `R0 = 0x1234` and
`R1 = 0x100` leave `R2 = 0x1234` and `mem[0x100] = 0x1234`; the program of the
spec, assembled and run, ends in the same values. -/
theorem store_then_load_witness :
    store_load_cpu.halted = false ∧ dec_opcode (fetched store_load_cpu) = OP_STORE ∧
    dec_mode (fetched store_load_cpu) = STORE_IND ∧
    store_load_cpu.registers (dec_rd (fetched store_load_cpu)) < 0xF800 ∧
    (cpu_steps 2 store_load_cpu).map (fun c => (c.registers 2, c.memory 0x100)) =
      some (0x1234, 0x1234) ∧
    ((asm_assemble_file fresh_asm store_load_lines (fun _ => zero_tokens)).bind fun ws =>
      (cpu_run (cpu_load_program cpu_init ws 0)).map fun c =>
        (ws, c.halted, c.registers 2, c.memory 0x100)) =
      some ([0x1000, 0x1234, 0x1200, 0x100, 0x2201, 0x1442, 0xF000], true, 0x1234, 0x1234) ∧
    ∃ cpu1, cpu_step store_load_cpu = some cpu1 := by
  refine ⟨rfl, by decide, by decide, by decide, by decide, by decide, ?_⟩
  obtain ⟨cpu1, h1, _⟩ := store_then_load store_load_cpu rfl (by decide) (by decide) (by decide)
  exact ⟨cpu1, h1⟩

/-! ### C33: the string output -/

theorem high_byte (w : Nat) (hw : w < 65536) : (w >>> 8) &&& 0xFF = w >>> 8 := by
  apply byte_mask
  rw [Nat.shiftRight_eq_div_pow]
  omega

theorem packed_byte_zero (mem : Nat → Nat) (a : Nat) (ha : a < 65536) :
    packed_byte mem a 0 = mem a &&& 0xFF := by
  unfold packed_byte
  rw [if_pos rfl, Nat.zero_div, Nat.add_zero, Nat.mod_eq_of_lt ha]

theorem packed_byte_one (mem : Nat → Nat) (a : Nat) (ha : a < 65536) (hw : mem a < 65536) :
    packed_byte mem a 1 = mem a >>> 8 := by
  unfold packed_byte
  rw [if_neg (by decide), show (1 : Nat) / 2 = 0 from rfl, Nat.add_zero, Nat.mod_eq_of_lt ha,
    high_byte _ hw]

theorem packed_byte_next (mem : Nat → Nat) (a i : Nat) :
    packed_byte mem a (i + 2) = packed_byte mem ((a + 1) % 65536) i := by
  unfold packed_byte
  have h1 : (i + 2) % 2 = i % 2 := by omega
  have h2 : (a + (i + 2) / 2) % 65536 = ((a + 1) % 65536 + i / 2) % 65536 := by omega
  rw [h1, h2]

theorem range_map_next (f : Nat → Nat) (k : Nat) :
    (List.range (k + 2)).map f = f 0 :: f 1 :: (List.range k).map (fun i => f (i + 2)) := by
  rw [List.range_succ_eq_map, List.map_cons, List.range_succ_eq_map, List.map_cons,
    List.map_map, List.map_cons, List.map_map]
  rfl

/-- The loop of the `MMIO_STR_OUT` case returns when one of the next `fuel` words
has a zero byte, and has then appended the packed bytes before the first zero
byte. -/
theorem str_out_loop_packed (mem : Nat → Nat) (hwf : ∀ x, mem x < 65536) :
    ∀ (fuel addr : Nat) (out : List Nat), addr < 65536 →
      (∃ j, j < fuel ∧ (mem ((addr + j) % 65536) &&& 0xFF = 0 ∨
        mem ((addr + j) % 65536) >>> 8 = 0)) →
      ∃ k, k < 2 * fuel ∧ packed_byte mem addr k = 0 ∧
        (∀ i, i < k → packed_byte mem addr i ≠ 0) ∧
        str_out_loop fuel mem addr out = some (out ++ (List.range k).map (packed_byte mem addr)) := by
  intro fuel
  induction fuel with
  | zero =>
    intro addr out _ hj
    obtain ⟨j, hj, _⟩ := hj
    omega
  | succ fuel ih =>
    intro addr out ha hj
    have h0 := packed_byte_zero mem addr ha
    have h1 := packed_byte_one mem addr ha (hwf addr)
    rw [str_out_loop]
    by_cases hlo : mem addr &&& 0xFF = 0
    · refine ⟨0, by omega, by rw [h0, hlo], fun i hi => by omega, ?_⟩
      rw [if_pos hlo]
      simp
    · rw [if_neg hlo]
      by_cases hhi : mem addr >>> 8 = 0
      · refine ⟨1, by omega, by rw [h1, hhi], ?_, ?_⟩
        · intro i hi
          have hi0 : i = 0 := by omega
          rw [hi0, h0]
          exact hlo
        · rw [if_pos hhi, show List.range 1 = [0] from rfl, List.map_singleton, h0]
      · rw [if_neg hhi]
        obtain ⟨j, hj, hz⟩ := hj
        have hj0 : j ≠ 0 := by
          intro hj0
          rw [hj0, Nat.add_zero, Nat.mod_eq_of_lt ha] at hz
          rcases hz with hz | hz
          · exact hlo hz
          · exact hhi hz
        have hnext : (u16 (addr + 1) + (j - 1)) % 65536 = (addr + j) % 65536 := by
          unfold u16
          omega
        obtain ⟨k, hk, hkz, hknz, hloop⟩ := ih (u16 (addr + 1))
          (out ++ [mem addr &&& 0xFF, mem addr >>> 8]) (by unfold u16; omega)
          ⟨j - 1, by omega, by rw [hnext]; exact hz⟩
        have hu : u16 (addr + 1) = (addr + 1) % 65536 := rfl
        rw [hu] at hkz hknz hloop
        refine ⟨k + 2, by omega, by rw [packed_byte_next]; exact hkz, ?_, ?_⟩
        · intro i hi
          by_cases hi0 : i = 0
          · rw [hi0, h0]
            exact hlo
          · by_cases hi1 : i = 1
            · rw [hi1, h1]
              exact hhi
            · obtain ⟨i2, rfl⟩ : ∃ i2, i = i2 + 2 := ⟨i - 2, by omega⟩
              rw [packed_byte_next]
              exact hknz i2 (by omega)
        · rw [hu, hloop, range_map_next, h0, h1, List.append_assoc]
          simp only [packed_byte_next, List.cons_append, List.nil_append]

/-- C33: for every CPU state whose memory words are 16-bit words, one of which has
a zero low byte or a zero high byte, a write of an address `a` to `0xF802` returns,
changes nothing but the output, and appends to the output the bytes
`packed_byte 0`, ..., `packed_byte (k - 1)` of the packed string at `a`, where `k`
is the index of the first zero byte. -/
theorem str_out_prints (cpu : CPU) (a : Nat) (hwf : ∀ x, cpu.memory x < 65536)
    (ha : a < 65536)
    (hz : ∃ x, x < 65536 ∧
      (cpu.memory x &&& 0xFF = 0 ∨ (cpu.memory x >>> 8) &&& 0xFF = 0)) :
    ∃ k, k < 131072 ∧ packed_byte cpu.memory a k = 0 ∧
      (∀ i, i < k → packed_byte cpu.memory a i ≠ 0) ∧
      cpu_write_memory cpu MMIO_STR_OUT a =
        some { cpu with
          output := cpu.output ++ (List.range k).map (packed_byte cpu.memory a) } := by
  obtain ⟨x, hx, hzx⟩ := hz
  rw [high_byte _ (hwf x)] at hzx
  have hj : (a + (x + 65536 - a) % 65536) % 65536 = x := by omega
  obtain ⟨k, hk, hkz, hknz, hloop⟩ := str_out_loop_packed cpu.memory hwf 65536 a cpu.output ha
    ⟨(x + 65536 - a) % 65536, by omega, by rw [hj]; exact hzx⟩
  refine ⟨k, by omega, hkz, hknz, ?_⟩
  unfold cpu_write_memory
  rw [if_pos (by decide), if_neg (by decide), if_neg (by decide), if_pos rfl, hloop]
  rfl

/-- Witness of C33: the string `Hi!` that starts in the last memory word and goes
on at address 0. -/
theorem str_out_prints_witness :
    (∀ x, wrap_cpu.memory x < 65536) ∧
    (∃ x, x < 65536 ∧
      (wrap_cpu.memory x &&& 0xFF = 0 ∨ (wrap_cpu.memory x >>> 8) &&& 0xFF = 0)) ∧
    (cpu_write_memory wrap_cpu MMIO_STR_OUT 0xFFFF).map (fun c => c.output) =
      some (bytes "Hi!") ∧
    ∃ k, k < 131072 ∧
      cpu_write_memory wrap_cpu MMIO_STR_OUT 0xFFFF =
        some { wrap_cpu with
          output := wrap_cpu.output ++ (List.range k).map (packed_byte wrap_cpu.memory 0xFFFF) } := by
  have hwf : ∀ x, wrap_cpu.memory x < 65536 := by
    intro x
    show setAt (setAt (fun _ => 0x4141) 0xFFFF 0x6948) 0 0x0021 x < 65536
    unfold setAt
    dsimp only
    split_ifs <;> decide
  have hz : ∃ x, x < 65536 ∧
      (wrap_cpu.memory x &&& 0xFF = 0 ∨ (wrap_cpu.memory x >>> 8) &&& 0xFF = 0) :=
    ⟨0, by decide, Or.inr (by decide)⟩
  refine ⟨hwf, hz, by decide, ?_⟩
  obtain ⟨k, hk, _, _, h⟩ := str_out_prints wrap_cpu 0xFFFF hwf (by decide) hz
  exact ⟨k, hk, h⟩

/-! ### C34: comments, the token limit and blank lines -/

theorem line_buffer_cut (line : List Nat) :
    line_buffer ((cstr line).takeWhile (fun c => c ≠ 59)) = line_buffer line := by
  unfold line_buffer
  have h0 : cstr ((cstr line).takeWhile (fun c => decide (c ≠ 59))) =
      (cstr line).takeWhile (fun c => decide (c ≠ 59)) := by
    unfold cstr
    rw [List.takeWhile_eq_self_iff]
    intro x hx
    exact @List.mem_takeWhile_imp _ (fun c => decide (c ≠ 0)) _ _
      ((List.takeWhile_prefix _).subset hx)
  rw [h0, List.take_takeWhile, List.takeWhile_takeWhile]
  simp

theorem line_buffer_no_comment (line : List Nat) : ∀ x ∈ line_buffer line, x ≠ 59 := by
  intro x hx
  unfold line_buffer at hx
  rw [List.mem_reverse] at hx
  have h1 := (List.dropWhile_suffix _).subset hx
  rw [List.mem_reverse] at h1
  have h2 := List.mem_takeWhile_imp h1
  simpa using h2

theorem line_buffer_blank (line : List Nat)
    (h : ∀ c ∈ (cstr line).takeWhile (fun c => c ≠ 59), isspace c = true) :
    line_buffer line = [] := by
  unfold line_buffer
  rw [List.reverse_eq_nil_iff, List.dropWhile_eq_nil_iff]
  intro x hx
  rw [List.mem_reverse, ← List.take_takeWhile] at hx
  exact h x ((List.take_prefix _ _).subset hx)

theorem tokenize_loop_count (fuel : Nat) :
    ∀ (ptr : List Nat) (tokens : List Token) (c m : Nat) (r : Nat × List Token),
      tokenize_loop fuel ptr tokens c m = some r → c ≤ m → r.1 ≤ m := by
  induction fuel with
  | zero =>
    intro ptr tokens c m r h _
    simp [tokenize_loop] at h
  | succ fuel ih =>
    intro ptr tokens c m r h hc
    unfold tokenize_loop at h
    split_ifs at h with h0
    · cases h
      exact hc
    · have hcm : c < m := by
        by_contra hx
        exact h0 (Or.inr hx)
      split at h
      · cases h
        exact hc
      · split_ifs at h with h1 h2 h3 h4 h5
        · split at h
          · cases h
          · exact ih _ _ _ _ _ h (by omega)
        · exact ih _ _ _ _ _ h (by omega)
        · exact ih _ _ _ _ _ h (by omega)
        · exact ih _ _ _ _ _ h (by omega)
        · exact ih _ _ _ _ _ h hc
        · split at h
          · cases h
          · exact ih _ _ _ _ _ h (by omega)

theorem suffix_drop (ptr buf : List Nat) (h : ptr <:+ buf) (hne : ptr ≠ []) :
    ∃ i, i < buf.length ∧ buf.drop i = ptr := by
  have hl := h.length_le
  have hp : 0 < ptr.length := List.length_pos.mpr hne
  exact ⟨buf.length - ptr.length, by omega, (List.suffix_iff_eq_drop.mp h).symm⟩

/-- The loop of `asm_tokenize` returns on a buffer without a semicolon whose token
texts fit a token; each iteration consumes a character, so the fuel is not used
up. -/
theorem tokenize_loop_returns (buf : List Nat) (hb : short_runs buf)
    (h59 : ∀ x ∈ buf, x ≠ 59) :
    ∀ (fuel : Nat) (ptr : List Nat) (tokens : List Token) (c m : Nat),
      ptr <:+ buf → ptr.length < fuel → ∃ r, tokenize_loop fuel ptr tokens c m = some r := by
  intro fuel
  induction fuel with
  | zero =>
    intro ptr _ _ _ _ h
    omega
  | succ fuel ih =>
    intro ptr tokens c m hsuf hlen
    rw [tokenize_loop]
    by_cases h0 : ptr = [] ∨ ¬ c < m
    · rw [if_pos h0]
      exact ⟨_, rfl⟩
    · rw [if_neg h0]
      have hd1 : ptr.dropWhile isspace <:+ ptr := List.dropWhile_suffix _
      cases hd : ptr.dropWhile isspace with
      | nil => exact ⟨_, rfl⟩
      | cons ch rest =>
        rw [hd] at hd1
        have hcr : (ch :: rest) <:+ buf := hd1.trans hsuf
        have hrec : ∀ (p : List Nat) (t : List Token), p <:+ rest →
            ∃ r, tokenize_loop fuel p t (c + 1) m = some r := by
          intro p t hp
          have h1 := hp.length_le
          have h2 := hd1.length_le
          rw [List.length_cons] at h2
          exact ih p t (c + 1) m ((hp.trans (List.suffix_cons ch rest)).trans hcr) (by omega)
        obtain ⟨i, hi, hdrop⟩ := suffix_drop (ch :: rest) buf hcr (by simp)
        have hrest : buf.drop (i + 1) = rest := by
          rw [← List.drop_drop, hdrop]
          rfl
        have hget : buf.getD i 0 = ch := by
          rw [List.getD_eq_getElem?_getD, ← Nat.add_zero i, ← List.getElem?_drop, hdrop]
          simp
        dsimp only
        by_cases h34 : ch = 34
        · rw [if_pos h34]
          have hl := (hb i hi).2 (by rw [hget, h34])
          rw [hrest] at hl
          unfold write_string
          rw [if_pos hl]
          dsimp only
          exact hrec _ _ ((List.drop_suffix _ _).trans (List.dropWhile_suffix _))
        · rw [if_neg h34]
          by_cases h44 : ch = 44
          · rw [if_pos h44]
            exact hrec rest _ (List.suffix_refl _)
          · rw [if_neg h44]
            by_cases h91 : ch = 91
            · rw [if_pos h91]
              exact hrec rest _ (List.suffix_refl _)
            · rw [if_neg h91]
              by_cases h93 : ch = 93
              · rw [if_pos h93]
                exact hrec rest _ (List.suffix_refl _)
              · rw [if_neg h93]
                have hsp : isspace ch = false := by
                  have h := List.head_dropWhile_not isspace ptr (by rw [hd]; simp)
                  simp only [hd, List.head_cons] at h
                  exact h
                have hc59 : ch ≠ 59 := h59 ch (hcr.subset (List.mem_cons_self _ _))
                have hwc : word_char ch = true := by
                  unfold word_char
                  simp [hsp, h44, h91, h93, hc59]
                have htw : List.takeWhile word_char (ch :: rest) =
                    ch :: List.takeWhile word_char rest := by
                  rw [List.takeWhile_cons, if_pos hwc]
                have hdw : List.dropWhile word_char (ch :: rest) =
                    List.dropWhile word_char rest := by
                  rw [List.dropWhile_cons, if_pos hwc]
                have hl := (hb i hi).1
                rw [hdrop, htw] at hl
                rw [htw, if_neg (by simp), hdw]
                unfold classify_word write_string
                rw [if_pos hl]
                dsimp only [Option.map_some']
                exact hrec _ _ (List.dropWhile_suffix _)

theorem asm_tokenize_returns (line : List Nat) (stack : List Token) (m : Nat)
    (hb : short_runs (line_buffer line)) : ∃ r, asm_tokenize line stack m = some r := by
  unfold asm_tokenize
  split_ifs
  · exact ⟨_, rfl⟩
  · exact tokenize_loop_returns _ hb (line_buffer_no_comment line) _ _ _ _ _
      (List.suffix_refl _) (by omega)

/-- C34: `asm_tokenize` returns for a line what it returns for the line cut off
before its first semicolon; the token count it returns is at most `max_tokens`;
a line with nothing but white space before its end or its first semicolon gives
zero tokens and leaves the array alone; and the function does return whenever
the token texts of the line fit a token. -/
theorem comment_cut (line : List Nat) (stack : List Token) (m : Nat) :
    asm_tokenize line stack m =
      asm_tokenize ((cstr line).takeWhile (fun c => c ≠ 59)) stack m ∧
    (∀ r, asm_tokenize line stack m = some r → r.1 ≤ m) ∧
    ((∀ c ∈ (cstr line).takeWhile (fun c => c ≠ 59), isspace c = true) →
      asm_tokenize line stack m = some (0, stack)) ∧
    (short_runs (line_buffer line) → ∃ r, asm_tokenize line stack m = some r) := by
  refine ⟨?_, ?_, ?_, asm_tokenize_returns line stack m⟩
  · unfold asm_tokenize
    rw [line_buffer_cut]
  · intro r h
    unfold asm_tokenize at h
    split_ifs at h
    · cases h
      exact Nat.zero_le _
    · exact tokenize_loop_count _ _ _ _ _ _ h (Nat.zero_le _)
  · intro h
    unfold asm_tokenize
    rw [line_buffer_blank line h]
    rfl

/-- Witness of C34: `.STRING "a;b" ; text` is lexed as `.STRING "a`: a directive and
the string `a`; the blank line and the comment line give no token. -/
theorem comment_cut_witness :
    short_runs (line_buffer semicolon_line) ∧
    (cstr semicolon_line).takeWhile (fun c => c ≠ 59) = bytes ".STRING \"a" ∧
    (asm_tokenize semicolon_line zero_tokens MAX_TOKENS).map
        (fun r => (r.1, (r.2.take r.1).map fun t => (t.type, cstr t.value))) =
      some (2, [(TOKEN_DIRECTIVE, bytes ".STRING"), (TOKEN_STRING, bytes "a")]) ∧
    asm_tokenize semicolon_line zero_tokens MAX_TOKENS =
      asm_tokenize (bytes ".STRING \"a") zero_tokens MAX_TOKENS ∧
    asm_tokenize (bytes "  \t ; only a comment\n") zero_tokens MAX_TOKENS =
      some (0, zero_tokens) ∧
    asm_tokenize (bytes " \n") zero_tokens MAX_TOKENS = some (0, zero_tokens) ∧
    ∃ r, asm_tokenize semicolon_line zero_tokens MAX_TOKENS = some r ∧ r.1 ≤ MAX_TOKENS := by
  obtain ⟨h1, h2, h3, h4⟩ := comment_cut semicolon_line zero_tokens MAX_TOKENS
  obtain ⟨r, hr⟩ := h4 (by decide)
  refine ⟨by decide, by decide, by decide, ?_, ?_, ?_, r, hr, h2 r hr⟩
  · rw [h1]
    rfl
  · exact (comment_cut (bytes "  \t ; only a comment\n") zero_tokens MAX_TOKENS).2.2.1
      (by decide)
  · exact (comment_cut (bytes " \n") zero_tokens MAX_TOKENS).2.2.1 (by decide)

/-! ### C35: token texts longer than the token buffer -/

/-- A word run of 128 or more characters: the copy into the token buffer writes
outside it. -/
theorem word_overflow (fuel : Nat) (ptr w rest : List Nat) (tokens : List Token) (c m : Nat)
    (hptr : ptr.dropWhile isspace = w ++ rest) (hw : w ≠ [])
    (hwc : ∀ x ∈ w, word_char x = true) (h34 : w.getD 0 0 ≠ 34)
    (hrest : rest.takeWhile word_char = []) (hc : c < m) (hlen : 128 ≤ w.length) :
    tokenize_loop (fuel + 1) ptr tokens c m = none := by
  have hne : ptr ≠ [] := by
    intro h
    rw [h, List.dropWhile_nil] at hptr
    exact hw (List.append_eq_nil.mp hptr.symm).1
  rw [tokenize_loop, if_neg (not_or.mpr ⟨hne, not_not.mpr hc⟩)]
  cases w with
  | nil => exact absurd rfl hw
  | cons a tl =>
    have ha : word_char a = true := hwc a (List.mem_cons_self _ _)
    have htw : List.takeWhile word_char (a :: (tl ++ rest)) = a :: tl := by
      have h := @List.takeWhile_append_of_pos _ word_char (a :: tl) rest hwc
      rw [hrest, List.append_nil] at h
      exact h
    rw [List.cons_append] at hptr
    rw [hptr]
    dsimp only
    have h34a : ¬ a = 34 := h34
    rw [if_neg h34a, if_neg (fun h => by rw [h] at ha; exact absurd ha (by decide)),
      if_neg (fun h => by rw [h] at ha; exact absurd ha (by decide)),
      if_neg (fun h => by rw [h] at ha; exact absurd ha (by decide)), htw,
      if_neg (by simp)]
    unfold classify_word write_string
    rw [if_neg (by omega)]
    rfl

/-- A word run of fewer than 128 characters: the loop goes on behind it with one
more token. -/
theorem word_advance (fuel : Nat) (ptr w rest : List Nat) (tokens : List Token) (c m : Nat)
    (hptr : ptr.dropWhile isspace = w ++ rest) (hw : w ≠ [])
    (hwc : ∀ x ∈ w, word_char x = true) (h34 : w.getD 0 0 ≠ 34)
    (hrest : rest.takeWhile word_char = []) (hc : c < m) (hlen : w.length < 128) :
    ∃ tokens', tokenize_loop (fuel + 1) ptr tokens c m =
      tokenize_loop fuel rest tokens' (c + 1) m := by
  have hne : ptr ≠ [] := by
    intro h
    rw [h, List.dropWhile_nil] at hptr
    exact hw (List.append_eq_nil.mp hptr.symm).1
  obtain ⟨x, hx⟩ : ∃ x, classify_word (token_at tokens c) w = some x := by
    unfold classify_word write_string
    rw [if_pos hlen]
    exact ⟨_, rfl⟩
  refine ⟨tokens.set c x, ?_⟩
  rw [tokenize_loop, if_neg (not_or.mpr ⟨hne, not_not.mpr hc⟩)]
  cases w with
  | nil => exact absurd rfl hw
  | cons a tl =>
    have ha : word_char a = true := hwc a (List.mem_cons_self _ _)
    have htw : List.takeWhile word_char (a :: (tl ++ rest)) = a :: tl := by
      have h := @List.takeWhile_append_of_pos _ word_char (a :: tl) rest hwc
      rw [hrest, List.append_nil] at h
      exact h
    have hdw : List.dropWhile word_char (a :: (tl ++ rest)) = rest := by
      have h := @List.dropWhile_append_of_pos _ word_char (a :: tl) rest hwc
      rw [List.dropWhile_eq_self_iff.mpr (List.takeWhile_eq_nil_iff.mp hrest)] at h
      exact h
    rw [List.cons_append] at hptr
    rw [hptr]
    dsimp only
    have h34a : ¬ a = 34 := h34
    rw [if_neg h34a, if_neg (fun h => by rw [h] at ha; exact absurd ha (by decide)),
      if_neg (fun h => by rw [h] at ha; exact absurd ha (by decide)),
      if_neg (fun h => by rw [h] at ha; exact absurd ha (by decide)), htw,
      if_neg (by simp), hx, hdw]

/-- A quoted string of 128 or more characters: the copy into the token buffer
writes outside it. -/
theorem string_overflow (fuel : Nat) (ptr rest : List Nat) (tokens : List Token) (c m : Nat)
    (hptr : ptr.dropWhile isspace = 34 :: rest) (hc : c < m)
    (hlen : 128 ≤ (rest.takeWhile (fun x => x ≠ 34)).length) :
    tokenize_loop (fuel + 1) ptr tokens c m = none := by
  have hne : ptr ≠ [] := by
    intro h
    rw [h, List.dropWhile_nil] at hptr
    exact absurd hptr (by simp)
  rw [tokenize_loop, if_neg (not_or.mpr ⟨hne, not_not.mpr hc⟩), hptr]
  dsimp only
  rw [if_pos rfl]
  unfold write_string
  rw [if_neg (by omega)]

set_option maxRecDepth 8000 in
theorem long_word_none (stack : List Token) :
    asm_tokenize long_word_line stack MAX_TOKENS = none := by
  have hb : line_buffer long_word_line = List.replicate 128 65 ++ bytes " R1" := by decide
  have hl : (List.replicate 128 65 ++ bytes " R1").length + 1 = 131 + 1 := by decide
  unfold asm_tokenize
  rw [hb, if_neg (by decide), hl]
  exact word_overflow 131 _ (List.replicate 128 65) (bytes " R1") stack 0 MAX_TOKENS
    (by decide) (by decide) (by decide) (by decide) (by decide) (by decide) (by decide)

set_option maxRecDepth 8000 in
theorem long_string_none (stack : List Token) :
    asm_tokenize long_string_line stack MAX_TOKENS = none := by
  have hb : line_buffer long_string_line =
      bytes ".STRING" ++ (32 :: 34 :: (List.replicate 128 65 ++ bytes "\" R1")) := by decide
  have hl : (bytes ".STRING" ++ (32 :: 34 :: (List.replicate 128 65 ++ bytes "\" R1"))).length
      + 1 = 140 + 1 + 1 := by decide
  unfold asm_tokenize
  rw [hb, if_neg (by decide), hl]
  obtain ⟨t1, e1⟩ := word_advance (140 + 1) (bytes ".STRING" ++ (32 :: 34 ::
    (List.replicate 128 65 ++ bytes "\" R1"))) (bytes ".STRING")
    (32 :: 34 :: (List.replicate 128 65 ++ bytes "\" R1")) stack 0 MAX_TOKENS (by decide)
    (by decide) (by decide) (by decide) (by decide) (by decide) (by decide)
  rw [e1]
  exact string_overflow 140 (32 :: 34 :: (List.replicate 128 65 ++ bytes "\" R1"))
    (List.replicate 128 65 ++ bytes "\" R1") t1 (0 + 1) MAX_TOKENS (by decide) (by decide)
    (by decide)

set_option maxRecDepth 8000 in
/-- C35 fails in the code: for a line with a word of 128 characters and for a line
with a quoted string of 128 characters, for every content of the token array, the
lexer does not truncate the text: it copies all of it, the terminator goes to
`value[128]` outside the 128-byte buffer, and no result is defined, neither for
`asm_tokenize` nor for `asm_assemble_line`; a word of 127 characters is stored in
full and the rest of the line is lexed. -/
theorem long_token_overflows (stack : List Token) :
    asm_tokenize long_word_line stack MAX_TOKENS = none ∧
    asm_tokenize long_string_line stack MAX_TOKENS = none ∧
    (∀ (st : Assembler) (pass : Nat), asm_assemble_line st long_word_line pass stack = none) ∧
    (asm_tokenize fitting_word_line zero_tokens MAX_TOKENS).map
        (fun r => (r.1, (r.2.take r.1).map fun t => (t.type, (cstr t.value).length))) =
      some (2, [(TOKEN_INSTRUCTION, 127), (TOKEN_REGISTER, 2)]) := by
  refine ⟨long_word_none stack, long_string_none stack, ?_, by decide⟩
  intro st pass
  unfold asm_assemble_line
  rw [long_word_none stack]
  rfl

/-! ### Lines made of words -/

/-- The buffer of `asm_tokenize` for a line without newline, comment or white
space at its end: the text of the line. -/
theorem line_buffer_plain (init : List Nat) (x : Nat)
    (h0 : ∀ c ∈ init ++ [x], c ≠ 0 ∧ c ≠ 59) (hlen : init.length ≤ 254)
    (hx : isspace x = false) : line_buffer (init ++ [x]) = init ++ [x] := by
  unfold line_buffer
  have hc : cstr (init ++ [x]) = init ++ [x] := by
    have h := cstr_append (init ++ [x]) [] (fun c hc => (h0 c hc).1)
    rw [List.append_nil] at h
    rw [h]
    simp [cstr]
  have ht : (init ++ [x]).take (MAX_LINE_LENGTH - 1) = init ++ [x] :=
    List.take_of_length_le (by
      simp only [List.length_append, List.length_cons, List.length_nil]
      unfold MAX_LINE_LENGTH
      omega)
  have hw : (init ++ [x]).takeWhile (fun c => decide (c ≠ 59)) = init ++ [x] := by
    rw [List.takeWhile_eq_self_iff]
    intro c hc
    exact decide_eq_true (h0 c hc).2
  rw [hc, ht, hw]
  have hr : (init ++ [x]).reverse = x :: init.reverse := by simp
  rw [hr]
  have hd : List.dropWhile isspace (x :: init.reverse) = x :: init.reverse := by
    rw [List.dropWhile_cons, if_neg (by rw [hx]; decide)]
  rw [hd]
  simp

/-- The buffer of `asm_tokenize` for a line that ends in a word character. -/
theorem line_buffer_text (line : List Nat) (hne : line ≠ [])
    (h0 : ∀ c ∈ line, c ≠ 0 ∧ c ≠ 59) (hlen : line.length ≤ 255)
    (hx : isspace (line.getLast hne) = false) : line_buffer line = line := by
  have hsplit : line = line.dropLast ++ [line.getLast hne] :=
    (List.dropLast_append_getLast hne).symm
  have h := line_buffer_plain line.dropLast (line.getLast hne) (by rw [← hsplit]; exact h0)
    (by rw [List.length_dropLast]; omega) hx
  rw [← hsplit] at h
  exact h

theorem parse_number_buffer (w tail : List Nat) (hw : w ≠ []) :
    asm_parse_number (w ++ 0 :: tail) = asm_parse_number w := by
  by_cases hq : w.getD 0 0 = 39
  · match w, hw, hq with
    | [c], _, hq =>
      have hc : c = 39 := hq
      subst hc
      unfold asm_parse_number
      by_cases ht : tail.getD 0 0 = 39
      · have h2 : ([39] ++ 0 :: tail).getD 2 0 = 39 := ht
        have h0 : ([39] ++ 0 :: tail).getD 0 0 = 39 := rfl
        have h1 : ([39] ++ 0 :: tail).getD 1 0 = 0 := rfl
        rw [h0, h1, h2, if_neg (by decide), if_pos ⟨rfl, rfl⟩]
        decide
      · have h2 : ([39] ++ 0 :: tail).getD 2 0 = tail.getD 0 0 := rfl
        have h0 : ([39] ++ 0 :: tail).getD 0 0 = 39 := rfl
        have h1 : ([39] ++ 0 :: tail).getD 1 0 = 0 := rfl
        rw [h0, h1, h2, if_neg (by decide), if_neg (fun h => ht h.2)]
        have hc : cstr ([39] ++ 0 :: tail) = cstr [39] := cstr_terminated [39] tail
        unfold atoi strtol
        rw [hc]
        decide
    | c :: d :: rest, _, hq =>
      have hc : c = 39 := hq
      subst hc
      have hn : ¬ ((39 :: d :: rest).getD 0 0 = 48 ∧
          ((39 :: d :: rest).getD 1 0 = 120 ∨ (39 :: d :: rest).getD 1 0 = 88)) :=
        fun h => absurd (show (39 : Nat) = 48 from h.1) (by decide)
      unfold asm_parse_number
      rw [getD_terminated (39 :: d :: rest) tail 0 (by simp),
        getD_terminated (39 :: d :: rest) tail 1 (by simp),
        getD_terminated (39 :: d :: rest) tail 2 (by simp), if_neg hn, if_neg hn]
      by_cases h2 : (39 :: d :: rest).getD 0 0 = 39 ∧ (39 :: d :: rest).getD 2 0 = 39
      · rw [if_pos h2, if_pos h2]
      · rw [if_neg h2, if_neg h2]
        unfold atoi strtol
        rw [cstr_terminated]
  · exact parse_number_terminated w tail hw hq

theorem classify_word_view_any (old : Token) (w : List Nat) (x : Token) (hw : w ≠ [])
    (h : classify_word old w = some x) : token_view x = word_view w := by
  have hl : 1 ≤ w.length := by
    cases w with
    | nil => exact absurd rfl hw
    | cons c tl => simp
  unfold classify_word write_string at h
  split_ifs at h with hlen
  · rw [Option.map_some', Option.some.injEq] at h
    rw [← h]
    have hset : (w ++ 0 :: List.drop (w.length + 1) old.value).set (w.length - 1) 0 =
        w.set (w.length - 1) 0 ++ 0 :: List.drop (w.length + 1) old.value :=
      List.set_append_left _ _ (by omega)
    rw [getD_terminated w _ (w.length - 1) (by omega), getD_terminated w _ 0 (by omega),
      parse_register_terminated w _ hw, parse_number_buffer w _ hw, hset]
    unfold word_view token_view
    split_ifs <;> simp_all [cstr_terminated]
  · exact absurd h (by simp)

/-- One iteration of the loop of `asm_tokenize` on a word run `w` that is followed
by `rest`, whatever the first character of `w` apart from a double quote. -/
theorem word_step_any (fuel : Nat) (ptr w rest : List Nat) (tokens : List Token) (c m : Nat)
    (vs : List (TokenType × List Nat × Int))
    (hptr : ptr.dropWhile isspace = w ++ rest) (hw : w ≠ [])
    (hwc : ∀ x ∈ w, word_char x = true) (h34 : w.getD 0 0 ≠ 34)
    (hlen : w.length < 128) (hrest : rest.takeWhile word_char = []) (hc : c < m)
    (hm : m ≤ tokens.length) (hv : (tokens.take c).map token_view = vs) :
    ∃ tokens', tokens'.length = tokens.length ∧
      (tokens'.take (c + 1)).map token_view = vs ++ [word_view w] ∧
      tokenize_loop (fuel + 1) ptr tokens c m = tokenize_loop fuel rest tokens' (c + 1) m := by
  have hne : ptr ≠ [] := by
    intro h
    rw [h, List.dropWhile_nil] at hptr
    exact hw (List.append_eq_nil.mp hptr.symm).1
  obtain ⟨x, hx⟩ : ∃ x, classify_word (token_at tokens c) w = some x := by
    unfold classify_word write_string
    rw [if_pos hlen]
    exact ⟨_, rfl⟩
  refine ⟨tokens.set c x, List.length_set _ _ _, ?_, ?_⟩
  · rw [take_views_set tokens c x vs (by omega) hv, classify_word_view_any _ _ _ hw hx]
  · rw [tokenize_loop, if_neg (not_or.mpr ⟨hne, not_not.mpr hc⟩)]
    cases w with
    | nil => exact absurd rfl hw
    | cons a tl =>
      have ha : word_char a = true := hwc a (List.mem_cons_self _ _)
      have htw : List.takeWhile word_char (a :: (tl ++ rest)) = a :: tl := by
        have h := @List.takeWhile_append_of_pos _ word_char (a :: tl) rest hwc
        rw [hrest, List.append_nil] at h
        exact h
      have hdw : List.dropWhile word_char (a :: (tl ++ rest)) = rest := by
        have h := @List.dropWhile_append_of_pos _ word_char (a :: tl) rest hwc
        rw [List.dropWhile_eq_self_iff.mpr (List.takeWhile_eq_nil_iff.mp hrest)] at h
        exact h
      rw [List.cons_append] at hptr
      rw [hptr]
      dsimp only
      have h34a : ¬ a = 34 := h34
      rw [if_neg h34a, if_neg (fun h => by rw [h] at ha; exact absurd ha (by decide)),
        if_neg (fun h => by rw [h] at ha; exact absurd ha (by decide)),
        if_neg (fun h => by rw [h] at ha; exact absurd ha (by decide)), htw,
        if_neg (by simp), hx, hdw]

theorem word_char_not_space (c : Nat) (h : word_char c = true) : isspace c = false := by
  unfold word_char at h
  cases hs : isspace c with
  | false => rfl
  | true =>
    rw [hs] at h
    simp at h

theorem word_char_facts (c : Nat) (h : word_char c = true) : c ≠ 44 ∧ c ≠ 59 := by
  unfold word_char at h
  simp only [Bool.and_eq_true, Bool.not_eq_true', bne_iff_ne, ne_eq] at h
  exact ⟨h.1.1.1.2, h.2⟩

theorem word_cstr (v : List Nat) (h : is_word v) : cstr v = v := by
  have h1 := cstr_append v [] (fun c hc => (h.2.2.1 c hc).2)
  rw [List.append_nil] at h1
  rw [h1]
  simp [cstr]

theorem word_head (v : List Nat) (h : is_word v) :
    ∃ a tl, v = a :: tl ∧ word_char a = true ∧ a ≠ 34 := by
  cases v with
  | nil => exact absurd rfl h.1
  | cons a tl => exact ⟨a, tl, rfl, (h.2.2.1 a (List.mem_cons_self _ _)).1, h.2.2.2.1⟩

/-- The view of the token that the lexer makes of a word: a directive, a
register, an immediate or an instruction, with the word as its text. -/
theorem word_view_word (v : List Nat) (h : is_word v) :
    word_view v =
      if v.getD 0 0 = 46 then (TOKEN_DIRECTIVE, v, 0)
      else if asm_parse_register v ≥ 0 then (TOKEN_REGISTER, v, asm_parse_register v)
      else if is_immediate v then (TOKEN_IMMEDIATE, v, asm_parse_number v)
      else (TOKEN_INSTRUCTION, v, 0) := by
  unfold word_view is_immediate
  rw [if_neg h.2.2.2.2, word_cstr v h]

theorem symbol_start_word_char (c : Nat) (h : symbol_start c ∨ isdigit c = true) :
    word_char c = true ∧ c ≠ 0 ∧ c ≠ 58 ∧ c ≠ 34 := by
  unfold symbol_start isdigit at h
  simp only [Bool.and_eq_true, decide_eq_true_eq] at h
  have hc : c ≠ 32 ∧ ¬ (9 ≤ c ∧ c ≤ 13) ∧ c ≠ 44 ∧ c ≠ 91 ∧ c ≠ 93 ∧ c ≠ 59 ∧ c ≠ 0 ∧
      c ≠ 58 ∧ c ≠ 34 := by omega
  refine ⟨?_, hc.2.2.2.2.2.2.1, hc.2.2.2.2.2.2.2.1, hc.2.2.2.2.2.2.2.2⟩
  unfold word_char isspace
  simp only [Bool.and_eq_true, Bool.not_eq_true', bne_iff_ne, ne_eq, Bool.or_eq_false_iff,
    decide_eq_false_iff_not, Bool.and_eq_false_imp, decide_eq_true_eq]
  refine ⟨⟨⟨⟨⟨hc.1, ?_⟩, hc.2.2.1⟩, hc.2.2.2.1⟩, hc.2.2.2.2.1⟩, hc.2.2.2.2.2.1⟩
  intro h9
  have := hc.2.1
  omega

theorem identifier_word (x : List Nat) (h : is_identifier x) : is_word x := by
  obtain ⟨h1, h2, h3⟩ := h
  have hne : x ≠ [] := by
    intro hx
    rw [hx] at h1
    exact absurd h1 (by decide)
  refine ⟨hne, h3, fun c hc => ?_, ?_, ?_⟩
  · have := symbol_start_word_char c (h2 c hc)
    exact ⟨this.1, this.2.1⟩
  · exact (symbol_start_word_char _ (Or.inl h1)).2.2.2
  · have hl : x.length - 1 < x.length := by
      have := List.length_pos.mpr hne
      omega
    rw [List.getD_eq_getElem _ _ hl]
    exact (symbol_start_word_char _ (h2 _ (List.getElem_mem _))).2.2.1

/-- The view of the token that the lexer makes of an identifier: a register when
`asm_parse_register` accepts it, and else an instruction. -/
theorem identifier_view (x : List Nat) (h : is_identifier x) :
    word_view x =
      if asm_parse_register x ≥ 0 then (TOKEN_REGISTER, x, asm_parse_register x)
      else (TOKEN_INSTRUCTION, x, 0) := by
  have h1 := h.1
  unfold symbol_start at h1
  rw [word_view_word x (identifier_word x h), if_neg (by omega)]
  have hni : ¬ is_immediate x := by
    unfold is_immediate isdigit
    simp only [Bool.and_eq_true, decide_eq_true_eq]
    omega
  rw [if_neg hni]

theorem values_text_cons (v : List Nat) (vs : List (List Nat)) :
    ∃ tail, values_text (v :: vs) = v ++ tail ∧ tail.takeWhile word_char = [] ∧
      (vs = [] → tail = []) ∧
      (vs ≠ [] → tail = 44 :: 32 :: values_text vs) := by
  cases vs with
  | nil => exact ⟨[], (List.append_nil v).symm, rfl, fun _ => rfl, fun h => absurd rfl h⟩
  | cons w rest =>
    refine ⟨44 :: 32 :: values_text (w :: rest), ?_, rfl, fun h => absurd h (by simp),
      fun _ => rfl⟩
    show v ++ [44, 32] ++ values_text (w :: rest) = _
    rw [List.append_assoc]
    rfl

theorem values_text_head (vs : List (List Nat)) (hne : vs ≠ [])
    (hv : ∀ v ∈ vs, is_word v) :
    (values_text vs).dropWhile isspace = values_text vs := by
  cases vs with
  | nil => exact absurd rfl hne
  | cons v rest =>
    obtain ⟨tail, ht, _⟩ := values_text_cons v rest
    obtain ⟨a, tl, hv1, ha, _⟩ := word_head v (hv v (List.mem_cons_self _ _))
    rw [ht, hv1, List.cons_append, List.dropWhile_cons,
      if_neg (by rw [word_char_not_space a ha]; decide)]

theorem values_text_split (vs : List (List Nat)) (hne : vs ≠ [])
    (hv : ∀ v ∈ vs, is_word v) :
    ∃ init x, values_text vs = init ++ [x] ∧ word_char x = true ∧
      ∀ c ∈ values_text vs, c ≠ 0 ∧ c ≠ 59 := by
  induction vs with
  | nil => exact absurd rfl hne
  | cons v rest ih =>
    have hw := hv v (List.mem_cons_self _ _)
    have hchars : ∀ c ∈ v, c ≠ 0 ∧ c ≠ 59 := fun c hc =>
      ⟨(hw.2.2.1 c hc).2, (word_char_facts c (hw.2.2.1 c hc).1).2⟩
    cases rest with
    | nil =>
      refine ⟨v.dropLast, v.getLast hw.1, (List.dropLast_append_getLast hw.1).symm,
        (hw.2.2.1 _ (List.getLast_mem hw.1)).1, hchars⟩
    | cons w rest2 =>
      obtain ⟨init, x, hsplit, hx, hc⟩ := ih (by simp)
        (fun u hu => hv u (List.mem_cons_of_mem _ hu))
      refine ⟨v ++ [44, 32] ++ init, x, ?_, hx, ?_⟩
      · show v ++ [44, 32] ++ values_text (w :: rest2) = _
        rw [hsplit, List.append_assoc, List.append_assoc, List.append_assoc]
      · intro c hcm
        have hcm2 : c ∈ v ++ [44, 32] ++ values_text (w :: rest2) := hcm
        rw [List.mem_append, List.mem_append] at hcm2
        rcases hcm2 with (h1 | h1) | h1
        · exact hchars c h1
        · simp only [List.mem_cons, List.mem_singleton, List.not_mem_nil, or_false] at h1
          rcases h1 with rfl | rfl <;> decide
        · exact hc c h1

/-- The loop of `asm_tokenize` over the text `v1, v2, ..., vk` of `k` words. -/
theorem values_loop (m : Nat) :
    ∀ (vs : List (List Nat)), vs ≠ [] → (∀ v ∈ vs, is_word v) →
      ∀ (fuel : Nat) (ptr : List Nat) (tokens : List Token) (c : Nat)
        (vs0 : List (TokenType × List Nat × Int)),
        ptr.dropWhile isspace = values_text vs → 2 * vs.length ≤ fuel →
        c + 2 * vs.length - 1 ≤ m → m ≤ tokens.length →
        (tokens.take c).map token_view = vs0 →
        ∃ tokens', tokens'.length = tokens.length ∧
          (tokens'.take (c + 2 * vs.length - 1)).map token_view = vs0 ++ value_views vs ∧
          tokenize_loop fuel ptr tokens c m = some (c + 2 * vs.length - 1, tokens') := by
  intro vs
  induction vs with
  | nil => intro h; exact absurd rfl h
  | cons v rest ih =>
    intro _ hv fuel ptr tokens c vs0 hptr hfuel hcm hm hv0
    have hw := hv v (List.mem_cons_self _ _)
    obtain ⟨tail, ht, htw, hnil, hcons⟩ := values_text_cons v rest
    rw [ht] at hptr
    have hlen : (v :: rest).length = rest.length + 1 := rfl
    rw [hlen] at hfuel hcm ⊢
    obtain ⟨f, hf⟩ : ∃ f, fuel = f + 2 := ⟨fuel - 2, by omega⟩
    subst hf
    obtain ⟨t1, hl1, hv1, e1⟩ := word_step_any (f + 1) ptr v tail tokens c m vs0 hptr hw.1
      (fun x hx => (hw.2.2.1 x hx).1) hw.2.2.2.1 hw.2.1 htw (by omega) hm hv0
    cases rest with
    | nil =>
      refine ⟨t1, hl1, ?_, ?_⟩
      · exact hv1
      · rw [e1, hnil rfl]
        exact end_step f t1 (c + 1) m
    | cons w rest2 =>
      have htail := hcons (by simp)
      have hlen2 : (w :: rest2).length = rest2.length + 1 := rfl
      rw [hlen2] at hfuel hcm ⊢
      obtain ⟨g, hg⟩ : ∃ g, f = g + 1 := ⟨f - 1, by omega⟩
      subst hg
      obtain ⟨t2, hl2, hv2, e2⟩ := char_step (g + 1) tail (32 :: values_text (w :: rest2)) t1
        (c + 1) m 44 TOKEN_COMMA _ (by rw [htail]; rfl) (Or.inl ⟨rfl, rfl⟩) (by omega)
        (by omega) hv1
      have hptr3 : (32 :: values_text (w :: rest2)).dropWhile isspace =
          values_text (w :: rest2) := by
        rw [List.dropWhile_cons, if_pos (by rfl)]
        exact values_text_head _ (by simp) (fun u hu => hv u (List.mem_cons_of_mem _ hu))
      obtain ⟨t3, hl3, hv3, e3⟩ := ih (by simp) (fun u hu => hv u (List.mem_cons_of_mem _ hu))
        (g + 1) (32 :: values_text (w :: rest2)) t2 (c + 1 + 1) _ hptr3
        (by rw [hlen2]; omega) (by rw [hlen2]; omega) (by omega) hv2
      rw [hlen2] at hv3 e3
      have hidx : c + 1 + 1 + 2 * (rest2.length + 1) - 1 = c + 2 * (rest2.length + 1 + 1) - 1 := by
        omega
      rw [hidx] at hv3 e3
      refine ⟨t3, by rw [hl3, hl2, hl1], ?_, ?_⟩
      · rw [hv3]
        simp [value_views]
      · rw [e1, e2, e3]

/-- The tokens of a line `w v1, v2, ..., vk` of `k ≤ 5` words after the word `w`,
for every old content of the token array. -/
theorem word_values_lexed (w : List Nat) (vs : List (List Nat)) (stack : List Token)
    (hw : is_word w) (hne : vs ≠ []) (hv : ∀ v ∈ vs, is_word v) (hk : vs.length ≤ 5)
    (hlen : (w ++ 32 :: values_text vs).length ≤ 255) (hs : stack.length = MAX_TOKENS) :
    lexed (w ++ 32 :: values_text vs) stack =
      some (2 * vs.length, word_view w :: value_views vs) := by
  obtain ⟨init, x, hsplit, hx, hchars⟩ := values_text_split vs hne hv
  have hbuf : line_buffer (w ++ 32 :: values_text vs) = w ++ 32 :: values_text vs := by
    have h := line_buffer_plain (w ++ 32 :: init) x
      (by
        intro c hc
        have hc2 : c ∈ w ++ 32 :: values_text vs := by
          rw [hsplit]
          simpa using hc
        rw [List.mem_append, List.mem_cons] at hc2
        rcases hc2 with h1 | rfl | h1
        · exact ⟨(hw.2.2.1 c h1).2, (word_char_facts c (hw.2.2.1 c h1).1).2⟩
        · decide
        · exact hchars c h1)
      (by
        rw [hsplit] at hlen
        simp only [List.length_append, List.length_cons, List.length_nil] at hlen ⊢
        omega)
      (word_char_not_space x hx)
    rw [hsplit]
    simpa using h
  have hpos : 1 ≤ vs.length := by
    cases vs with
    | nil => exact absurd rfl hne
    | cons v rest => simp
  have hvl : 2 * vs.length ≤ (values_text vs).length + 1 := by
    clear hbuf hsplit hchars hlen hk
    induction vs with
    | nil => exact absurd rfl hne
    | cons v rest ih =>
      have h1 : 1 ≤ v.length := List.length_pos.mpr (hv v (List.mem_cons_self _ _)).1
      cases rest with
      | nil =>
        show 2 ≤ v.length + 1
        omega
      | cons u rest2 =>
        have h2 := ih (by simp) (fun z hz => hv z (List.mem_cons_of_mem _ hz)) (by simp)
        show 2 * ((u :: rest2).length + 1) ≤ (v ++ [44, 32] ++ values_text (u :: rest2)).length + 1
        simp only [List.length_append, List.length_cons, List.length_nil] at h2 ⊢
        omega
  obtain ⟨f, hf⟩ : ∃ f, (w ++ 32 :: values_text vs).length + 1 = f + 1 ∧
      2 * vs.length ≤ f := by
    refine ⟨(w ++ 32 :: values_text vs).length, rfl, ?_⟩
    simp only [List.length_append, List.length_cons]
    omega
  have hm : MAX_TOKENS ≤ stack.length := by omega
  have hptr1 : (w ++ 32 :: values_text vs).dropWhile isspace = w ++ 32 :: values_text vs := by
    obtain ⟨a, tl, hw1, ha, _⟩ := word_head w hw
    rw [hw1, List.cons_append, List.dropWhile_cons,
      if_neg (by rw [word_char_not_space a ha]; decide)]
  obtain ⟨t1, hl1, hv1, e1⟩ := word_step_any f (w ++ 32 :: values_text vs) w
    (32 :: values_text vs) stack 0 MAX_TOKENS [] hptr1 hw.1 (fun x hx => (hw.2.2.1 x hx).1)
    hw.2.2.2.1 hw.2.1 rfl (by decide) hm rfl
  have hptr2 : (32 :: values_text vs).dropWhile isspace = values_text vs := by
    rw [List.dropWhile_cons, if_pos (by rfl)]
    exact values_text_head vs hne hv
  obtain ⟨t2, hl2, hv2, e2⟩ := values_loop MAX_TOKENS vs hne hv f (32 :: values_text vs) t1
    (0 + 1) _ hptr2 hf.2 (by unfold MAX_TOKENS; omega) (by omega) hv1
  have hidx : 0 + 1 + 2 * vs.length - 1 = 2 * vs.length := by omega
  rw [hidx] at hv2 e2
  unfold lexed asm_tokenize
  rw [hbuf, if_neg (by simp), hf.1, e1, e2, Option.map_some']
  simp only [hv2, List.nil_append, List.singleton_append]

theorem emit_words_two (st : Assembler) (w1 w2 : Nat) :
    emit_words st [w1, w2] = (asm_emit_word st w1).bind (fun s1 => asm_emit_word s1 w2) := by
  unfold emit_words emit_words emit_words
  cases asm_emit_word st w1 with
  | none => rfl
  | some s1 =>
    rw [Option.some_bind, Option.some_bind]
    exact Option.bind_some _

/-! ### C20: a symbol that is not in the table, line by line -/

theorem jmp_word :
    is_word (bytes "JMP") ∧ word_view (bytes "JMP") = (TOKEN_INSTRUCTION, bytes "JMP", 0) ∧
      (bytes "JMP").length ≤ 4 ∧
      ∀ ops, asm_encode_instruction (bytes "JMP") ops = asm_encode_instruction (bytes "JMP") [] :=
  ⟨by decide, by decide, by decide, fun ops =>
    (show asm_encode_instruction (bytes "JMP") ops = u16 (OP_JUMP <<< 12) from rfl).trans
      (show u16 (OP_JUMP <<< 12) = asm_encode_instruction (bytes "JMP") [] from rfl)⟩

theorem call_word :
    is_word (bytes "CALL") ∧ word_view (bytes "CALL") = (TOKEN_INSTRUCTION, bytes "CALL", 0) ∧
      (bytes "CALL").length ≤ 4 ∧
      ∀ ops, asm_encode_instruction (bytes "CALL") ops = asm_encode_instruction (bytes "CALL") [] :=
  ⟨by decide, by decide, by decide, fun ops =>
    (show asm_encode_instruction (bytes "CALL") ops = u16 (OP_CALL <<< 12) from rfl).trans
      (show u16 (OP_CALL <<< 12) = asm_encode_instruction (bytes "CALL") [] from rfl)⟩

theorem beq_word :
    is_word (bytes "BEQ") ∧ word_view (bytes "BEQ") = (TOKEN_INSTRUCTION, bytes "BEQ", 0) ∧
      (bytes "BEQ").length ≤ 4 ∧
      ∀ ops, asm_encode_instruction (bytes "BEQ") ops = asm_encode_instruction (bytes "BEQ") [] :=
  ⟨by decide, by decide, by decide, fun ops =>
    (show asm_encode_instruction (bytes "BEQ") ops = u16 ((OP_BRANCH <<< 12) ||| BRANCH_EQ) from rfl).trans
      (show u16 ((OP_BRANCH <<< 12) ||| BRANCH_EQ) = asm_encode_instruction (bytes "BEQ") [] from rfl)⟩

theorem bne_word :
    is_word (bytes "BNE") ∧ word_view (bytes "BNE") = (TOKEN_INSTRUCTION, bytes "BNE", 0) ∧
      (bytes "BNE").length ≤ 4 ∧
      ∀ ops, asm_encode_instruction (bytes "BNE") ops = asm_encode_instruction (bytes "BNE") [] :=
  ⟨by decide, by decide, by decide, fun ops =>
    (show asm_encode_instruction (bytes "BNE") ops = u16 ((OP_BRANCH <<< 12) ||| BRANCH_NE) from rfl).trans
      (show u16 ((OP_BRANCH <<< 12) ||| BRANCH_NE) = asm_encode_instruction (bytes "BNE") [] from rfl)⟩

theorem bgt_word :
    is_word (bytes "BGT") ∧ word_view (bytes "BGT") = (TOKEN_INSTRUCTION, bytes "BGT", 0) ∧
      (bytes "BGT").length ≤ 4 ∧
      ∀ ops, asm_encode_instruction (bytes "BGT") ops = asm_encode_instruction (bytes "BGT") [] :=
  ⟨by decide, by decide, by decide, fun ops =>
    (show asm_encode_instruction (bytes "BGT") ops = u16 ((OP_BRANCH <<< 12) ||| BRANCH_GT) from rfl).trans
      (show u16 ((OP_BRANCH <<< 12) ||| BRANCH_GT) = asm_encode_instruction (bytes "BGT") [] from rfl)⟩

theorem blt_word :
    is_word (bytes "BLT") ∧ word_view (bytes "BLT") = (TOKEN_INSTRUCTION, bytes "BLT", 0) ∧
      (bytes "BLT").length ≤ 4 ∧
      ∀ ops, asm_encode_instruction (bytes "BLT") ops = asm_encode_instruction (bytes "BLT") [] :=
  ⟨by decide, by decide, by decide, fun ops =>
    (show asm_encode_instruction (bytes "BLT") ops = u16 ((OP_BRANCH <<< 12) ||| BRANCH_LT) from rfl).trans
      (show u16 ((OP_BRANCH <<< 12) ||| BRANCH_LT) = asm_encode_instruction (bytes "BLT") [] from rfl)⟩

theorem bge_word :
    is_word (bytes "BGE") ∧ word_view (bytes "BGE") = (TOKEN_INSTRUCTION, bytes "BGE", 0) ∧
      (bytes "BGE").length ≤ 4 ∧
      ∀ ops, asm_encode_instruction (bytes "BGE") ops = asm_encode_instruction (bytes "BGE") [] :=
  ⟨by decide, by decide, by decide, fun ops =>
    (show asm_encode_instruction (bytes "BGE") ops = u16 ((OP_BRANCH <<< 12) ||| BRANCH_GE) from rfl).trans
      (show u16 ((OP_BRANCH <<< 12) ||| BRANCH_GE) = asm_encode_instruction (bytes "BGE") [] from rfl)⟩

theorem ble_word :
    is_word (bytes "BLE") ∧ word_view (bytes "BLE") = (TOKEN_INSTRUCTION, bytes "BLE", 0) ∧
      (bytes "BLE").length ≤ 4 ∧
      ∀ ops, asm_encode_instruction (bytes "BLE") ops = asm_encode_instruction (bytes "BLE") [] :=
  ⟨by decide, by decide, by decide, fun ops =>
    (show asm_encode_instruction (bytes "BLE") ops = u16 ((OP_BRANCH <<< 12) ||| BRANCH_LE) from rfl).trans
      (show u16 ((OP_BRANCH <<< 12) ||| BRANCH_LE) = asm_encode_instruction (bytes "BLE") [] from rfl)⟩

theorem bcs_word :
    is_word (bytes "BCS") ∧ word_view (bytes "BCS") = (TOKEN_INSTRUCTION, bytes "BCS", 0) ∧
      (bytes "BCS").length ≤ 4 ∧
      ∀ ops, asm_encode_instruction (bytes "BCS") ops = asm_encode_instruction (bytes "BCS") [] :=
  ⟨by decide, by decide, by decide, fun ops =>
    (show asm_encode_instruction (bytes "BCS") ops = u16 ((OP_BRANCH <<< 12) ||| BRANCH_CS) from rfl).trans
      (show u16 ((OP_BRANCH <<< 12) ||| BRANCH_CS) = asm_encode_instruction (bytes "BCS") [] from rfl)⟩

theorem bcc_word :
    is_word (bytes "BCC") ∧ word_view (bytes "BCC") = (TOKEN_INSTRUCTION, bytes "BCC", 0) ∧
      (bytes "BCC").length ≤ 4 ∧
      ∀ ops, asm_encode_instruction (bytes "BCC") ops = asm_encode_instruction (bytes "BCC") [] :=
  ⟨by decide, by decide, by decide, fun ops =>
    (show asm_encode_instruction (bytes "BCC") ops = u16 ((OP_BRANCH <<< 12) ||| BRANCH_CC) from rfl).trans
      (show u16 ((OP_BRANCH <<< 12) ||| BRANCH_CC) = asm_encode_instruction (bytes "BCC") [] from rfl)⟩

theorem jump_mnemonic_word (m : String) (hm : m ∈ jump_mnemonics) :
    is_word (bytes m) ∧ word_view (bytes m) = (TOKEN_INSTRUCTION, bytes m, 0) ∧
      (bytes m).length ≤ 4 ∧
      ∀ ops, asm_encode_instruction (bytes m) ops = asm_encode_instruction (bytes m) [] := by
  simp only [jump_mnemonics, List.mem_cons, List.mem_singleton, List.not_mem_nil,
    or_false] at hm
  rcases hm with rfl | rfl | rfl | rfl | rfl | rfl | rfl | rfl | rfl | rfl
  · exact jmp_word
  · exact call_word
  · exact beq_word
  · exact bne_word
  · exact bgt_word
  · exact blt_word
  · exact bge_word
  · exact ble_word
  · exact bcs_word
  · exact bcc_word

/-- Pass 2 of a line whose tokens are a jump mnemonic and a word that is not an
immediate. -/
theorem line_jump_symbol (st : Assembler) (line : List Nat) (stack : List Token) (n : Nat)
    (views : List (TokenType × List Nat × Int)) (m : String) (target : List Nat)
    (ty : TokenType) (nv : Int)
    (hlex : lexed line stack = some (n, views)) (hlen : views.length = n)
    (h0 : views.getD 0 (TOKEN_LABEL, [], 0) = (TOKEN_INSTRUCTION, bytes m, 0))
    (hm : m ∈ jump_mnemonics)
    (h1 : views.getD (0 + 1 + 0) (TOKEN_LABEL, [], 0) = (ty, target, nv))
    (hty : ty ≠ TOKEN_IMMEDIATE) (hn : 1 < n) :
    asm_assemble_line st line 2 stack =
      emit_words st [asm_encode_instruction (bytes m) [], int_to_u16
        (if find_label st.labels target = -1 then 0 else find_label st.labels target)] := by
  obtain ⟨ops, hops, hasm⟩ :=
    line_instruction st line stack n 0 views [] _ hlex hlen (Or.inl rfl) h0 (by omega)
  have f1 := view_facts _ _ _ _ ((hops 0 (by omega)).trans h1)
  have henc : asm_encode_instruction (bytes m) ops = asm_encode_instruction (bytes m) [] :=
    (jump_mnemonic_word m hm).2.2.2 ops
  have hself : strcasecmp_eq (bytes m) (bytes m) = true := by
    unfold strcasecmp_eq
    exact beq_self_eq_true _
  obtain ⟨j1, j2, j3, j4, j5, j6⟩ := jump_mnemonic_facts (bytes m) ⟨m, hm, hself⟩
  have hextra : ∀ s : Assembler, s.labels = st.labels → extra_word s (bytes m) ops =
      some (int_to_u16
        (if find_label st.labels target = -1 then 0 else find_label st.labels target)) := by
    intro s hs
    unfold extra_word
    rw [if_neg (by rw [j1, j2, j3]; decide), if_neg (by rw [j4]; simp),
      if_neg (by rw [j5]; simp), if_pos j6, if_neg (by rw [f1.1]; exact hty), label_or_zero_eq,
      f1.2.1, hs]
  rw [hasm 2, pass2_state, instruction_pass2_two st _ ops _ _ henc hextra]

/-- Pass 2 of a line whose tokens are `LDI`, a register, a comma and a word that
is neither an immediate nor a register. -/
theorem line_ldi_symbol (st : Assembler) (line : List Nat) (stack : List Token) (n : Nat)
    (views : List (TokenType × List Nat × Int)) (sr target : List Nat) (r : Int)
    (ty : TokenType) (nv : Int)
    (hlex : lexed line stack = some (n, views)) (hlen : views.length = n)
    (h0 : views.getD 0 (TOKEN_LABEL, [], 0) = (TOKEN_INSTRUCTION, bytes "LDI", 0))
    (h1 : views.getD (0 + 1 + 0) (TOKEN_LABEL, [], 0) = (TOKEN_REGISTER, sr, r))
    (h3 : views.getD (0 + 1 + 2) (TOKEN_LABEL, [], 0) = (ty, target, nv))
    (hty : ty ≠ TOKEN_IMMEDIATE ∧ ty ≠ TOKEN_REGISTER) (hn : 3 < n) :
    asm_assemble_line st line 2 stack =
      emit_words st [control_word OP_LOAD r 0 LOAD_IMM, int_to_u16
        (if find_label st.labels target = -1 then 0 else find_label st.labels target)] := by
  obtain ⟨ops, hops, hasm⟩ :=
    line_instruction st line stack n 0 views [] _ hlex hlen (Or.inl rfl) h0 (by omega)
  have f1 := view_facts _ _ _ _ ((hops 0 (by omega)).trans h1)
  have f3 := view_facts _ _ _ _ ((hops 2 (by omega)).trans h3)
  have henc : asm_encode_instruction (bytes "LDI") ops = control_word OP_LOAD r 0 LOAD_IMM := by
    have h : asm_encode_instruction (bytes "LDI") ops =
        control_word OP_LOAD (token_at ops 0).num_value 0 LOAD_IMM := rfl
    rw [h, f1.2.2 (Or.inl rfl)]
  have hextra : ∀ s : Assembler, s.labels = st.labels → extra_word s (bytes "LDI") ops =
      some (int_to_u16
        (if find_label st.labels target = -1 then 0 else find_label st.labels target)) := by
    intro s hs
    have h : extra_word s (bytes "LDI") ops =
        if (token_at ops 2).type ≠ TOKEN_IMMEDIATE ∧ (token_at ops 2).type ≠ TOKEN_REGISTER then
          some (int_to_u16 (label_or_zero s (token_at ops 2).value))
        else some (int_to_u16 (token_at ops 2).num_value) := rfl
    rw [h, if_pos (by rw [f3.1]; exact hty), label_or_zero_eq, f3.2.1, hs]
  rw [hasm 2, pass2_state, instruction_pass2_two st _ ops _ _ henc hextra]

theorem register_word (d : Nat) (hd : d < 8) :
    is_word [82, 48 + d] ∧ word_view [82, 48 + d] = (TOKEN_REGISTER, [82, 48 + d], (d : Int)) := by
  interval_cases d <;> decide

/-- Pass 2 of the lines `M x` and `LDI Rd, x` for an identifier `x`: the control
word and the address of `x`, or 0 when `x` is not in the table. -/
theorem symbol_line_words (st : Assembler) (stack : List Token) (line x : List Nat) (cw : Nat)
    (hstack : stack.length = MAX_TOKENS) (hx : is_identifier x)
    (hline : (∃ m ∈ jump_mnemonics, line = bytes m ++ 32 :: x ∧
        cw = asm_encode_instruction (bytes m) []) ∨
      (∃ d : Nat, d < 8 ∧ asm_parse_register x = -1 ∧ line = bytes "LDI R" ++ (48 + d) :: 44 :: 32 :: x ∧
        cw = control_word OP_LOAD (d : Int) 0 LOAD_IMM)) :
    asm_assemble_line st line 2 stack =
      emit_words st [cw, int_to_u16
        (if find_label st.labels x = -1 then 0 else find_label st.labels x)] := by
  have hxw := identifier_word x hx
  have hxv := identifier_view x hx
  rcases hline with ⟨m, hm, rfl, rfl⟩ | ⟨d, hd, hnr, rfl, rfl⟩
  · obtain ⟨hmw, hmv, hml, _⟩ := jump_mnemonic_word m hm
    have hlex := word_values_lexed (bytes m) [x] stack hmw (by simp)
      (fun v hv => by rw [List.mem_singleton] at hv; rw [hv]; exact hxw) (by simp)
      (by
        have := hxw.2.1
        simp only [values_text, List.length_append, List.length_cons]
        omega) hstack
    have hvt : values_text [x] = x := rfl
    rw [hvt, hmv] at hlex
    by_cases hr : asm_parse_register x ≥ 0
    · rw [show value_views [x] = [word_view x] from rfl, hxv, if_pos hr] at hlex
      exact line_jump_symbol st _ stack _ _ m x TOKEN_REGISTER _ hlex rfl rfl hm rfl
        (by decide) (by show 1 < 2 * 1; decide)
    · rw [show value_views [x] = [word_view x] from rfl, hxv, if_neg hr] at hlex
      exact line_jump_symbol st _ stack _ _ m x TOKEN_INSTRUCTION _ hlex rfl rfl hm rfl
        (by decide) (by show 1 < 2 * 1; decide)
  · obtain ⟨hrw, hrv⟩ := register_word d hd
    have hlw : is_word (bytes "LDI") ∧
        word_view (bytes "LDI") = (TOKEN_INSTRUCTION, bytes "LDI", 0) := by decide
    have hlex := word_values_lexed (bytes "LDI") [[82, 48 + d], x] stack hlw.1 (by simp)
      (fun v hv => by
        simp only [List.mem_cons, List.mem_singleton, List.not_mem_nil, or_false] at hv
        rcases hv with rfl | rfl
        · exact hrw
        · exact hxw) (by simp)
      (by
        have := hxw.2.1
        simp only [values_text, List.length_append, List.length_cons, List.length_nil, bytes]
        simp
        omega) hstack
    have hvt : bytes "LDI" ++ 32 :: values_text [[82, 48 + d], x] =
        bytes "LDI R" ++ (48 + d) :: 44 :: 32 :: x := by
      simp [values_text, bytes]
    rw [hvt, hlw.2, show value_views [[82, 48 + d], x] =
      [word_view [82, 48 + d], (TOKEN_COMMA, [44], 0), word_view x] from rfl, hrv, hxv,
      if_neg (by rw [hnr]; decide)] at hlex
    exact line_ldi_symbol st _ stack _ _ [82, 48 + d] x (d : Int) TOKEN_INSTRUCTION 0 hlex rfl
      rfl rfl rfl ⟨by decide, by decide⟩ (by show 3 < 2 * 2; decide)

set_option maxRecDepth 8000 in
theorem long_jump_none (stack : List Token) (st : Assembler) (pass : Nat) :
    asm_assemble_line st long_jump_line pass stack = none := by
  have hb : line_buffer long_jump_line = bytes "JMP" ++ (32 :: List.replicate 128 97) := by
    decide
  have hl : (bytes "JMP" ++ (32 :: List.replicate 128 97)).length + 1 = 131 + 1 + 1 := by decide
  have hnone : asm_tokenize long_jump_line stack MAX_TOKENS = none := by
    unfold asm_tokenize
    rw [hb, if_neg (by decide), hl]
    obtain ⟨t1, e1⟩ := word_advance (131 + 1) (bytes "JMP" ++ (32 :: List.replicate 128 97))
      (bytes "JMP") (32 :: List.replicate 128 97) stack 0 MAX_TOKENS (by decide)
      (by decide) (by decide) (by decide) (by decide) (by decide) (by decide)
    rw [e1]
    exact word_overflow 131 (32 :: List.replicate 128 97) (List.replicate 128 97) [] t1 (0 + 1)
      MAX_TOKENS (by decide) (by decide) (by decide) (by decide) (by decide) (by decide)
      (by decide)
  unfold asm_assemble_line
  rw [hnone]
  rfl

theorem immediate_not_register (v : List Nat) (h : is_immediate v) :
    asm_parse_register v = -1 := by
  unfold is_immediate isdigit at h
  simp only [Bool.and_eq_true, decide_eq_true_eq] at h
  have hsp : strcasecmp_eq v (bytes "SP") = false := by
    unfold strcasecmp_eq
    cases v with
    | nil => decide
    | cons c tl =>
      have hc : (c :: tl).getD 0 0 = c := rfl
      rw [hc] at h
      have hcs : cstr (c :: tl) = c :: cstr tl := by
        unfold cstr
        rw [List.takeWhile_cons, if_pos (by simp; omega)]
      have hd0 : tolower c ≠ 115 := by
        unfold tolower
        split_ifs <;> omega
      have : (cstr (bytes "SP")).map tolower = [115, 112] := by decide
      rw [this, hcs, List.map_cons]
      simp [hd0]
  unfold asm_parse_register
  rw [if_pos ⟨by omega, by omega⟩, hsp]
  rfl

/-- The word that the `.WORD` loop emits for the token of a word `v`. -/
theorem token_word (labels : List Label) (t : Token) (v : List Nat) (hw : is_word v)
    (h : token_view t = word_view v) :
    t.type ≠ TOKEN_COMMA ∧
      (if t.type = TOKEN_IMMEDIATE then int_to_u16 t.num_value
        else if find_label labels t.value = -1 then 0
        else int_to_u16 (find_label labels t.value)) = value_word labels v := by
  rw [word_view_word v hw] at h
  rw [find_label_cstr labels t.value]
  unfold value_word
  by_cases h46 : v.getD 0 0 = 46
  · rw [if_pos h46] at h
    obtain ⟨f1, f2, _⟩ := view_facts _ _ _ _ h
    have hni : ¬ is_immediate v := by
      unfold is_immediate isdigit
      rw [h46]
      decide
    rw [f1, f2, if_neg (by decide), if_neg hni]
    exact ⟨by decide, rfl⟩
  · rw [if_neg h46] at h
    by_cases hr : asm_parse_register v ≥ 0
    · rw [if_pos hr] at h
      obtain ⟨f1, f2, _⟩ := view_facts _ _ _ _ h
      have hni : ¬ is_immediate v := by
        intro hi
        rw [immediate_not_register v hi] at hr
        exact absurd hr (by decide)
      rw [f1, f2, if_neg (by decide), if_neg hni]
      exact ⟨by decide, rfl⟩
    · rw [if_neg hr] at h
      by_cases hi : is_immediate v
      · rw [if_pos hi] at h
        obtain ⟨f1, _, f3⟩ := view_facts _ _ _ _ h
        rw [f1, if_pos rfl, if_pos hi, f3 (Or.inr rfl)]
        exact ⟨by decide, rfl⟩
      · rw [if_neg hi] at h
        obtain ⟨f1, f2, _⟩ := view_facts _ _ _ _ h
        rw [f1, f2, if_neg (by decide), if_neg hi]
        exact ⟨by decide, rfl⟩

theorem comma_view (c : Token) (h : token_view c = (TOKEN_COMMA, [44], 0)) :
    c.type = TOKEN_COMMA := (view_facts _ _ _ _ h).1

/-- The tokens of `v1, v2, ..., vk`: the `.WORD` loops count `k` values and emit
the words that the spec assigns to them. -/
theorem word_values_views (labels : List Label) :
    ∀ (vs : List (List Nat)) (toks : List Token), vs ≠ [] → (∀ v ∈ vs, is_word v) →
      toks.map token_view = value_views vs →
      word_values labels toks = vs.map (value_word labels) ∧ word_count toks = vs.length := by
  intro vs
  induction vs with
  | nil => intro _ h; exact absurd rfl h
  | cons v rest ih =>
    intro toks _ hv h
    have hw := hv v (List.mem_cons_self _ _)
    cases rest with
    | nil =>
      match toks, h with
      | [], h => exact absurd h (by simp [value_views])
      | [t], h =>
        have ht : token_view t = word_view v := by
          simpa [value_views] using h
        obtain ⟨h1, h2⟩ := token_word labels t v hw ht
        constructor
        · unfold word_values
          rw [List.filter_cons, if_pos (by simpa using h1)]
          simp only [List.filter_nil, List.map_cons, List.map_nil]
          rw [h2]
        · unfold word_count
          rw [List.filter_cons, if_pos (by simpa using h1)]
          rfl
      | t :: t2 :: more, h => exact absurd h (by simp [value_views])
    | cons w rest2 =>
      match toks, h with
      | [], h => exact absurd h (by simp [value_views])
      | [t], h => exact absurd h (by simp [value_views])
      | t :: c :: more, h =>
        have hsplit : token_view t = word_view v ∧ token_view c = (TOKEN_COMMA, [44], 0) ∧
            more.map token_view = value_views (w :: rest2) := by
          simpa [value_views] using h
        obtain ⟨ht, hc, hmore⟩ := hsplit
        obtain ⟨h1, h2⟩ := token_word labels t v hw ht
        have hcc := comma_view c hc
        obtain ⟨i1, i2⟩ := ih more (by simp) (fun u hu => hv u (List.mem_cons_of_mem _ hu)) hmore
        constructor
        · have hu : word_values labels (t :: c :: more) =
              (if t.type = TOKEN_IMMEDIATE then int_to_u16 t.num_value
                else if find_label labels t.value = -1 then 0
                else int_to_u16 (find_label labels t.value)) :: word_values labels more := by
            unfold word_values
            rw [List.filter_cons, if_pos (by simpa using h1), List.filter_cons,
              if_neg (by simpa using hcc), List.map_cons]
          rw [hu, h2, i1]
          rfl
        · have hu : word_count (t :: c :: more) = word_count more + 1 := by
            unfold word_count
            rw [List.filter_cons, if_pos (by simpa using h1), List.filter_cons,
              if_neg (by simpa using hcc), List.length_cons]
          rw [hu, i2]
          rfl

theorem value_views_length (vs : List (List Nat)) (hne : vs ≠ []) :
    (value_views vs).length + 1 = 2 * vs.length := by
  induction vs with
  | nil => exact absurd rfl hne
  | cons v rest ih =>
    cases rest with
    | nil => rfl
    | cons w rest2 =>
      have h := ih (by simp)
      show (value_views (w :: rest2)).length + 1 + 1 + 1 = 2 * ((w :: rest2).length + 1)
      omega

set_option maxRecDepth 8000 in
theorem long_value_none (stack : List Token) (st : Assembler) (pass : Nat) :
    asm_assemble_line st (bytes ".WORD " ++ List.replicate 128 49) pass stack = none := by
  have hb : line_buffer (bytes ".WORD " ++ List.replicate 128 49) =
      bytes ".WORD" ++ (32 :: List.replicate 128 49) := by decide
  have hl : (bytes ".WORD" ++ (32 :: List.replicate 128 49)).length + 1 = 133 + 1 + 1 := by decide
  have hnone : asm_tokenize (bytes ".WORD " ++ List.replicate 128 49) stack MAX_TOKENS = none := by
    unfold asm_tokenize
    rw [hb, if_neg (by decide), hl]
    obtain ⟨t1, e1⟩ := word_advance (133 + 1) (bytes ".WORD" ++ (32 :: List.replicate 128 49))
      (bytes ".WORD") (32 :: List.replicate 128 49) stack 0 MAX_TOKENS (by decide)
      (by decide) (by decide) (by decide) (by decide) (by decide) (by decide)
    rw [e1]
    exact word_overflow 133 (32 :: List.replicate 128 49) (List.replicate 128 49) [] t1 (0 + 1)
      MAX_TOKENS (by decide) (by decide) (by decide) (by decide) (by decide) (by decide)
      (by decide)
  unfold asm_assemble_line
  rw [hnone]
  rfl

set_option maxRecDepth 100000 in
/-- A string of 127 characters fills the buffer of its token, and the loop of
`.STRING`, which steps over the terminator at `value[127]`, reads on in the field
`num_value`: after `LDI R1, 5` has left 1 there, pass 1 counts 65 words and pass 2
emits 66, the 65th being the 1; after a line that left 0 there pass 2 emits
65. -/
theorem full_string_reads_num_value :
    (token_at (stack_after (bytes "LDI R1, 5") zero_tokens) 1).num_value = 1 ∧
    (asm_assemble_line fresh_asm full_string_line 1
      (stack_after (bytes "LDI R1, 5") zero_tokens)).map (fun st => st.current_address) =
        some 65 ∧
    (asm_assemble_line fresh_asm full_string_line 2
      (stack_after (bytes "LDI R1, 5") zero_tokens)).map
        (fun st => (st.output_size, (emitted st 0).drop 62)) = some (66, [0x6161, 0x61, 1, 0]) ∧
    (asm_assemble_line fresh_asm full_string_line 2 zero_tokens).map
        (fun st => (st.output_size, (emitted st 0).drop 62)) = some (65, [0x6161, 0x61, 0]) := by
  decide

end SimpleCPU16
